import Mathlib

/-!
SimpleShell: the command-line parser (`src/parser.c`)

A shallow embedding of `new_command`, `add_arg` and `parse`.

* The input buffer is a list of characters followed by its terminating NUL;
  pointers into the buffer (`read_pos`, `write_pos`, `arg`, the entries of
  `argv`, `in_file`, `out_file`) are offsets from the start of the buffer.
* `parse` compacts the buffer in place, so the buffer is part of the state and
  every store of the C code is a `List.set` on it.
* A chain of `command_t` linked through `pipe` is a list of stages; the stage
  `parse` is filling (`working_cmd`) is kept apart from the finished ones
  (`done`), the chain being `done ++ [working_cmd]`.
* Loops take a fuel argument; running out of fuel is `none`. `parse_total`
  shows that `parse` never runs out, and `parse_of_runs` that its result does
  not depend on the fuel.
* `parse_line` runs `parse` on a fresh command and reads the chain back as
  strings; the theorems on whole lines are stated on it.

The orchestrator (`src/main.c`, with `find_builtin` of `src/builtins.c`)

* `execute_command`, `execute_command_child`, `execute_builtin` and
  `execute_external` work on a chain of stages given as strings (`stage`) and
  on an explicit state `world`: the descriptor table, the trace of the calls
  made so far with their results, and the global `pipeline_pgid`.
* What the operating system and the builtin handlers answer is given by
  `outcomes`; `sys` makes one call. A negative result is a failure.
* A forked process is a run of `child_branch` on its own copy of the state;
  it ends as a `proc_end`. The calling process only sees the process id, and
  later the status `waitpid` reports.
-/

namespace SimpleShell

/-- Outcomes of `parse` and `add_arg` (`enum parse_error_t` of `parser.h`). -/
inductive parse_error_t where
  | kParseOK
  | kUnexpectedEnd
  | kGivenNull
  | kRepeatedRedirect
  | kArgumentAfterRedirect
  | kNoArgs
  deriving DecidableEq, Repr

/-- Kind of the token being read (`enum parse_token_t` of `parser.h`). -/
inductive parse_token_t where
  | kArgument
  | kRedirInput
  | kRedirOutput
  deriving DecidableEq, Repr

open parse_error_t parse_token_t

/-- One slot of an `argv` array: memory `malloc` returned and nobody wrote
(`junk`), the NULL pointer, or a pointer into the input buffer. -/
inductive cell where
  | junk
  | null
  | ptr (off : Nat)
  deriving DecidableEq, Repr

/-- One pipeline stage (`struct command_t`); the `pipe` link is the order of
the list the stage is kept in. -/
structure command_t where
  argc : Nat
  argv : List cell
  argc_max : Nat
  out_file : Option Nat
  in_file : Option Nat
  deriving DecidableEq, Repr

/-- The terminating character of a C string. -/
def NUL : Char := Char.ofNat 0

/-- The double quote character. -/
def DQ : Char := Char.ofNat 34

/-- The single quote character. -/
def SQ : Char := Char.ofNat 39

/-- The backslash character. -/
def BSL : Char := Char.ofNat 92

/-- The result of `new_command`: everything zero, room for 256 arguments, of
which only the first slot is written. -/
def new_command : command_t :=
  { argc := 0
    argv := cell.null :: List.replicate 255 cell.junk
    argc_max := 256
    out_file := none
    in_file := none }

/-- The function `add_arg` of `parser.c`: store `arg` in `cmd` as an argument or
as a redirect filename. -/
def add_arg (cmd : command_t) (arg : Nat) (token_type : parse_token_t) :
    parse_error_t × command_t :=
  if token_type = kArgument then
    let argv1 := cmd.argv.set cmd.argc (cell.ptr arg)
    let argc1 := cmd.argc + 1
    let grown : List cell × Nat :=
      if argc1 = cmd.argc_max then
        (argv1.take argc1 ++ List.replicate (cmd.argc_max * 2 - argc1) cell.junk,
          cmd.argc_max * 2)
      else (argv1, cmd.argc_max)
    (kParseOK,
      { cmd with argc := argc1, argv := grown.1.set argc1 cell.null, argc_max := grown.2 })
  else if cmd.argc = 0 then
    (kNoArgs, cmd)
  else if token_type = kRedirInput then
    if cmd.in_file.isSome then (kRepeatedRedirect, cmd)
    else (kParseOK, { cmd with in_file := some arg })
  else
    if cmd.out_file.isSome then (kRepeatedRedirect, cmd)
    else (kParseOK, { cmd with out_file := some arg })

/-- Read the character at offset `i`; the buffer ends with its NUL, and nothing
but NUL is read past it. -/
def rd (buf : List Char) (i : Nat) : Char := buf.getD i NUL

/-- The local variables of `parse` together with the memory it works on. -/
structure pstate where
  buf : List Char
  read_pos : Nat
  write_pos : Nat
  arg : Option Nat
  token_type : parse_token_t
  done : List command_t
  working_cmd : command_t
  deriving DecidableEq, Repr

/-- The loop `while (*p == ' ') p++`, returning the final `p`. -/
def eat_spaces : Nat → List Char → Nat → Option Nat
  | 0, _, _ => none
  | fuel + 1, buf, p =>
    if rd buf p = ' ' then eat_spaces fuel buf (p + 1) else some p

/-- What a section loop hands back: an early `return` of `parse` with an error,
or the buffer and the two cursors at the end of the section. -/
inductive section_result where
  | fail (e : parse_error_t) (buf : List Char) (read_pos write_pos : Nat)
  | ok (buf : List Char) (read_pos write_pos : Nat)
  deriving DecidableEq, Repr

/-- The quoted section of `parse` (lines 100-126), entered after the opening
quote: copy up to the matching quote, handling backslash escapes. -/
def quoted_section : Nat → Char → List Char → Nat → Nat → Option section_result
  | 0, _, _, _, _ => none
  | fuel + 1, quote, buf, read_pos, write_pos =>
    if rd buf read_pos = NUL then
      some (section_result.fail kUnexpectedEnd buf read_pos write_pos)
    else if rd buf read_pos = BSL then
      let read_pos := read_pos + 1
      if rd buf read_pos = NUL then
        some (section_result.fail kUnexpectedEnd buf read_pos write_pos)
      else if rd buf read_pos = BSL ∨ rd buf read_pos = quote then
        quoted_section fuel quote (buf.set write_pos (rd buf read_pos))
          (read_pos + 1) (write_pos + 1)
      else
        let buf := buf.set write_pos BSL
        quoted_section fuel quote (buf.set (write_pos + 1) (rd buf read_pos))
          (read_pos + 1) (write_pos + 1 + 1)
    else if rd buf read_pos = quote then
      some (section_result.ok buf (read_pos + 1) write_pos)
    else
      quoted_section fuel quote (buf.set write_pos (rd buf read_pos))
        (read_pos + 1) (write_pos + 1)

/-- The characters that end a normal (unquoted) section, NUL apart. -/
def stops_normal (c : Char) : Prop :=
  c = ' ' ∨ c = DQ ∨ c = SQ ∨ c = '<' ∨ c = '>' ∨ c = '|'

instance (c : Char) : Decidable (stops_normal c) := by
  unfold stops_normal; infer_instance

/-- The normal section of `parse` (lines 128-146): copy up to a space, quote,
redirect or pipe character, handling backslash escapes. -/
def normal_section : Nat → List Char → Nat → Nat → Option section_result
  | 0, _, _, _ => none
  | fuel + 1, buf, read_pos, write_pos =>
    if rd buf read_pos ≠ NUL ∧ ¬ stops_normal (rd buf read_pos) then
      if rd buf read_pos = BSL then
        let read_pos := read_pos + 1
        if rd buf read_pos = NUL then
          some (section_result.fail kUnexpectedEnd buf read_pos write_pos)
        else if rd buf read_pos = BSL ∨ rd buf read_pos = ' ' ∨ rd buf read_pos = DQ
            ∨ rd buf read_pos = SQ ∨ rd buf read_pos = '|' then
          normal_section fuel (buf.set write_pos (rd buf read_pos))
            (read_pos + 1) (write_pos + 1)
        else
          let buf := buf.set write_pos BSL
          normal_section fuel (buf.set (write_pos + 1) (rd buf read_pos))
            (read_pos + 1) (write_pos + 1 + 1)
      else
        normal_section fuel (buf.set write_pos (rd buf read_pos))
          (read_pos + 1) (write_pos + 1)
    else some (section_result.ok buf read_pos write_pos)

/-- The characters at which a pending argument is handed to `add_arg`. -/
def is_delim (c : Char) : Prop := c = ' ' ∨ c = '<' ∨ c = '>' ∨ c = '|'

instance (c : Char) : Decidable (is_delim c) := by
  unfold is_delim; infer_instance

/-- How one pass through the body of the main loop of `parse` ends. -/
inductive iter_result where
  | ret (e : parse_error_t) (st : pstate)
  | next (st : pstate)
  deriving DecidableEq, Repr

/-- Lines 52-60 of `parse`: at a delimiter with a non-empty pending argument,
store it. -/
def flush_arg (st : pstate) : parse_error_t × pstate :=
  match st.arg with
  | some a =>
    if rd st.buf a ≠ NUL ∧ is_delim (rd st.buf st.read_pos) then
      let r := add_arg st.working_cmd a st.token_type
      if r.1 ≠ kParseOK then (r.1, { st with working_cmd := r.2 })
      else (kParseOK, { st with working_cmd := r.2, arg := none })
    else (kParseOK, st)
  | none => (kParseOK, st)

/-- Lines 88-94 of `parse`: start a new section when no argument is pending,
first closing the previous token with a NUL unless nothing was written yet. -/
def start_section (st : pstate) : pstate :=
  match st.arg with
  | some _ => st
  | none =>
    if st.write_pos ≠ 0 then
      { st with buf := st.buf.set st.write_pos NUL, write_pos := st.write_pos + 1,
                arg := some (st.write_pos + 1) }
    else { st with arg := some st.write_pos }

/-- Lines 96-147 of `parse`: the quoted or the normal section at `read_pos`. -/
def copy_section (st : pstate) : Option iter_result :=
  if rd st.buf st.read_pos = DQ ∨ rd st.buf st.read_pos = SQ then
    match quoted_section (st.buf.length + 1) (rd st.buf st.read_pos) st.buf
        (st.read_pos + 1) st.write_pos with
    | none => none
    | some (section_result.fail e b r w) =>
      some (iter_result.ret e { st with buf := b, read_pos := r, write_pos := w })
    | some (section_result.ok b r w) =>
      some (iter_result.next { st with buf := b, read_pos := r, write_pos := w })
  else if rd st.buf st.read_pos ≠ NUL then
    match normal_section (st.buf.length + 1) st.buf st.read_pos st.write_pos with
    | none => none
    | some (section_result.fail e b r w) =>
      some (iter_result.ret e { st with buf := b, read_pos := r, write_pos := w })
    | some (section_result.ok b r w) =>
      some (iter_result.next { st with buf := b, read_pos := r, write_pos := w })
  else some (iter_result.next st)

/-- Lines 65-94 of `parse`, entered after the spaces are eaten: a redirect
marker, a pipe, or the start of a section; then lines 96-147. -/
def after_spaces (st : pstate) : Option iter_result :=
  if rd st.buf st.read_pos = '>' ∨ rd st.buf st.read_pos = '<' then
    let tt := if rd st.buf st.read_pos = '>' then kRedirOutput else kRedirInput
    match eat_spaces (st.buf.length + 1) st.buf (st.read_pos + 1) with
    | none => none
    | some p =>
      let st1 := { st with token_type := tt, read_pos := p }
      if rd st1.buf st1.read_pos = NUL then some (iter_result.ret kUnexpectedEnd st1)
      else copy_section (start_section st1)
  else if rd st.buf st.read_pos = '|' then
    match eat_spaces (st.buf.length + 1) st.buf (st.read_pos + 1) with
    | none => none
    | some p =>
      let st1 := { st with read_pos := p }
      if rd st1.buf st1.read_pos = NUL then some (iter_result.ret kUnexpectedEnd st1)
      else
        some (iter_result.next
          { st1 with done := st1.done ++ [st1.working_cmd], working_cmd := new_command,
                     token_type := kArgument })
  else if rd st.buf st.read_pos ≠ NUL ∧ st.arg = none ∧ st.token_type ≠ kArgument then
    some (iter_result.ret kArgumentAfterRedirect st)
  else copy_section (start_section st)

/-- One pass through the body of the main loop of `parse` (lines 52-147). -/
def parse_iter (st : pstate) : Option iter_result :=
  let r := flush_arg st
  if r.1 ≠ kParseOK then some (iter_result.ret r.1 r.2)
  else
    match eat_spaces (r.2.buf.length + 1) r.2.buf r.2.read_pos with
    | none => none
    | some p => after_spaces { r.2 with read_pos := p }

/-- Lines 150-160 of `parse`: terminate the last token and store it. -/
def parse_finish (st : pstate) : parse_error_t × pstate :=
  let st1 := { st with buf := st.buf.set st.write_pos NUL }
  match st1.arg with
  | some a =>
    if rd st1.buf a ≠ NUL then
      let r := add_arg st1.working_cmd a st1.token_type
      (r.1, { st1 with working_cmd := r.2 })
    else (kParseOK, st1)
  | none => (kParseOK, st1)

/-- The main loop of `parse` (lines 50-160). -/
def parse_loop : Nat → pstate → Option (parse_error_t × pstate)
  | 0, _ => none
  | fuel + 1, st =>
    if rd st.buf st.read_pos = NUL then some (parse_finish st)
    else
      match parse_iter st with
      | none => none
      | some (iter_result.ret e st1) => some (e, st1)
      | some (iter_result.next st1) => parse_loop fuel st1

/-- The state in which `parse` enters its main loop on the string `s`. -/
def parse_init (cmd : command_t) (s : List Char) : pstate :=
  { buf := s ++ [NUL]
    read_pos := 0
    write_pos := 0
    arg := none
    token_type := kArgument
    done := []
    working_cmd := cmd }

/-- The function `parse` of `parser.c` on the command `cmd` and the string
`str` (`none` is the NULL pointer). The result is the returned code with the
final buffer and chain. -/
def parse (cmd : command_t) (str : Option (List Char)) : Option (parse_error_t × pstate) :=
  match str with
  | none =>
    some (kGivenNull, { parse_init cmd [] with buf := [] })
  | some s => parse_loop (s.length + 2) (parse_init cmd s)

/-- The C string stored at offset `off` of the buffer. -/
def cstr (buf : List Char) (off : Nat) : List Char :=
  (buf.drop off).takeWhile (fun c => c ≠ NUL)

/-- The string an `argv` slot points to, if it points to one. -/
def cell_str (buf : List Char) : cell → Option (List Char)
  | cell.ptr off => some (cstr buf off)
  | _ => none

/-- What a stage holds, as strings: its arguments and its redirect filenames. -/
structure stage where
  args : List (Option (List Char))
  in_file : Option (List Char)
  out_file : Option (List Char)
  deriving DecidableEq, Repr

/-- Read a stage's strings out of the buffer: `argv[i]` for every `i < argc`,
and the two redirect filenames. -/
def stage_of (buf : List Char) (c : command_t) : stage :=
  { args := (List.range c.argc).map (fun i => cell_str buf (c.argv.getD i cell.junk))
    in_file := c.in_file.map (cstr buf)
    out_file := c.out_file.map (cstr buf) }

/-- The chain of stages a state holds, first stage first. -/
def chain_of (st : pstate) : List stage :=
  (st.done ++ [st.working_cmd]).map (stage_of st.buf)

/-- Run `parse` on a fresh command and read the result as strings. -/
def parse_line (s : List Char) : Option (parse_error_t × List stage) :=
  (parse new_command (some s)).map (fun r => (r.1, chain_of r.2))

/-- The shape of a section result: a result keeps the buffer's length, and an
`ok` result has read at least `k` characters. -/
def section_result.good (len rp : Nat) : section_result → Prop
  | section_result.fail _ b _ _ => b.length = len
  | section_result.ok b r _ => b.length = len ∧ rp ≤ r

/-- The main loop started in `st` returns `r`, given enough fuel. -/
def runs (st : pstate) (r : parse_error_t × pstate) : Prop :=
  ∃ f, parse_loop f st = some r

/-- A plain character: none of NUL, space, the two quotes, the redirect
markers, the pipe and the backslash. -/
def plain (c : Char) : Prop :=
  c ≠ NUL ∧ c ≠ ' ' ∧ c ≠ DQ ∧ c ≠ SQ ∧ c ≠ '<' ∧ c ≠ '>' ∧ c ≠ '|' ∧ c ≠ BSL

instance (c : Char) : Decidable (plain c) := by
  unfold plain; infer_instance

/-- One unit of the text of a section: a character standing for itself, or a
backslash followed by a character. -/
inductive item where
  | ch (c : Char)
  | esc (c : Char)
  deriving DecidableEq, Repr

/-- The input characters of an item. -/
def item.src : item → List Char
  | item.ch c => [c]
  | item.esc c => [BSL, c]

/-- The input characters of a list of items. -/
def items_src : List item → List Char
  | [] => []
  | i :: its => i.src ++ items_src its

/-- Items allowed in an unquoted section. -/
def item.nok : item → Prop
  | item.ch c => plain c
  | item.esc c => c ≠ NUL

/-- What an item of an unquoted section contributes to the token. -/
def item.nval : item → List Char
  | item.ch c => [c]
  | item.esc c =>
    if c = BSL ∨ c = ' ' ∨ c = DQ ∨ c = SQ ∨ c = '|' then [c] else [BSL, c]

/-- What the items of an unquoted section contribute to the token. -/
def items_nval : List item → List Char
  | [] => []
  | i :: its => i.nval ++ items_nval its

/-- Items allowed in a section quoted by `q`. -/
def item.qok (q : Char) : item → Prop
  | item.ch c => c ≠ NUL ∧ c ≠ q ∧ c ≠ BSL
  | item.esc c => c ≠ NUL

/-- What an item of a section quoted by `q` contributes to the token. -/
def item.qval (q : Char) : item → List Char
  | item.ch c => [c]
  | item.esc c => if c = BSL ∨ c = q then [c] else [BSL, c]

/-- What the items of a section quoted by `q` contribute to the token. -/
def items_qval (q : Char) : List item → List Char
  | [] => []
  | i :: its => i.qval q ++ items_qval q its

/-- The string `w` is stored at offset `p` of `T`, terminator included. -/
def stored (T : List Char) (p : Nat) (w : List Char) : Prop :=
  cstr T p = w ∧ p + w.length < T.length

/-- The update of a stage's strings that `add_arg` performs. -/
def stage_add (v : stage) (w : List Char) (tt : parse_token_t) : parse_error_t × stage :=
  if tt = kArgument then (kParseOK, { v with args := v.args ++ [some w] })
  else if v.args = [] then (kNoArgs, v)
  else if tt = kRedirInput then
    if v.in_file.isSome then (kRepeatedRedirect, v)
    else (kParseOK, { v with in_file := some w })
  else
    if v.out_file.isSome then (kRepeatedRedirect, v)
    else (kParseOK, { v with out_file := some w })

/-- An `argv` slot points at a stored string. -/
def cell_ok (T : List Char) (x : cell) (w : Option (List Char)) : Prop :=
  ∃ p s, x = cell.ptr p ∧ w = some s ∧ stored T p s

/-- A redirect field is unset, or points at a stored string. -/
def file_ok (T : List Char) : Option Nat → Option (List Char) → Prop
  | none, none => True
  | some p, some w => stored T p w
  | _, _ => False

/-- The command `c` holds the strings `v`, all of them stored inside `T`, and
its `argv` array has room for the terminating NULL. -/
structure cmd_ok (T : List Char) (c : command_t) (v : stage) : Prop where
  argc_lt : c.argc < c.argc_max
  len : c.argv.length = c.argc_max
  args : List.Forall₂ (cell_ok T) (c.argv.take c.argc) v.args
  inf : file_ok T c.in_file v.in_file
  outf : file_ok T c.out_file v.out_file

/-- The loop started in `st` comes back to its head in `st1` after some passes. -/
inductive reach : pstate → pstate → Prop where
  | refl (st : pstate) : reach st st
  | step {st st1 st2 : pstate} : rd st.buf st.read_pos ≠ NUL →
      parse_iter st = some (iter_result.next st1) → reach st1 st2 → reach st st2

/-- The loop is inside a token: `T` is the closed part of the written text,
`cur` the text of the pending token, which starts at `arg`, and `R` the input
still to read. The stages hold the strings `vs` and `v`. -/
structure at_token (st : pstate) (T cur R : List Char) (tt : parse_token_t)
    (vs : List stage) (v : stage) : Prop where
  le : st.write_pos ≤ st.read_pos
  written : st.buf.take st.write_pos = T ++ cur
  rest : st.buf.drop st.read_pos = R ++ [NUL]
  arg : st.arg = some T.length
  tt : st.token_type = tt
  cur_nul : NUL ∉ cur
  done : List.Forall₂ (cmd_ok T) st.done vs
  work : cmd_ok T st.working_cmd v

/-- The loop is between tokens, `k` characters after the last one: no token is
pending, and `T` is the written text with the terminator that the next section
start will add. -/
structure at_gap (k : Nat) (st : pstate) (T R : List Char) (tt : parse_token_t)
    (vs : List stage) (v : stage) : Prop where
  le : st.write_pos + k ≤ st.read_pos
  shape : (st.write_pos = 0 ∧ T = []) ∨
    (st.write_pos ≠ 0 ∧ T = st.buf.take st.write_pos ++ [NUL])
  rest : st.buf.drop st.read_pos = R ++ [NUL]
  arg : st.arg = none
  tt : st.token_type = tt
  done : List.Forall₂ (cmd_ok T) st.done vs
  work : cmd_ok T st.working_cmd v

/-- The spaces `n` times. -/
def spaces (n : Nat) : List Char := List.replicate n ' '

/-- The token type a redirect marker selects. -/
def marker_type (m : Char) : parse_token_t := if m = '>' then kRedirOutput else kRedirInput

/-- A section of a token as written: an unquoted run of items, or the items
between two quotes `q`. -/
inductive sect where
  | run (its : List item)
  | quo (q : Char) (its : List item)
  deriving DecidableEq, Repr

/-- The input characters of a section. -/
def sect.src : sect → List Char
  | sect.run its => items_src its
  | sect.quo q its => q :: (items_src its ++ [q])

/-- What a section contributes to its token. -/
def sect.val : sect → List Char
  | sect.run its => items_nval its
  | sect.quo q its => items_qval q its

/-- A well-formed section: a non-empty run, or a quoted section with one of the
two quotes. -/
def sect.ok : sect → Prop
  | sect.run its => its ≠ [] ∧ ∀ i ∈ its, item.nok i
  | sect.quo q its => (q = DQ ∨ q = SQ) ∧ ∀ i ∈ its, item.qok q i

/-- Whether a section is an unquoted run. -/
def sect.is_run : sect → Bool
  | sect.run _ => true
  | sect.quo _ _ => false

/-- The input characters of a token written as a list of sections. -/
def sects_src : List sect → List Char
  | [] => []
  | s :: ss => s.src ++ sects_src ss

/-- The string a token written as a list of sections stands for. -/
def sects_val : List sect → List Char
  | [] => []
  | s :: ss => s.val ++ sects_val ss

/-- A well-formed token: well-formed sections, no two runs in a row. -/
def sects_ok : List sect → Prop
  | [] => True
  | s :: ss => s.ok ∧ (s.is_run = true → ∀ t ∈ ss.head?, t.is_run = false) ∧ sects_ok ss

/-- The input `R` ends the token before it: it is over, or starts with a
delimiter. -/
def ends_token (R : List Char) : Prop :=
  rd (R ++ [NUL]) 0 = NUL ∨ is_delim (rd (R ++ [NUL]) 0)

/-- What separates two tokens of a line: spaces alone, a redirect marker or a
pipe, with spaces around them. -/
inductive gap where
  | arg (n : Nat)
  | redir (n : Nat) (m : Char) (k : Nat)
  | pipe (n k : Nat)
  deriving DecidableEq, Repr

/-- The input characters of a gap; spaces alone are at least one. -/
def gap.src : gap → List Char
  | gap.arg n => spaces (n + 1)
  | gap.redir n m k => spaces n ++ m :: spaces k
  | gap.pipe n k => spaces n ++ '|' :: spaces k

/-- The marker of a redirect gap is one of the two redirect markers. -/
def gap.ok : gap → Prop
  | gap.redir _ m _ => m = '>' ∨ m = '<'
  | _ => True

/-- The input characters of a sequence of gaps, each followed by a token. -/
def parts_src : List (gap × List sect) → List Char
  | [] => []
  | p :: ps => p.1.src ++ (sects_src p.2 ++ parts_src ps)

/-- A gap and a token, both well-formed, the token standing for a non-empty
string. -/
def part_ok (p : gap × List sect) : Prop :=
  p.1.ok ∧ sects_ok p.2 ∧ sects_val p.2 ≠ []

/-- The empty stage. -/
def stage.empty : stage := ⟨[], none, none⟩

/-- What `parse` makes of a line, token by token: `vs` and `v` are the stages
so far, `cur` is the pending token, of type `tt`, and the list holds the gaps
and tokens still to come. -/
def line_result (vs : List stage) (v : stage) (tt : parse_token_t) (cur : List Char) :
    List (gap × List Char) → parse_error_t × List stage
  | [] => ((stage_add v cur tt).1, vs ++ [(stage_add v cur tt).2])
  | (g, w) :: rest =>
    if (stage_add v cur tt).1 ≠ kParseOK then ((stage_add v cur tt).1, vs ++ [v])
    else
      match g with
      | gap.arg _ =>
        if tt ≠ kArgument then (kArgumentAfterRedirect, vs ++ [(stage_add v cur tt).2])
        else line_result vs (stage_add v cur tt).2 kArgument w rest
      | gap.redir _ m _ => line_result vs (stage_add v cur tt).2 (marker_type m) w rest
      | gap.pipe _ _ =>
        line_result (vs ++ [(stage_add v cur tt).2]) stage.empty kArgument w rest

/-- The gaps of a line with the strings their tokens stand for. -/
def parts_val (ps : List (gap × List sect)) : List (gap × List Char) :=
  ps.map (fun p => (p.1, sects_val p.2))

/-- What `parse` makes of the gaps and tokens that follow a stored token: `vs`
and `v` are the stages so far and `tt` is the type of the token stored last.
The result is an early return with its code and chain, or the stages and the
type of the last token when the list is through. -/
def run_parts (vs : List stage) (v : stage) (tt : parse_token_t) :
    List (gap × List Char) → Except (parse_error_t × List stage) (List stage × stage × parse_token_t)
  | [] => Except.ok (vs, v, tt)
  | (gap.arg _, w) :: rest =>
    if tt ≠ kArgument then Except.error (kArgumentAfterRedirect, vs ++ [v])
    else run_parts vs (stage_add v w kArgument).2 kArgument rest
  | (gap.redir _ m _, w) :: rest =>
    if (stage_add v w (marker_type m)).1 ≠ kParseOK then
      Except.error ((stage_add v w (marker_type m)).1, vs ++ [v])
    else run_parts vs (stage_add v w (marker_type m)).2 (marker_type m) rest
  | (gap.pipe _ _, w) :: rest =>
    run_parts (vs ++ [v]) (stage_add stage.empty w kArgument).2 kArgument rest

/-- The code and chain `parse` returns after the gaps and tokens of
`run_parts`, when the line ends there. -/
def parts_result (vs : List stage) (v : stage) (tt : parse_token_t)
    (ps : List (gap × List Char)) : parse_error_t × List stage :=
  match run_parts vs v tt ps with
  | Except.error r => r
  | Except.ok (vs1, v1, _) => (kParseOK, vs1 ++ [v1])

/-- A word: a non-empty string of plain characters. -/
def word (w : List Char) : Prop := w ≠ [] ∧ ∀ c ∈ w, plain c

instance (w : List Char) : Decidable (word w) := by
  unfold word; infer_instance

/-- The words of a line after the first, each with the number of spaces before
it, less one: words are at least one space apart. -/
def args_src : List (Nat × List Char) → List Char
  | [] => []
  | p :: ps => spaces (p.1 + 1) ++ (p.2 ++ args_src ps)

/-- A word as a token: one unquoted run without escapes. -/
def word_sects (w : List Char) : List sect := [sect.run (w.map item.ch)]

/-- The words after the first as gaps and tokens. -/
def arg_parts (ws : List (Nat × List Char)) : List (gap × List sect) :=
  ws.map (fun p => (gap.arg p.1, word_sects p.2))

/-- A redirect as written: `pre` spaces, the marker, `post` spaces and the
filename. -/
structure redirect where
  pre : Nat
  marker : Char
  post : Nat
  file : List Char
  deriving DecidableEq, Repr

/-- The input characters of a list of redirects. -/
def redirs_src : List redirect → List Char
  | [] => []
  | r :: rs => spaces r.pre ++ r.marker :: (spaces r.post ++ (r.file ++ redirs_src rs))

/-- A well-formed redirect: one of the two markers and a word. -/
def redirect.ok (r : redirect) : Prop := (r.marker = '>' ∨ r.marker = '<') ∧ word r.file

instance (r : redirect) : Decidable r.ok := by
  unfold redirect.ok; infer_instance

/-- The filename of the first redirect with marker `m`, if there is one. -/
def file_of (m : Char) : List redirect → Option (List Char)
  | [] => none
  | r :: rs => if r.marker = m then some r.file else file_of m rs

/-- The text of one stage of a pipeline: the command word, the other words and
the redirects. -/
structure stage_text where
  cmd : List Char
  args : List (Nat × List Char)
  redirs : List redirect
  deriving DecidableEq, Repr

/-- The input characters of a stage. -/
def stage_text.src (s : stage_text) : List Char :=
  s.cmd ++ (args_src s.args ++ redirs_src s.redirs)

/-- A well-formed stage: words everywhere, and no redirect kind twice. -/
def stage_text.ok (s : stage_text) : Prop :=
  word s.cmd ∧ (∀ p ∈ s.args, word p.2) ∧ (∀ r ∈ s.redirs, r.ok) ∧
    (s.redirs.map redirect.marker).Nodup

instance (s : stage_text) : Decidable s.ok := by
  unfold stage_text.ok; infer_instance

/-- The strings a well-formed stage stands for. -/
def stage_text.val (s : stage_text) : stage :=
  ⟨(s.cmd :: s.args.map Prod.snd).map some, file_of '<' s.redirs, file_of '>' s.redirs⟩

/-- The input characters of the stages after the first, each after `n` spaces,
a pipe and `k` spaces. -/
def stages_src : List (Nat × Nat × stage_text) → List Char
  | [] => []
  | p :: ps => spaces p.1 ++ '|' :: (spaces p.2.1 ++ (p.2.2.src ++ stages_src ps))

/-- The redirects of a stage as gaps and tokens. -/
def redir_parts (rs : List redirect) : List (gap × List sect) :=
  rs.map (fun r => (gap.redir r.pre r.marker r.post, word_sects r.file))

/-- What follows the command word of a stage, as gaps and tokens. -/
def stage_parts (s : stage_text) : List (gap × List sect) :=
  arg_parts s.args ++ redir_parts s.redirs

/-- The stages after the first as gaps and tokens. -/
def more_parts : List (Nat × Nat × stage_text) → List (gap × List sect)
  | [] => []
  | p :: ps => (gap.pipe p.1 p.2.1, word_sects p.2.2.cmd) :: (stage_parts p.2.2 ++ more_parts ps)

/-- A segment of a token as written: a run of plain characters, or a quoted
section with its quote character and its body. -/
inductive segment where
  | bare (w : List Char)
  | quoted (q : Char) (body : List Char)
  deriving DecidableEq, Repr

/-- The input characters of a segment. -/
def segment.src : segment → List Char
  | segment.bare w => w
  | segment.quoted q body => q :: (body ++ [q])

/-- The characters a segment stands for: the run, or the body without its
quotes. -/
def segment.val : segment → List Char
  | segment.bare w => w
  | segment.quoted _ body => body

/-- A well-formed segment: plain characters, or a body without NUL, without
backslash and without its own quote. -/
def segment.ok : segment → Prop
  | segment.bare w => ∀ c ∈ w, plain c
  | segment.quoted q body => (q = DQ ∨ q = SQ) ∧ ∀ c ∈ body, c ≠ NUL ∧ c ≠ q ∧ c ≠ BSL

instance (s : segment) : Decidable s.ok := by
  cases s <;> unfold segment.ok <;> infer_instance

/-- The input characters of adjacent segments. -/
def segs_src : List segment → List Char
  | [] => []
  | s :: ss => s.src ++ segs_src ss

/-- The string adjacent segments stand for. -/
def segs_val : List segment → List Char
  | [] => []
  | s :: ss => s.val ++ segs_val ss

/-- The contribution of backslash, `c` to an unquoted section. -/
def escape_val (c : Char) : List Char :=
  if c = BSL ∨ c = ' ' ∨ c = DQ ∨ c = SQ ∨ c = '|' then [c] else [BSL, c]

/-- The contribution of backslash, `c` to a section quoted by `q`. -/
def quoted_escape_val (q c : Char) : List Char :=
  if c = BSL ∨ c = q then [c] else [BSL, c]

/-- The state a pass through the loop body ends in. -/
def iter_result.st : iter_result → pstate
  | iter_result.ret _ st => st
  | iter_result.next st => st

/-- Every stage of the chain a state holds has the property `P`. -/
def chain_all (P : command_t → Prop) (st : pstate) : Prop :=
  ∀ c ∈ st.done ++ [st.working_cmd], P c

/-- Run `add_arg` on each of the given arguments in turn, whatever it returns. -/
def add_args (c : command_t) (l : List (Nat × parse_token_t)) : command_t :=
  l.foldl (fun c x => (add_arg c x.1 x.2).2) c

/-- The input of the test of more than 256 arguments in `parser_tests`: `n`
times the letter `a` followed by a space. -/
def tokens : Nat → List Char
  | 0 => []
  | n + 1 => 'a' :: ' ' :: tokens n

/-- The capacity of `argv` is 256 doubled `k` times, more than `argc`, and, if
it was doubled at all, at most twice `argc`. -/
def cap_inv (c : command_t) : Prop :=
  ∃ k, c.argc_max = 256 * 2 ^ k ∧ c.argc < c.argc_max ∧ (k = 0 ∨ c.argc_max ≤ 2 * c.argc)

/-- The command holds the arguments `l` in this order, followed by NULL. -/
def args_inv (c : command_t) (l : List Nat) : Prop :=
  c.argc = l.length ∧ c.argv.length = c.argc_max ∧ c.argc < c.argc_max ∧
    c.argv.take c.argc = l.map cell.ptr ∧ c.argv.getD c.argc cell.junk = cell.null

/-- Exchange the two quote characters. -/
def swapc (c : Char) : Char := if c = DQ then SQ else if c = SQ then DQ else c

/-- Exchange the two quote characters all over a string. -/
def swap_quotes (s : List Char) : List Char := s.map swapc

/-- A section result with the quotes of its buffer exchanged. -/
def section_result.swap : section_result → section_result
  | section_result.fail e b r w => section_result.fail e (swap_quotes b) r w
  | section_result.ok b r w => section_result.ok (swap_quotes b) r w

/-- A state with the quotes of its buffer exchanged. -/
def pstate.swap (st : pstate) : pstate := { st with buf := swap_quotes st.buf }

/-- The end of a pass with the quotes of the buffer exchanged. -/
def iter_result.swap : iter_result → iter_result
  | iter_result.ret e st => iter_result.ret e st.swap
  | iter_result.next st => iter_result.next st.swap

/-- The strings of a stage with the quotes exchanged. -/
def stage.swap (v : stage) : stage :=
  { args := v.args.map (Option.map swap_quotes)
    in_file := v.in_file.map swap_quotes
    out_file := v.out_file.map swap_quotes }

/-- Results of the orchestrator and of the builtins (`status_t` of
`utility.h`). -/
inductive status_t where
  | BUILTIN_MISSING
  | BUILTIN_OK
  | BUILTIN_EXIT
  | BUILTIN_ERROR
  | EXTERNAL_OK
  | EXTERNAL_ERROR
  | PIPE_OK
  | PIPE_ERROR
  deriving DecidableEq, Repr

open status_t

/-- The operating-system calls of `main.c` that act on descriptors, processes
and process groups, with their arguments. Signal dispositions and masks
(`signal`, `sigprocmask`) and output (`perror`, `printf`) are left out. -/
inductive os_call where
  | fork
  | setpgid (pid pgid : Int)
  | pipe
  | close (fd : Int)
  | dup (fd : Int)
  | dup2 (oldfd newfd : Int)
  | open_read (path : List Char)
  | open_write (path : List Char)
  | killpg (pgrp : Int)
  | tcsetpgrp (pgrp : Int)
  | getpgid
  | waitpid
  | execvp (file : Option (List Char))
  deriving DecidableEq, Repr

/-- What the world outside the process decides: whether the call made after
`n` earlier calls is refused, the process id and the wait status it reports,
and what the handler of each builtin returns. -/
structure outcomes where
  fails : Nat → Bool
  pid : Nat → Nat
  status : Nat → Nat
  handler : Nat → stage → status_t

/-- The state of a process as the orchestrator sees it: the descriptor table
(descriptor, open file), the number of files opened so far, the calls made so
far with their results, and the global `pipeline_pgid`. -/
structure world where
  fds : List (Nat × Nat)
  files : Nat
  trace : List (os_call × Int)
  pipeline_pgid : Int
  deriving DecidableEq, Repr

/-- The descriptor a successful `open`, `dup` or `pipe` returns: the lowest one
that is not open. -/
def lowest_free (fds : List (Nat × Nat)) : Nat :=
  ((List.range (fds.length + 1)).find? (fun n => (fds.lookup n).isNone)).getD fds.length

/-- The open file a descriptor refers to, if it is open. -/
def fd_file (fds : List (Nat × Nat)) (fd : Int) : Option Nat :=
  if fd < 0 then none else fds.lookup fd.toNat

/-- What a call that is not refused returns, and the descriptor table and the
number of files after it. -/
def os_effect (o : outcomes) (w : world) : os_call → Int × List (Nat × Nat) × Nat
  | os_call.dup fd =>
    match fd_file w.fds fd with
    | some f => (lowest_free w.fds, (lowest_free w.fds, f) :: w.fds, w.files)
    | none => (-1, w.fds, w.files)
  | os_call.dup2 oldfd newfd =>
    match fd_file w.fds oldfd with
    | some f =>
      if newfd < 0 then (-1, w.fds, w.files)
      else (newfd, (newfd.toNat, f) :: w.fds.filter (fun p => p.1 ≠ newfd.toNat), w.files)
    | none => (-1, w.fds, w.files)
  | os_call.close fd =>
    match fd_file w.fds fd with
    | some _ => (0, w.fds.filter (fun p => p.1 ≠ fd.toNat), w.files)
    | none => (-1, w.fds, w.files)
  | os_call.open_read _ => (lowest_free w.fds, (lowest_free w.fds, w.files) :: w.fds, w.files + 1)
  | os_call.open_write _ => (lowest_free w.fds, (lowest_free w.fds, w.files) :: w.fds, w.files + 1)
  | os_call.pipe =>
    (0, (lowest_free ((lowest_free w.fds, w.files) :: w.fds), w.files + 1) ::
      (lowest_free w.fds, w.files) :: w.fds, w.files + 2)
  | os_call.fork => ((o.pid w.trace.length : Int) + 1, w.fds, w.files)
  | os_call.waitpid => ((o.pid w.trace.length : Int) + 1, w.fds, w.files)
  | os_call.getpgid => ((o.pid w.trace.length : Int) + 1, w.fds, w.files)
  | _ => (0, w.fds, w.files)

/-- Make one call: its result, negative when it fails, and the state after
it. The call and its result are added to the trace. -/
def sys (o : outcomes) (c : os_call) (w : world) : Int × world :=
  let r : Int × List (Nat × Nat) × Nat :=
    if o.fails w.trace.length then (-1, w.fds, w.files) else os_effect o w c
  (r.1, { w with fds := r.2.1, files := r.2.2, trace := w.trace ++ [(c, r.1)] })

/-- The two descriptors `pipe(pipefd)` leaves in `pipefd`: on failure the
array is left as it was. -/
def pipe_fds (o : outcomes) (w : world) (pipefd : Int × Int) : Int × Int :=
  if o.fails w.trace.length then pipefd
  else (lowest_free w.fds, lowest_free ((lowest_free w.fds, w.files) :: w.fds))

/-- The value `waitpid` leaves in `status`, which starts as 0. -/
def wait_status (o : outcomes) (w : world) : Nat :=
  if o.fails w.trace.length then 0 else o.status w.trace.length

/-- The macro `WEXITSTATUS`. -/
def WEXITSTATUS (status : Nat) : Nat := status / 256 % 256

/-- The names in the table `builtins` of `builtins.c`, in order. -/
def builtins : List (List Char) :=
  ["set".toList, "delete".toList, "print".toList, "cd".toList, "pwd".toList, "help".toList,
    "exit".toList]

/-- The function `find_builtin` of `builtins.c`: the index of `argv[0]` in the
table, or -1. For a stage without `argv[0]` (`argc = 0`) the C code hands the
NULL pointer to `strcmp`, whose behaviour is then undefined; here such a stage
gets -1. `main` calls `execute_command` only if the first stage has
`argc > 0`, so only a later stage of a chain can be without `argv[0]`. -/
def find_builtin (cmd : stage) : Int :=
  match cmd.args.head? with
  | some (some name) => if name ∈ builtins then (builtins.indexOf name : Int) else -1
  | _ => -1

/-- The local variables of `execute_builtin` with the state of the process. -/
structure builtin_vars where
  ret : status_t
  stdout_dup : Int
  stdin_dup : Int
  out_fd : Int
  in_fd : Int
  w : world
  deriving DecidableEq, Repr

/-- Lines 339-345 of `main.c`: save standard input if it is going to be
redirected. -/
def save_stdin (o : outcomes) (cmd : stage) (pipefd : Int × Int) (s : builtin_vars) :
    builtin_vars :=
  if cmd.in_file.isSome ∨ (pipefd.1 ≥ 0 ∧ pipefd.2 ≠ 0) then
    let r := sys o (os_call.dup 0) s.w
    { s with stdin_dup := r.1, ret := if r.1 < 0 then BUILTIN_ERROR else s.ret, w := r.2 }
  else s

/-- Lines 346-353: open the input file, or take the input pipe. -/
def open_input (o : outcomes) (cmd : stage) (pipefd : Int × Int) (s : builtin_vars) :
    builtin_vars :=
  match cmd.in_file with
  | some path =>
    let r := sys o (os_call.open_read path) s.w
    { s with in_fd := r.1, ret := if r.1 < 0 then BUILTIN_ERROR else s.ret, w := r.2 }
  | none => if pipefd.1 ≠ 0 then { s with in_fd := pipefd.1 } else s

/-- Lines 354-357: redirect standard input. -/
def redirect_stdin (o : outcomes) (s : builtin_vars) : builtin_vars :=
  if s.in_fd ≥ 0 then
    let r := sys o (os_call.dup2 s.in_fd 0) s.w
    { s with ret := if r.1 < 0 then BUILTIN_ERROR else s.ret, w := r.2 }
  else s

/-- Lines 360-366: save standard output if it is going to be redirected. -/
def save_stdout (o : outcomes) (cmd : stage) (pipefd : Int × Int) (s : builtin_vars) :
    builtin_vars :=
  if cmd.out_file.isSome ∨ (pipefd.2 ≥ 0 ∧ pipefd.2 ≠ 1) then
    let r := sys o (os_call.dup 1) s.w
    { s with stdout_dup := r.1, ret := if r.1 < 0 then BUILTIN_ERROR else s.ret, w := r.2 }
  else s

/-- Lines 367-374: open the output file, or take the output pipe. -/
def open_output (o : outcomes) (cmd : stage) (pipefd : Int × Int) (s : builtin_vars) :
    builtin_vars :=
  match cmd.out_file with
  | some path =>
    let r := sys o (os_call.open_write path) s.w
    { s with out_fd := r.1, ret := if r.1 < 0 then BUILTIN_ERROR else s.ret, w := r.2 }
  | none => if pipefd.2 ≠ 1 then { s with out_fd := pipefd.2 } else s

/-- Lines 375-378: redirect standard output. -/
def redirect_stdout (o : outcomes) (s : builtin_vars) : builtin_vars :=
  if s.out_fd ≥ 0 then
    let r := sys o (os_call.dup2 s.out_fd 1) s.w
    { s with ret := if r.1 < 0 then BUILTIN_ERROR else s.ret, w := r.2 }
  else s

/-- Lines 359-379: the output side is set up only if the input side went
well. -/
def setup_stdout (o : outcomes) (cmd : stage) (pipefd : Int × Int) (s : builtin_vars) :
    builtin_vars :=
  if s.ret = BUILTIN_OK then
    redirect_stdout o (open_output o cmd pipefd (save_stdout o cmd pipefd s))
  else s

/-- Lines 381-384: run the handler of the builtin if the set-up went well. -/
def run_handler (o : outcomes) (cmd : stage) (builtin_idx : Int) (s : builtin_vars) :
    builtin_vars :=
  if s.ret = BUILTIN_OK then { s with ret := o.handler builtin_idx.toNat cmd } else s

/-- Lines 387-392: close the output file. -/
def close_output (o : outcomes) (cmd : stage) (s : builtin_vars) : builtin_vars :=
  if cmd.out_file.isSome ∧ s.out_fd ≥ 0 then
    let r := sys o (os_call.close s.out_fd) s.w
    { s with ret := if r.1 < 0 then BUILTIN_ERROR else s.ret, w := r.2 }
  else s

/-- Lines 393-406: put standard output back. -/
def restore_stdout (o : outcomes) (s : builtin_vars) : builtin_vars :=
  if s.stdout_dup ≥ 0 then
    let r1 := sys o (os_call.dup2 s.stdout_dup 1) s.w
    let r2 := sys o (os_call.close s.stdout_dup) r1.2
    { s with
      ret := if r2.1 < 0 then BUILTIN_ERROR else if r1.1 < 0 then BUILTIN_ERROR else s.ret
      w := r2.2 }
  else s

/-- Lines 407-412: close the input file. -/
def close_input (o : outcomes) (cmd : stage) (s : builtin_vars) : builtin_vars :=
  if cmd.in_file.isSome ∧ s.in_fd ≥ 0 then
    let r := sys o (os_call.close s.in_fd) s.w
    { s with ret := if r.1 < 0 then BUILTIN_ERROR else s.ret, w := r.2 }
  else s

/-- Lines 413-423: put standard input back. -/
def restore_stdin (o : outcomes) (s : builtin_vars) : builtin_vars :=
  if s.stdin_dup ≥ 0 then
    let r1 := sys o (os_call.dup2 s.stdin_dup 0) s.w
    let r2 := sys o (os_call.close s.stdin_dup) r1.2
    { s with
      ret := if r2.1 < 0 then BUILTIN_ERROR else if r1.1 < 0 then BUILTIN_ERROR else s.ret
      w := r2.2 }
  else s

/-- The variables of `execute_builtin` after the set-up of the redirects
(lines 332-379), for a command that is a builtin. -/
def builtin_setup (o : outcomes) (cmd : stage) (pipefd : Int × Int) (w : world) :
    builtin_vars :=
  setup_stdout o cmd pipefd (redirect_stdin o (open_input o cmd pipefd (save_stdin o cmd pipefd
    { ret := BUILTIN_OK, stdout_dup := -1, stdin_dup := -1, out_fd := -1, in_fd := -1, w := w })))

/-- Lines 386-424 of `execute_builtin`: undo the redirects. -/
def builtin_restore (o : outcomes) (cmd : stage) (s : builtin_vars) : builtin_vars :=
  restore_stdin o (close_input o cmd (restore_stdout o (close_output o cmd s)))

/-- The function `execute_builtin` of `main.c`: run the command in this
process if it is a builtin, with its input and output redirected. -/
def execute_builtin (o : outcomes) (cmd : stage) (pipefd : Int × Int) (w : world) :
    status_t × world :=
  if find_builtin cmd < 0 then (BUILTIN_MISSING, w)
  else
    let s := builtin_restore o cmd
      (run_handler o cmd (find_builtin cmd) (builtin_setup o cmd pipefd w))
    (s.ret, s.w)

/-- How a function called in a forked process ends: the program was replaced
by `execvp`, the process called `exit`, or the function returned. -/
inductive proc_end where
  | replaced
  | exited (code : Nat)
  | returned (ret : status_t)
  deriving DecidableEq, Repr

/-- The local variables of `execute_external` with the state of the process. -/
structure external_vars where
  ret : status_t
  out_fd : Int
  in_fd : Int
  w : world
  deriving DecidableEq, Repr

/-- Lines 432-440 of `main.c`: open the output file and redirect standard
output to it. -/
def external_output (o : outcomes) (cmd : stage) (s : external_vars) : external_vars :=
  match cmd.out_file with
  | some path =>
    let r := sys o (os_call.open_write path) s.w
    if r.1 < 0 then { s with out_fd := r.1, ret := EXTERNAL_ERROR, w := r.2 }
    else
      let r2 := sys o (os_call.dup2 r.1 1) r.2
      { s with out_fd := r.1, ret := if r2.1 < 0 then EXTERNAL_ERROR else s.ret, w := r2.2 }
  | none => s

/-- Lines 441-449: open the input file and redirect standard input to it. -/
def external_input (o : outcomes) (cmd : stage) (s : external_vars) : external_vars :=
  match cmd.in_file with
  | some path =>
    let r := sys o (os_call.open_read path) s.w
    if r.1 < 0 then { s with in_fd := r.1, ret := EXTERNAL_ERROR, w := r.2 }
    else
      let r2 := sys o (os_call.dup2 r.1 0) r.2
      { s with in_fd := r.1, ret := if r2.1 < 0 then EXTERNAL_ERROR else s.ret, w := r2.2 }
  | none => s

/-- Lines 456-465: close the files and leave with `exit(1)`. -/
def external_leave (o : outcomes) (s : external_vars) : proc_end × world :=
  let w1 := if s.out_fd ≥ 0 then (sys o (os_call.close s.out_fd) s.w).2 else s.w
  let w2 := if s.in_fd ≥ 0 then (sys o (os_call.close s.in_fd) w1).2 else w1
  (proc_end.exited 1, w2)

/-- The function `execute_external` of `main.c`: redirect, then replace the
program by the command. -/
def execute_external (o : outcomes) (cmd : stage) (w : world) : proc_end × world :=
  let s := external_input o cmd (external_output o cmd
    { ret := EXTERNAL_OK, out_fd := -1, in_fd := -1, w := w })
  if s.ret = EXTERNAL_OK then
    let r := sys o (os_call.execvp (cmd.args.headD none)) s.w
    if r.1 < 0 then external_leave o { s with w := r.2 }
    else (proc_end.replaced, r.2)
  else external_leave o s

/-- One side of lines 279-301 of `main.c`: make the pipe end `fd` the standard
descriptor `std` of the child and close it; a negative `fd` is only closed. -/
def child_redirect (o : outcomes) (fd std : Int) (w : world) : world :=
  if fd ≠ std then
    if fd ≥ 0 then (sys o (os_call.close fd) (sys o (os_call.dup2 fd std) w).2).2
    else (sys o (os_call.close (-fd)) w).2
  else w

/-- Lines 272-301 of `execute_command_child`, in the child: join the process
group and set up the pipe ends. -/
def child_setup (o : outcomes) (pipefd : Int × Int) (pgid : Int) (w : world) : world :=
  let w1 := if pgid > 0 then (sys o (os_call.setpgid 0 pgid) w).2 else w
  child_redirect o pipefd.2 1 (child_redirect o pipefd.1 0 w1)

/-- The branch `pid == 0` of `execute_command_child`: what the forked process
does, and how it ends. -/
def child_branch (o : outcomes) (cmd : stage) (pipefd : Int × Int) (pgid : Int) (w : world) :
    proc_end × world :=
  let r := execute_builtin o cmd (0, 1) (child_setup o pipefd pgid w)
  if r.1 = BUILTIN_EXIT then
    (proc_end.exited 127, (sys o (os_call.close 0) r.2).2)
  else if r.1 = BUILTIN_MISSING then
    match execute_external o cmd r.2 with
    | (proc_end.returned _, w1) => (proc_end.exited 127, w1)
    | e => e
  else (proc_end.exited 0, r.2)

/-- The function `execute_command_child` of `main.c` in the calling process:
fork, and return the process id; if the fork fails, close the pipe ends. -/
def execute_command_child (o : outcomes) (pipefd : Int × Int) (w : world) : Int × world :=
  let r := sys o os_call.fork w
  if r.1 < 0 then
    (r.1, (sys o (os_call.close pipefd.2) (sys o (os_call.close pipefd.1) r.2).2).2)
  else r

/-- The local variables of `execute_command` with the state of the process. -/
structure command_vars where
  ret : status_t
  child_count : Nat
  fd : Int × Int
  pipefd : Int × Int
  w : world
  deriving DecidableEq, Repr

/-- Lines 148-161 of `main.c`: run one stage of a pipeline, in a child or, for
a builtin at the left end, in this process. -/
def run_stage_of_pipeline (o : outcomes) (builtin_idx : Int) (cmd : stage) (s : command_vars) :
    world :=
  if s.child_count > 0 ∨ builtin_idx < 0 then
    let r := execute_command_child o s.fd s.w
    let w1 : world :=
      if r.2.pipeline_pgid = 0 then { r.2 with pipeline_pgid := r.1 } else r.2
    (sys o (os_call.setpgid r.1 w1.pipeline_pgid) w1).2
  else (execute_builtin o cmd s.fd s.w).2

/-- Lines 148-172: run the stage, count it, and close the output pipe end. -/
def pipeline_tail (o : outcomes) (builtin_idx : Int) (cmd : stage) (s : command_vars) :
    command_vars :=
  let w1 := run_stage_of_pipeline o builtin_idx cmd s
  if s.fd.2 ≠ 1 then
    let r := sys o (os_call.close s.pipefd.2) w1
    { s with child_count := s.child_count + 1, w := r.2,
             ret := if r.1 < 0 then PIPE_ERROR else s.ret }
  else { s with child_count := s.child_count + 1, w := w1 }

/-- The loop `while (cmd)` of `execute_command` (lines 117-173) over the
stages still to start; a `break` ends it at once. -/
def pipeline_loop (o : outcomes) (builtin_idx : Int) : List stage → command_vars → command_vars
  | [], s => s
  | cmd :: rest, s =>
    if s.child_count > 0 ∧ s.fd.1 ≥ 0 ∧ s.fd.1 ≠ 0 ∧ (sys o (os_call.close s.fd.1) s.w).1 < 0 then
      { s with ret := PIPE_ERROR, w := (sys o (os_call.close s.fd.1) s.w).2 }
    else
      let w1 : world :=
        if s.child_count > 0 ∧ s.fd.1 ≥ 0 ∧ s.fd.1 ≠ 0 then (sys o (os_call.close s.fd.1) s.w).2
        else s.w
      let fd0 : Int := if s.child_count > 0 then s.pipefd.1 else 0
      if rest ≠ [] then
        if (sys o os_call.pipe w1).1 < 0 then
          { s with ret := PIPE_ERROR, fd := (fd0, s.fd.2), w := (sys o os_call.pipe w1).2 }
        else
          let pipefd := pipe_fds o w1 s.pipefd
          pipeline_loop o builtin_idx rest (pipeline_tail o builtin_idx cmd
            { s with fd := (if s.child_count = 0 then -pipefd.1 else fd0, pipefd.2),
                     pipefd := pipefd, w := (sys o os_call.pipe w1).2 })
      else
        pipeline_loop o builtin_idx rest (pipeline_tail o builtin_idx cmd
          { s with fd := (fd0, 1), w := w1 })

/-- The loop `while (child_count--)` of `execute_command` (lines 222-244):
wait for each child; an exit status of 127 makes the result EXTERNAL_ERROR. -/
def wait_loop (o : outcomes) : Nat → status_t → world → status_t × world
  | 0, ret, w => (ret, w)
  | n + 1, ret, w =>
    if WEXITSTATUS (wait_status o w) = 127 then
      wait_loop o n EXTERNAL_ERROR
        (sys o (os_call.killpg (sys o os_call.waitpid w).2.pipeline_pgid)
          (sys o os_call.waitpid w).2).2
    else wait_loop o n ret (sys o os_call.waitpid w).2

/-- Lines 115-200 of `execute_command`: start the stages of the chain
`cmd :: rest`. -/
def start_stages (o : outcomes) (cmd : stage) (rest : List stage) (w : world) : command_vars :=
  if rest ≠ [] then
    let s := pipeline_loop o (find_builtin cmd) (cmd :: rest)
      { ret := PIPE_OK, child_count := 0, fd := (0, 1), pipefd := (-1, -1), w := w }
    if s.child_count > 0 then
      let r := sys o (os_call.close s.pipefd.1) s.w
      { s with ret := if r.1 < 0 then PIPE_ERROR else s.ret, w := r.2 }
    else s
  else if find_builtin cmd < 0 then
    let r := execute_command_child o (0, 1) w
    let w1 : world := { r.2 with pipeline_pgid := r.1 }
    { ret := EXTERNAL_OK, child_count := 1, fd := (0, 1), pipefd := (-1, -1),
      w := (sys o (os_call.setpgid r.1 r.1) w1).2 }
  else
    let r := execute_builtin o cmd (0, 1) w
    { ret := r.1, child_count := 1, fd := (0, 1), pipefd := (-1, -1), w := r.2 }

/-- The function `execute_command` of `main.c` on the chain `cmd :: rest`:
start the stages, hand the terminal to their process group, wait for the
children and take the terminal back. -/
def execute_command (o : outcomes) (cmd : stage) (rest : List stage) (w : world) :
    status_t × world :=
  let s := start_stages o cmd rest w
  let child_count :=
    if s.child_count > 0 ∧ find_builtin cmd ≥ 0 then s.child_count - 1 else s.child_count
  let w1 : world :=
    if child_count > 0 ∧ s.ret = PIPE_ERROR ∧ s.w.pipeline_pgid ≠ 0 then
      (sys o (os_call.killpg s.w.pipeline_pgid) s.w).2
    else s.w
  let w2 : world :=
    if w1.pipeline_pgid ≠ 0 then (sys o (os_call.tcsetpgrp w1.pipeline_pgid) w1).2 else w1
  let r := wait_loop o child_count s.ret w2
  let w3 : world := { r.2 with pipeline_pgid := 0 }
  let g := sys o os_call.getpgid w3
  (r.1, (sys o (os_call.tcsetpgrp g.1) g.2).2)

/-- The world of a shell that has its three standard descriptors and the read
end of a pipe open, and has made no call yet. -/
def world_with_pipe : world :=
  { fds := [(0, 0), (1, 1), (2, 2), (3, 3)], files := 4, trace := [], pipeline_pgid := 0 }

/-- Outcomes in which every call is refused; the handlers are those of
`builtins.c` when they succeed, `exit` returning BUILTIN_EXIT. -/
def all_fail : outcomes :=
  { fails := fun _ => true, pid := fun _ => 41, status := fun _ => 0,
    handler := fun i _ => if i = 6 then BUILTIN_EXIT else BUILTIN_OK }

/-- Outcomes in which no call is refused and the handler of every builtin but
`exit` reports an error, as `cd` does on a directory that does not exist. -/
def handler_error : outcomes :=
  { fails := fun _ => false, pid := fun _ => 41, status := fun _ => 0,
    handler := fun i _ => if i = 6 then BUILTIN_EXIT else BUILTIN_ERROR }

/-- The step from `s` to `s1` of `execute_builtin` makes the calls `l`, and
changes `ret` only to BUILTIN_ERROR, and only if one of the calls failed. -/
def steps (s s1 : builtin_vars) (l : List (os_call × Int)) : Prop :=
  s1.w.trace = s.w.trace ++ l ∧ (s1.ret = s.ret ∨ s1.ret = BUILTIN_ERROR) ∧
    ((∀ e ∈ l, 0 ≤ e.2) → s1.ret = s.ret)

/-- The world of a shell that has its three standard descriptors open and has
made no call yet. -/
def world_start : world :=
  { fds := [(0, 0), (1, 1), (2, 2)], files := 3, trace := [], pipeline_pgid := 0 }

/-- Outcomes in which only the second call is refused; the handlers are those
of `builtins.c` when they succeed, `exit` returning BUILTIN_EXIT. -/
def second_call_fails : outcomes :=
  { fails := fun n => n == 1, pid := fun _ => 41, status := fun _ => 0,
    handler := fun i _ => if i = 6 then BUILTIN_EXIT else BUILTIN_OK }

/-- Outcomes in which no call is refused; the handlers are those of
`builtins.c` when they succeed, `exit` returning BUILTIN_EXIT. -/
def all_succeed : outcomes :=
  { fails := fun _ => false, pid := fun _ => 41, status := fun _ => 0,
    handler := fun i _ => if i = 6 then BUILTIN_EXIT else BUILTIN_OK }

/-- The calls that save a descriptor, put one in the place of another, or
close one. -/
def os_call.on_descriptor : os_call → Bool
  | os_call.dup _ => true
  | os_call.dup2 _ _ => true
  | os_call.close _ => true
  | _ => false

/-- The calls `execute_builtin` makes: on descriptors, and to open the files of
the redirects. -/
def os_call.in_builtin : os_call → Bool
  | os_call.dup _ => true
  | os_call.dup2 _ _ => true
  | os_call.close _ => true
  | os_call.open_read _ => true
  | os_call.open_write _ => true
  | _ => false

/-- From `w` to `w1` the process makes the calls `l`, and leaves
`pipeline_pgid` as it is. -/
def calls (w w1 : world) (l : List (os_call × Int)) : Prop :=
  w1.trace = w.trace ++ l ∧ w1.pipeline_pgid = w.pipeline_pgid

/-- The number of `fork` calls in a trace. -/
def forks (l : List (os_call × Int)) : Nat := l.countP (fun e => e.1 = os_call.fork)

/-- The number of `waitpid` calls in a trace. -/
def waits (l : List (os_call × Int)) : Nat := l.countP (fun e => e.1 = os_call.waitpid)

/-- From `w` to `w1` the process makes calls of which `f` are `fork` and `n`
are `waitpid`. -/
def adds (w w1 : world) (f n : Nat) : Prop :=
  ∃ l, w1.trace = w.trace ++ l ∧ forks l = f ∧ waits l = n

/-- A step of `execute_builtin` from `s` to `s1` makes only calls on
descriptors and files. -/
def builtin_step (s s1 : builtin_vars) : Prop :=
  ∃ l, calls s.w s1.w l ∧ ∀ e ∈ l, e.1.in_builtin = true

/-- The calls that build a pipeline: `pipe`, `close` and `fork`. -/
def os_call.builds_pipeline : os_call → Bool
  | os_call.pipe => true
  | os_call.close _ => true
  | os_call.fork => true
  | _ => false

/-- Every `pipe`, `close` and `fork` call of the trace succeeded. -/
def pipeline_ok (l : List (os_call × Int)) : Prop :=
  ∀ e ∈ l, e.1.builds_pipeline = true → 0 ≤ e.2

/-- What the loop over `n` stages does, from `s` to `r`: it makes no `waitpid`
call, and if no `pipe`, `close` or `fork` fails, it counts `n` stages and forks
once for each of them, the builtin at the left end apart. -/
def loop_spec (builtin_idx : Int) (s r : command_vars) (n : Nat) : Prop :=
  ∃ l, r.w.trace = s.w.trace ++ l ∧ waits l = 0 ∧
    (pipeline_ok l → r.child_count = s.child_count + n ∧
      forks l = if s.child_count > 0 ∨ builtin_idx < 0 then n else n - 1)

/-- The function `strlen` of the C library: the length of the C string at `s`. -/
def strlen (buf : List Char) (s : Nat) : Nat := (cstr buf s).length

/-- The function `strchr` of the C library for a character `c` other than NUL:
a pointer to the first `c` in the C string at `s`, or NULL. -/
def strchr (buf : List Char) (s : Nat) (c : Char) : Option Nat :=
  if (cstr buf s).indexOf c < (cstr buf s).length then some (s + (cstr buf s).indexOf c)
  else none

/-- The function `strspn` of the C library: the length of the longest prefix of
the C string at `s` made of characters of `accept`. -/
def strspn (buf : List Char) (s : Nat) (accept : List Char) : Nat :=
  ((cstr buf s).takeWhile (fun c => decide (c ∈ accept))).length

/-- The function `strcspn` of the C library: the length of the longest prefix
of the C string at `s` with no character of `reject`. -/
def strcspn (buf : List Char) (s : Nat) (reject : List Char) : Nat :=
  ((cstr buf s).takeWhile (fun c => decide (c ∉ reject))).length

/-- The function `strtok_r` of the C library, `save_ptr` being the value of
`*saveptr` at the call: the token (NULL if there is none), the memory, and the
new value of `*saveptr`. With `str` NULL the scan starts at `save_ptr`; the
delimiters at the start are skipped; the token runs to the next delimiter,
which is overwritten with NUL, or to the end of the string. -/
def strtok_r (str : Option Nat) (delim : List Char) (buf : List Char) (save_ptr : Nat) :
    Option Nat × List Char × Nat :=
  let s := str.getD save_ptr
  if rd buf s = NUL then (none, buf, s)
  else
    let s1 := s + strspn buf s delim
    if rd buf s1 = NUL then (none, buf, s1)
    else
      let e := s1 + strcspn buf s1 delim
      if rd buf e = NUL then (some s1, buf, e)
      else (some s1, buf.set e NUL, e + 1)

/-- The loop `while (back > str && *back == ' ') back--` of `trimSpaces`,
returning the final `back`. -/
def trim_back (buf : List Char) (str : Nat) : Nat → Nat
  | 0 => 0
  | back + 1 => if back + 1 > str ∧ rd buf (back + 1) = ' ' then trim_back buf str back
    else back + 1

/-- The function `trimSpaces` of `utility.c`: the memory afterwards and the
returned pointer; `none` if the NULL pointer is dereferenced, which the first
test `*str == ' '` does when `str` is NULL. -/
def trimSpaces (buf : List Char) : Option Nat → Option (List Char × Nat)
  | none => none
  | some str =>
    let str1 := str + ((buf.drop str).takeWhile (fun c => decide (c = ' '))).length
    if rd buf str1 ≠ NUL then
      let back := trim_back buf str1 (str1 + strlen buf str1 - 1)
      some (buf.set (back + 1) NUL, str1)
    else some (buf, str1)

/-- The loop of lines 54-60 of `builtin_set`: every NUL from `argv[1]` up to
`argv[argc - 1]` becomes a space. -/
def rejoin (buf : List Char) (first last : Nat) : List Char :=
  (List.range' first (last - first)).foldl
    (fun b s => if rd b s = NUL then b.set s ' ' else b) buf

/-- What `builtin_set` does when it returns: the status, and the two strings
handed to `setenv` if it is called. -/
structure set_result where
  ret : status_t
  setenv_args : Option (List Char × List Char)
  deriving DecidableEq, Repr

/-- The function `builtin_set` of `builtins.c` on a command whose strings are
in `buf`; `none` if a pointer that is NULL, or a slot of `argv` that holds no
pointer into the buffer, is dereferenced. Whether `setenv` succeeds only
changes the message printed. -/
def builtin_set (buf : List Char) (cmd : command_t) : Option set_result :=
  if cmd.argc > 1 then
    match cmd.argv.getD 1 cell.junk, cmd.argv.getD (cmd.argc - 1) cell.junk with
    | cell.ptr first, cell.ptr last =>
      let buf1 := rejoin buf first last
      let args := first
      if (strchr buf1 args '=').isSome then
        let tok := strtok_r none ['='] buf1 args
        match trimSpaces tok.2.1 tok.1 with
        | none => none
        | some (buf2, var) =>
          match trimSpaces buf2 (some tok.2.2) with
          | none => none
          | some (buf3, val) =>
            some { ret := BUILTIN_OK, setenv_args := some (cstr buf3 var, cstr buf3 val) }
      else some { ret := BUILTIN_ERROR, setenv_args := none }
    | _, _ => none
  else some { ret := BUILTIN_ERROR, setenv_args := none }

/-- Parse a line on a fresh command and hand the first stage to `builtin_set`:
the code of `parse`, the strings of the chain, and what `builtin_set` does. -/
def set_line (s : List Char) :
    Option (parse_error_t × List stage × Option set_result) :=
  (parse new_command (some s)).map
    (fun r => (r.1, chain_of r.2, builtin_set r.2.buf ((r.2.done ++ [r.2.working_cmd]).headD
      new_command)))

/-- The descriptor table of a world as a function: the open file descriptor
`n` refers to, if it is open. -/
def tbl (w : world) (n : Nat) : Option Nat := w.fds.lookup n

/-- Every call of the trace that saves, replaces or closes a descriptor
(`dup`, `dup2`, `close`) succeeded. -/
def desc_ok (l : List (os_call × Int)) : Prop :=
  ∀ e ∈ l, e.1.on_descriptor = true → 0 ≤ e.2

/-- From `w` to `w1` calls are added to the trace, and if every `dup`, `dup2`
and `close` among them succeeded then `P` holds. -/
def run (w w1 : world) (P : Prop) : Prop :=
  ∃ l, w1.trace = w.trace ++ l ∧ (desc_ok l → P)

/-- What holds once the redirect of descriptor `k` is set up, between the
table `w0` before and the table `w` after: `d` is the saved copy of `k` (not
made if negative), `j` the descriptor put in its place, and `fo` says that `j`
is a file opened for the redirect. The copy was free and holds the old file of
`k`; the opened descriptor was free; and every other descriptor but `k` is as
before. -/
def saved (k : Nat) (w0 w : world) (fo : Prop) (d j : Int) : Prop :=
  (0 ≤ d → tbl w0 d.toNat = none ∧ tbl w d.toNat = tbl w0 k ∧ d.toNat ≠ k) ∧
  (d < 0 → (∀ n, tbl w n = tbl w0 n) ∧ ¬ fo) ∧
  (fo → tbl w0 j.toNat = none ∧ j.toNat ≠ d.toNat ∧ j.toNat ≠ k) ∧
  (∀ n, n ≠ k → n ≠ d.toNat → (fo → n ≠ j.toNat) → tbl w n = tbl w0 n)

/-- One access of `parse` to the buffer: whether it is a write, the index it
touches, and the two cursors `read_pos` and `write_pos` when it is made. -/
structure access where
  is_write : Bool
  idx : Nat
  read_pos : Nat
  write_pos : Nat
  deriving DecidableEq, Repr

/-- The accesses of the loop `while (*p == ' ') p++`: one read for each test. -/
def eat_spaces_log : Nat → List Char → Nat → Nat → List access
  | 0, _, _, _ => []
  | fuel + 1, buf, p, write_pos =>
    ⟨false, p, p, write_pos⟩ ::
      (if rd buf p = ' ' then eat_spaces_log fuel buf (p + 1) write_pos else [])

/-- The accesses of the quoted section (lines 100-126): the read of the loop
test, the look-ahead read after a backslash, and the writes at `write_pos`. -/
def quoted_section_log : Nat → Char → List Char → Nat → Nat → List access
  | 0, _, _, _, _ => []
  | fuel + 1, quote, buf, read_pos, write_pos =>
    ⟨false, read_pos, read_pos, write_pos⟩ ::
    (if rd buf read_pos = NUL then []
    else if rd buf read_pos = BSL then
      ⟨false, read_pos + 1, read_pos + 1, write_pos⟩ ::
      (if rd buf (read_pos + 1) = NUL then []
      else if rd buf (read_pos + 1) = BSL ∨ rd buf (read_pos + 1) = quote then
        ⟨true, write_pos, read_pos + 1, write_pos⟩ ::
          quoted_section_log fuel quote (buf.set write_pos (rd buf (read_pos + 1)))
            (read_pos + 1 + 1) (write_pos + 1)
      else
        ⟨true, write_pos, read_pos + 1, write_pos⟩ ::
        ⟨true, write_pos + 1, read_pos + 1, write_pos + 1⟩ ::
          quoted_section_log fuel quote
            ((buf.set write_pos BSL).set (write_pos + 1)
              (rd (buf.set write_pos BSL) (read_pos + 1)))
            (read_pos + 1 + 1) (write_pos + 1 + 1))
    else if rd buf read_pos = quote then []
    else
      ⟨true, write_pos, read_pos, write_pos⟩ ::
        quoted_section_log fuel quote (buf.set write_pos (rd buf read_pos))
          (read_pos + 1) (write_pos + 1))

/-- The accesses of the normal section (lines 128-146). -/
def normal_section_log : Nat → List Char → Nat → Nat → List access
  | 0, _, _, _ => []
  | fuel + 1, buf, read_pos, write_pos =>
    ⟨false, read_pos, read_pos, write_pos⟩ ::
    (if rd buf read_pos ≠ NUL ∧ ¬ stops_normal (rd buf read_pos) then
      if rd buf read_pos = BSL then
        ⟨false, read_pos + 1, read_pos + 1, write_pos⟩ ::
        (if rd buf (read_pos + 1) = NUL then []
        else if rd buf (read_pos + 1) = BSL ∨ rd buf (read_pos + 1) = ' '
            ∨ rd buf (read_pos + 1) = DQ ∨ rd buf (read_pos + 1) = SQ
            ∨ rd buf (read_pos + 1) = '|' then
          ⟨true, write_pos, read_pos + 1, write_pos⟩ ::
            normal_section_log fuel (buf.set write_pos (rd buf (read_pos + 1)))
              (read_pos + 1 + 1) (write_pos + 1)
        else
          ⟨true, write_pos, read_pos + 1, write_pos⟩ ::
          ⟨true, write_pos + 1, read_pos + 1, write_pos + 1⟩ ::
            normal_section_log fuel
              ((buf.set write_pos BSL).set (write_pos + 1)
                (rd (buf.set write_pos BSL) (read_pos + 1)))
              (read_pos + 1 + 1) (write_pos + 1 + 1))
      else
        ⟨true, write_pos, read_pos, write_pos⟩ ::
          normal_section_log fuel (buf.set write_pos (rd buf read_pos))
            (read_pos + 1) (write_pos + 1)
    else [])

/-- The accesses of the test of lines 52: `*arg` if `arg` is not NULL, then
`*read_pos` if `*arg` is not NUL. -/
def flush_arg_log (st : pstate) : List access :=
  match st.arg with
  | some a =>
    ⟨false, a, st.read_pos, st.write_pos⟩ ::
      (if rd st.buf a ≠ NUL then [⟨false, st.read_pos, st.read_pos, st.write_pos⟩] else [])
  | none => []

/-- The access of lines 88-94: the separator NUL written at `write_pos`. -/
def start_section_log (st : pstate) : List access :=
  match st.arg with
  | some _ => []
  | none =>
    if st.write_pos ≠ 0 then [⟨true, st.write_pos, st.read_pos, st.write_pos⟩] else []

/-- The accesses of lines 96-147: the test of `*read_pos`, then the section. -/
def copy_section_log (st : pstate) : List access :=
  ⟨false, st.read_pos, st.read_pos, st.write_pos⟩ ::
  (if rd st.buf st.read_pos = DQ ∨ rd st.buf st.read_pos = SQ then
    quoted_section_log (st.buf.length + 1) (rd st.buf st.read_pos) st.buf
      (st.read_pos + 1) st.write_pos
  else if rd st.buf st.read_pos ≠ NUL then
    normal_section_log (st.buf.length + 1) st.buf st.read_pos st.write_pos
  else [])

/-- The accesses of lines 65-147, entered after the spaces are eaten. -/
def after_spaces_log (st : pstate) : List access :=
  ⟨false, st.read_pos, st.read_pos, st.write_pos⟩ ::
  (if rd st.buf st.read_pos = '>' ∨ rd st.buf st.read_pos = '<' then
    eat_spaces_log (st.buf.length + 1) st.buf (st.read_pos + 1) st.write_pos ++
    (match eat_spaces (st.buf.length + 1) st.buf (st.read_pos + 1) with
    | none => []
    | some p =>
      ⟨false, p, p, st.write_pos⟩ ::
      (if rd st.buf p = NUL then []
      else
        start_section_log
          { st with token_type := if rd st.buf st.read_pos = '>' then kRedirOutput
                      else kRedirInput, read_pos := p } ++
        copy_section_log (start_section
          { st with token_type := if rd st.buf st.read_pos = '>' then kRedirOutput
                      else kRedirInput, read_pos := p })))
  else if rd st.buf st.read_pos = '|' then
    eat_spaces_log (st.buf.length + 1) st.buf (st.read_pos + 1) st.write_pos ++
    (match eat_spaces (st.buf.length + 1) st.buf (st.read_pos + 1) with
    | none => []
    | some p => [⟨false, p, p, st.write_pos⟩])
  else if rd st.buf st.read_pos ≠ NUL ∧ st.arg = none ∧ st.token_type ≠ kArgument then []
  else start_section_log st ++ copy_section_log (start_section st))

/-- The accesses of one pass through the body of the main loop (lines 52-147). -/
def parse_iter_log (st : pstate) : List access :=
  flush_arg_log st ++
  (if (flush_arg st).1 ≠ kParseOK then []
  else
    eat_spaces_log ((flush_arg st).2.buf.length + 1) (flush_arg st).2.buf
      (flush_arg st).2.read_pos (flush_arg st).2.write_pos ++
    (match eat_spaces ((flush_arg st).2.buf.length + 1) (flush_arg st).2.buf
        (flush_arg st).2.read_pos with
    | none => []
    | some p => after_spaces_log { (flush_arg st).2 with read_pos := p }))

/-- The accesses of lines 150-160: the final NUL written at `write_pos`, then
the test of `*arg`. -/
def parse_finish_log (st : pstate) : List access :=
  ⟨true, st.write_pos, st.read_pos, st.write_pos⟩ ::
  (match st.arg with
  | some a => [⟨false, a, st.read_pos, st.write_pos⟩]
  | none => [])

/-- The accesses of the main loop of `parse`: the test `*read_pos` at the head
of the loop, then the body or the end. -/
def parse_loop_log : Nat → pstate → List access
  | 0, _ => []
  | fuel + 1, st =>
    ⟨false, st.read_pos, st.read_pos, st.write_pos⟩ ::
    (if rd st.buf st.read_pos = NUL then parse_finish_log st
    else
      parse_iter_log st ++
      (match parse_iter st with
      | some (iter_result.next st1) => parse_loop_log fuel st1
      | _ => []))

/-- Every access `parse` makes to the buffer on the string `s`, in order, with
the fuel `parse` runs with. -/
def parse_log (cmd : command_t) (s : List Char) : List access :=
  parse_loop_log (s.length + 2) (parse_init cmd s)

/-- The access stays in a buffer of `L + 1` bytes, and the cursors are in
order: `write_pos <= read_pos <= L`. -/
def access.within (L : Nat) (a : access) : Prop :=
  a.idx ≤ L ∧ a.write_pos ≤ a.read_pos ∧ a.read_pos ≤ L

/-- The buffer holds `L + 1` bytes, the last one is the terminator, and the
cursors are in order. -/
def buf_inv (L : Nat) (buf : List Char) (rp wp : Nat) : Prop :=
  buf.length = L + 1 ∧ rd buf L = NUL ∧ wp ≤ rp ∧ rp ≤ L

/-- A section ends with the buffer and the cursors in order, and does not move
`write_pos` back. -/
def section_result.inv (L wp0 : Nat) : section_result → Prop
  | section_result.fail _ b r w => buf_inv L b r w
  | section_result.ok b r w => buf_inv L b r w ∧ wp0 ≤ w

/-- The invariant of the main loop of `parse`: the buffer and the cursors are
in order, a pending argument starts at or before `write_pos`, and when no
argument is pending, either nothing was written yet, or `write_pos` is behind
`read_pos`, or `read_pos` is at a delimiter. -/
def pinv (L : Nat) (st : pstate) : Prop :=
  buf_inv L st.buf st.read_pos st.write_pos ∧
  (∀ a, st.arg = some a → a ≤ st.write_pos) ∧
  (st.arg = none → st.write_pos = 0 ∨ st.write_pos < st.read_pos ∨
    is_delim (rd st.buf st.read_pos))

/-- A redirect as written, its filename a token made of sections: `pre`
spaces, the marker, `post` spaces and the filename. -/
structure tok_redirect where
  pre : Nat
  marker : Char
  post : Nat
  file : List sect
  deriving DecidableEq, Repr

/-- The text of one stage of a pipeline, every token made of sections: the
command token, the other argument tokens, each with the number of spaces
before it less one, and the redirects. -/
structure tok_stage where
  cmd : List sect
  args : List (Nat × List sect)
  redirs : List tok_redirect
  deriving DecidableEq, Repr

/-- The input characters of the argument tokens after the first, at least one
space before each. -/
def tok_args_src : List (Nat × List sect) → List Char
  | [] => []
  | p :: ps => spaces (p.1 + 1) ++ (sects_src p.2 ++ tok_args_src ps)

/-- The input characters of a list of redirects. -/
def tok_redirs_src : List tok_redirect → List Char
  | [] => []
  | r :: rs =>
    spaces r.pre ++ r.marker :: (spaces r.post ++ (sects_src r.file ++ tok_redirs_src rs))

/-- The input characters of a stage. -/
def tok_stage.src (s : tok_stage) : List Char :=
  sects_src s.cmd ++ (tok_args_src s.args ++ tok_redirs_src s.redirs)

/-- The input characters of the stages after the first, each after `n` spaces,
a pipe and `k` spaces. -/
def tok_stages_src : List (Nat × Nat × tok_stage) → List Char
  | [] => []
  | p :: ps => spaces p.1 ++ '|' :: (spaces p.2.1 ++ (p.2.2.src ++ tok_stages_src ps))

/-- A well-formed token: well-formed sections that stand for a non-empty
string. -/
def tok_ok (t : List sect) : Prop := sects_ok t ∧ sects_val t ≠ []

/-- A well-formed stage: well-formed tokens everywhere, redirect markers, and
no redirect kind twice. -/
def tok_stage.ok (s : tok_stage) : Prop :=
  tok_ok s.cmd ∧ (∀ p ∈ s.args, tok_ok p.2) ∧
    (∀ r ∈ s.redirs, (r.marker = '>' ∨ r.marker = '<') ∧ tok_ok r.file) ∧
    (s.redirs.map tok_redirect.marker).Nodup

/-- The stage with every token replaced by the string it stands for. -/
def tok_stage.text (s : tok_stage) : stage_text :=
  ⟨sects_val s.cmd, s.args.map (fun p => (p.1, sects_val p.2)),
    s.redirs.map (fun r => ⟨r.pre, r.marker, r.post, sects_val r.file⟩)⟩

/-- The strings a stage stands for: one string for each token, the arguments in
`argv` in order and the filenames of the redirects in `in_file` and
`out_file`. -/
def tok_stage.val (s : tok_stage) : stage :=
  ⟨(sects_val s.cmd :: s.args.map (fun p => sects_val p.2)).map some,
    file_of '<' s.text.redirs, file_of '>' s.text.redirs⟩

/-- What follows the command token of a stage, as gaps and tokens. -/
def tok_stage.parts (s : tok_stage) : List (gap × List sect) :=
  s.args.map (fun p => (gap.arg p.1, p.2)) ++
    s.redirs.map (fun r => (gap.redir r.pre r.marker r.post, r.file))

/-- The stages after the first as gaps and tokens. -/
def tok_more_parts : List (Nat × Nat × tok_stage) → List (gap × List sect)
  | [] => []
  | p :: ps => (gap.pipe p.1 p.2.1, p.2.2.cmd) :: (p.2.2.parts ++ tok_more_parts ps)

instance (i : item) : Decidable i.nok := by
  cases i <;> unfold item.nok <;> infer_instance

instance (q : Char) (i : item) : Decidable (i.qok q) := by
  cases i <;> unfold item.qok <;> infer_instance

instance (s : sect) : Decidable s.ok := by
  cases s <;> unfold sect.ok <;> infer_instance

instance decidable_sects_ok : ∀ ss : List sect, Decidable (sects_ok ss)
  | [] => isTrue trivial
  | s :: ss =>
    have := decidable_sects_ok ss
    by unfold sects_ok; infer_instance

instance (t : List sect) : Decidable (tok_ok t) := by
  unfold tok_ok; infer_instance

instance (s : tok_stage) : Decidable s.ok := by
  unfold tok_stage.ok; infer_instance

/-- A redirect as written, its filename a token made of segments: `pre`
spaces, the marker, `post` spaces and the filename. -/
structure seg_redirect where
  pre : Nat
  marker : Char
  post : Nat
  file : List segment
  deriving DecidableEq, Repr

/-- The text of one stage of a pipeline, every token made of adjacent
segments: the command token, the other argument tokens, each with the number
of spaces before it less one, and the redirects. -/
structure seg_stage where
  cmd : List segment
  args : List (Nat × List segment)
  redirs : List seg_redirect
  deriving DecidableEq, Repr

/-- The input characters of the argument tokens after the first, at least one
space before each. -/
def seg_args_src : List (Nat × List segment) → List Char
  | [] => []
  | p :: ps => spaces (p.1 + 1) ++ (segs_src p.2 ++ seg_args_src ps)

/-- The input characters of a list of redirects. -/
def seg_redirs_src : List seg_redirect → List Char
  | [] => []
  | r :: rs =>
    spaces r.pre ++ r.marker :: (spaces r.post ++ (segs_src r.file ++ seg_redirs_src rs))

/-- The input characters of a stage. -/
def seg_stage.src (s : seg_stage) : List Char :=
  segs_src s.cmd ++ (seg_args_src s.args ++ seg_redirs_src s.redirs)

/-- The input characters of the stages after the first, each after `n` spaces,
a pipe and `k` spaces. -/
def seg_stages_src : List (Nat × Nat × seg_stage) → List Char
  | [] => []
  | p :: ps => spaces p.1 ++ '|' :: (spaces p.2.1 ++ (p.2.2.src ++ seg_stages_src ps))

/-- A well-formed token: well-formed segments whose runs and bodies together
are not empty. -/
def seg_ok (t : List segment) : Prop := (∀ s ∈ t, s.ok) ∧ segs_val t ≠ []

/-- A well-formed stage: well-formed tokens everywhere, redirect markers, and
no redirect kind twice. -/
def seg_stage.ok (s : seg_stage) : Prop :=
  seg_ok s.cmd ∧ (∀ p ∈ s.args, seg_ok p.2) ∧
    (∀ r ∈ s.redirs, (r.marker = '>' ∨ r.marker = '<') ∧ seg_ok r.file) ∧
    (s.redirs.map seg_redirect.marker).Nodup

/-- The string of the first redirect with marker `m`, if there is one. -/
def seg_file_of (m : Char) : List seg_redirect → Option (List Char)
  | [] => none
  | r :: rs => if r.marker = m then some (segs_val r.file) else seg_file_of m rs

/-- The strings a stage stands for: for each token ONE string, the
concatenation of its runs and bodies; the arguments in `argv` in order and the
filenames of the redirects in `in_file` and `out_file`. -/
def seg_stage.val (s : seg_stage) : stage :=
  ⟨(segs_val s.cmd :: s.args.map (fun p => segs_val p.2)).map some,
    seg_file_of '<' s.redirs, seg_file_of '>' s.redirs⟩

/-- Adjacent segments as the sections `parse` goes through: adjacent runs
merge and empty runs drop. -/
def sects_of : List segment → List sect
  | [] => []
  | segment.bare w :: segs =>
    if w = [] then sects_of segs
    else
      match sects_of segs with
      | sect.run its :: ts => sect.run (w.map item.ch ++ its) :: ts
      | ss => sect.run (w.map item.ch) :: ss
  | segment.quoted q body :: segs => sect.quo q (body.map item.ch) :: sects_of segs

/-- A stage with its tokens as sections. -/
def seg_stage.toks (s : seg_stage) : tok_stage :=
  ⟨sects_of s.cmd, s.args.map (fun p => (p.1, sects_of p.2)),
    s.redirs.map (fun r => ⟨r.pre, r.marker, r.post, sects_of r.file⟩)⟩

instance (t : List segment) : Decidable (seg_ok t) := by
  unfold seg_ok; infer_instance

instance (s : seg_stage) : Decidable s.ok := by
  unfold seg_stage.ok; infer_instance

theorem rd_of_length_le {buf : List Char} {i : Nat} (h : buf.length ≤ i) : rd buf i = NUL := by
  simp [rd, List.getElem?_eq_none h]

theorem lt_length_of_rd_ne {buf : List Char} {i : Nat} (h : rd buf i ≠ NUL) : i < buf.length := by
  by_contra hc
  exact h (rd_of_length_le (Nat.le_of_not_lt hc))

theorem space_ne_NUL : (' ' : Char) ≠ NUL := by decide

theorem eat_spaces_total : ∀ (f : Nat) (buf : List Char) (p : Nat), buf.length - p < f →
    ∃ q, eat_spaces f buf p = some q ∧ p ≤ q ∧ rd buf q ≠ ' ' := by
  intro f
  induction f with
  | zero => intro buf p h; omega
  | succ f ih =>
    intro buf p h
    unfold eat_spaces
    by_cases hc : rd buf p = ' '
    · have hlt : p < buf.length := lt_length_of_rd_ne (by rw [hc]; exact space_ne_NUL)
      obtain ⟨q, hq, hle, hne⟩ := ih buf (p + 1) (by omega)
      exact ⟨q, by simp [hc, hq], by omega, hne⟩
    · exact ⟨p, by simp [hc], le_refl _, hc⟩

theorem section_good_mono {len rp rp2 : Nat} {r : section_result}
    (h : section_result.good len rp2 r) (hle : rp ≤ rp2) : section_result.good len rp r := by
  cases r with
  | fail e b r w => exact h
  | ok b r w => exact ⟨h.1, by have := h.2; omega⟩

theorem quoted_section_total : ∀ (f : Nat) (q : Char) (buf : List Char) (rp wp : Nat),
    buf.length - rp < f →
    ∃ r, quoted_section f q buf rp wp = some r ∧ section_result.good buf.length (rp + 1) r := by
  intro f
  induction f with
  | zero => intro q buf rp wp h; omega
  | succ f ih =>
    intro q buf rp wp h
    unfold quoted_section; dsimp only
    split_ifs with h0 hb h1 he hq
    · exact ⟨_, rfl, rfl⟩
    · exact ⟨_, rfl, rfl⟩
    · have hlt1 := lt_length_of_rd_ne h1
      obtain ⟨r, hr, hg⟩ := ih q (buf.set wp (rd buf (rp + 1))) (rp + 1 + 1) (wp + 1)
        (by simp; omega)
      rw [List.length_set] at hg
      exact ⟨r, hr, section_good_mono hg (by omega)⟩
    · have hlt1 := lt_length_of_rd_ne h1
      obtain ⟨r, hr, hg⟩ := ih q ((buf.set wp BSL).set (wp + 1) (rd (buf.set wp BSL) (rp + 1)))
        (rp + 1 + 1) (wp + 1 + 1) (by simp; omega)
      rw [List.length_set, List.length_set] at hg
      exact ⟨r, hr, section_good_mono hg (by omega)⟩
    · exact ⟨_, rfl, rfl, le_refl _⟩
    · have hlt := lt_length_of_rd_ne h0
      obtain ⟨r, hr, hg⟩ := ih q (buf.set wp (rd buf rp)) (rp + 1) (wp + 1) (by simp; omega)
      rw [List.length_set] at hg
      exact ⟨r, hr, section_good_mono hg (by omega)⟩

theorem normal_section_total : ∀ (f : Nat) (buf : List Char) (rp wp : Nat),
    buf.length - rp < f →
    ∃ r, normal_section f buf rp wp = some r ∧ section_result.good buf.length rp r ∧
      (rd buf rp ≠ NUL → ¬ stops_normal (rd buf rp) → section_result.good buf.length (rp + 1) r) := by
  intro f
  induction f with
  | zero => intro buf rp wp h; omega
  | succ f ih =>
    intro buf rp wp h
    unfold normal_section; dsimp only
    split_ifs with h0 hb h1 he
    · exact ⟨_, rfl, rfl, fun _ _ => rfl⟩
    · have hlt1 := lt_length_of_rd_ne h1
      obtain ⟨r, hr, hg, _⟩ := ih (buf.set wp (rd buf (rp + 1))) (rp + 1 + 1) (wp + 1)
        (by simp; omega)
      rw [List.length_set] at hg
      exact ⟨r, hr, section_good_mono hg (by omega), fun _ _ => section_good_mono hg (by omega)⟩
    · have hlt1 := lt_length_of_rd_ne h1
      obtain ⟨r, hr, hg, _⟩ := ih ((buf.set wp BSL).set (wp + 1) (rd (buf.set wp BSL) (rp + 1)))
        (rp + 1 + 1) (wp + 1 + 1) (by simp; omega)
      rw [List.length_set, List.length_set] at hg
      exact ⟨r, hr, section_good_mono hg (by omega), fun _ _ => section_good_mono hg (by omega)⟩
    · have hlt := lt_length_of_rd_ne h0.1
      obtain ⟨r, hr, hg, _⟩ := ih (buf.set wp (rd buf rp)) (rp + 1) (wp + 1) (by simp; omega)
      rw [List.length_set] at hg
      exact ⟨r, hr, section_good_mono hg (by omega), fun _ _ => hg⟩
    · refine ⟨_, rfl, ⟨rfl, le_refl _⟩, fun a b => absurd ⟨a, b⟩ h0⟩

theorem DQ_ne_NUL : DQ ≠ NUL := by decide

theorem SQ_ne_NUL : SQ ≠ NUL := by decide

theorem start_section_length (st : pstate) :
    (start_section st).buf.length = st.buf.length := by
  unfold start_section
  split
  · rfl
  · split <;> simp

theorem start_section_read_pos (st : pstate) :
    (start_section st).read_pos = st.read_pos := by
  unfold start_section
  split
  · rfl
  · split <;> rfl

theorem start_section_rd (st : pstate) :
    rd (start_section st).buf st.read_pos = rd st.buf st.read_pos ∨
      rd (start_section st).buf st.read_pos = NUL := by
  unfold start_section
  split
  · exact Or.inl rfl
  · split
    · by_cases h : st.write_pos = st.read_pos
      · right
        by_cases hl : st.read_pos < st.buf.length
        · simp [rd, h, List.getElem?_set_self hl]
        · exact rd_of_length_le (by simp; omega)
      · left
        simp [rd, List.getElem?_set_ne h]
    · exact Or.inl rfl

theorem copy_section_progress (st : pstate) :
    ∃ r, copy_section st = some r ∧ ∀ st1, r = iter_result.next st1 →
      st1.buf.length = st.buf.length ∧ st.read_pos ≤ st1.read_pos ∧
      (rd st.buf st.read_pos ≠ NUL → ¬ is_delim (rd st.buf st.read_pos) →
        st.read_pos < st1.read_pos) := by
  unfold copy_section
  split_ifs with hq h0
  · obtain ⟨r, hr, hg⟩ := quoted_section_total (st.buf.length + 1) (rd st.buf st.read_pos)
      st.buf (st.read_pos + 1) st.write_pos (by omega)
    rw [hr]
    cases r with
    | fail e b r w => exact ⟨_, rfl, fun st1 h => by cases h⟩
    | ok b r w =>
      refine ⟨_, rfl, fun st1 h => ?_⟩
      cases h
      have := hg.2
      exact ⟨hg.1, by simp; omega, fun _ _ => by simp; omega⟩
  · obtain ⟨r, hr, hg, hs⟩ := normal_section_total (st.buf.length + 1) st.buf st.read_pos
      st.write_pos (by omega)
    rw [hr]
    cases r with
    | fail e b r w => exact ⟨_, rfl, fun st1 h => by cases h⟩
    | ok b r w =>
      refine ⟨_, rfl, fun st1 h => ?_⟩
      cases h
      refine ⟨hg.1, hg.2, fun hn hd => ?_⟩
      have hns : ¬ stops_normal (rd st.buf st.read_pos) := by
        intro hs
        unfold stops_normal at hs
        unfold is_delim at hd
        tauto
      exact (hs hn hns).2
  · exact ⟨_, rfl, fun st1 h => by cases h; exact ⟨rfl, le_refl _, fun hn _ => absurd (not_not.mp h0) hn⟩⟩

theorem after_spaces_progress (st : pstate) (hsp : rd st.buf st.read_pos ≠ ' ') :
    ∃ r, after_spaces st = some r ∧ ∀ st1, r = iter_result.next st1 →
      st1.buf.length = st.buf.length ∧ st.read_pos ≤ st1.read_pos ∧
      (rd st.buf st.read_pos ≠ NUL →
        st.read_pos < st1.read_pos ∨ rd st1.buf st1.read_pos = NUL) := by
  unfold after_spaces
  by_cases hr : rd st.buf st.read_pos = '>' ∨ rd st.buf st.read_pos = '<'
  · rw [if_pos hr]
    dsimp only
    generalize (if rd st.buf st.read_pos = '>' then kRedirOutput else kRedirInput) = tt
    obtain ⟨p, hp, hle, _⟩ := eat_spaces_total (st.buf.length + 1) st.buf (st.read_pos + 1)
      (by omega)
    rw [hp]
    dsimp only
    split_ifs with h0
    · exact ⟨_, rfl, fun st1 h => by cases h⟩
    · obtain ⟨r, hr, hg⟩ := copy_section_progress
        (start_section { st with token_type := tt, read_pos := p })
      refine ⟨r, hr, fun st1 h => ?_⟩
      obtain ⟨h1, h2, _⟩ := hg st1 h
      rw [start_section_length] at h1
      rw [start_section_read_pos] at h2
      exact ⟨h1, by simp at h2; omega, fun _ => Or.inl (by simp at h2; omega)⟩
  rw [if_neg hr]
  split_ifs with hp ha
  · obtain ⟨p, hp, hle, _⟩ := eat_spaces_total (st.buf.length + 1) st.buf (st.read_pos + 1)
      (by omega)
    rw [hp]
    dsimp only
    split_ifs with h0
    · exact ⟨_, rfl, fun st1 h => by cases h⟩
    · exact ⟨_, rfl, fun st1 h => by
        cases h; exact ⟨rfl, by simp; omega, fun _ => Or.inl (by simp; omega)⟩⟩
  · exact ⟨_, rfl, fun st1 h => by cases h⟩
  · obtain ⟨r, hr, hg⟩ := copy_section_progress (start_section st)
    refine ⟨r, hr, fun st1 h => ?_⟩
    obtain ⟨h1, h2, h3⟩ := hg st1 h
    rw [start_section_length] at h1
    rw [start_section_read_pos] at h2 h3
    refine ⟨h1, h2, fun hn => ?_⟩
    rcases start_section_rd st with he | he
    · rw [he] at h3
      left
      apply h3 hn
      unfold is_delim
      tauto
    · right
      have hcs : copy_section (start_section st) = some (iter_result.next (start_section st)) := by
        unfold copy_section
        rw [start_section_read_pos, he]
        simp [DQ_ne_NUL.symm, SQ_ne_NUL.symm]
      rw [hcs] at hr
      cases hr
      cases h
      rw [start_section_read_pos]
      exact he

theorem flush_arg_buf (st : pstate) : (flush_arg st).2.buf = st.buf ∧
    (flush_arg st).2.read_pos = st.read_pos := by
  unfold flush_arg
  split
  · dsimp only
    split_ifs <;> exact ⟨rfl, rfl⟩
  · exact ⟨rfl, rfl⟩

theorem parse_iter_progress (st : pstate) (h : rd st.buf st.read_pos ≠ NUL) :
    ∃ r, parse_iter st = some r ∧ ∀ st1, r = iter_result.next st1 →
      st1.buf.length = st.buf.length ∧
      (st.read_pos < st1.read_pos ∨ rd st1.buf st1.read_pos = NUL) := by
  unfold parse_iter
  dsimp only
  split_ifs with he
  · exact ⟨_, rfl, fun st1 h => by cases h⟩
  · obtain ⟨hb, hr⟩ := flush_arg_buf st
    obtain ⟨p, hp, hle, hsp⟩ := eat_spaces_total ((flush_arg st).2.buf.length + 1)
      (flush_arg st).2.buf (flush_arg st).2.read_pos (by omega)
    rw [hp]
    dsimp only
    obtain ⟨r, hr1, hg⟩ := after_spaces_progress { (flush_arg st).2 with read_pos := p } hsp
    refine ⟨r, hr1, fun st1 h1 => ?_⟩
    obtain ⟨h2, h3, h4⟩ := hg st1 h1
    simp only [hb] at h2 h3 h4
    refine ⟨h2, ?_⟩
    rw [hr] at hle
    by_cases hpe : p = st.read_pos
    · subst hpe
      rcases h4 h with h5 | h5
      · exact Or.inl h5
      · exact Or.inr h5
    · left; omega

theorem parse_loop_total : ∀ (f : Nat) (st : pstate), st.buf.length - st.read_pos < f →
    ∃ r, parse_loop f st = some r := by
  intro f
  induction f with
  | zero => intro st h; omega
  | succ f ih =>
    intro st h
    unfold parse_loop
    split_ifs with h0
    · exact ⟨_, rfl⟩
    · obtain ⟨r, hr, hg⟩ := parse_iter_progress st h0
      have hlt := lt_length_of_rd_ne h0
      rw [hr]
      cases r with
      | ret e st1 => exact ⟨_, rfl⟩
      | next st1 =>
        obtain ⟨h1, h2⟩ := hg st1 rfl
        dsimp only
        rcases h2 with h2 | h2
        · exact ih st1 (by omega)
        · have hf : 0 < f := by omega
          obtain ⟨g, rfl⟩ : ∃ g, f = g + 1 := ⟨f - 1, by omega⟩
          exact ⟨parse_finish st1, by unfold parse_loop; simp [h2]⟩

theorem parse_loop_mono : ∀ (f : Nat) (st : pstate) (r : parse_error_t × pstate),
    parse_loop f st = some r → parse_loop (f + 1) st = some r := by
  intro f
  induction f with
  | zero => intro st r h; simp [parse_loop] at h
  | succ f ih =>
    intro st r h
    unfold parse_loop at h ⊢
    split_ifs at h ⊢ with h0
    · exact h
    · cases hi : parse_iter st with
      | none => simp [hi] at h
      | some x =>
        cases x with
        | ret e st1 => simpa [hi] using h
        | next st1 =>
          simp only [hi] at h ⊢
          exact ih st1 r h

theorem parse_loop_mono_add (k f : Nat) (st : pstate) (r : parse_error_t × pstate)
    (h : parse_loop f st = some r) : parse_loop (f + k) st = some r := by
  induction k with
  | zero => exact h
  | succ k ih => exact parse_loop_mono _ _ _ ih

theorem parse_loop_of_runs {st : pstate} {r : parse_error_t × pstate} (h : runs st r)
    (f : Nat) (hf : st.buf.length - st.read_pos < f) : parse_loop f st = some r := by
  obtain ⟨g, hg⟩ := h
  obtain ⟨r1, hr1⟩ := parse_loop_total f st hf
  have h1 := parse_loop_mono_add f g st r hg
  have h2 := parse_loop_mono_add g f st r1 hr1
  rw [Nat.add_comm] at h2
  rw [h1] at h2
  cases h2
  exact hr1

theorem parse_of_runs {cmd : command_t} {s : List Char} {r : parse_error_t × pstate}
    (h : runs (parse_init cmd s) r) : parse cmd (some s) = some r := by
  unfold parse
  exact parse_loop_of_runs h _ (by simp [parse_init])

theorem parse_total (cmd : command_t) (str : Option (List Char)) : ∃ r, parse cmd str = some r := by
  cases str with
  | none => exact ⟨_, rfl⟩
  | some s => exact parse_loop_total _ _ (by simp [parse_init])

theorem BSL_ne : BSL ≠ NUL ∧ BSL ≠ ' ' ∧ BSL ≠ DQ ∧ BSL ≠ SQ ∧ BSL ≠ '<' ∧ BSL ≠ '>' ∧ BSL ≠ '|' := by
  decide

theorem rd_eq_head {buf : List Char} {i : Nat} : rd buf i = rd (buf.drop i) 0 := by
  simp [rd]

theorem drop_cons_facts {buf : List Char} {rp : Nat} {c : Char} {X : List Char}
    (h : buf.drop rp = c :: X) : rd buf rp = c ∧ rp < buf.length ∧ buf.drop (rp + 1) = X := by
  have hlt : rp < buf.length := by
    by_contra hc
    rw [List.drop_of_length_le (by omega)] at h
    cases h
  rw [List.drop_eq_getElem_cons hlt] at h
  injection h with h1 h2
  refine ⟨?_, hlt, h2⟩
  simp [rd, List.getElem?_eq_getElem hlt, h1]

theorem rd_set_ne {buf : List Char} {i j : Nat} {c : Char} (h : i ≠ j) :
    rd (buf.set i c) j = rd buf j := by
  simp [rd, List.getElem?_set_ne h]

theorem take_set_succ {buf : List Char} {wp : Nat} {c : Char} (h : wp < buf.length) :
    (buf.set wp c).take (wp + 1) = buf.take wp ++ [c] := by
  rw [List.take_add_one, List.set_take, List.set_eq_of_length_le (by simp)]
  simp [List.getElem?_set_self h]

theorem normal_section_items : ∀ (its : List item) (buf : List Char) (rp wp : Nat)
    (R : List Char), (∀ i ∈ its, item.nok i) → wp ≤ rp → buf.drop rp = items_src its ++ R →
    ∃ b r w, (∀ f, normal_section (its.length + f) buf rp wp = normal_section f b r w) ∧
      b.take w = buf.take wp ++ items_nval its ∧ b.drop r = R ∧ b.length = buf.length ∧
      w ≤ r := by
  intro its
  induction its with
  | nil =>
    intro buf rp wp R _ hle hd
    simp only [items_src, items_nval, List.nil_append, List.append_nil] at hd ⊢
    exact ⟨buf, rp, wp, fun f => by simp, rfl, hd, rfl, hle⟩
  | cons i its ih =>
    intro buf rp wp R hok hle hd
    have hok' : ∀ j ∈ its, item.nok j := fun j hj => hok j (List.mem_cons_of_mem _ hj)
    have hi := hok i (List.mem_cons_self _ _)
    have hfu : ∀ f, (i :: its).length + f = (its.length + f) + 1 := fun f => by
      simp only [List.length_cons]; omega
    cases i with
    | ch c =>
      simp only [items_src, item.src, List.singleton_append, List.cons_append,
        List.nil_append] at hd
      obtain ⟨h1, h2, h3⟩ := drop_cons_facts hd
      obtain ⟨hc0, hc1, hc2, hc3, hc4, hc5, hc6, hc7⟩ := hi
      have hwl : wp < buf.length := by omega
      obtain ⟨b, r, w, hb1, hb2, hb3, hb4, hb5⟩ := ih (buf.set wp c) (rp + 1) (wp + 1) R hok'
        (by omega) (by rw [List.drop_set_of_lt _ _ (by omega), h3])
      refine ⟨b, r, w, fun f => ?_, ?_, hb3, by simpa using hb4, hb5⟩
      · rw [hfu, normal_section]
        simp only [h1, stops_normal]
        simp only [hc0, hc1, hc2, hc3, hc4, hc5, hc6, hc7, ne_eq, not_false_eq_true, or_self,
          and_self, if_true, if_false]
        exact hb1 f
      · rw [hb2, take_set_succ hwl]
        simp [items_nval, item.nval]
    | esc c =>
      simp only [items_src, item.src, List.singleton_append, List.cons_append,
        List.nil_append] at hd
      obtain ⟨h1, h2, h3⟩ := drop_cons_facts hd
      obtain ⟨h4, h5, h6⟩ := drop_cons_facts h3
      have hc0 : c ≠ NUL := hi
      have hwl : wp < buf.length := by omega
      by_cases he : c = BSL ∨ c = ' ' ∨ c = DQ ∨ c = SQ ∨ c = '|'
      · obtain ⟨b, r, w, hb1, hb2, hb3, hb4, hb5⟩ := ih (buf.set wp c) (rp + 1 + 1) (wp + 1) R
          hok' (by omega) (by rw [List.drop_set_of_lt _ _ (by omega), h6])
        refine ⟨b, r, w, fun f => ?_, ?_, hb3, by simpa using hb4, hb5⟩
        · rw [hfu, normal_section]
          simp only [h1, h4, stops_normal]
          simp only [hc0, he, BSL_ne, ne_eq, not_false_eq_true, or_self,
            and_self, if_true, if_false]
          exact hb1 f
        · rw [hb2, take_set_succ hwl]
          simp [items_nval, item.nval, he]
      · obtain ⟨b, r, w, hb1, hb2, hb3, hb4, hb5⟩ := ih ((buf.set wp BSL).set (wp + 1) c)
          (rp + 1 + 1) (wp + 1 + 1) R
          hok' (by omega) (by
            rw [List.drop_set_of_lt _ _ (by omega), List.drop_set_of_lt _ _ (by omega), h6])
        refine ⟨b, r, w, fun f => ?_, ?_, hb3, by simpa using hb4, hb5⟩
        · rw [hfu, normal_section]
          simp only [h1, h4, stops_normal, rd_set_ne (show wp ≠ rp + 1 by omega)]
          simp only [hc0, he, BSL_ne, ne_eq, not_false_eq_true, or_self,
            and_self, if_true, if_false]
          exact hb1 f
        · have hwl2 : wp + 1 < (buf.set wp BSL).length := by simp; omega
          rw [hb2, take_set_succ hwl2, take_set_succ hwl]
          simp [items_nval, item.nval, he]

theorem quoted_section_items (q : Char) : ∀ (its : List item) (buf : List Char) (rp wp : Nat)
    (R : List Char), (∀ i ∈ its, item.qok q i) → wp ≤ rp → buf.drop rp = items_src its ++ R →
    ∃ b r w, (∀ f, quoted_section (its.length + f) q buf rp wp = quoted_section f q b r w) ∧
      b.take w = buf.take wp ++ items_qval q its ∧ b.drop r = R ∧ b.length = buf.length ∧
      w ≤ r := by
  intro its
  induction its with
  | nil =>
    intro buf rp wp R _ hle hd
    simp only [items_src, items_qval, List.nil_append, List.append_nil] at hd ⊢
    exact ⟨buf, rp, wp, fun f => by simp, rfl, hd, rfl, hle⟩
  | cons i its ih =>
    intro buf rp wp R hok hle hd
    have hok' : ∀ j ∈ its, item.qok q j := fun j hj => hok j (List.mem_cons_of_mem _ hj)
    have hi := hok i (List.mem_cons_self _ _)
    have hfu : ∀ f, (i :: its).length + f = (its.length + f) + 1 := fun f => by
      simp only [List.length_cons]; omega
    cases i with
    | ch c =>
      simp only [items_src, item.src, List.singleton_append, List.cons_append,
        List.nil_append] at hd
      obtain ⟨h1, h2, h3⟩ := drop_cons_facts hd
      obtain ⟨hc0, hc1, hc2⟩ := hi
      have hwl : wp < buf.length := by omega
      obtain ⟨b, r, w, hb1, hb2, hb3, hb4, hb5⟩ := ih (buf.set wp c) (rp + 1) (wp + 1) R hok'
        (by omega) (by rw [List.drop_set_of_lt _ _ (by omega), h3])
      refine ⟨b, r, w, fun f => ?_, ?_, hb3, by simpa using hb4, hb5⟩
      · rw [hfu, quoted_section]
        simp only [h1]
        simp only [hc0, hc1, hc2, if_false]
        exact hb1 f
      · rw [hb2, take_set_succ hwl]
        simp [items_qval, item.qval]
    | esc c =>
      simp only [items_src, item.src, List.singleton_append, List.cons_append,
        List.nil_append] at hd
      obtain ⟨h1, h2, h3⟩ := drop_cons_facts hd
      obtain ⟨h4, h5, h6⟩ := drop_cons_facts h3
      have hc0 : c ≠ NUL := hi
      have hwl : wp < buf.length := by omega
      by_cases he : c = BSL ∨ c = q
      · obtain ⟨b, r, w, hb1, hb2, hb3, hb4, hb5⟩ := ih (buf.set wp c) (rp + 1 + 1) (wp + 1) R
          hok' (by omega) (by rw [List.drop_set_of_lt _ _ (by omega), h6])
        refine ⟨b, r, w, fun f => ?_, ?_, hb3, by simpa using hb4, hb5⟩
        · rw [hfu, quoted_section]
          simp only [h1, h4]
          simp only [hc0, he, BSL_ne, if_true, if_false]
          exact hb1 f
        · rw [hb2, take_set_succ hwl]
          simp [items_qval, item.qval, he]
      · obtain ⟨b, r, w, hb1, hb2, hb3, hb4, hb5⟩ := ih ((buf.set wp BSL).set (wp + 1) c)
          (rp + 1 + 1) (wp + 1 + 1) R
          hok' (by omega) (by
            rw [List.drop_set_of_lt _ _ (by omega), List.drop_set_of_lt _ _ (by omega), h6])
        refine ⟨b, r, w, fun f => ?_, ?_, hb3, by simpa using hb4, hb5⟩
        · rw [hfu, quoted_section]
          simp only [h1, h4, rd_set_ne (show wp ≠ rp + 1 by omega)]
          simp only [hc0, he, BSL_ne, if_true, if_false]
          exact hb1 f
        · have hwl2 : wp + 1 < (buf.set wp BSL).length := by simp; omega
          rw [hb2, take_set_succ hwl2, take_set_succ hwl]
          simp [items_qval, item.qval, he]

theorem stored_append {T : List Char} {p : Nat} {w : List Char} (X : List Char)
    (h : stored T p w) : stored (T ++ X) p w := by
  obtain ⟨h1, h2⟩ := h
  refine ⟨?_, by simp; omega⟩
  unfold cstr at h1 ⊢
  rw [List.drop_append_of_le_length (by omega), List.takeWhile_append, h1]
  rw [if_neg]
  simp only [List.length_drop]
  omega

theorem stored_new (T w : List Char) (hw : NUL ∉ w) : stored (T ++ w ++ [NUL]) T.length w := by
  refine ⟨?_, by simp⟩
  unfold cstr
  rw [List.append_assoc, List.drop_left]
  rw [List.takeWhile_append_of_pos]
  · simp
  · intro a ha
    simp only [ne_eq, decide_not, Bool.not_eq_true', decide_eq_false_iff_not]
    intro h
    exact hw (h ▸ ha)

theorem file_ok_append {T : List Char} (X : List Char) {f : Option Nat} {w : Option (List Char)}
    (h : file_ok T f w) : file_ok (T ++ X) f w := by
  cases f <;> cases w <;> simp_all [file_ok]
  exact stored_append X h

theorem cmd_ok_append {T : List Char} (X : List Char) {c : command_t} {v : stage}
    (h : cmd_ok T c v) : cmd_ok (T ++ X) c v where
  argc_lt := h.argc_lt
  len := h.len
  args := h.args.imp (fun _ _ ⟨p, s, h1, h2, h3⟩ => ⟨p, s, h1, h2, stored_append X h3⟩)
  inf := file_ok_append X h.inf
  outf := file_ok_append X h.outf

theorem cmd_ok_new (T : List Char) : cmd_ok T new_command ⟨[], none, none⟩ where
  argc_lt := by
    show (0 : Nat) < 256
    omega
  len := by
    show (cell.null :: List.replicate 255 cell.junk).length = 256
    rw [List.length_cons, List.length_replicate]
  args := by
    show List.Forall₂ _ (List.take 0 _) []
    rw [List.take_zero]
    exact List.Forall₂.nil
  inf := trivial
  outf := trivial

theorem cmd_ok_argc {T : List Char} {c : command_t} {v : stage} (h : cmd_ok T c v) :
    c.argc = v.args.length := by
  have := h.args.length_eq
  have h1 := h.argc_lt
  have h2 := h.len
  simp at this
  omega

theorem file_ok_isSome {T : List Char} {f : Option Nat} {w : Option (List Char)}
    (h : file_ok T f w) : f.isSome = w.isSome := by
  cases f <;> cases w <;> simp_all [file_ok]

theorem cell_ok_str {T : List Char} (X : List Char) :
    ∀ {xs : List cell} {ws : List (Option (List Char))}, List.Forall₂ (cell_ok T) xs ws →
      xs.map (cell_str (T ++ X)) = ws := by
  intro xs ws h
  induction h with
  | nil => rfl
  | cons h1 _ ih =>
    obtain ⟨p, s, rfl, rfl, h3⟩ := h1
    simp only [List.map_cons, ih, cell_str, (stored_append X h3).1]

theorem file_ok_str {T : List Char} (X : List Char) {f : Option Nat} {w : Option (List Char)}
    (h : file_ok T f w) : f.map (cstr (T ++ X)) = w := by
  cases f <;> cases w <;> simp_all [file_ok]
  exact (stored_append X h).1

theorem range_map_getD {α β : Type} (f : α → β) (d : α) (xs : List α) :
    ∀ n, n ≤ xs.length → (List.range n).map (fun i => f (xs.getD i d)) = (xs.take n).map f := by
  intro n
  induction n with
  | zero => intro _; simp
  | succ n ih =>
    intro hn
    rw [List.range_succ, List.map_append, ih (by omega), List.take_add_one, List.map_append]
    simp [List.getElem?_eq_getElem (show n < xs.length by omega)]

theorem cmd_ok_stage {T : List Char} (X : List Char) {c : command_t} {v : stage}
    (h : cmd_ok T c v) : stage_of (T ++ X) c = v := by
  unfold stage_of
  rw [range_map_getD _ _ _ _ (by have := h.argc_lt; have := h.len; omega),
    cell_ok_str X h.args, file_ok_str X h.inf, file_ok_str X h.outf]

theorem add_arg_ok {T : List Char} {c : command_t} {v : stage} {p : Nat} {w : List Char}
    (tt : parse_token_t) (h : cmd_ok T c v) (hs : stored T p w) :
    ∃ c1, add_arg c p tt = ((stage_add v w tt).1, c1) ∧ cmd_ok T c1 (stage_add v w tt).2 := by
  have hargc := cmd_ok_argc h
  have hlt := h.argc_lt
  have hlen := h.len
  unfold add_arg stage_add
  by_cases h1 : tt = kArgument
  · simp only [h1, if_true]
    refine ⟨_, rfl, ?_⟩
    have hcell : cell_ok T (cell.ptr p) (some w) := ⟨p, w, rfl, rfl, hs⟩
    have htake : (c.argv.set c.argc (cell.ptr p)).take (c.argc + 1) =
        c.argv.take c.argc ++ [cell.ptr p] := by
      rw [List.take_add_one, List.set_take, List.set_eq_of_length_le (by simp)]
      simp [List.getElem?_set_self (show c.argc < c.argv.length by omega)]
    by_cases h2 : c.argc + 1 = c.argc_max
    · simp only [h2, if_true]
      refine ⟨by dsimp only; omega, by simp; omega, ?_, h.inf, h.outf⟩
      dsimp only
      rw [List.set_take, List.set_eq_of_length_le (by simp)]
      rw [List.take_append_of_le_length (by simp; omega), List.take_take]
      simp only [min_self]
      rw [← h2, htake]
      exact List.rel_append h.args (List.Forall₂.cons hcell List.Forall₂.nil)
    · simp only [h2, if_false]
      refine ⟨by dsimp only; omega, by simp; omega, ?_, h.inf, h.outf⟩
      dsimp only
      rw [List.set_take, List.set_eq_of_length_le (by simp), htake]
      exact List.rel_append h.args (List.Forall₂.cons hcell List.Forall₂.nil)
  · simp only [h1, if_false]
    by_cases h2 : v.args = []
    · have : c.argc = 0 := by simp [hargc, h2]
      simp only [h2, this, if_true]
      exact ⟨_, rfl, h⟩
    · have : c.argc ≠ 0 := by
        rw [hargc]
        simpa using h2
      simp only [h2, this, if_false]
      by_cases h3 : tt = kRedirInput
      · simp only [h3, if_true, file_ok_isSome h.inf]
        split_ifs with h4
        · exact ⟨_, rfl, h⟩
        · refine ⟨_, rfl, h.argc_lt, h.len, h.args, ?_, h.outf⟩
          exact hs
      · simp only [h3, if_false, file_ok_isSome h.outf]
        split_ifs with h4
        · exact ⟨_, rfl, h⟩
        · refine ⟨_, rfl, h.argc_lt, h.len, h.args, h.inf, ?_⟩
          exact hs

theorem reach_trans {a b c : pstate} (h1 : reach a b) (h2 : reach b c) : reach a c := by
  induction h1 with
  | refl => exact h2
  | step h0 hi _ ih => exact reach.step h0 hi (ih h2)

theorem runs_step {st st1 : pstate} {r : parse_error_t × pstate}
    (h0 : rd st.buf st.read_pos ≠ NUL) (hi : parse_iter st = some (iter_result.next st1))
    (h : runs st1 r) : runs st r := by
  obtain ⟨f, hf⟩ := h
  exact ⟨f + 1, by rw [parse_loop]; simp [h0, hi, hf]⟩

theorem runs_of_reach {st st1 : pstate} {r : parse_error_t × pstate} (h : reach st st1)
    (hr : runs st1 r) : runs st r := by
  induction h with
  | refl => exact hr
  | step h0 hi _ ih => exact runs_step h0 hi (ih hr)

theorem runs_ret {st st1 : pstate} {e : parse_error_t}
    (h0 : rd st.buf st.read_pos ≠ NUL) (hi : parse_iter st = some (iter_result.ret e st1)) :
    runs st (e, st1) :=
  ⟨1, by rw [parse_loop]; simp [h0, hi]⟩

theorem runs_finish {st : pstate} (h0 : rd st.buf st.read_pos = NUL) :
    runs st (parse_finish st) :=
  ⟨1, by rw [parse_loop]; simp [h0]⟩

theorem rest_lt {buf : List Char} {rp : Nat} {R : List Char} (h : buf.drop rp = R ++ [NUL]) :
    rp + R.length + 1 = buf.length := by
  have := congrArg List.length h
  simp at this
  omega

theorem rd_rest {buf : List Char} {rp : Nat} {R : List Char} (h : buf.drop rp = R ++ [NUL]) :
    rd buf rp = rd (R ++ [NUL]) 0 := by
  rw [rd_eq_head, h]

theorem at_token_wp {st : pstate} {T cur R : List Char} {tt : parse_token_t}
    {vs : List stage} {v : stage} (h : at_token st T cur R tt vs v) :
    st.write_pos = T.length + cur.length := by
  have h1 := congrArg List.length h.written
  have h2 := rest_lt h.rest
  have h3 := h.le
  simp at h1
  omega

theorem parse_init_gap (s : List Char) :
    at_gap 0 (parse_init new_command s) [] s kArgument [] ⟨[], none, none⟩ where
  le := by simp [parse_init]
  shape := Or.inl ⟨rfl, rfl⟩
  rest := by simp [parse_init]
  arg := rfl
  tt := rfl
  done := List.Forall₂.nil
  work := cmd_ok_new []

theorem eat_spaces_run : ∀ (n f : Nat) (buf : List Char) (p : Nat) (R : List Char),
    buf.drop p = spaces n ++ R → rd R 0 ≠ ' ' → n < f →
    eat_spaces f buf p = some (p + n) ∧ buf.drop (p + n) = R := by
  intro n
  induction n with
  | zero =>
    intro f buf p R hd hR hf
    obtain ⟨g, rfl⟩ : ∃ g, f = g + 1 := ⟨f - 1, by omega⟩
    simp only [spaces, List.replicate_zero, List.nil_append] at hd
    refine ⟨?_, hd⟩
    rw [eat_spaces, rd_eq_head, hd]
    simp [hR]
  | succ n ih =>
    intro f buf p R hd hR hf
    obtain ⟨g, rfl⟩ : ∃ g, f = g + 1 := ⟨f - 1, by omega⟩
    simp only [spaces, List.replicate_succ, List.cons_append] at hd
    obtain ⟨h1, h2, h3⟩ := drop_cons_facts hd
    obtain ⟨h4, h5⟩ := ih g buf (p + 1) R h3 hR (by omega)
    rw [eat_spaces, h1]
    simp only [if_true]
    rw [h4, ← h5]
    exact ⟨by congr 1; omega, by congr 1; omega⟩

theorem parse_iter_eq {st st1 : pstate} {p : Nat} (h1 : flush_arg st = (kParseOK, st1))
    (h2 : eat_spaces (st1.buf.length + 1) st1.buf st1.read_pos = some p) :
    parse_iter st = after_spaces { st1 with read_pos := p } := by
  unfold parse_iter
  simp [h1, h2]

theorem chain_of_eq {st : pstate} {T X : List Char} {vs : List stage} {v : stage}
    (hb : st.buf = T ++ X) (hd : List.Forall₂ (cmd_ok T) st.done vs)
    (hw : cmd_ok T st.working_cmd v) : chain_of st = vs ++ [v] := by
  unfold chain_of
  rw [hb, List.map_append]
  congr 1
  · clear hb hw
    generalize st.done = cs at hd
    induction hd with
    | nil => rfl
    | cons h1 _ ih => rw [List.map_cons, ih, cmd_ok_stage X h1]
  · simp [cmd_ok_stage X hw]

theorem done_append {T : List Char} (X : List Char) {cs : List command_t} {vs : List stage}
    (h : List.Forall₂ (cmd_ok T) cs vs) : List.Forall₂ (cmd_ok (T ++ X)) cs vs :=
  h.imp (fun _ _ hc => cmd_ok_append X hc)

theorem stage_add_err {v : stage} {w : List Char} {tt : parse_token_t}
    (h : (stage_add v w tt).1 ≠ kParseOK) : (stage_add v w tt).2 = v := by
  unfold stage_add at h ⊢
  split_ifs at h ⊢ <;> first | rfl | exact absurd rfl h

theorem add_arg_err {c : command_t} {p : Nat} {tt : parse_token_t}
    (h : (add_arg c p tt).1 ≠ kParseOK) : (add_arg c p tt).2 = c := by
  unfold add_arg at h ⊢
  split_ifs at h ⊢ <;> first | rfl | exact absurd rfl h

theorem at_token_rd_arg {st : pstate} {T cur R : List Char} {tt : parse_token_t}
    {vs : List stage} {v : stage} (h : at_token st T cur R tt vs v) (hc : cur ≠ []) :
    rd st.buf T.length ≠ NUL := by
  have hwp := at_token_wp h
  have hlen := rest_lt h.rest
  have hle := h.le
  obtain ⟨c, cs, rfl⟩ := List.exists_cons_of_ne_nil hc
  have h1 : (st.buf.take st.write_pos)[T.length]? = some c := by
    rw [h.written, List.getElem?_append_right (le_refl _)]
    simp
  rw [List.getElem?_take_of_lt (by simp at hwp; omega)] at h1
  have : rd st.buf T.length = c := by simp [rd, h1]
  rw [this]
  intro hn
  exact h.cur_nul (by simp [hn])

theorem flush_token {st : pstate} {T cur R : List Char} {tt : parse_token_t}
    {vs : List stage} {v : stage} (h : at_token st T cur R tt vs v) (hc : cur ≠ [])
    (hd : is_delim (rd (R ++ [NUL]) 0)) :
    ∃ st1, flush_arg st = ((stage_add v cur tt).1, st1) ∧
      ((stage_add v cur tt).1 = kParseOK →
        at_gap 0 st1 (T ++ cur ++ [NUL]) R tt vs (stage_add v cur tt).2) ∧
      ((stage_add v cur tt).1 ≠ kParseOK → chain_of st1 = vs ++ [v]) := by
  have hwp := at_token_wp h
  have hlen := rest_lt h.rest
  have hle := h.le
  have hcl : 0 < cur.length := List.length_pos.mpr hc
  obtain ⟨c1, hc1, hc2⟩ := add_arg_ok tt (cmd_ok_append (cur ++ [NUL]) h.work)
    (by simpa using stored_new T cur h.cur_nul)
  simp only [← List.append_assoc] at hc2
  unfold flush_arg
  rw [h.arg]
  dsimp only
  rw [if_pos ⟨at_token_rd_arg h hc, by rw [rd_rest h.rest]; exact hd⟩, h.tt, hc1]
  dsimp only
  by_cases he : (stage_add v cur tt).1 = kParseOK
  · rw [if_neg (by simpa using he)]
    refine ⟨_, by rw [he], fun _ => ?_, fun hn => absurd he hn⟩
    refine ⟨by simpa using hle, Or.inr ⟨by dsimp only; omega, by simp [h.written]⟩, h.rest, rfl, rfl,
      ?_, hc2⟩
    simpa using done_append (cur ++ [NUL]) h.done
  · rw [if_pos he]
    refine ⟨_, rfl, fun hn => absurd hn he, fun _ => ?_⟩
    rw [stage_add_err he] at hc2
    have hb : st.buf = T ++ (cur ++ st.buf.drop st.write_pos) := by
      rw [← List.append_assoc, ← h.written, List.take_append_drop]
    refine chain_of_eq (T := T) (X := cur ++ st.buf.drop st.write_pos) hb h.done ?_
    have := @add_arg_err st.working_cmd T.length tt (by rw [hc1]; exact he)
    rw [hc1] at this
    dsimp only at this ⊢
    rw [this]
    exact h.work

theorem eat_gap {k : Nat} {st : pstate} {T : List Char} {tt : parse_token_t}
    {vs : List stage} {v : stage} (n : Nat) (R : List Char)
    (h : at_gap k st T (spaces n ++ R) tt vs v) (hR : rd (R ++ [NUL]) 0 ≠ ' ') :
    eat_spaces (st.buf.length + 1) st.buf st.read_pos = some (st.read_pos + n) ∧
      at_gap (k + n) { st with read_pos := st.read_pos + n } T R tt vs v := by
  have hlen := rest_lt h.rest
  have hr := h.rest
  rw [List.append_assoc] at hr
  obtain ⟨h1, h2⟩ := eat_spaces_run n (st.buf.length + 1) st.buf st.read_pos (R ++ [NUL]) hr hR
    (by simp [spaces] at hlen; omega)
  refine ⟨h1, ?_, h.shape, h2, h.arg, h.tt, h.done, h.work⟩
  have := h.le
  dsimp only
  omega

theorem start_gap {k : Nat} {st : pstate} {T R : List Char} {tt : parse_token_t}
    {vs : List stage} {v : stage} (h : at_gap k st T R tt vs v) (hk : 0 < k ∨ T = []) :
    at_token (start_section st) T [] R tt vs v := by
  have hlen := rest_lt h.rest
  have hle := h.le
  unfold start_section
  rw [h.arg]
  dsimp only
  rcases h.shape with ⟨h0, hT⟩ | ⟨h0, hT⟩
  · rw [if_neg (by simpa using h0)]
    subst hT
    exact ⟨by dsimp only; omega, by simp [h0], h.rest, by simp [h0], h.tt, by simp, h.done, h.work⟩
  · rw [if_pos h0]
    have hk1 : 0 < k := by
      rcases hk with hk | hk
      · exact hk
      · rw [hk] at hT; simp at hT
    have hwl : st.write_pos < st.buf.length := by omega
    refine ⟨by dsimp only; omega, ?_, ?_, ?_, h.tt, by simp, h.done, h.work⟩
    · dsimp only
      rw [take_set_succ hwl, hT]
      simp
    · dsimp only
      rw [List.drop_set_of_lt _ _ (by omega)]
      exact h.rest
    · dsimp only
      rw [hT]
      simp
      omega

theorem start_token {st : pstate} {T cur R : List Char} {tt : parse_token_t}
    {vs : List stage} {v : stage} (h : at_token st T cur R tt vs v) : start_section st = st := by
  unfold start_section
  rw [h.arg]

theorem iter_cont {st : pstate} {T cur R : List Char} {tt : parse_token_t}
    {vs : List stage} {v : stage} {c : Char} (h : at_token st T cur (c :: R) tt vs v)
    (hc : ¬ is_delim c) : parse_iter st = copy_section st := by
  have hrd : rd st.buf st.read_pos = c := by rw [rd_rest h.rest]; rfl
  have hc' := hc
  unfold is_delim at hc'
  simp only [not_or] at hc'
  obtain ⟨c1, c2, c3, c4⟩ := hc'
  have h1 : flush_arg st = (kParseOK, st) := by
    unfold flush_arg
    rw [h.arg]
    dsimp only
    rw [if_neg (by rw [hrd]; tauto)]
  have h2 : eat_spaces (st.buf.length + 1) st.buf st.read_pos = some st.read_pos := by
    rw [eat_spaces, hrd, if_neg c1]
  rw [parse_iter_eq h1 h2]
  unfold after_spaces
  dsimp only
  rw [hrd, if_neg (by tauto), if_neg c4, if_neg (by rw [h.arg]; simp)]
  exact congrArg copy_section (start_token h)

theorem copy_section_end {st : pstate} (h : rd st.buf st.read_pos = NUL) :
    copy_section st = some (iter_result.next st) := by
  unfold copy_section
  rw [h]
  simp [DQ_ne_NUL.symm, SQ_ne_NUL.symm]

theorem as_token {k : Nat} {st : pstate} {T R : List Char} {c : Char}
    {vs : List stage} {v : stage} (h : at_gap k st T (c :: R) kArgument vs v)
    (hk : 0 < k ∨ T = []) (hc : ¬ is_delim c) :
    after_spaces st = copy_section (start_section st) ∧
      at_token (start_section st) T [] (c :: R) kArgument vs v := by
  have hrd : rd st.buf st.read_pos = c := by rw [rd_rest h.rest]; rfl
  unfold is_delim at hc
  simp only [not_or] at hc
  obtain ⟨c1, c2, c3, c4⟩ := hc
  refine ⟨?_, start_gap h hk⟩
  unfold after_spaces
  rw [hrd, if_neg (by tauto), if_neg c4, if_neg (by rw [h.tt]; simp)]

theorem as_end {k : Nat} {st : pstate} {T : List Char} {tt : parse_token_t}
    {vs : List stage} {v : stage} (h : at_gap k st T [] tt vs v)
    (hk : 0 < k ∨ T = []) :
    after_spaces st = some (iter_result.next (start_section st)) ∧
      at_token (start_section st) T [] [] tt vs v := by
  have hrd : rd st.buf st.read_pos = NUL := by rw [rd_rest h.rest]; rfl
  have h2 := start_gap h hk
  refine ⟨?_, h2⟩
  unfold after_spaces
  rw [hrd]
  rw [if_neg (by decide), if_neg (by decide), if_neg (by simp)]
  apply copy_section_end
  rw [rd_rest h2.rest]
  rfl

theorem as_after_redirect {k : Nat} {st : pstate} {T R : List Char} {c : Char}
    {tt : parse_token_t} {vs : List stage} {v : stage} (h : at_gap k st T (c :: R) tt vs v)
    (htt : tt ≠ kArgument) (h0 : c ≠ NUL) (h1 : c ≠ '<') (h2 : c ≠ '>') (h3 : c ≠ '|') :
    after_spaces st = some (iter_result.ret kArgumentAfterRedirect st) := by
  have hrd : rd st.buf st.read_pos = c := by rw [rd_rest h.rest]; rfl
  unfold after_spaces
  rw [hrd, if_neg (by tauto), if_neg h3, if_pos ⟨h0, h.arg, by rw [h.tt]; exact htt⟩]

theorem as_redirect {k : Nat} {st : pstate} {T R : List Char} {m c : Char} (j : Nat)
    {tt : parse_token_t} {vs : List stage} {v : stage}
    (h : at_gap k st T (m :: (spaces j ++ c :: R)) tt vs v)
    (hm : m = '>' ∨ m = '<') (hc : c ≠ ' ') (h0 : c ≠ NUL) :
    ∃ st2, after_spaces st = copy_section st2 ∧
      at_token st2 T [] (c :: R) (marker_type m) vs v := by
  have hrd : rd st.buf st.read_pos = m := by rw [rd_rest h.rest]; rfl
  have hlen := rest_lt h.rest
  have hr := h.rest
  rw [List.cons_append] at hr
  obtain ⟨_, _, h3⟩ := drop_cons_facts hr
  rw [List.append_assoc] at h3
  obtain ⟨h4, h5⟩ := eat_spaces_run j (st.buf.length + 1) st.buf (st.read_pos + 1)
    ((c :: R) ++ [NUL]) h3 (by simpa [rd] using hc) (by simp [spaces] at hlen; omega)
  have hg : at_gap (k + 1 + j)
      { st with token_type := marker_type m, read_pos := st.read_pos + 1 + j } T (c :: R)
      (marker_type m) vs v :=
    ⟨by have := h.le; dsimp only; omega, h.shape, h5, h.arg, rfl, h.done, h.work⟩
  refine ⟨_, ?_, start_gap hg (Or.inl (by omega))⟩
  unfold after_spaces
  rw [hrd, if_pos hm, h4]
  dsimp only
  have : rd st.buf (st.read_pos + 1 + j) = c := by rw [rd_eq_head, h5]; rfl
  rw [this, if_neg h0]
  rfl

theorem as_pipe {k : Nat} {st : pstate} {T R : List Char} {c : Char} (j : Nat)
    {tt : parse_token_t} {vs : List stage} {v : stage}
    (h : at_gap k st T ('|' :: (spaces j ++ c :: R)) tt vs v)
    (hc : c ≠ ' ') (h0 : c ≠ NUL) :
    ∃ st2, after_spaces st = some (iter_result.next st2) ∧
      at_gap 1 st2 T (c :: R) kArgument (vs ++ [v]) ⟨[], none, none⟩ := by
  have hrd : rd st.buf st.read_pos = '|' := by rw [rd_rest h.rest]; rfl
  have hlen := rest_lt h.rest
  have hr := h.rest
  rw [List.cons_append] at hr
  obtain ⟨_, _, h3⟩ := drop_cons_facts hr
  rw [List.append_assoc] at h3
  obtain ⟨h4, h5⟩ := eat_spaces_run j (st.buf.length + 1) st.buf (st.read_pos + 1)
    ((c :: R) ++ [NUL]) h3 (by simpa [rd] using hc) (by simp [spaces] at hlen; omega)
  refine ⟨pstate.mk st.buf (st.read_pos + 1 + j) st.write_pos st.arg kArgument
    (st.done ++ [st.working_cmd]) new_command, ?_, ?_⟩
  · unfold after_spaces
    rw [hrd, if_neg (by decide), if_pos rfl, h4]
    dsimp only
    have : rd st.buf (st.read_pos + 1 + j) = c := by rw [rd_eq_head, h5]; rfl
    rw [this, if_neg h0]
  · exact ⟨by have := h.le; dsimp only; omega, h.shape, h5, h.arg, rfl,
      List.rel_append h.done (List.Forall₂.cons h.work List.Forall₂.nil), cmd_ok_new T⟩

theorem iter_gap {st : pstate} {T cur : List Char} {tt : parse_token_t}
    {vs : List stage} {v : stage} (n : Nat) (R : List Char)
    (h : at_token st T cur (spaces n ++ R) tt vs v) (hc : cur ≠ [])
    (hd : is_delim (rd (spaces n ++ R ++ [NUL]) 0)) (hR : rd (R ++ [NUL]) 0 ≠ ' ')
    (hok : (stage_add v cur tt).1 = kParseOK) :
    ∃ st1, parse_iter st = after_spaces st1 ∧
      at_gap n st1 (T ++ cur ++ [NUL]) R tt vs (stage_add v cur tt).2 := by
  obtain ⟨st1, h1, h2, _⟩ := flush_token h hc hd
  rw [hok] at h1
  obtain ⟨h3, h4⟩ := eat_gap n R (h2 hok) hR
  rw [Nat.zero_add] at h4
  exact ⟨_, parse_iter_eq h1 h3, h4⟩

theorem iter_gap_err {st : pstate} {T cur R : List Char} {tt : parse_token_t}
    {vs : List stage} {v : stage}
    (h : at_token st T cur R tt vs v) (hc : cur ≠ [])
    (hd : is_delim (rd (R ++ [NUL]) 0))
    (hok : (stage_add v cur tt).1 ≠ kParseOK) :
    ∃ st1, parse_iter st = some (iter_result.ret (stage_add v cur tt).1 st1) ∧
      chain_of st1 = vs ++ [v] := by
  obtain ⟨st1, h1, _, h3⟩ := flush_token h hc hd
  refine ⟨st1, ?_, h3 hok⟩
  unfold parse_iter
  simp [h1, hok]

theorem iter_init {k : Nat} {st : pstate} {T : List Char} {tt : parse_token_t}
    {vs : List stage} {v : stage} (n : Nat) (R : List Char)
    (h : at_gap k st T (spaces n ++ R) tt vs v) (hR : rd (R ++ [NUL]) 0 ≠ ' ') :
    ∃ st1, parse_iter st = after_spaces st1 ∧ at_gap (k + n) st1 T R tt vs v := by
  obtain ⟨h3, h4⟩ := eat_gap n R h hR
  have h1 : flush_arg st = (kParseOK, st) := by
    unfold flush_arg
    rw [h.arg]
  exact ⟨_, parse_iter_eq h1 h3, h4⟩

theorem items_src_length (its : List item) : its.length ≤ (items_src its).length := by
  induction its with
  | nil => simp [items_src]
  | cons i its ih =>
    cases i <;> simp [items_src, item.src] <;> omega

theorem items_nval_nul {its : List item} (h : ∀ i ∈ its, item.nok i) : NUL ∉ items_nval its := by
  induction its with
  | nil => simp [items_nval]
  | cons i its ih =>
    have hi := h i (List.mem_cons_self _ _)
    have := ih (fun j hj => h j (List.mem_cons_of_mem _ hj))
    cases i with
    | ch c =>
      simp only [items_nval, item.nval, List.mem_append, List.mem_singleton, not_or]
      exact ⟨fun hn => hi.1 hn.symm, this⟩
    | esc c =>
      have hc : c ≠ NUL := hi
      simp only [items_nval, item.nval, List.mem_append, not_or]
      refine ⟨?_, this⟩
      split_ifs
      · simpa using hc.symm
      · simp only [List.mem_cons, List.mem_singleton, not_or, List.not_mem_nil, or_false]
        exact ⟨BSL_ne.1.symm, hc.symm⟩

theorem items_qval_nul {q : Char} {its : List item} (h : ∀ i ∈ its, item.qok q i) :
    NUL ∉ items_qval q its := by
  induction its with
  | nil => simp [items_qval]
  | cons i its ih =>
    have hi := h i (List.mem_cons_self _ _)
    have := ih (fun j hj => h j (List.mem_cons_of_mem _ hj))
    cases i with
    | ch c =>
      simp only [items_qval, item.qval, List.mem_append, List.mem_singleton, not_or]
      exact ⟨fun hn => hi.1 hn.symm, this⟩
    | esc c =>
      have hc : c ≠ NUL := hi
      simp only [items_qval, item.qval, List.mem_append, not_or]
      refine ⟨?_, this⟩
      split_ifs
      · simpa using hc.symm
      · simp only [List.mem_cons, List.mem_singleton, not_or, List.not_mem_nil, or_false]
        exact ⟨BSL_ne.1.symm, hc.symm⟩

/-- The first input character of a non-empty run of unquoted items is not NUL
and stops nothing. -/
theorem items_src_head {its : List item} (hne : its ≠ []) (h : ∀ i ∈ its, item.nok i)
    (R : List Char) : ∃ c X, items_src its ++ R = c :: X ∧ c ≠ NUL ∧ ¬ stops_normal c := by
  obtain ⟨i, its, rfl⟩ := List.exists_cons_of_ne_nil hne
  have hi := h i (List.mem_cons_self _ _)
  cases i with
  | ch c =>
    refine ⟨c, items_src its ++ R, by simp [items_src, item.src], hi.1, ?_⟩
    obtain ⟨_, h1, h2, h3, h4, h5, h6, _⟩ := hi
    unfold stops_normal
    tauto
  | esc c =>
    refine ⟨BSL, c :: (items_src its ++ R), by simp [items_src, item.src], BSL_ne.1, ?_⟩
    have := BSL_ne
    unfold stops_normal
    tauto

theorem stops_of_delim {c : Char} (h : is_delim c) : stops_normal c := by
  unfold is_delim at h
  unfold stops_normal
  tauto

theorem not_delim_of_not_stops {c : Char} (h : ¬ stops_normal c) : ¬ is_delim c :=
  fun hd => h (stops_of_delim hd)

theorem copy_run {st : pstate} {T cur R : List Char} {tt : parse_token_t}
    {vs : List stage} {v : stage} (its : List item)
    (h : at_token st T cur (items_src its ++ R) tt vs v) (hne : its ≠ [])
    (hok : ∀ i ∈ its, item.nok i)
    (hR : rd (R ++ [NUL]) 0 = NUL ∨ stops_normal (rd (R ++ [NUL]) 0)) :
    ∃ st1, copy_section st = some (iter_result.next st1) ∧
      at_token st1 T (cur ++ items_nval its) R tt vs v := by
  have hlen := rest_lt h.rest
  have hr := h.rest
  rw [List.append_assoc] at hr
  obtain ⟨c, X, hcX, hc0, hcs⟩ := items_src_head hne hok (R ++ [NUL])
  have hrd : rd st.buf st.read_pos = c := by rw [rd_eq_head, hr, hcX]; rfl
  obtain ⟨b, r, w, hb1, hb2, hb3, hb4, hb5⟩ := normal_section_items its st.buf st.read_pos
    st.write_pos (R ++ [NUL]) hok h.le hr
  have hil := items_src_length its
  obtain ⟨g, hg⟩ : ∃ g, st.buf.length + 1 = its.length + (g + 1) :=
    ⟨st.buf.length - its.length, by simp at hlen; omega⟩
  have hfin : normal_section (g + 1) b r w = some (section_result.ok b r w) := by
    rw [normal_section, rd_eq_head, hb3]
    rcases hR with h1 | h1
    · simp [h1]
    · simp [h1]
  refine ⟨{ st with buf := b, read_pos := r, write_pos := w }, ?_, ?_⟩
  · unfold copy_section
    rw [hrd, if_neg (by unfold stops_normal at hcs; tauto), if_pos hc0, hg, hb1, hfin]
  · refine ⟨hb5, ?_, hb3, h.arg, h.tt, ?_, h.done, h.work⟩
    · dsimp only
      rw [hb2, h.written, List.append_assoc]
    · simp only [List.mem_append, not_or]
      exact ⟨h.cur_nul, items_nval_nul hok⟩

theorem copy_run_bsl {st : pstate} {T cur : List Char} {tt : parse_token_t}
    {vs : List stage} {v : stage} (its : List item)
    (h : at_token st T cur (items_src its ++ [BSL]) tt vs v)
    (hok : ∀ i ∈ its, item.nok i) :
    ∃ st1, copy_section st = some (iter_result.ret kUnexpectedEnd st1) := by
  have hlen := rest_lt h.rest
  have hr := h.rest
  rw [List.append_assoc] at hr
  have hhead : ∃ c X, items_src its ++ ([BSL] ++ [NUL]) = c :: X ∧ c ≠ NUL ∧ ¬ stops_normal c := by
    by_cases hne : its = []
    · subst hne
      refine ⟨BSL, [NUL], rfl, BSL_ne.1, ?_⟩
      have := BSL_ne
      unfold stops_normal
      tauto
    · exact items_src_head hne hok _
  obtain ⟨c, X, hcX, hc0, hcs⟩ := hhead
  have hrd : rd st.buf st.read_pos = c := by rw [rd_eq_head, hr, hcX]; rfl
  obtain ⟨b, r, w, hb1, hb2, hb3, hb4, hb5⟩ := normal_section_items its st.buf st.read_pos
    st.write_pos ([BSL] ++ [NUL]) hok h.le hr
  have hil := items_src_length its
  obtain ⟨g, hg⟩ : ∃ g, st.buf.length + 1 = its.length + (g + 1) :=
    ⟨st.buf.length - its.length, by simp at hlen; omega⟩
  obtain ⟨h1, _, h3⟩ := drop_cons_facts hb3
  obtain ⟨h4, _, _⟩ := drop_cons_facts h3
  have hfin : normal_section (g + 1) b r w =
      some (section_result.fail kUnexpectedEnd b (r + 1) w) := by
    have := BSL_ne
    rw [normal_section]
    simp only [h1, h4, stops_normal]
    simp only [this, ne_eq, not_false_eq_true, or_self, and_self, if_true]
  refine ⟨{ st with buf := b, read_pos := r + 1, write_pos := w }, ?_⟩
  unfold copy_section
  rw [hrd, if_neg (by unfold stops_normal at hcs; tauto), if_pos hc0, hg, hb1, hfin]

theorem quote_ne {q : Char} (hq : q = DQ ∨ q = SQ) : q ≠ NUL ∧ q ≠ BSL := by
  rcases hq with rfl | rfl <;> decide

theorem copy_quoted {st : pstate} {T cur R : List Char} {tt : parse_token_t}
    {vs : List stage} {v : stage} (q : Char) (its : List item)
    (h : at_token st T cur (q :: (items_src its ++ q :: R)) tt vs v) (hq : q = DQ ∨ q = SQ)
    (hok : ∀ i ∈ its, item.qok q i) :
    ∃ st1, copy_section st = some (iter_result.next st1) ∧
      at_token st1 T (cur ++ items_qval q its) R tt vs v := by
  have hlen := rest_lt h.rest
  have hr := h.rest
  rw [List.cons_append, List.append_assoc] at hr
  obtain ⟨hrd, _, h3⟩ := drop_cons_facts hr
  obtain ⟨b, r, w, hb1, hb2, hb3, hb4, hb5⟩ := quoted_section_items q its st.buf
    (st.read_pos + 1) st.write_pos ((q :: R) ++ [NUL]) hok (by have := h.le; omega) h3
  have hil := items_src_length its
  obtain ⟨g, hg⟩ : ∃ g, st.buf.length + 1 = its.length + (g + 1) :=
    ⟨st.buf.length - its.length, by simp at hlen; omega⟩
  obtain ⟨h4, _, h5⟩ := drop_cons_facts hb3
  have hfin : quoted_section (g + 1) q b r w = some (section_result.ok b (r + 1) w) := by
    rw [quoted_section, h4]
    simp [quote_ne hq]
  refine ⟨{ st with buf := b, read_pos := r + 1, write_pos := w }, ?_, ?_⟩
  · unfold copy_section
    rw [hrd, if_pos hq, hg, hb1, hfin]
  · refine ⟨by dsimp only; omega, ?_, h5, h.arg, h.tt, ?_, h.done, h.work⟩
    · dsimp only
      rw [hb2, h.written, List.append_assoc]
    · simp only [List.mem_append, not_or]
      exact ⟨h.cur_nul, items_qval_nul hok⟩

theorem copy_quoted_open {st : pstate} {T cur : List Char} {tt : parse_token_t}
    {vs : List stage} {v : stage} (q : Char) (its : List item)
    (h : at_token st T cur (q :: items_src its) tt vs v) (hq : q = DQ ∨ q = SQ)
    (hok : ∀ i ∈ its, item.qok q i) :
    ∃ st1, copy_section st = some (iter_result.ret kUnexpectedEnd st1) := by
  have hlen := rest_lt h.rest
  have hr := h.rest
  rw [List.cons_append] at hr
  obtain ⟨hrd, _, h3⟩ := drop_cons_facts hr
  obtain ⟨b, r, w, hb1, hb2, hb3, hb4, hb5⟩ := quoted_section_items q its st.buf
    (st.read_pos + 1) st.write_pos [NUL] hok (by have := h.le; omega) h3
  have hil := items_src_length its
  obtain ⟨g, hg⟩ : ∃ g, st.buf.length + 1 = its.length + (g + 1) :=
    ⟨st.buf.length - its.length, by simp at hlen; omega⟩
  obtain ⟨h4, _, h5⟩ := drop_cons_facts hb3
  have hfin : quoted_section (g + 1) q b r w =
      some (section_result.fail kUnexpectedEnd b r w) := by
    rw [quoted_section, h4]
    simp
  refine ⟨{ st with buf := b, read_pos := r, write_pos := w }, ?_⟩
  unfold copy_section
  rw [hrd, if_pos hq, hg, hb1, hfin]

theorem copy_quoted_bsl {st : pstate} {T cur : List Char} {tt : parse_token_t}
    {vs : List stage} {v : stage} (q : Char) (its : List item)
    (h : at_token st T cur (q :: (items_src its ++ [BSL])) tt vs v) (hq : q = DQ ∨ q = SQ)
    (hok : ∀ i ∈ its, item.qok q i) :
    ∃ st1, copy_section st = some (iter_result.ret kUnexpectedEnd st1) := by
  have hlen := rest_lt h.rest
  have hr := h.rest
  rw [List.cons_append, List.append_assoc] at hr
  obtain ⟨hrd, _, h3⟩ := drop_cons_facts hr
  obtain ⟨b, r, w, hb1, hb2, hb3, hb4, hb5⟩ := quoted_section_items q its st.buf
    (st.read_pos + 1) st.write_pos ([BSL] ++ [NUL]) hok (by have := h.le; omega) h3
  have hil := items_src_length its
  obtain ⟨g, hg⟩ : ∃ g, st.buf.length + 1 = its.length + (g + 1) :=
    ⟨st.buf.length - its.length, by simp at hlen; omega⟩
  obtain ⟨h4, _, h5⟩ := drop_cons_facts hb3
  obtain ⟨h6, _, _⟩ := drop_cons_facts h5
  have hfin : quoted_section (g + 1) q b r w =
      some (section_result.fail kUnexpectedEnd b (r + 1) w) := by
    rw [quoted_section]
    simp only [h4, h6]
    simp [BSL_ne.1]
  refine ⟨{ st with buf := b, read_pos := r + 1, write_pos := w }, ?_⟩
  unfold copy_section
  rw [hrd, if_pos hq, hg, hb1, hfin]

theorem sect_src_head {s : sect} (h : s.ok) (R : List Char) :
    ∃ c X, s.src ++ R = c :: X ∧ c ≠ NUL ∧ ¬ is_delim c := by
  cases s with
  | run its =>
    obtain ⟨c, X, h1, h2, h3⟩ := items_src_head h.1 h.2 R
    exact ⟨c, X, h1, h2, not_delim_of_not_stops h3⟩
  | quo q its =>
    refine ⟨q, items_src its ++ [q] ++ R, by simp [sect.src], (quote_ne h.1).1, ?_⟩
    rcases h.1 with rfl | rfl <;> decide

theorem sects_src_head {s : sect} {ss : List sect} (h : sects_ok (s :: ss)) (R : List Char) :
    ∃ c X, sects_src (s :: ss) ++ R = c :: X ∧ c ≠ NUL ∧ ¬ is_delim c := by
  obtain ⟨c, X, h1, h2, h3⟩ := sect_src_head h.1 (sects_src ss ++ R)
  exact ⟨c, X, by rw [sects_src, List.append_assoc, h1], h2, h3⟩

theorem sects_val_nul {ss : List sect} (h : sects_ok ss) : NUL ∉ sects_val ss := by
  induction ss with
  | nil => simp [sects_val]
  | cons s ss ih =>
    simp only [sects_val, List.mem_append, not_or]
    refine ⟨?_, ih h.2.2⟩
    cases s with
    | run its => exact items_nval_nul h.1.2
    | quo q its => exact items_qval_nul h.1.2

theorem copy_sect {st : pstate} {T cur R : List Char} {tt : parse_token_t}
    {vs : List stage} {v : stage} (s : sect)
    (h : at_token st T cur (s.src ++ R) tt vs v) (hok : s.ok)
    (hR : s.is_run = true → rd (R ++ [NUL]) 0 = NUL ∨ stops_normal (rd (R ++ [NUL]) 0)) :
    ∃ st1, copy_section st = some (iter_result.next st1) ∧
      at_token st1 T (cur ++ s.val) R tt vs v := by
  cases s with
  | run its => exact copy_run its h hok.1 hok.2 (hR rfl)
  | quo q its =>
    refine copy_quoted q its ?_ hok.1 hok.2
    simpa [sect.src] using h

/-- After a run, what follows inside a well-formed token stops the run. -/
theorem sects_next_stops {s : sect} {ss : List sect} (h : sects_ok (s :: ss)) {R : List Char}
    (hR : ends_token R) (hs : s.is_run = true) :
    rd (sects_src ss ++ R ++ [NUL]) 0 = NUL ∨ stops_normal (rd (sects_src ss ++ R ++ [NUL]) 0) := by
  cases ss with
  | nil =>
    simp only [sects_src, List.nil_append]
    rcases hR with h1 | h1
    · exact Or.inl h1
    · exact Or.inr (stops_of_delim h1)
  | cons t ts =>
    have ht := h.2.1 hs t (by simp)
    cases t with
    | run its => simp [sect.is_run] at ht
    | quo q its =>
      right
      have hq := h.2.2.1.1
      simp only [sects_src, sect.src, List.cons_append, rd, List.getD_cons_zero]
      unfold stops_normal
      tauto

theorem reach_sects : ∀ (ss : List sect) {st : pstate} {T cur R : List Char}
    {tt : parse_token_t} {vs : List stage} {v : stage},
    at_token st T cur (sects_src ss ++ R) tt vs v → sects_ok ss → ends_token R →
    ∃ st1, reach st st1 ∧ at_token st1 T (cur ++ sects_val ss) R tt vs v := by
  intro ss
  induction ss with
  | nil =>
    intro st T cur R tt vs v h _ _
    exact ⟨st, reach.refl st, by simpa [sects_src, sects_val] using h⟩
  | cons s ss ih =>
    intro st T cur R tt vs v h hok hR
    obtain ⟨c, X, h1, h2, h3⟩ := sects_src_head hok R
    have hrd : rd st.buf st.read_pos = c := by rw [rd_rest h.rest, h1]; rfl
    rw [h1] at h
    have hi := iter_cont h h3
    rw [← h1, sects_src, List.append_assoc] at h
    obtain ⟨st1, h4, h5⟩ := copy_sect s h hok.1 (fun hs => by
      simpa [List.append_assoc] using sects_next_stops hok hR hs)
    obtain ⟨st2, h6, h7⟩ := ih h5 hok.2.2 hR
    refine ⟨st2, reach.step (by rw [hrd]; exact h2) (hi.trans h4) h6, ?_⟩
    simpa [sects_val, List.append_assoc] using h7

/-- The first section of a token is copied in the pass that starts the token;
the other sections take one pass each. -/
theorem copy_sects {s : sect} {ss : List sect} {st : pstate} {T cur R : List Char}
    {tt : parse_token_t} {vs : List stage} {v : stage}
    (h : at_token st T cur (sects_src (s :: ss) ++ R) tt vs v) (hok : sects_ok (s :: ss))
    (hR : ends_token R) :
    ∃ st1 st2, copy_section st = some (iter_result.next st1) ∧ reach st1 st2 ∧
      at_token st2 T (cur ++ sects_val (s :: ss)) R tt vs v := by
  rw [sects_src, List.append_assoc] at h
  obtain ⟨st1, h4, h5⟩ := copy_sect s h hok.1 (fun hs => by
    simpa [List.append_assoc] using sects_next_stops hok hR hs)
  obtain ⟨st2, h6, h7⟩ := reach_sects ss h5 hok.2.2 hR
  exact ⟨st1, st2, h4, h6, by simpa [sects_val, List.append_assoc] using h7⟩

theorem finish_empty {st : pstate} {T R : List Char} {tt : parse_token_t}
    {vs : List stage} {v : stage} (h : at_token st T [] R tt vs v) :
    ∃ st1, parse_finish st = (kParseOK, st1) ∧ chain_of st1 = vs ++ [v] := by
  have hwp := at_token_wp h
  have hlen := rest_lt h.rest
  have hle := h.le
  simp only [List.length_nil, Nat.add_zero] at hwp
  have hwl : st.write_pos < st.buf.length := by omega
  refine ⟨{ st with buf := st.buf.set st.write_pos NUL }, ?_, ?_⟩
  · unfold parse_finish
    dsimp only
    rw [h.arg]
    dsimp only
    rw [if_neg]
    rw [← hwp]
    simp [rd, List.getElem?_set_self hwl]
  · have hb : st.buf.set st.write_pos NUL = T ++ (st.buf.set st.write_pos NUL).drop st.write_pos := by
      conv_lhs => rw [← List.take_append_drop st.write_pos (st.buf.set st.write_pos NUL)]
      rw [List.set_take, List.set_eq_of_length_le (by simp), h.written]
      simp
    exact @chain_of_eq { st with buf := st.buf.set st.write_pos NUL } _ _ _ _ hb h.done h.work

theorem finish_token {st : pstate} {T cur R : List Char} {tt : parse_token_t}
    {vs : List stage} {v : stage} (h : at_token st T cur R tt vs v) (hc : cur ≠ []) :
    ∃ st1, parse_finish st = ((stage_add v cur tt).1, st1) ∧
      chain_of st1 = vs ++ [(stage_add v cur tt).2] := by
  have hwp := at_token_wp h
  have hlen := rest_lt h.rest
  have hle := h.le
  have hcl : 0 < cur.length := List.length_pos.mpr hc
  have hwl : st.write_pos < st.buf.length := by omega
  obtain ⟨c1, hc1, hc2⟩ := add_arg_ok tt (cmd_ok_append (cur ++ [NUL]) h.work)
    (by simpa using stored_new T cur h.cur_nul)
  simp only [← List.append_assoc] at hc2
  refine ⟨{ st with buf := st.buf.set st.write_pos NUL, working_cmd := c1 }, ?_, ?_⟩
  · unfold parse_finish
    dsimp only
    rw [h.arg]
    dsimp only
    rw [if_pos, h.tt, hc1]
    rw [rd_set_ne (by omega)]
    exact at_token_rd_arg h hc
  · have hb : st.buf.set st.write_pos NUL =
        (T ++ cur ++ [NUL]) ++ (st.buf.set st.write_pos NUL).drop (st.write_pos + 1) := by
      conv_lhs => rw [← List.take_append_drop (st.write_pos + 1) (st.buf.set st.write_pos NUL)]
      rw [take_set_succ hwl, h.written]
    refine @chain_of_eq { st with buf := st.buf.set st.write_pos NUL, working_cmd := c1 }
      _ _ _ _ hb ?_ hc2
    simpa using done_append (cur ++ [NUL]) h.done

theorem spaces_succ (n : Nat) : spaces (n + 1) = ' ' :: spaces n := rfl

theorem rd_spaces_delim (n : Nat) (R : List Char) (h : 0 < n ∨ is_delim (rd (R ++ [NUL]) 0)) :
    is_delim (rd (spaces n ++ R ++ [NUL]) 0) := by
  cases n with
  | zero =>
    rcases h with h | h
    · omega
    · simpa [spaces] using h
  | succ n =>
    simp only [spaces_succ, List.cons_append, rd, List.getD_cons_zero]
    exact Or.inl rfl

theorem ends_token_spaces (n : Nat) : ends_token (spaces n) := by
  cases n with
  | zero => exact Or.inl rfl
  | succ n => exact Or.inr (Or.inl rfl)

theorem gap_src_head (g : gap) (hg : g.ok) (R : List Char) :
    is_delim (rd (g.src ++ R ++ [NUL]) 0) := by
  cases g with
  | arg n => exact Or.inl rfl
  | redir n m k =>
    have hm : is_delim m := by
      rcases hg with rfl | rfl
      · exact Or.inr (Or.inr (Or.inl rfl))
      · exact Or.inr (Or.inl rfl)
    have := rd_spaces_delim n (m :: spaces k ++ R) (Or.inr hm)
    simpa [gap.src, List.append_assoc] using this
  | pipe n k =>
    have := rd_spaces_delim n ('|' :: spaces k ++ R) (Or.inr (Or.inr (Or.inr (Or.inr rfl))))
    simpa [gap.src, List.append_assoc] using this

theorem ends_token_parts (ps : List (gap × List sect)) (hok : ∀ p ∈ ps, part_ok p) (n : Nat) :
    ends_token (parts_src ps ++ spaces n) := by
  cases ps with
  | nil => exact ends_token_spaces n
  | cons p ps =>
    right
    have := gap_src_head p.1 (hok p (List.mem_cons_self _ _)).1
      (sects_src p.2 ++ parts_src ps ++ spaces n)
    simpa [parts_src, List.append_assoc] using this

theorem sects_ne_nil {ss : List sect} (h : sects_val ss ≠ []) : ss ≠ [] := by
  rintro rfl
  exact h rfl

theorem token_after {stA st : pstate} {ss : List sect} {T R : List Char} {tt : parse_token_t}
    {vs : List stage} {v : stage} (hA : after_spaces stA = copy_section st)
    (h : at_token st T [] (sects_src ss ++ R) tt vs v) (hok : sects_ok ss)
    (hv : sects_val ss ≠ []) (hR : ends_token R) :
    ∃ st1 st2, after_spaces stA = some (iter_result.next st1) ∧ reach st1 st2 ∧
      at_token st2 T (sects_val ss) R tt vs v := by
  obtain ⟨s, ss, rfl⟩ := List.exists_cons_of_ne_nil (sects_ne_nil hv)
  obtain ⟨st1, st2, h1, h2, h3⟩ := copy_sects h hok hR
  exact ⟨st1, st2, hA.trans h1, h2, by simpa using h3⟩

theorem runs_end {st : pstate} {T cur : List Char} {tt : parse_token_t}
    {vs : List stage} {v : stage} (n : Nat) (h : at_token st T cur (spaces n) tt vs v)
    (hc : cur ≠ []) :
    ∃ st1, runs st ((stage_add v cur tt).1, st1) ∧
      chain_of st1 = vs ++ [(stage_add v cur tt).2] := by
  cases n with
  | zero =>
    have hrd : rd st.buf st.read_pos = NUL := by rw [rd_rest h.rest]; rfl
    obtain ⟨st1, h1, h2⟩ := finish_token h hc
    exact ⟨st1, h1 ▸ runs_finish hrd, h2⟩
  | succ n =>
    have hrd : rd st.buf st.read_pos ≠ NUL := by
      rw [rd_rest h.rest]
      exact space_ne_NUL
    by_cases hok : (stage_add v cur tt).1 = kParseOK
    · have h' : at_token st T cur (spaces (n + 1) ++ []) tt vs v := by simpa using h
      obtain ⟨st1, h1, h2⟩ := iter_gap (n + 1) [] h' hc (Or.inl rfl) (by decide) hok
      obtain ⟨h3, h4⟩ := as_end h2 (Or.inl (by omega))
      obtain ⟨st2, h5, h6⟩ := finish_empty h4
      have hrd2 : rd (start_section st1).buf (start_section st1).read_pos = NUL := by
        rw [rd_rest h4.rest]; rfl
      refine ⟨st2, ?_, h6⟩
      rw [hok, ← h5]
      exact runs_step hrd (h1.trans h3) (runs_finish hrd2)
    · obtain ⟨st1, h1, h2⟩ := iter_gap_err h hc (Or.inl rfl) hok
      refine ⟨st1, runs_ret hrd h1, ?_⟩
      rw [h2, stage_add_err hok]

theorem rd_cons (c : Char) (X : List Char) : rd (c :: X) 0 = c := rfl

theorem not_space_of_not_delim {c : Char} (h : ¬ is_delim c) : c ≠ ' ' :=
  fun hc => h (Or.inl hc)

theorem not_marker_of_not_delim {c : Char} (h : ¬ is_delim c) :
    c ≠ '<' ∧ c ≠ '>' ∧ c ≠ '|' := by
  unfold is_delim at h
  tauto

/-- From a pending token on, `parse` does what `line_result` says. -/
theorem line_refines (trail : Nat) : ∀ (ps : List (gap × List sect)) {st : pstate}
    {T cur : List Char} {tt : parse_token_t} {vs : List stage} {v : stage},
    at_token st T cur (parts_src ps ++ spaces trail) tt vs v → cur ≠ [] →
    (∀ p ∈ ps, part_ok p) →
    ∃ st1, runs st ((line_result vs v tt cur (parts_val ps)).1, st1) ∧
      ((line_result vs v tt cur (parts_val ps)).1 ≠ kArgumentAfterRedirect →
        chain_of st1 = (line_result vs v tt cur (parts_val ps)).2) := by
  intro ps
  induction ps with
  | nil =>
    intro st T cur tt vs v h hc _
    obtain ⟨st1, h1, h2⟩ := runs_end trail (by simpa [parts_src] using h) hc
    exact ⟨st1, h1, fun _ => h2⟩
  | cons p ps ih =>
    intro st T cur tt vs v h hc hok
    obtain ⟨g, ss⟩ := p
    obtain ⟨hg, hss, hv⟩ := hok (g, ss) (List.mem_cons_self _ _)
    have hok' : ∀ q ∈ ps, part_ok q := fun q hq => hok q (List.mem_cons_of_mem _ hq)
    have hends := ends_token_parts ps hok' trail
    have hhead := gap_src_head g hg (sects_src ss ++ parts_src ps ++ spaces trail)
    have hR : parts_src ((g, ss) :: ps) ++ spaces trail =
        g.src ++ (sects_src ss ++ (parts_src ps ++ spaces trail)) := by
      simp [parts_src, List.append_assoc]
    rw [hR] at h
    obtain ⟨s, ss', rfl⟩ := List.exists_cons_of_ne_nil (sects_ne_nil hv)
    obtain ⟨c, X, hcX, hc0, hcd⟩ := sects_src_head hss (parts_src ps ++ spaces trail)
    have hrd : rd st.buf st.read_pos ≠ NUL := by
      rw [rd_rest h.rest]
      intro h0
      have hd : is_delim (rd (g.src ++ (sects_src (s :: ss') ++ (parts_src ps ++ spaces trail))
          ++ [NUL]) 0) := by simpa [List.append_assoc] using hhead
      rw [h0] at hd
      revert hd
      decide
    by_cases hadd : (stage_add v cur tt).1 = kParseOK
    · cases g with
      | arg n =>
        simp only [gap.src] at h
        obtain ⟨st1, h1, h2⟩ := iter_gap (n + 1) _ h hc (Or.inl rfl)
          (by rw [hcX]; exact not_space_of_not_delim hcd) hadd
        by_cases htt : tt = kArgument
        · subst htt
          rw [hcX] at h2
          obtain ⟨h3, h4⟩ := as_token h2 (Or.inl (by omega)) hcd
          rw [← hcX] at h4
          obtain ⟨st2, st3, h5, h6, h7⟩ := token_after h3 h4 hss hv hends
          obtain ⟨st4, h8, h9⟩ := ih h7 hv hok'
          refine ⟨st4, ?_, ?_⟩
          · simp only [parts_val, List.map_cons, line_result, hadd, ne_eq, not_true_eq_false,
              if_false]
            exact runs_step hrd (h1.trans h5) (runs_of_reach h6 h8)
          · simpa only [parts_val, List.map_cons, line_result, hadd, ne_eq, not_true_eq_false,
              if_false] using h9
        · rw [hcX] at h2
          obtain ⟨hm1, hm2, hm3⟩ := not_marker_of_not_delim hcd
          have h3 := as_after_redirect h2 htt hc0 hm1 hm2 hm3
          refine ⟨st1, ?_, ?_⟩
          · simp only [parts_val, List.map_cons, line_result, hadd, ne_eq, not_true_eq_false,
              if_false, htt, not_false_eq_true, if_true]
            exact runs_ret hrd (h1.trans h3)
          · simp only [parts_val, List.map_cons, line_result, hadd, ne_eq, not_true_eq_false,
              if_false, htt, not_false_eq_true, if_true]
            intro hn
            exact hn.elim
      | redir n m k =>
        simp only [gap.src, List.append_assoc, List.cons_append] at h
        have hm : is_delim m := by
          rcases hg with rfl | rfl
          · exact Or.inr (Or.inr (Or.inl rfl))
          · exact Or.inr (Or.inl rfl)
        have hm' : m ≠ ' ' := by rcases hg with rfl | rfl <;> decide
        obtain ⟨st1, h1, h2⟩ := iter_gap n _ h hc
          (by simpa [gap.src, List.append_assoc] using hhead) (by simpa [rd] using hm') hadd
        rw [hcX] at h2
        obtain ⟨st2, h3, h4⟩ := as_redirect k h2 hg (not_space_of_not_delim hcd) hc0
        rw [← hcX] at h4
        obtain ⟨st3, st4, h5, h6, h7⟩ := token_after h3 h4 hss hv hends
        obtain ⟨st5, h8, h9⟩ := ih h7 hv hok'
        refine ⟨st5, ?_, ?_⟩
        · simp only [parts_val, List.map_cons, line_result, hadd, ne_eq, not_true_eq_false,
            if_false]
          exact runs_step hrd (h1.trans h5) (runs_of_reach h6 h8)
        · simpa only [parts_val, List.map_cons, line_result, hadd, ne_eq, not_true_eq_false,
            if_false] using h9
      | pipe n k =>
        simp only [gap.src, List.append_assoc, List.cons_append] at h
        obtain ⟨st1, h1, h2⟩ := iter_gap n _ h hc
          (by simpa [gap.src, List.append_assoc] using hhead) (by simp [rd]) hadd
        rw [hcX] at h2
        obtain ⟨st2, h3, h4⟩ := as_pipe k h2 (not_space_of_not_delim hcd) hc0
        have hrd2 : rd st2.buf st2.read_pos ≠ NUL := by
          rw [rd_rest h4.rest]
          exact hc0
        have h4' : at_gap 1 st2 (T ++ cur ++ [NUL]) (spaces 0 ++ c :: X) kArgument
            (vs ++ [(stage_add v cur tt).2]) stage.empty := by
          simpa [spaces] using h4
        obtain ⟨st3, h5, h6⟩ := iter_init 0 _ h4' (by
          simpa [rd] using not_space_of_not_delim hcd)
        obtain ⟨h7, h8⟩ := as_token h6 (Or.inl (by omega)) hcd
        rw [← hcX] at h8
        obtain ⟨st4, st5, h9, h10, h11⟩ := token_after h7 h8 hss hv hends
        obtain ⟨st6, h12, h13⟩ := ih h11 hv hok'
        refine ⟨st6, ?_, ?_⟩
        · simp only [parts_val, List.map_cons, line_result, hadd, ne_eq, not_true_eq_false,
            if_false]
          exact runs_step hrd (h1.trans h3)
            (runs_step hrd2 (h5.trans h9) (runs_of_reach h10 h12))
        · simpa only [parts_val, List.map_cons, line_result, hadd, ne_eq, not_true_eq_false,
            if_false] using h13
    · have hd : is_delim (rd (g.src ++ (sects_src (s :: ss') ++ (parts_src ps ++ spaces trail))
          ++ [NUL]) 0) := by simpa [List.append_assoc] using hhead
      obtain ⟨st1, h1, h2⟩ := iter_gap_err h hc hd hadd
      refine ⟨st1, ?_, ?_⟩
      · simp only [parts_val, List.map_cons, line_result, hadd, ne_eq, not_false_eq_true, if_true]
        exact runs_ret hrd h1
      · simp only [parts_val, List.map_cons, line_result, hadd, ne_eq, not_false_eq_true, if_true]
        exact fun _ => h2

theorem stage_add_arg (v : stage) (w : List Char) :
    stage_add v w kArgument = (kParseOK, { v with args := v.args ++ [some w] }) := by
  simp [stage_add]

theorem line_result_eq : ∀ (ps : List (gap × List Char)) (vs : List stage) (v : stage)
    (tt : parse_token_t) (cur : List Char),
    line_result vs v tt cur ps =
      if (stage_add v cur tt).1 ≠ kParseOK then ((stage_add v cur tt).1, vs ++ [v])
      else parts_result vs (stage_add v cur tt).2 tt ps := by
  intro ps
  induction ps with
  | nil =>
    intro vs v tt cur
    simp only [line_result, parts_result, run_parts]
    split_ifs with h
    · rw [stage_add_err h]
    · rw [not_not.mp h]
  | cons p ps ih =>
    intro vs v tt cur
    obtain ⟨g, w⟩ := p
    by_cases h : (stage_add v cur tt).1 = kParseOK
    · cases g with
      | arg n =>
        by_cases htt : tt = kArgument
        · subst htt
          simp only [line_result, h, ne_eq, not_true_eq_false, if_false]
          rw [ih]
          simp [parts_result, run_parts, stage_add_arg]
        · simp [line_result, h, parts_result, run_parts, htt]
      | redir n m k =>
        simp only [line_result, h, ne_eq, not_true_eq_false, if_false]
        rw [ih]
        simp only [parts_result, run_parts]
        split_ifs <;> rfl
      | pipe n k =>
        simp only [line_result, h, ne_eq, not_true_eq_false, if_false]
        rw [ih]
        simp [parts_result, run_parts, stage_add_arg]
    · simp [line_result, h]

theorem line_reach : ∀ (ps : List (gap × List sect)) {st : pstate} {T cur : List Char}
    {tt tt1 : parse_token_t} {vs vs1 : List stage} {v c c1 : stage} (R : List Char),
    at_token st T cur (parts_src ps ++ R) tt vs v → cur ≠ [] → (∀ p ∈ ps, part_ok p) →
    ends_token R → stage_add v cur tt = (kParseOK, c) →
    run_parts vs c tt (parts_val ps) = Except.ok (vs1, c1, tt1) →
    ∃ st1 T1 v1 cur1, reach st st1 ∧ at_token st1 T1 cur1 R tt1 vs1 v1 ∧ cur1 ≠ [] ∧
      stage_add v1 cur1 tt1 = (kParseOK, c1) := by
  intro ps
  induction ps with
  | nil =>
    intro st T cur tt tt1 vs vs1 v c c1 R h hc _ _ hadd hrun
    simp only [parts_val, List.map_nil, run_parts, Except.ok.injEq, Prod.mk.injEq] at hrun
    obtain ⟨rfl, rfl, rfl⟩ := hrun
    exact ⟨st, T, v, cur, reach.refl st, by simpa [parts_src] using h, hc, hadd⟩
  | cons p ps ih =>
    intro st T cur tt tt1 vs vs1 v c c1 R h hc hok hends hadd hrun
    obtain ⟨g, ss⟩ := p
    obtain ⟨hg, hss, hv⟩ := hok (g, ss) (List.mem_cons_self _ _)
    have hok' : ∀ q ∈ ps, part_ok q := fun q hq => hok q (List.mem_cons_of_mem _ hq)
    have hends' : ends_token (parts_src ps ++ R) := by
      cases ps with
      | nil => simpa [parts_src] using hends
      | cons q qs =>
        right
        have := gap_src_head q.1 (hok' q (List.mem_cons_self _ _)).1
          (sects_src q.2 ++ parts_src qs ++ R)
        simpa [parts_src, List.append_assoc] using this
    have hhead := gap_src_head g hg (sects_src ss ++ parts_src ps ++ R)
    have hR : parts_src ((g, ss) :: ps) ++ R =
        g.src ++ (sects_src ss ++ (parts_src ps ++ R)) := by
      simp [parts_src, List.append_assoc]
    rw [hR] at h
    obtain ⟨s, ss', rfl⟩ := List.exists_cons_of_ne_nil (sects_ne_nil hv)
    obtain ⟨x, X, hcX, hc0, hcd⟩ := sects_src_head hss (parts_src ps ++ R)
    have hrd : rd st.buf st.read_pos ≠ NUL := by
      rw [rd_rest h.rest]
      intro h0
      have hd : is_delim (rd (g.src ++ (sects_src (s :: ss') ++ (parts_src ps ++ R))
          ++ [NUL]) 0) := by simpa [List.append_assoc] using hhead
      rw [h0] at hd
      revert hd
      decide
    have hadd1 : (stage_add v cur tt).1 = kParseOK := by rw [hadd]
    have hadd2 : (stage_add v cur tt).2 = c := by rw [hadd]
    cases g with
    | arg n =>
      simp only [gap.src] at h
      obtain ⟨st1, h1, h2⟩ := iter_gap (n + 1) _ h hc (Or.inl rfl)
        (by rw [hcX]; exact not_space_of_not_delim hcd) hadd1
      rw [hadd2] at h2
      by_cases htt : tt = kArgument
      · subst htt
        rw [hcX] at h2
        obtain ⟨h3, h4⟩ := as_token h2 (Or.inl (by omega)) hcd
        rw [← hcX] at h4
        obtain ⟨st2, st3, h5, h6, h7⟩ := token_after h3 h4 hss hv hends'
        simp only [parts_val, List.map_cons, run_parts, ne_eq, not_true_eq_false,
          if_false] at hrun
        obtain ⟨st4, T4, v4, cur4, h8, h9, h10, h11⟩ := ih R h7 hv hok' hends
          (by rw [stage_add_arg]) hrun
        exact ⟨st4, T4, v4, cur4, reach.step hrd (h1.trans h5) (reach_trans h6 h8), h9, h10, h11⟩
      · simp [parts_val, run_parts, htt] at hrun
    | redir n m k =>
      simp only [gap.src, List.append_assoc, List.cons_append] at h
      have hm' : m ≠ ' ' := by rcases hg with rfl | rfl <;> decide
      obtain ⟨st1, h1, h2⟩ := iter_gap n _ h hc
        (by simpa [gap.src, List.append_assoc] using hhead) (by simpa [rd] using hm') hadd1
      rw [hadd2, hcX] at h2
      obtain ⟨st2, h3, h4⟩ := as_redirect k h2 hg (not_space_of_not_delim hcd) hc0
      rw [← hcX] at h4
      obtain ⟨st3, st4, h5, h6, h7⟩ := token_after h3 h4 hss hv hends'
      simp only [parts_val, List.map_cons, run_parts] at hrun
      by_cases hr : (stage_add c (sects_val (s :: ss')) (marker_type m)).1 = kParseOK
      · rw [if_neg (by simpa using hr)] at hrun
        obtain ⟨st5, T5, v5, cur5, h8, h9, h10, h11⟩ := ih R h7 hv hok' hends
          (Prod.ext hr rfl) hrun
        exact ⟨st5, T5, v5, cur5, reach.step hrd (h1.trans h5) (reach_trans h6 h8), h9, h10, h11⟩
      · rw [if_pos hr] at hrun
        cases hrun
    | pipe n k =>
      simp only [gap.src, List.append_assoc, List.cons_append] at h
      obtain ⟨st1, h1, h2⟩ := iter_gap n _ h hc
        (by simpa [gap.src, List.append_assoc] using hhead) (by simp [rd]) hadd1
      rw [hadd2, hcX] at h2
      obtain ⟨st2, h3, h4⟩ := as_pipe k h2 (not_space_of_not_delim hcd) hc0
      have hrd2 : rd st2.buf st2.read_pos ≠ NUL := by
        rw [rd_rest h4.rest]
        exact hc0
      have h4' : at_gap 1 st2 (T ++ cur ++ [NUL]) (spaces 0 ++ x :: X) kArgument
          (vs ++ [c]) stage.empty := by
        simpa [spaces] using h4
      obtain ⟨st3, h5, h6⟩ := iter_init 0 _ h4' (by
        simpa [rd] using not_space_of_not_delim hcd)
      obtain ⟨h7, h8⟩ := as_token h6 (Or.inl (by omega)) hcd
      rw [← hcX] at h8
      obtain ⟨st4, st5, h9, h10, h11⟩ := token_after h7 h8 hss hv hends'
      simp only [parts_val, List.map_cons, run_parts] at hrun
      obtain ⟨st6, T6, v6, cur6, h12, h13, h14, h15⟩ := ih R h11 hv hok' hends
        (by rw [stage_add_arg]) hrun
      exact ⟨st6, T6, v6, cur6,
        reach.step hrd (h1.trans h3) (reach.step hrd2 (h5.trans h9) (reach_trans h10 h12)),
        h13, h14, h15⟩

theorem init_reach (lead : Nat) (ss : List sect) (R : List Char) (hss : sects_ok ss)
    (hv : sects_val ss ≠ []) (hR : ends_token R) :
    ∃ st, reach (parse_init new_command (spaces lead ++ (sects_src ss ++ R))) st ∧
      at_token st [] (sects_val ss) R kArgument [] stage.empty := by
  have h0 := parse_init_gap (spaces lead ++ (sects_src ss ++ R))
  obtain ⟨s, ss', rfl⟩ := List.exists_cons_of_ne_nil (sects_ne_nil hv)
  obtain ⟨x, X, hcX, hc0, hcd⟩ := sects_src_head hss R
  have hrd : rd (parse_init new_command (spaces lead ++ (sects_src (s :: ss') ++ R))).buf
      (parse_init new_command (spaces lead ++ (sects_src (s :: ss') ++ R))).read_pos ≠ NUL := by
    rw [rd_rest h0.rest]
    cases lead with
    | zero =>
      simp only [spaces, List.replicate_zero, List.nil_append, hcX]
      exact hc0
    | succ n => exact space_ne_NUL
  obtain ⟨st1, h1, h2⟩ := iter_init lead _ h0 (by
    rw [hcX]; exact not_space_of_not_delim hcd)
  rw [hcX] at h2
  obtain ⟨h3, h4⟩ := as_token h2 (Or.inr rfl) hcd
  rw [← hcX] at h4
  obtain ⟨st2, st3, h5, h6, h7⟩ := token_after h3 h4 hss hv hR
  exact ⟨st3, reach.step hrd (h1.trans h5) h6, h7⟩

theorem init_reach_redirect (lead : Nat) (m : Char) (k : Nat) (ss : List sect) (R : List Char)
    (hm : m = '>' ∨ m = '<') (hss : sects_ok ss) (hv : sects_val ss ≠ []) (hR : ends_token R) :
    ∃ st, reach (parse_init new_command (spaces lead ++ m :: (spaces k ++ (sects_src ss ++ R)))) st ∧
      at_token st [] (sects_val ss) R (marker_type m) [] stage.empty := by
  have h0 := parse_init_gap (spaces lead ++ m :: (spaces k ++ (sects_src ss ++ R)))
  obtain ⟨s, ss', rfl⟩ := List.exists_cons_of_ne_nil (sects_ne_nil hv)
  obtain ⟨x, X, hcX, hc0, hcd⟩ := sects_src_head hss R
  have hm0 : m ≠ NUL ∧ m ≠ ' ' := by rcases hm with rfl | rfl <;> decide
  have hrd : rd (parse_init new_command
      (spaces lead ++ m :: (spaces k ++ (sects_src (s :: ss') ++ R)))).buf
      (parse_init new_command
        (spaces lead ++ m :: (spaces k ++ (sects_src (s :: ss') ++ R)))).read_pos ≠ NUL := by
    rw [rd_rest h0.rest]
    cases lead with
    | zero =>
      simp only [spaces, List.replicate_zero, List.nil_append]
      exact hm0.1
    | succ n => exact space_ne_NUL
  obtain ⟨st1, h1, h2⟩ := iter_init lead _ h0 (by simpa [rd] using hm0.2)
  rw [hcX] at h2
  obtain ⟨st2, h3, h4⟩ := as_redirect k h2 hm (not_space_of_not_delim hcd) hc0
  rw [← hcX] at h4
  obtain ⟨st3, st4, h5, h6, h7⟩ := token_after h3 h4 hss hv hR
  exact ⟨st4, reach.step hrd (h1.trans h5) h6, h7⟩

theorem parse_line_of_runs {s : List Char} {e : parse_error_t} {st : pstate}
    (h : runs (parse_init new_command s) (e, st)) :
    parse_line s = some (e, chain_of st) := by
  unfold parse_line
  rw [parse_of_runs h]
  rfl

/-- The code `parse` returns on a line of tokens, and the chain it leaves. -/
theorem parse_line_parts (lead trail : Nat) (ss : List sect) (ps : List (gap × List sect))
    (hss : sects_ok ss) (hv : sects_val ss ≠ []) (hps : ∀ p ∈ ps, part_ok p) :
    (parse_line (spaces lead ++ (sects_src ss ++ (parts_src ps ++ spaces trail)))).map Prod.fst =
        some (parts_result [] (stage_add stage.empty (sects_val ss) kArgument).2 kArgument
          (parts_val ps)).1 ∧
      ((parts_result [] (stage_add stage.empty (sects_val ss) kArgument).2 kArgument
          (parts_val ps)).1 ≠ kArgumentAfterRedirect →
        parse_line (spaces lead ++ (sects_src ss ++ (parts_src ps ++ spaces trail))) =
          some (parts_result [] (stage_add stage.empty (sects_val ss) kArgument).2 kArgument
            (parts_val ps))) := by
  obtain ⟨st, h1, h2⟩ := init_reach lead ss (parts_src ps ++ spaces trail) hss hv
    (ends_token_parts ps hps trail)
  obtain ⟨st1, h3, h4⟩ := line_refines trail ps h2 hv hps
  have h5 := parse_line_of_runs (runs_of_reach h1 h3)
  rw [line_result_eq] at h5 h4
  rw [stage_add_arg] at h5 h4
  simp only [ne_eq, not_true_eq_false, if_false] at h5 h4
  rw [stage_add_arg]
  refine ⟨by rw [h5]; rfl, fun hn => ?_⟩
  rw [h5, h4 hn]

theorem items_src_ch (w : List Char) : items_src (w.map item.ch) = w := by
  induction w with
  | nil => rfl
  | cons c w ih => simp [items_src, item.src, ih]

theorem items_nval_ch (w : List Char) : items_nval (w.map item.ch) = w := by
  induction w with
  | nil => rfl
  | cons c w ih => simp [items_nval, item.nval, ih]

theorem word_sects_src (w : List Char) : sects_src (word_sects w) = w := by
  simp [word_sects, sects_src, sect.src, items_src_ch]

theorem word_sects_val (w : List Char) : sects_val (word_sects w) = w := by
  simp [word_sects, sects_val, sect.val, items_nval_ch]

theorem word_sects_ok {w : List Char} (h : word w) : sects_ok (word_sects w) := by
  refine ⟨⟨by simpa using h.1, ?_⟩, by simp, trivial⟩
  intro i hi
  obtain ⟨c, hc, rfl⟩ := List.mem_map.mp hi
  exact h.2 c hc

theorem arg_parts_src (ws : List (Nat × List Char)) : parts_src (arg_parts ws) = args_src ws := by
  induction ws with
  | nil => rfl
  | cons p ws ih =>
    simp only [arg_parts, List.map_cons, parts_src, args_src, gap.src, word_sects_src]
    rw [← ih]
    rfl

theorem arg_parts_val (ws : List (Nat × List Char)) :
    parts_val (arg_parts ws) = ws.map (fun p => (gap.arg p.1, p.2)) := by
  simp [parts_val, arg_parts, word_sects_val]

theorem arg_parts_ok {ws : List (Nat × List Char)} (h : ∀ p ∈ ws, word p.2) :
    ∀ q ∈ arg_parts ws, part_ok q := by
  intro q hq
  obtain ⟨p, hp, rfl⟩ := List.mem_map.mp hq
  exact ⟨trivial, word_sects_ok (h p hp), by rw [word_sects_val]; exact (h p hp).1⟩

theorem run_parts_args : ∀ (ws : List (Nat × List Char)) (vs : List stage) (v : stage)
    (rest : List (gap × List Char)),
    run_parts vs v kArgument (ws.map (fun p => (gap.arg p.1, p.2)) ++ rest) =
      run_parts vs { v with args := v.args ++ (ws.map Prod.snd).map some } kArgument rest := by
  intro ws
  induction ws with
  | nil => intro vs v rest; simp
  | cons p ws ih =>
    intro vs v rest
    simp only [List.map_cons, List.cons_append, run_parts, ne_eq, not_true_eq_false, if_false,
      List.append_eq]
    rw [ih, stage_add_arg]
    simp

/-- Read the result of `parse_line` back as a statement on `parse`: a chain of
one stage is a state without finished stages. -/
theorem parse_line_single {s : List Char} {e : parse_error_t} {v : stage}
    (h : parse_line s = some (e, [v])) :
    ∃ st, parse new_command (some s) = some (e, st) ∧ st.done = [] ∧
      stage_of st.buf st.working_cmd = v := by
  unfold parse_line at h
  obtain ⟨r, hr, hr2⟩ := Option.map_eq_some'.mp h
  obtain ⟨e1, st⟩ := r
  simp only [Prod.mk.injEq] at hr2
  obtain ⟨rfl, h3⟩ := hr2
  refine ⟨st, hr, ?_⟩
  unfold chain_of at h3
  cases hd : st.done with
  | nil =>
    rw [hd] at h3
    simpa using h3
  | cons c cs =>
    rw [hd] at h3
    simp at h3

theorem parse_line_words (lead trail : Nat) (w : List Char) (ws : List (Nat × List Char))
    (hw : word w) (hws : ∀ p ∈ ws, word p.2) :
    parse_line (spaces lead ++ (w ++ (args_src ws ++ spaces trail))) =
      some (kParseOK, [⟨(w :: ws.map Prod.snd).map some, none, none⟩]) := by
  have h := (parse_line_parts lead trail (word_sects w) (arg_parts ws) (word_sects_ok hw)
    (by rw [word_sects_val]; exact hw.1) (arg_parts_ok hws)).2
  rw [word_sects_src, word_sects_val, arg_parts_src, arg_parts_val] at h
  have hr : parts_result [] (stage_add stage.empty w kArgument).2 kArgument
      (ws.map (fun p => (gap.arg p.1, p.2))) =
      (kParseOK, [⟨(w :: ws.map Prod.snd).map some, none, none⟩]) := by
    have := run_parts_args ws [] (stage_add stage.empty w kArgument).2 []
    rw [List.append_nil] at this
    unfold parts_result
    rw [this]
    simp [run_parts, stage_add_arg, stage.empty]
  rw [hr] at h
  exact h (by simp)

/-- C1: a line of plain words, one or more spaces apart, with any number of
spaces before and after, parses to kParseOK with a single stage (no pipe, no
redirect) whose argc is the number of words and whose argv[i] is the i-th
word. The word after `p.1 + 1` spaces is `p.2`. -/
theorem parse_plain_words (lead trail : Nat) (w : List Char) (ws : List (Nat × List Char))
    (hw : word w) (hws : ∀ p ∈ ws, word p.2) :
    ∃ st, parse new_command (some (spaces lead ++ (w ++ (args_src ws ++ spaces trail)))) =
        some (kParseOK, st) ∧
      st.done = [] ∧ st.working_cmd.in_file = none ∧ st.working_cmd.out_file = none ∧
      st.working_cmd.argc = (w :: ws.map Prod.snd).length ∧
      ∀ i, ∀ h : i < (w :: ws.map Prod.snd).length,
        cell_str st.buf (st.working_cmd.argv.getD i cell.junk) =
          some ((w :: ws.map Prod.snd).get ⟨i, h⟩) := by
  obtain ⟨st, h1, h2, h3⟩ := parse_line_single (parse_line_words lead trail w ws hw hws)
  refine ⟨st, h1, h2, ?_, ?_, ?_, ?_⟩
  · have := congrArg stage.in_file h3
    simpa [stage_of] using this
  · have := congrArg stage.out_file h3
    simpa [stage_of] using this
  · have := congrArg (fun v => v.args.length) h3
    simpa [stage_of] using this
  · intro i hi
    have h4 := congrArg (fun v => v.args.get? i) h3
    have hargc : st.working_cmd.argc = (w :: ws.map Prod.snd).length := by
      have := congrArg (fun v => v.args.length) h3
      simpa [stage_of] using this
    simp only [stage_of, List.get?_eq_getElem?, List.getElem?_map] at h4
    rw [List.getElem?_range (by omega), List.getElem?_eq_getElem hi] at h4
    simpa using h4

theorem parse_plain_words_witness :
    word "foo".toList ∧ (∀ p ∈ [(0, "bar".toList), (1, "quux".toList)], word p.2) ∧
    ∃ st, parse new_command (some (spaces 1 ++ ("foo".toList ++
        (args_src [(0, "bar".toList), (1, "quux".toList)] ++ spaces 2)))) =
        some (kParseOK, st) ∧
      st.done = [] ∧ st.working_cmd.in_file = none ∧ st.working_cmd.out_file = none ∧
      st.working_cmd.argc = ("foo".toList :: [(0, "bar".toList), (1, "quux".toList)].map Prod.snd).length ∧
      ∀ i, ∀ h : i < ("foo".toList :: [(0, "bar".toList), (1, "quux".toList)].map Prod.snd).length,
        cell_str st.buf (st.working_cmd.argv.getD i cell.junk) =
          some (("foo".toList :: [(0, "bar".toList), (1, "quux".toList)].map Prod.snd).get ⟨i, h⟩) :=
  ⟨by decide, by decide, parse_plain_words 1 2 _ _ (by decide) (by decide)⟩

theorem parts_src_append (a b : List (gap × List sect)) :
    parts_src (a ++ b) = parts_src a ++ parts_src b := by
  induction a with
  | nil => rfl
  | cons p a ih => simp [parts_src, ih, List.append_assoc]

theorem parts_val_append (a b : List (gap × List sect)) :
    parts_val (a ++ b) = parts_val a ++ parts_val b := by
  simp [parts_val]

theorem redir_parts_src (rs : List redirect) : parts_src (redir_parts rs) = redirs_src rs := by
  induction rs with
  | nil => rfl
  | cons r rs ih =>
    simp only [redir_parts, List.map_cons, parts_src, redirs_src, gap.src, word_sects_src]
    rw [← ih]
    simp [redir_parts, List.append_assoc]

theorem redir_parts_val (rs : List redirect) :
    parts_val (redir_parts rs) = rs.map (fun r => (gap.redir r.pre r.marker r.post, r.file)) := by
  simp [parts_val, redir_parts, word_sects_val]

theorem redir_parts_ok {rs : List redirect} (h : ∀ r ∈ rs, r.ok) :
    ∀ q ∈ redir_parts rs, part_ok q := by
  intro q hq
  obtain ⟨r, hr, rfl⟩ := List.mem_map.mp hq
  exact ⟨(h r hr).1, word_sects_ok (h r hr).2, by rw [word_sects_val]; exact (h r hr).2.1⟩

theorem stage_parts_src (s : stage_text) :
    s.cmd ++ parts_src (stage_parts s) = s.src := by
  simp [stage_parts, parts_src_append, arg_parts_src, redir_parts_src, stage_text.src]

theorem stage_parts_ok {s : stage_text} (h : s.ok) : ∀ q ∈ stage_parts s, part_ok q := by
  intro q hq
  rcases List.mem_append.mp hq with h1 | h1
  · exact arg_parts_ok h.2.1 q h1
  · exact redir_parts_ok h.2.2.1 q h1

theorem more_parts_src (ps : List (Nat × Nat × stage_text)) :
    parts_src (more_parts ps) = stages_src ps := by
  induction ps with
  | nil => rfl
  | cons p ps ih =>
    simp only [more_parts, parts_src, stages_src, gap.src, word_sects_src, parts_src_append]
    rw [ih, ← stage_parts_src]
    simp [List.append_assoc]

theorem more_parts_ok {ps : List (Nat × Nat × stage_text)} (h : ∀ p ∈ ps, p.2.2.ok) :
    ∀ q ∈ more_parts ps, part_ok q := by
  induction ps with
  | nil => intro q hq; simp [more_parts] at hq
  | cons p ps ih =>
    intro q hq
    have hp := h p (List.mem_cons_self _ _)
    simp only [more_parts, List.mem_cons, List.mem_append] at hq
    rcases hq with rfl | h1 | h1
    · exact ⟨trivial, word_sects_ok hp.1, by rw [word_sects_val]; exact hp.1.1⟩
    · exact stage_parts_ok hp q h1
    · exact ih (fun x hx => h x (List.mem_cons_of_mem _ hx)) q h1

theorem file_of_none {m : Char} {rs : List redirect} (h : m ∉ rs.map redirect.marker) :
    file_of m rs = none := by
  induction rs with
  | nil => rfl
  | cons r rs ih =>
    simp only [List.map_cons, List.mem_cons, not_or] at h
    simp only [file_of]
    rw [if_neg (fun hc => h.1 hc.symm), ih h.2]

theorem marker_type_out : marker_type '>' = kRedirOutput := rfl

theorem marker_type_in : marker_type '<' = kRedirInput := rfl

theorem run_parts_redirs : ∀ (rs : List redirect) (vs : List stage) (v : stage)
    (tt : parse_token_t) (rest : List (gap × List Char)), v.args ≠ [] →
    (∀ r ∈ rs, r.marker = '>' ∨ r.marker = '<') → (rs.map redirect.marker).Nodup →
    ('<' ∈ rs.map redirect.marker → v.in_file = none) →
    ('>' ∈ rs.map redirect.marker → v.out_file = none) →
    ∃ tt1, run_parts vs v tt
        (rs.map (fun r => (gap.redir r.pre r.marker r.post, r.file)) ++ rest) =
      run_parts vs ⟨v.args, (file_of '<' rs).or v.in_file, (file_of '>' rs).or v.out_file⟩
        tt1 rest := by
  intro rs
  induction rs with
  | nil =>
    intro vs v tt rest _ _ _ _ _
    exact ⟨tt, by simp [file_of]⟩
  | cons r rs ih =>
    intro vs v tt rest hargs hm hnd hin hout
    have hm' : ∀ x ∈ rs, x.marker = '>' ∨ x.marker = '<' :=
      fun x hx => hm x (List.mem_cons_of_mem _ hx)
    rw [List.map_cons, List.nodup_cons] at hnd
    rcases hm r (List.mem_cons_self _ _) with hr | hr
    · have ho : v.out_file = none := hout (by simp [hr])
      obtain ⟨tt1, h1⟩ := ih vs { v with out_file := some r.file } kRedirOutput rest hargs hm' hnd.2
        (fun h => hin (by simp [h])) (fun h => absurd h (hr ▸ hnd.1))
      refine ⟨tt1, ?_⟩
      simp only [List.map_cons, List.cons_append, run_parts, List.append_eq, hr, marker_type_out,
        stage_add, hargs, ho]
      simp only [reduceCtorEq, if_false, ne_eq, not_true_eq_false, Option.isSome_none,
        Bool.false_eq_true]
      rw [h1]
      simp [file_of, hr, file_of_none (hr ▸ hnd.1)]
    · have hi : v.in_file = none := hin (by simp [hr])
      obtain ⟨tt1, h1⟩ := ih vs { v with in_file := some r.file } kRedirInput rest hargs hm' hnd.2
        (fun h => absurd h (hr ▸ hnd.1)) (fun h => hout (by simp [h]))
      refine ⟨tt1, ?_⟩
      simp only [List.map_cons, List.cons_append, run_parts, List.append_eq, hr, marker_type_in,
        stage_add, hargs, hi]
      simp only [reduceCtorEq, if_false, if_true, ne_eq, not_true_eq_false, Option.isSome_none,
        Bool.false_eq_true]
      rw [h1]
      simp [file_of, hr, file_of_none (hr ▸ hnd.1)]

theorem run_stage (s : stage_text) (hs : s.ok) (vs : List stage)
    (rest : List (gap × List Char)) :
    ∃ tt1, run_parts vs ⟨[some s.cmd], none, none⟩ kArgument
        (parts_val (stage_parts s) ++ rest) = run_parts vs s.val tt1 rest := by
  rw [stage_parts, parts_val_append, arg_parts_val, redir_parts_val, List.append_assoc,
    run_parts_args]
  obtain ⟨tt1, h⟩ := run_parts_redirs s.redirs vs
    ⟨[some s.cmd] ++ (s.args.map Prod.snd).map some, none, none⟩ kArgument rest (by simp)
    (fun r hr => (hs.2.2.1 r hr).1) hs.2.2.2 (fun _ => rfl) (fun _ => rfl)
  refine ⟨tt1, ?_⟩
  rw [h]
  simp [stage_text.val]

theorem run_more : ∀ (ps : List (Nat × Nat × stage_text)) (vs : List stage) (v : stage)
    (tt : parse_token_t), (∀ p ∈ ps, p.2.2.ok) →
    ∃ vs1 v1 tt1, run_parts vs v tt (parts_val (more_parts ps)) = Except.ok (vs1, v1, tt1) ∧
      vs1 ++ [v1] = vs ++ v :: ps.map (fun p => p.2.2.val) := by
  intro ps
  induction ps with
  | nil =>
    intro vs v tt _
    exact ⟨vs, v, tt, rfl, by simp⟩
  | cons p ps ih =>
    intro vs v tt hok
    obtain ⟨tt1, h1⟩ := run_stage p.2.2 (hok p (List.mem_cons_self _ _)) (vs ++ [v])
      (parts_val (more_parts ps))
    obtain ⟨vs1, v1, tt2, h2, h3⟩ := ih (vs ++ [v]) p.2.2.val tt1
      (fun x hx => hok x (List.mem_cons_of_mem _ hx))
    refine ⟨vs1, v1, tt2, ?_, by simpa using h3⟩
    rw [more_parts]
    have : parts_val ((gap.pipe p.1 p.2.1, word_sects p.2.2.cmd) ::
        (stage_parts p.2.2 ++ more_parts ps)) =
        (gap.pipe p.1 p.2.1, p.2.2.cmd) :: (parts_val (stage_parts p.2.2) ++
          parts_val (more_parts ps)) := by
      simp [parts_val, word_sects_val]
    rw [this, run_parts, stage_add_arg]
    simp only [stage.empty, List.nil_append]
    rw [h1, h2]

/-- The strings of a well-formed pipeline, stage by stage. -/
theorem run_pipeline (s : stage_text) (ps : List (Nat × Nat × stage_text)) (hs : s.ok)
    (hps : ∀ p ∈ ps, p.2.2.ok) :
    ∃ vs1 v1 tt1, run_parts [] ⟨[some s.cmd], none, none⟩ kArgument
        (parts_val (stage_parts s ++ more_parts ps)) = Except.ok (vs1, v1, tt1) ∧
      vs1 ++ [v1] = (s :: ps.map (fun p => p.2.2)).map stage_text.val := by
  obtain ⟨tt1, h1⟩ := run_stage s hs [] (parts_val (more_parts ps))
  obtain ⟨vs1, v1, tt2, h2, h3⟩ := run_more ps [] s.val tt1 hps
  refine ⟨vs1, v1, tt2, ?_, by simpa using h3⟩
  rw [parts_val_append, h1, h2]

theorem parse_line_pipeline (lead trail : Nat) (s : stage_text)
    (ps : List (Nat × Nat × stage_text)) (hs : s.ok) (hps : ∀ p ∈ ps, p.2.2.ok) :
    parse_line (spaces lead ++ (s.src ++ (stages_src ps ++ spaces trail))) =
      some (kParseOK, (s :: ps.map (fun p => p.2.2)).map stage_text.val) := by
  have h := (parse_line_parts lead trail (word_sects s.cmd) (stage_parts s ++ more_parts ps)
    (word_sects_ok hs.1) (by rw [word_sects_val]; exact hs.1.1) (by
      intro q hq
      rcases List.mem_append.mp hq with h1 | h1
      · exact stage_parts_ok hs q h1
      · exact more_parts_ok hps q h1)).2
  obtain ⟨vs1, v1, tt1, h1, h2⟩ := run_pipeline s ps hs hps
  rw [word_sects_src, word_sects_val, stage_add_arg] at h
  simp only [stage.empty, List.nil_append] at h
  have hr : parts_result [] ⟨[some s.cmd], none, none⟩ kArgument
      (parts_val (stage_parts s ++ more_parts ps)) =
      (kParseOK, (s :: ps.map (fun p => p.2.2)).map stage_text.val) := by
    unfold parts_result
    rw [h1]
    simp only [h2]
  rw [hr] at h
  have hsrc : s.cmd ++ (parts_src (stage_parts s ++ more_parts ps) ++ spaces trail) =
      s.src ++ (stages_src ps ++ spaces trail) := by
    rw [parts_src_append, more_parts_src, ← stage_parts_src]
    simp [List.append_assoc]
  rw [hsrc] at h
  exact h (by simp)

/-- C3: a pipeline of n >= 1 stages, each made of plain words followed by at
most one input and one output redirect, joined by pipes with any spacing,
parses to kParseOK with a chain of exactly n stages in input order, stage k
holding the words and the redirect filenames of the k-th stage text. -/
theorem parse_pipeline (lead trail : Nat) (s : stage_text)
    (ps : List (Nat × Nat × stage_text)) (hs : s.ok) (hps : ∀ p ∈ ps, p.2.2.ok) :
    parse_line (spaces lead ++ (s.src ++ (stages_src ps ++ spaces trail))) =
        some (kParseOK, (s :: ps.map (fun p => p.2.2)).map stage_text.val) ∧
      ((s :: ps.map (fun p => p.2.2)).map stage_text.val).length = ps.length + 1 :=
  ⟨parse_line_pipeline lead trail s ps hs hps, by simp⟩

theorem parse_pipeline_witness :
    (stage_text.mk "foo".toList [] [⟨1, '<', 1, "qux".toList⟩]).ok ∧
    (∀ p ∈ [(1, 1, stage_text.mk "bar".toList [] []),
        (1, 1, stage_text.mk "baz".toList [] [⟨1, '>', 1, "quux".toList⟩])], p.2.2.ok) ∧
    parse_line "foo < qux | bar | baz > quux".toList =
      some (kParseOK, [⟨[some "foo".toList], some "qux".toList, none⟩,
        ⟨[some "bar".toList], none, none⟩, ⟨[some "baz".toList], none, some "quux".toList⟩]) :=
  ⟨by decide, by decide,
    (parse_pipeline 0 0 (stage_text.mk "foo".toList [] [⟨1, '<', 1, "qux".toList⟩])
      [(1, 1, stage_text.mk "bar".toList [] []),
        (1, 1, stage_text.mk "baz".toList [] [⟨1, '>', 1, "quux".toList⟩])]
      (by decide) (by decide)).1⟩

/-- C4: redirects parse the same whatever the spacing: a plain command word
`c`, an output redirect to `o` and an input redirect to `i`, in either order,
with any number of spaces around the markers and at the end, give kParseOK,
one stage, argc = 1, argv[0] = c, out_file = o and in_file = i. -/
theorem parse_redirects_spacing (c o i : List Char) (a b d e f : Nat)
    (hc : word c) (ho : word o) (hi : word i) :
    parse_line (c ++ (spaces a ++ '>' :: (spaces b ++ (o ++
        (spaces d ++ '<' :: (spaces e ++ (i ++ spaces f))))))) =
      some (kParseOK, [⟨[some c], some i, some o⟩]) ∧
    parse_line (c ++ (spaces a ++ '<' :: (spaces b ++ (i ++
        (spaces d ++ '>' :: (spaces e ++ (o ++ spaces f))))))) =
      some (kParseOK, [⟨[some c], some i, some o⟩]) := by
  constructor
  · have h := parse_line_pipeline 0 f ⟨c, [], [⟨a, '>', b, o⟩, ⟨d, '<', e, i⟩]⟩ []
      ⟨hc, by simp, by simp [redirect.ok, ho, hi], by simp⟩ (by simp)
    simpa [spaces, stage_text.src, stage_text.val, args_src, redirs_src, stages_src, file_of]
      using h
  · have h := parse_line_pipeline 0 f ⟨c, [], [⟨a, '<', b, i⟩, ⟨d, '>', e, o⟩]⟩ []
      ⟨hc, by simp, by simp [redirect.ok, ho, hi], by simp⟩ (by simp)
    simpa [spaces, stage_text.src, stage_text.val, args_src, redirs_src, stages_src, file_of]
      using h

theorem parse_redirects_spacing_witness :
    word "foo".toList ∧ word "bar".toList ∧ word "baz".toList ∧
    (parse_line ("foo".toList ++ (spaces 2 ++ '>' :: (spaces 2 ++ ("bar".toList ++
        (spaces 2 ++ '<' :: (spaces 3 ++ ("baz".toList ++ spaces 2))))))) =
      some (kParseOK, [⟨[some "foo".toList], some "baz".toList, some "bar".toList⟩]) ∧
    parse_line ("foo".toList ++ (spaces 2 ++ '<' :: (spaces 2 ++ ("baz".toList ++
        (spaces 2 ++ '>' :: (spaces 3 ++ ("bar".toList ++ spaces 2))))))) =
      some (kParseOK, [⟨[some "foo".toList], some "baz".toList, some "bar".toList⟩])) :=
  ⟨by decide, by decide, by decide,
    parse_redirects_spacing "foo".toList "bar".toList "baz".toList 2 2 2 3 2
      (by decide) (by decide) (by decide)⟩

theorem items_src_append (a b : List item) : items_src (a ++ b) = items_src a ++ items_src b := by
  induction a with
  | nil => rfl
  | cons i a ih => simp [items_src, ih]

theorem items_nval_append (a b : List item) :
    items_nval (a ++ b) = items_nval a ++ items_nval b := by
  induction a with
  | nil => rfl
  | cons i a ih => simp [items_nval, ih]

theorem items_qval_append (q : Char) (a b : List item) :
    items_qval q (a ++ b) = items_qval q a ++ items_qval q b := by
  induction a with
  | nil => rfl
  | cons i a ih => simp [items_qval, ih]

theorem items_qval_ch (q : Char) (w : List Char) : items_qval q (w.map item.ch) = w := by
  induction w with
  | nil => rfl
  | cons c w ih => simp [items_qval, item.qval, ih]

theorem nok_ch {w : List Char} (h : ∀ c ∈ w, plain c) : ∀ i ∈ w.map item.ch, item.nok i := by
  intro i hi
  obtain ⟨c, hc, rfl⟩ := List.mem_map.mp hi
  exact h c hc

theorem qok_ch {q : Char} {w : List Char} (h : ∀ c ∈ w, c ≠ NUL ∧ c ≠ q ∧ c ≠ BSL) :
    ∀ i ∈ w.map item.ch, item.qok q i := by
  intro i hi
  obtain ⟨c, hc, rfl⟩ := List.mem_map.mp hi
  exact h c hc

/-- Adjacent segments are a token: adjacent runs merge and empty runs drop. -/
theorem segs_sects : ∀ (segs : List segment), (∀ s ∈ segs, s.ok) →
    ∃ ss, sects_ok ss ∧ sects_src ss = segs_src segs ∧ sects_val ss = segs_val segs := by
  intro segs
  induction segs with
  | nil => intro _; exact ⟨[], trivial, rfl, rfl⟩
  | cons s segs ih =>
    intro hok
    obtain ⟨ss, h1, h2, h3⟩ := ih (fun x hx => hok x (List.mem_cons_of_mem _ hx))
    have hs := hok s (List.mem_cons_self _ _)
    cases s with
    | bare w =>
      by_cases hw : w = []
      · subst hw
        exact ⟨ss, h1, by simpa [segs_src, segment.src] using h2,
          by simpa [segs_val, segment.val] using h3⟩
      · have hwm : w.map item.ch ≠ [] := by simpa using hw
        cases ss with
        | nil =>
          refine ⟨[sect.run (w.map item.ch)], ⟨⟨hwm, nok_ch hs⟩, by simp, trivial⟩, ?_, ?_⟩
          · simp [sects_src, sect.src, items_src_ch, segs_src, segment.src, ← h2]
          · simp [sects_val, sect.val, items_nval_ch, segs_val, segment.val, ← h3]
        | cons t ts =>
          cases t with
          | run its =>
            refine ⟨sect.run (w.map item.ch ++ its) :: ts, ⟨⟨by simp [hw], ?_⟩, h1.2.1, h1.2.2⟩,
              ?_, ?_⟩
            · intro i hi
              rcases List.mem_append.mp hi with h4 | h4
              · exact nok_ch hs i h4
              · exact h1.1.2 i h4
            · simp [sects_src, sect.src, items_src_append, items_src_ch, segs_src, segment.src,
                ← h2]
            · simp [sects_val, sect.val, items_nval_append, items_nval_ch, segs_val,
                segment.val, ← h3]
          | quo q its =>
            refine ⟨sect.run (w.map item.ch) :: sect.quo q its :: ts,
              ⟨⟨hwm, nok_ch hs⟩, by simp [sect.is_run], h1⟩, ?_, ?_⟩
            · simp [sects_src, sect.src, items_src_ch, segs_src, segment.src, ← h2]
            · simp [sects_val, sect.val, items_nval_ch, segs_val, segment.val, ← h3]
    | quoted q body =>
      refine ⟨sect.quo q (body.map item.ch) :: ss, ⟨⟨hs.1, qok_ch hs.2⟩, by simp [sect.is_run], h1⟩,
        ?_, ?_⟩
      · simp [sects_src, sect.src, items_src_ch, segs_src, segment.src, ← h2]
      · simp [sects_val, sect.val, items_qval_ch, segs_val, segment.val, ← h3]

/-- C6: in a section quoted by `q` the two characters backslash, `c` (`c` not
NUL) contribute `c` alone when `c` is a backslash or `q`, and backslash followed
by `c` otherwise; an escaped `q` does not close the section: the line `q`, `u`,
backslash, `c`, `v`, `q` is one argument. -/
theorem parse_quoted_escape (q : Char) (u v : List Char) (c : Char) (hq : q = DQ ∨ q = SQ)
    (hu : ∀ x ∈ u, x ≠ NUL ∧ x ≠ q ∧ x ≠ BSL) (hv : ∀ x ∈ v, x ≠ NUL ∧ x ≠ q ∧ x ≠ BSL)
    (hc : c ≠ NUL) :
    parse_line (q :: (u ++ BSL :: c :: (v ++ [q]))) =
      some (kParseOK, [⟨[some (u ++ (quoted_escape_val q c ++ v))], none, none⟩]) := by
  have hok : sects_ok [sect.quo q (u.map item.ch ++ item.esc c :: v.map item.ch)] := by
    refine ⟨⟨hq, ?_⟩, by simp [sect.is_run], trivial⟩
    intro i hi
    rcases List.mem_append.mp hi with h | h
    · exact qok_ch hu i h
    · rcases List.mem_cons.mp h with rfl | h
      · exact hc
      · exact qok_ch hv i h
  have hval : sects_val [sect.quo q (u.map item.ch ++ item.esc c :: v.map item.ch)] =
      u ++ (quoted_escape_val q c ++ v) := by
    simp [sects_val, sect.val, items_qval_append, items_qval_ch, items_qval, item.qval,
      quoted_escape_val]
  have hsrc : sects_src [sect.quo q (u.map item.ch ++ item.esc c :: v.map item.ch)] =
      q :: (u ++ BSL :: c :: (v ++ [q])) := by
    simp [sects_src, sect.src, items_src_append, items_src_ch, items_src, item.src]
  have hne : sects_val [sect.quo q (u.map item.ch ++ item.esc c :: v.map item.ch)] ≠ [] := by
    rw [hval]
    unfold quoted_escape_val
    split_ifs <;> simp
  have h := (parse_line_parts 0 0 _ [] hok hne (by simp)).2
  simp only [parts_val, List.map_nil, parts_result, run_parts, stage_add_arg, stage.empty,
    hval, hsrc] at h
  simpa [spaces, parts_src] using h

theorem parse_quoted_escape_witness :
    (DQ = DQ ∨ DQ = SQ) ∧ (∀ x ∈ "b".toList, x ≠ NUL ∧ x ≠ DQ ∧ x ≠ BSL) ∧
    (∀ x ∈ "r".toList, x ≠ NUL ∧ x ≠ DQ ∧ x ≠ BSL) ∧ 'a' ≠ NUL ∧
    parse_line (DQ :: ("b".toList ++ BSL :: 'a' :: ("r".toList ++ [DQ]))) =
      some (kParseOK, [⟨[some ("b".toList ++ (quoted_escape_val DQ 'a' ++ "r".toList))],
        none, none⟩]) :=
  ⟨by decide, by decide, by decide, by decide,
    parse_quoted_escape DQ "b".toList "r".toList 'a' (by decide) (by decide) (by decide)
      (by decide)⟩

theorem plain_not_delim {c : Char} (h : plain c) : c ≠ NUL ∧ ¬ is_delim c := by
  obtain ⟨h0, h1, _, _, h4, h5, h6, _⟩ := h
  refine ⟨h0, ?_⟩
  unfold is_delim
  tauto

theorem marker_type_ne {m : Char} : marker_type m ≠ kArgument := by
  unfold marker_type
  split_ifs <;> simp

/-- A pending redirect filename of a stage without arguments ends the parse
with kNoArgs at the next delimiter or at the end of the input. -/
theorem runs_no_args {st : pstate} {T cur R : List Char} {m : Char} {vs : List stage}
    (h : at_token st T cur R (marker_type m) vs stage.empty) (hc : cur ≠ [])
    (hR : R = [] ∨ is_delim (rd (R ++ [NUL]) 0)) :
    ∃ st1, runs st (kNoArgs, st1) := by
  have hadd : (stage_add stage.empty cur (marker_type m)).1 = kNoArgs := by
    simp [stage_add, marker_type_ne, stage.empty]
  rcases hR with rfl | hd
  · obtain ⟨st1, h1, _⟩ := runs_end 0 h hc
    rw [hadd] at h1
    exact ⟨st1, h1⟩
  · have hrd : rd st.buf st.read_pos ≠ NUL := by
      rw [rd_rest h.rest]
      intro h0
      rw [h0] at hd
      revert hd
      decide
    obtain ⟨st1, h1, _⟩ := iter_gap_err h hc hd (by rw [hadd]; simp)
    rw [hadd] at h1
    exact ⟨st1, runs_ret hrd h1⟩

/-- C8: an argument after a redirect is rejected: after a plain command word
`c` and a redirect with marker `m` to the plain word `f`, one or more spaces
and then any character `x` that is none of NUL, space, the redirect markers
and the pipe make `parse` return kArgumentAfterRedirect, whatever follows
`x`. -/
theorem parse_argument_after_redirect (c f : List Char) (m x : Char) (a b n : Nat)
    (r : List Char) (hc : word c) (hf : word f) (hm : m = '>' ∨ m = '<') (h0 : x ≠ NUL)
    (h1 : x ≠ ' ') (h2 : x ≠ '<') (h3 : x ≠ '>') (h4 : x ≠ '|') :
    (parse_line (c ++ (spaces a ++ m :: (spaces b ++ (f ++ (spaces (n + 1) ++ x :: r)))))).map
      Prod.fst = some kArgumentAfterRedirect := by
  have hps : ∀ p ∈ [(gap.redir a m b, word_sects f)], part_ok p := by
    simp [part_ok, gap.ok, hm, word_sects_ok hf, word_sects_val, hf.1]
  have hends : ends_token (spaces (n + 1) ++ x :: r) := Or.inr (Or.inl rfl)
  obtain ⟨st, h5, h6⟩ := init_reach 0 (word_sects c)
    (parts_src [(gap.redir a m b, word_sects f)] ++ (spaces (n + 1) ++ x :: r))
    (word_sects_ok hc) (by rw [word_sects_val]; exact hc.1) (by
      right
      have := gap_src_head (gap.redir a m b) hm (f ++ (spaces (n + 1) ++ x :: r))
      simpa [parts_src, word_sects_src, List.append_assoc] using this)
  rw [word_sects_val] at h6
  have hrun : run_parts [] ⟨[some c], none, none⟩ kArgument
      (parts_val [(gap.redir a m b, word_sects f)]) =
      Except.ok ([], (stage_add ⟨[some c], none, none⟩ f (marker_type m)).2, marker_type m) := by
    rcases hm with rfl | rfl <;>
      simp [parts_val, run_parts, word_sects_val, stage_add, marker_type]
  obtain ⟨st1, T1, v1, cur1, h7, h8, h9, h10⟩ := line_reach _ _ h6 hc.1 hps hends
    (by rw [stage_add_arg]; rfl) hrun
  have hrd : rd st1.buf st1.read_pos ≠ NUL := by
    rw [rd_rest h8.rest]
    exact space_ne_NUL
  obtain ⟨st2, h11, h12⟩ := iter_gap (n + 1) (x :: r) h8 h9 (Or.inl rfl)
    (by simpa [rd] using h1) (by rw [h10])
  have h13 := as_after_redirect h12 marker_type_ne h0 h2 h3 h4
  have h14 := parse_line_of_runs (runs_of_reach h5 (runs_of_reach h7 (runs_ret hrd (h11.trans h13))))
  simp only [spaces, List.replicate_zero, List.nil_append, word_sects_src, parts_src, gap.src,
    List.append_assoc, List.cons_append, List.append_nil] at h14
  simp only [spaces]
  rw [h14]
  rfl

theorem parse_argument_after_redirect_witness :
    word "foo".toList ∧ word "bar".toList ∧ (('>' : Char) = '>' ∨ ('>' : Char) = '<') ∧
    'a' ≠ NUL ∧ 'a' ≠ ' ' ∧ 'a' ≠ '<' ∧ 'a' ≠ '>' ∧ 'a' ≠ '|' ∧
    (parse_line ("foo".toList ++ (spaces 1 ++ '>' :: (spaces 0 ++ ("bar".toList ++
      (spaces (0 + 1) ++ 'a' :: "rg <baz".toList)))))).map Prod.fst =
      some kArgumentAfterRedirect :=
  ⟨by decide, by decide, by decide, by decide, by decide, by decide, by decide, by decide,
    parse_argument_after_redirect "foo".toList "bar".toList '>' 'a' 1 0 0 "rg <baz".toList
      (by decide) (by decide) (by decide) (by decide) (by decide) (by decide) (by decide)
      (by decide)⟩

theorem file_of_some {m : Char} {rs : List redirect} (h : m ∈ rs.map redirect.marker) :
    (file_of m rs).isSome = true := by
  induction rs with
  | nil => simp at h
  | cons r rs ih =>
    simp only [file_of]
    by_cases hr : r.marker = m
    · simp [hr]
    · rw [if_neg hr]
      apply ih
      simp only [List.map_cons, List.mem_cons] at h
      rcases h with h | h
      · exact absurd h.symm hr
      · exact h

theorem parse_line_repeated (l t : Nat) (s : stage_text) (r2 : redirect) (rs3 : List redirect)
    (hs : s.ok) (hr2 : r2.ok) (hrs3 : ∀ r ∈ rs3, r.ok)
    (hrep : r2.marker ∈ s.redirs.map redirect.marker) :
    parse_line (spaces l ++ (s.src ++ (redirs_src (r2 :: rs3) ++ spaces t))) =
      some (kRepeatedRedirect, [s.val]) := by
  have hps : ∀ p ∈ stage_parts s ++ redir_parts (r2 :: rs3), part_ok p := by
    intro q hq
    rcases List.mem_append.mp hq with h1 | h1
    · exact stage_parts_ok hs q h1
    · exact redir_parts_ok (by
        intro r hr
        rcases List.mem_cons.mp hr with rfl | h
        · exact hr2
        · exact hrs3 r h) q h1
  have h := (parse_line_parts l t (word_sects s.cmd) (stage_parts s ++ redir_parts (r2 :: rs3))
    (word_sects_ok hs.1) (by rw [word_sects_val]; exact hs.1.1) hps).2
  rw [word_sects_src, word_sects_val, stage_add_arg] at h
  simp only [stage.empty, List.nil_append] at h
  obtain ⟨tt1, h1⟩ := run_stage s hs [] (parts_val (redir_parts (r2 :: rs3)))
  have hsome := file_of_some hrep
  have hr : parts_result [] ⟨[some s.cmd], none, none⟩ kArgument
      (parts_val (stage_parts s ++ redir_parts (r2 :: rs3))) =
      (kRepeatedRedirect, [s.val]) := by
    unfold parts_result
    rw [parts_val_append, h1, redir_parts_val, List.map_cons, run_parts]
    rcases hr2.1 with hm | hm
    · rw [hm] at hsome
      simp [hm, marker_type, stage_add, stage_text.val, hsome]
    · rw [hm] at hsome
      simp [hm, marker_type, stage_add, stage_text.val, hsome]
  rw [hr] at h
  have hsrc : s.cmd ++ (parts_src (stage_parts s ++ redir_parts (r2 :: rs3)) ++ spaces t) =
      s.src ++ (redirs_src (r2 :: rs3) ++ spaces t) := by
    rw [parts_src_append, redir_parts_src, ← stage_parts_src]
    simp [List.append_assoc]
  rw [hsrc] at h
  exact h (by simp)

/-- C9: a second redirect of a kind the stage already has makes `parse` return
kRepeatedRedirect, whatever redirects come between or after, and the stage
keeps the filenames of the first occurrences; the same kind of redirect in two
different stages of a pipeline is not an error. -/
theorem parse_repeated_redirect (l t : Nat) (s : stage_text) (r2 : redirect)
    (rs3 : List redirect) (ps : List (Nat × Nat × stage_text))
    (hs : s.ok) (hr2 : r2.ok) (hrs3 : ∀ r ∈ rs3, r.ok)
    (hrep : r2.marker ∈ s.redirs.map redirect.marker) (hps : ∀ p ∈ ps, p.2.2.ok) :
    parse_line (spaces l ++ (s.src ++ (redirs_src (r2 :: rs3) ++ spaces t))) =
        some (kRepeatedRedirect, [s.val]) ∧
      s.val.in_file = file_of '<' s.redirs ∧ s.val.out_file = file_of '>' s.redirs ∧
      parse_line (spaces l ++ (s.src ++ (stages_src ps ++ spaces t))) =
        some (kParseOK, (s :: ps.map (fun p => p.2.2)).map stage_text.val) :=
  ⟨parse_line_repeated l t s r2 rs3 hs hr2 hrs3 hrep, rfl, rfl,
    parse_line_pipeline l t s ps hs hps⟩

theorem parse_repeated_redirect_witness :
    (stage_text.mk "foo".toList [] [⟨1, '>', 0, "bar".toList⟩, ⟨1, '<', 0, "baz".toList⟩]).ok ∧
    (redirect.mk 1 '>' 0 "qux".toList).ok ∧ (∀ r ∈ ([] : List redirect), r.ok) ∧
    '>' ∈ (stage_text.mk "foo".toList []
      [⟨1, '>', 0, "bar".toList⟩, ⟨1, '<', 0, "baz".toList⟩]).redirs.map redirect.marker ∧
    (∀ p ∈ [(1, 1, stage_text.mk "cat".toList [] [⟨1, '>', 0, "out".toList⟩])], p.2.2.ok) ∧
    parse_line "foo >bar <baz >qux".toList =
      some (kRepeatedRedirect, [⟨[some "foo".toList], some "baz".toList, some "bar".toList⟩]) ∧
    parse_line "foo >bar <baz | cat >out".toList =
      some (kParseOK, [⟨[some "foo".toList], some "baz".toList, some "bar".toList⟩,
        ⟨[some "cat".toList], none, some "out".toList⟩]) :=
  ⟨by decide, by decide, by decide, by decide, by decide,
    (parse_repeated_redirect 0 0
      (stage_text.mk "foo".toList [] [⟨1, '>', 0, "bar".toList⟩, ⟨1, '<', 0, "baz".toList⟩])
      (redirect.mk 1 '>' 0 "qux".toList) []
      [(1, 1, stage_text.mk "cat".toList [] [⟨1, '>', 0, "out".toList⟩])]
      (by decide) (by decide) (by decide) (by decide) (by decide)).1,
    (parse_repeated_redirect 0 0
      (stage_text.mk "foo".toList [] [⟨1, '>', 0, "bar".toList⟩, ⟨1, '<', 0, "baz".toList⟩])
      (redirect.mk 1 '>' 0 "qux".toList) []
      [(1, 1, stage_text.mk "cat".toList [] [⟨1, '>', 0, "out".toList⟩])]
      (by decide) (by decide) (by decide) (by decide) (by decide)).2.2.2⟩

theorem reach_redirect_token {j : Nat} {st : pstate} {T R : List Char} {m : Char} (k : Nat)
    {tt : parse_token_t} {vs : List stage} {v : stage} (ss : List sect)
    (h : at_gap j st T (m :: (spaces k ++ (sects_src ss ++ R))) tt vs v)
    (hm : m = '>' ∨ m = '<') (hss : sects_ok ss) (hv : sects_val ss ≠ []) (hR : ends_token R) :
    ∃ st1, reach st st1 ∧ at_token st1 T (sects_val ss) R (marker_type m) vs v := by
  obtain ⟨s, ss', rfl⟩ := List.exists_cons_of_ne_nil (sects_ne_nil hv)
  obtain ⟨x, X, hcX, hc0, hcd⟩ := sects_src_head hss R
  have hm0 : m ≠ NUL ∧ m ≠ ' ' := by rcases hm with rfl | rfl <;> decide
  have hrd : rd st.buf st.read_pos ≠ NUL := by
    rw [rd_rest h.rest]
    exact hm0.1
  have h' : at_gap j st T (spaces 0 ++ m :: (spaces k ++ (sects_src (s :: ss') ++ R)))
      tt vs v := by simpa [spaces] using h
  obtain ⟨st1, h1, h2⟩ := iter_init 0 _ h' (by simpa [rd] using hm0.2)
  rw [hcX] at h2
  obtain ⟨st2, h3, h4⟩ := as_redirect k h2 hm (not_space_of_not_delim hcd) hc0
  rw [← hcX] at h4
  obtain ⟨st3, st4, h5, h6, h7⟩ := token_after h3 h4 hss hv hR
  exact ⟨st4, reach.step hrd (h1.trans h5) h6, h7⟩

theorem ends_token_of {r : List Char}
    (hr : r = [] ∨ ∃ d r1, r = d :: r1 ∧ (d = ' ' ∨ d = '<' ∨ d = '>' ∨ d = '|')) :
    ends_token r ∧ (r = [] ∨ is_delim (rd (r ++ [NUL]) 0)) := by
  rcases hr with rfl | ⟨d, r1, rfl, hd⟩
  · exact ⟨Or.inl rfl, Or.inl rfl⟩
  · exact ⟨Or.inr hd, Or.inr hd⟩

/-- C10: a redirect before any argument of its stage is rejected with kNoArgs:
at the start of the line, after any spaces, and in the stage that follows a
pipe, whatever well-formed pipeline comes before. The remainder `r` after the
filename is empty or starts with a space, a redirect marker or a pipe. -/
theorem parse_redirect_without_command (l k a b t : Nat) (m : Char) (f r : List Char)
    (s : stage_text) (ps : List (Nat × Nat × stage_text)) (hm : m = '>' ∨ m = '<')
    (hf : word f)
    (hr : r = [] ∨ ∃ d r1, r = d :: r1 ∧ (d = ' ' ∨ d = '<' ∨ d = '>' ∨ d = '|'))
    (hs : s.ok) (hps : ∀ p ∈ ps, p.2.2.ok) :
    (parse_line (spaces l ++ m :: (spaces k ++ (f ++ r)))).map Prod.fst = some kNoArgs ∧
    (parse_line (spaces t ++ (s.src ++ (stages_src ps ++
      (spaces a ++ '|' :: (spaces b ++ m :: (spaces k ++ (f ++ r)))))))).map Prod.fst =
        some kNoArgs := by
  obtain ⟨he, hd⟩ := ends_token_of hr
  have hfs := word_sects_ok hf
  have hfv : sects_val (word_sects f) ≠ [] := by rw [word_sects_val]; exact hf.1
  have hm0 : m ≠ NUL ∧ m ≠ ' ' := by rcases hm with rfl | rfl <;> decide
  constructor
  · obtain ⟨st, h1, h2⟩ := init_reach_redirect l m k (word_sects f) r hm hfs hfv he
    obtain ⟨st1, h3⟩ := runs_no_args h2 hfv hd
    have h4 := parse_line_of_runs (runs_of_reach h1 h3)
    rw [word_sects_src] at h4
    rw [h4]
    rfl
  · have hall : ∀ q ∈ stage_parts s ++ more_parts ps, part_ok q := by
      intro q hq
      rcases List.mem_append.mp hq with h1 | h1
      · exact stage_parts_ok hs q h1
      · exact more_parts_ok hps q h1
    have hends : ends_token (spaces a ++ '|' :: (spaces b ++ m :: (spaces k ++ (f ++ r)))) := by
      right
      have := rd_spaces_delim a ('|' :: (spaces b ++ m :: (spaces k ++ (f ++ r))))
        (Or.inr (Or.inr (Or.inr (Or.inr rfl))))
      simpa [List.append_assoc] using this
    obtain ⟨st, h1, h2⟩ := init_reach t (word_sects s.cmd)
      (parts_src (stage_parts s ++ more_parts ps) ++
        (spaces a ++ '|' :: (spaces b ++ m :: (spaces k ++ (f ++ r)))))
      (word_sects_ok hs.1) (by rw [word_sects_val]; exact hs.1.1) (by
        cases hp : stage_parts s ++ more_parts ps with
        | nil => simpa [parts_src] using hends
        | cons q qs =>
          right
          have := gap_src_head q.1 (hall q (by rw [hp]; exact List.mem_cons_self _ _)).1
            (sects_src q.2 ++ parts_src qs ++
              (spaces a ++ '|' :: (spaces b ++ m :: (spaces k ++ (f ++ r)))))
          simpa [parts_src, List.append_assoc] using this)
    rw [word_sects_val] at h2
    obtain ⟨vs1, v1, tt1, h3, _⟩ := run_pipeline s ps hs hps
    obtain ⟨st1, T1, w1, cur1, h4, h5, h6, h7⟩ := line_reach _ _ h2 hs.1.1 hall hends
      (by rw [stage_add_arg]; rfl) h3
    have hrd : rd st1.buf st1.read_pos ≠ NUL := by
      rw [rd_rest h5.rest]
      intro h0
      have hd2 : is_delim (rd (spaces a ++ '|' :: (spaces b ++ m :: (spaces k ++ (f ++ r)))
          ++ [NUL]) 0) := by
        have := rd_spaces_delim a ('|' :: (spaces b ++ m :: (spaces k ++ (f ++ r))))
          (Or.inr (Or.inr (Or.inr (Or.inr rfl))))
        simpa [List.append_assoc] using this
      rw [h0] at hd2
      revert hd2
      decide
    obtain ⟨st2, h8, h9⟩ := iter_gap a _ h5 h6 (by
      have := rd_spaces_delim a ('|' :: (spaces b ++ m :: (spaces k ++ (f ++ r))))
        (Or.inr (Or.inr (Or.inr (Or.inr rfl))))
      simpa [List.append_assoc] using this) (by simp [rd]) (by rw [h7])
    obtain ⟨st3, h10, h11⟩ := as_pipe b h9 hm0.2 hm0.1
    rw [← word_sects_src f] at h11
    obtain ⟨st4, h12, h13⟩ := reach_redirect_token k (word_sects f) h11 hm hfs hfv he
    obtain ⟨st5, h14⟩ := runs_no_args h13 hfv hd
    have h15 := parse_line_of_runs (runs_of_reach h1 (runs_of_reach h4
      (runs_step hrd (h8.trans h10) (runs_of_reach h12 h14))))
    have hsrc : spaces t ++ (sects_src (word_sects s.cmd) ++
        (parts_src (stage_parts s ++ more_parts ps) ++
          (spaces a ++ '|' :: (spaces b ++ m :: (spaces k ++ (f ++ r)))))) =
        spaces t ++ (s.src ++ (stages_src ps ++
          (spaces a ++ '|' :: (spaces b ++ m :: (spaces k ++ (f ++ r)))))) := by
      rw [word_sects_src, parts_src_append, more_parts_src, ← stage_parts_src]
      simp [List.append_assoc]
    rw [hsrc] at h15
    rw [h15]
    rfl

theorem parse_redirect_without_command_witness :
    (('>' : Char) = '>' ∨ ('>' : Char) = '<') ∧ word "foo".toList ∧
    (([] : List Char) = [] ∨
      ∃ d r1, ([] : List Char) = d :: r1 ∧ (d = ' ' ∨ d = '<' ∨ d = '>' ∨ d = '|')) ∧
    (stage_text.mk "a".toList [] []).ok ∧
    (∀ p ∈ ([] : List (Nat × Nat × stage_text)), p.2.2.ok) ∧
    (parse_line ">foo".toList).map Prod.fst = some kNoArgs ∧
    (parse_line "a | >foo".toList).map Prod.fst = some kNoArgs :=
  ⟨by decide, by decide, Or.inl rfl, by decide, by decide,
    (parse_redirect_without_command 0 0 1 1 0 '>' "foo".toList [] (stage_text.mk "a".toList [] [])
      [] (by decide) (by decide) (Or.inl rfl) (by decide) (by decide)).1,
    (parse_redirect_without_command 0 0 1 1 0 '>' "foo".toList [] (stage_text.mk "a".toList [] [])
      [] (by decide) (by decide) (Or.inl rfl) (by decide) (by decide)).2⟩

theorem args_src_append (a b : List (Nat × List Char)) :
    args_src (a ++ b) = args_src a ++ args_src b := by
  induction a with
  | nil => rfl
  | cons p a ih => simp [args_src, ih, List.append_assoc]

theorem spaces_snoc (n : Nat) : spaces n ++ [' '] = spaces (n + 1) := by
  simp [spaces, List.replicate_succ']

/-- A string of plain characters and spaces is a run of spaces and a run of
plain characters, with words one or more spaces apart in between. -/
theorem spaced_split (p : List Char) (hp : ∀ c ∈ p, plain c ∨ c = ' ') :
    (∃ l w, p = spaces l ++ w ∧ ∀ c ∈ w, plain c) ∨
    (∃ l w1 args n w, p = spaces l ++ (w1 ++ (args_src args ++ (spaces (n + 1) ++ w))) ∧
      word w1 ∧ (∀ a ∈ args, word a.2) ∧ ∀ c ∈ w, plain c) := by
  induction p using List.reverseRecOn with
  | nil => exact Or.inl ⟨0, [], rfl, by simp⟩
  | append_singleton p c ih =>
    have hc := hp c (by simp)
    rcases ih (fun x hx => hp x (by simp [hx])) with ⟨l, w, rfl, hw⟩ | ⟨l, w1, args, n, w, rfl, hw1, hargs, hw⟩
    · rcases hc with hc | rfl
      · left
        refine ⟨l, w ++ [c], by simp, ?_⟩
        intro x hx
        rcases List.mem_append.mp hx with h | h
        · exact hw x h
        · simp at h; rw [h]; exact hc
      · by_cases hwe : w = []
        · subst hwe
          left
          exact ⟨l + 1, [], by simp [spaces_snoc], by simp⟩
        · right
          exact ⟨l, w, [], 0, [], by simp [args_src, spaces], ⟨hwe, hw⟩, by simp, by simp⟩
    · rcases hc with hc | rfl
      · right
        refine ⟨l, w1, args, n, w ++ [c], by simp, hw1, hargs, ?_⟩
        intro x hx
        rcases List.mem_append.mp hx with h | h
        · exact hw x h
        · simp at h; rw [h]; exact hc
      · by_cases hwe : w = []
        · subst hwe
          right
          refine ⟨l, w1, args, n + 1, [], ?_, hw1, hargs, by simp⟩
          simp only [List.append_nil, List.append_assoc]
          rw [spaces_snoc]
        · right
          refine ⟨l, w1, args ++ [(n, w)], 0, [], ?_, hw1, ?_, by simp⟩
          · simp [args_src_append, args_src, spaces, List.append_assoc]
          · intro x hx
            rcases List.mem_append.mp hx with h | h
            · exact hargs x h
            · simp at h; rw [h]; exact ⟨hwe, hw⟩

theorem plain_run_head {w : List Char} (hw : ∀ c ∈ w, plain c) {x : Char} (X : List Char)
    (hx0 : x ≠ NUL) (hxd : ¬ is_delim x) :
    ∃ c Y, w ++ x :: X = c :: Y ∧ c ≠ NUL ∧ ¬ is_delim c := by
  cases w with
  | nil => exact ⟨x, X, rfl, hx0, hxd⟩
  | cons c w =>
    obtain ⟨h0, h1⟩ := plain_not_delim (hw c (List.mem_cons_self _ _))
    exact ⟨c, w ++ x :: X, rfl, h0, h1⟩

/-- After a prefix of plain characters and spaces comes the pass that copies
the last, unfinished word `w` of the prefix and what follows it. -/
theorem prefix_state (p X : List Char) (x : Char) (hp : ∀ c ∈ p, plain c ∨ c = ' ')
    (hx0 : x ≠ NUL) (hxd : ¬ is_delim x) :
    ∃ w st0 st T v, (∀ c ∈ w, plain c) ∧
      reach (parse_init new_command (p ++ x :: X)) st0 ∧ rd st0.buf st0.read_pos ≠ NUL ∧
      parse_iter st0 = copy_section st ∧ at_token st T [] (w ++ x :: X) kArgument [] v := by
  rcases spaced_split p hp with ⟨l, w, rfl, hw⟩ | ⟨l, w1, args, n, w, rfl, hw1, hargs, hw⟩
  · obtain ⟨c, Y, hcY, hc0, hcd⟩ := plain_run_head hw X hx0 hxd
    have h0 := parse_init_gap (spaces l ++ (w ++ x :: X))
    have hrd : rd (parse_init new_command (spaces l ++ (w ++ x :: X))).buf
        (parse_init new_command (spaces l ++ (w ++ x :: X))).read_pos ≠ NUL := by
      rw [rd_rest h0.rest]
      cases l with
      | zero =>
        simp only [spaces, List.replicate_zero, List.nil_append, hcY]
        exact hc0
      | succ n => exact space_ne_NUL
    obtain ⟨st1, h1, h2⟩ := iter_init l _ h0 (by
      rw [hcY]; exact not_space_of_not_delim hcd)
    rw [hcY] at h2
    obtain ⟨h3, h4⟩ := as_token h2 (Or.inr rfl) hcd
    rw [← hcY] at h4
    refine ⟨w, _, _, _, _, hw, ?_, hrd, h1.trans h3, h4⟩
    rw [List.append_assoc]
    exact reach.refl _
  · obtain ⟨c, Y, hcY, hc0, hcd⟩ := plain_run_head hw X hx0 hxd
    have hends : ends_token (spaces (n + 1) ++ (w ++ x :: X)) := Or.inr (Or.inl rfl)
    obtain ⟨st, h1, h2⟩ := init_reach l (word_sects w1)
      (parts_src (arg_parts args) ++ (spaces (n + 1) ++ (w ++ x :: X)))
      (word_sects_ok hw1) (by rw [word_sects_val]; exact hw1.1) (by
        cases hp2 : arg_parts args with
        | nil => simpa [parts_src] using hends
        | cons q qs =>
          right
          have := gap_src_head q.1
            (arg_parts_ok hargs q (by rw [hp2]; exact List.mem_cons_self _ _)).1
            (sects_src q.2 ++ parts_src qs ++ (spaces (n + 1) ++ (w ++ x :: X)))
          simpa [parts_src, List.append_assoc] using this)
    rw [word_sects_val] at h2
    have hrun : run_parts [] ⟨[some w1], none, none⟩ kArgument (parts_val (arg_parts args)) =
        Except.ok ([], ⟨[some w1] ++ (args.map Prod.snd).map some, none, none⟩, kArgument) := by
      have := run_parts_args args [] ⟨[some w1], none, none⟩ []
      rw [List.append_nil] at this
      rw [arg_parts_val, this]
      rfl
    obtain ⟨st1, T1, v1, cur1, h3, h4, h5, h6⟩ := line_reach _ _ h2 hw1.1 (arg_parts_ok hargs)
      hends (by rw [stage_add_arg]; rfl) hrun
    have hrd : rd st1.buf st1.read_pos ≠ NUL := by
      rw [rd_rest h4.rest]
      exact space_ne_NUL
    obtain ⟨st2, h7, h8⟩ := iter_gap (n + 1) _ h4 h5 (Or.inl rfl)
      (by rw [hcY]; exact not_space_of_not_delim hcd) (by rw [h6])
    rw [hcY] at h8
    obtain ⟨h9, h10⟩ := as_token h8 (Or.inl (by omega)) hcd
    rw [← hcY] at h10
    refine ⟨w, st1, _, _, _, hw, ?_, hrd, h7.trans h9, h10⟩
    have hsrc : (spaces l ++ (w1 ++ (args_src args ++ (spaces (n + 1) ++ w)))) ++ x :: X =
        spaces l ++ (sects_src (word_sects w1) ++
          (parts_src (arg_parts args) ++ (spaces (n + 1) ++ (w ++ x :: X)))) := by
      rw [word_sects_src, arg_parts_src]
      simp [List.append_assoc]
    rw [hsrc]
    exact reach_trans h1 h3

/-- A quoted section that cannot end, after a prefix of plain characters and
spaces, ends the parse with kUnexpectedEnd. -/
theorem parse_line_open_quote (p Y : List Char) (q : Char) (hp : ∀ c ∈ p, plain c ∨ c = ' ')
    (hq : q = DQ ∨ q = SQ)
    (hY : ∀ (st : pstate) (T cur : List Char) (v : stage),
      at_token st T cur (q :: Y) kArgument [] v →
      ∃ st1, copy_section st = some (iter_result.ret kUnexpectedEnd st1)) :
    (parse_line (p ++ q :: Y)).map Prod.fst = some kUnexpectedEnd := by
  have hq0 := (quote_ne hq).1
  have hqd : ¬ is_delim q := by rcases hq with rfl | rfl <;> decide
  have hqs : stops_normal q := by
    unfold stops_normal
    tauto
  obtain ⟨w, st0, st, T, v, hw, h1, hrd, h2, h3⟩ := prefix_state p Y q hp hq0 hqd
  by_cases hwe : w = []
  · subst hwe
    obtain ⟨st1, h4⟩ := hY st T [] v (by simpa using h3)
    rw [parse_line_of_runs (runs_of_reach h1 (runs_ret hrd (h2.trans h4)))]
    rfl
  · rw [← items_src_ch w] at h3
    obtain ⟨st1, h4, h5⟩ := copy_run (w.map item.ch) h3 (by simpa using hwe) (nok_ch hw)
      (Or.inr (by simpa [rd] using hqs))
    have hrd1 : rd st1.buf st1.read_pos ≠ NUL := by
      rw [rd_rest h5.rest]
      exact hq0
    have h6 := iter_cont h5 hqd
    obtain ⟨st2, h7⟩ := hY st1 T _ v h5
    rw [parse_line_of_runs (runs_of_reach h1
      (runs_step hrd (h2.trans h4) (runs_ret hrd1 (h6.trans h7))))]
    rfl

/-- C7: input that ends in the middle of a construct is rejected with
kUnexpectedEnd: after any prefix `p` of plain characters and spaces, (a) an
opening quote `q` and a body `b` without `q` and without backslash, (b) a
backslash, (c) an opening quote, such a body and a backslash. -/
theorem parse_unexpected_end (p b : List Char) (q : Char) (hp : ∀ c ∈ p, plain c ∨ c = ' ')
    (hq : q = DQ ∨ q = SQ) (hb : ∀ c ∈ b, c ≠ NUL ∧ c ≠ q ∧ c ≠ BSL) :
    (parse_line (p ++ q :: b)).map Prod.fst = some kUnexpectedEnd ∧
    (parse_line (p ++ [BSL])).map Prod.fst = some kUnexpectedEnd ∧
    (parse_line (p ++ q :: (b ++ [BSL]))).map Prod.fst = some kUnexpectedEnd := by
  refine ⟨?_, ?_, ?_⟩
  · apply parse_line_open_quote p b q hp hq
    intro st T cur v h
    rw [← items_src_ch b] at h
    exact copy_quoted_open q (b.map item.ch) h hq (qok_ch hb)
  · have hbd : ¬ is_delim BSL := by decide
    obtain ⟨w, st0, st, T, v, hw, h1, hrd, h2, h3⟩ := prefix_state p [] BSL hp BSL_ne.1 hbd
    rw [← items_src_ch w] at h3
    obtain ⟨st1, h4⟩ := copy_run_bsl (w.map item.ch) h3 (nok_ch hw)
    rw [parse_line_of_runs (runs_of_reach h1 (runs_ret hrd (h2.trans h4)))]
    rfl
  · apply parse_line_open_quote p (b ++ [BSL]) q hp hq
    intro st T cur v h
    rw [← items_src_ch b] at h
    exact copy_quoted_bsl q (b.map item.ch) h hq (qok_ch hb)

theorem parse_unexpected_end_witness :
    (∀ c ∈ " foo ".toList, plain c ∨ c = ' ') ∧ (DQ = DQ ∨ DQ = SQ) ∧
    (∀ c ∈ "  bar ".toList, c ≠ NUL ∧ c ≠ DQ ∧ c ≠ BSL) ∧
    (parse_line (" foo ".toList ++ DQ :: "  bar ".toList)).map Prod.fst = some kUnexpectedEnd ∧
    (parse_line (" foo ".toList ++ [BSL])).map Prod.fst = some kUnexpectedEnd ∧
    (parse_line (" foo ".toList ++ DQ :: ("  bar ".toList ++ [BSL]))).map Prod.fst =
      some kUnexpectedEnd :=
  ⟨by decide, by decide, by decide,
    parse_unexpected_end " foo ".toList "  bar ".toList DQ (by decide) (by decide) (by decide)⟩

/-- A redirect marker or a pipe followed by spaces alone up to the end of the
input: the pass returns kUnexpectedEnd. -/
theorem as_marker_end {j : Nat} {st : pstate} {T : List Char} {m : Char} (k : Nat)
    {tt : parse_token_t} {vs : List stage} {v : stage}
    (h : at_gap j st T (m :: spaces k) tt vs v) (hm : m = '<' ∨ m = '>' ∨ m = '|') :
    ∃ st1, after_spaces st = some (iter_result.ret kUnexpectedEnd st1) := by
  have hrd : rd st.buf st.read_pos = m := by rw [rd_rest h.rest]; rfl
  have hlen := rest_lt h.rest
  have hr := h.rest
  rw [List.cons_append] at hr
  obtain ⟨_, _, h3⟩ := drop_cons_facts hr
  obtain ⟨h4, h5⟩ := eat_spaces_run k (st.buf.length + 1) st.buf (st.read_pos + 1)
    [NUL] h3 (by decide) (by simp [spaces] at hlen; omega)
  have h6 : rd st.buf (st.read_pos + 1 + k) = NUL := by rw [rd_eq_head, h5]; rfl
  unfold after_spaces
  rw [hrd]
  rcases hm with rfl | rfl | rfl
  · rw [if_pos (Or.inr rfl), h4]
    dsimp only
    rw [if_pos h6]
    exact ⟨_, rfl⟩
  · rw [if_pos (Or.inl rfl), h4]
    dsimp only
    rw [if_pos h6]
    exact ⟨_, rfl⟩
  · rw [if_neg (by decide), if_pos rfl, h4]
    dsimp only
    rw [if_pos h6]
    exact ⟨_, rfl⟩

/-- After a first word and further words, at a delimiter that is not a space:
the pass that stores the last word comes to the delimiter with no token
pending. -/
theorem words_gap (l : Nat) (w1 : List Char) (args : List (Nat × List Char)) (n : Nat)
    (m : Char) (R : List Char) (hw1 : word w1) (hargs : ∀ a ∈ args, word a.2)
    (hm : m = '<' ∨ m = '>' ∨ m = '|') :
    ∃ st0 st1 T v, reach (parse_init new_command
        (spaces l ++ (w1 ++ (args_src args ++ (spaces n ++ m :: R))))) st0 ∧
      rd st0.buf st0.read_pos ≠ NUL ∧ parse_iter st0 = after_spaces st1 ∧
      at_gap n st1 T (m :: R) kArgument [] v := by
  have hmd : is_delim m := by
    unfold is_delim
    tauto
  have hms : m ≠ ' ' := by rcases hm with rfl | rfl | rfl <;> decide
  have hd : is_delim (rd (spaces n ++ m :: R ++ [NUL]) 0) := by
    have := rd_spaces_delim n (m :: R) (Or.inr hmd)
    simpa [List.append_assoc] using this
  have hends : ends_token (spaces n ++ m :: R) := Or.inr hd
  obtain ⟨st, h1, h2⟩ := init_reach l (word_sects w1)
    (parts_src (arg_parts args) ++ (spaces n ++ m :: R))
    (word_sects_ok hw1) (by rw [word_sects_val]; exact hw1.1) (by
      cases hp2 : arg_parts args with
      | nil => simpa [parts_src] using hends
      | cons q qs =>
        right
        have := gap_src_head q.1
          (arg_parts_ok hargs q (by rw [hp2]; exact List.mem_cons_self _ _)).1
          (sects_src q.2 ++ parts_src qs ++ (spaces n ++ m :: R))
        simpa [parts_src, List.append_assoc] using this)
  rw [word_sects_val] at h2
  have hrun : run_parts [] ⟨[some w1], none, none⟩ kArgument (parts_val (arg_parts args)) =
      Except.ok ([], ⟨[some w1] ++ (args.map Prod.snd).map some, none, none⟩, kArgument) := by
    have := run_parts_args args [] ⟨[some w1], none, none⟩ []
    rw [List.append_nil] at this
    rw [arg_parts_val, this]
    rfl
  obtain ⟨st1, T1, v1, cur1, h3, h4, h5, h6⟩ := line_reach _ _ h2 hw1.1 (arg_parts_ok hargs)
    hends (by rw [stage_add_arg]; rfl) hrun
  have hrd : rd st1.buf st1.read_pos ≠ NUL := by
    rw [rd_rest h4.rest]
    intro h0
    rw [h0] at hd
    revert hd
    decide
  obtain ⟨st2, h7, h8⟩ := iter_gap n _ h4 h5 hd (by simpa [rd] using hms) (by rw [h6])
  refine ⟨st1, st2, _, _, ?_, hrd, h7, h8⟩
  have hsrc : spaces l ++ (w1 ++ (args_src args ++ (spaces n ++ m :: R))) =
      spaces l ++ (sects_src (word_sects w1) ++
        (parts_src (arg_parts args) ++ (spaces n ++ m :: R))) := by
    rw [word_sects_src, arg_parts_src]
  rw [hsrc]
  exact reach_trans h1 h3

/-- After a prefix of plain characters and spaces, at a delimiter that is not
a space: the pass comes to the delimiter with no token pending. -/
theorem prefix_gap (p : List Char) (m : Char) (R : List Char)
    (hp : ∀ c ∈ p, plain c ∨ c = ' ') (hm : m = '<' ∨ m = '>' ∨ m = '|') :
    ∃ st0 st1 k T v, reach (parse_init new_command (p ++ m :: R)) st0 ∧
      rd st0.buf st0.read_pos ≠ NUL ∧ parse_iter st0 = after_spaces st1 ∧
      at_gap k st1 T (m :: R) kArgument [] v := by
  have hm0 : m ≠ NUL ∧ m ≠ ' ' := by rcases hm with rfl | rfl | rfl <;> decide
  rcases spaced_split p hp with ⟨l, w, rfl, hw⟩ | ⟨l, w1, args, n, w, rfl, hw1, hargs, hw⟩
  · by_cases hwe : w = []
    · subst hwe
      have h0 := parse_init_gap (spaces l ++ m :: R)
      have hrd : rd (parse_init new_command (spaces l ++ m :: R)).buf
          (parse_init new_command (spaces l ++ m :: R)).read_pos ≠ NUL := by
        rw [rd_rest h0.rest]
        cases l with
        | zero =>
          simp only [spaces, List.replicate_zero, List.nil_append]
          exact hm0.1
        | succ n => exact space_ne_NUL
      obtain ⟨st1, h1, h2⟩ := iter_init l _ h0 (by simpa [rd] using hm0.2)
      refine ⟨_, st1, _, _, _, ?_, hrd, h1, h2⟩
      rw [List.append_nil]
      exact reach.refl _
    · obtain ⟨st0, st1, T, v, h1, h2, h3, h4⟩ := words_gap l w [] 0 m R ⟨hwe, hw⟩ (by simp) hm
      refine ⟨st0, st1, 0, T, v, ?_, h2, h3, h4⟩
      simpa [args_src, spaces, List.append_assoc] using h1
  · by_cases hwe : w = []
    · subst hwe
      obtain ⟨st0, st1, T, v, h1, h2, h3, h4⟩ := words_gap l w1 args (n + 1) m R hw1 hargs hm
      refine ⟨st0, st1, n + 1, T, v, ?_, h2, h3, h4⟩
      simpa [List.append_assoc] using h1
    · obtain ⟨st0, st1, T, v, h1, h2, h3, h4⟩ := words_gap l w1 (args ++ [(n, w)]) 0 m R hw1
        (by
          intro a ha
          rcases List.mem_append.mp ha with h | h
          · exact hargs a h
          · simp at h; rw [h]; exact ⟨hwe, hw⟩) hm
      refine ⟨st0, st1, 0, T, v, ?_, h2, h3, h4⟩
      simpa [args_src_append, args_src, spaces, List.append_assoc] using h1

/-- C11: a marker with nothing after it is rejected with kUnexpectedEnd: after
any prefix `p` of plain characters and spaces (the empty one too), a marker `m`
among `<`, `>` and `|`, then `k` spaces and the end of the input, `parse` on a
fresh command returns kUnexpectedEnd. -/
theorem parse_marker_at_end (p : List Char) (m : Char) (k : Nat)
    (hp : ∀ c ∈ p, plain c ∨ c = ' ') (hm : m = '<' ∨ m = '>' ∨ m = '|') :
    ∃ st, parse new_command (some (p ++ m :: spaces k)) = some (kUnexpectedEnd, st) := by
  obtain ⟨st0, st1, j, T, v, h1, h2, h3, h4⟩ := prefix_gap p m (spaces k) hp hm
  obtain ⟨st2, h5⟩ := as_marker_end k h4 hm
  exact ⟨st2, parse_of_runs (runs_of_reach h1 (runs_ret h2 (h3.trans h5)))⟩

theorem parse_marker_at_end_witness :
    ((∀ c ∈ "foo ".toList, plain c ∨ c = ' ') ∧ ('>' = '<' ∨ '>' = '>' ∨ '>' = '|') ∧
      ∃ st, parse new_command (some ("foo ".toList ++ '>' :: spaces 2)) =
        some (kUnexpectedEnd, st)) ∧
    ((∀ c ∈ "foo".toList, plain c ∨ c = ' ') ∧ ('|' = '<' ∨ '|' = '>' ∨ '|' = '|') ∧
      ∃ st, parse new_command (some ("foo".toList ++ '|' :: spaces 0)) =
        some (kUnexpectedEnd, st)) :=
  ⟨⟨by decide, by decide, parse_marker_at_end "foo ".toList '>' 2 (by decide) (by decide)⟩,
    ⟨by decide, by decide, parse_marker_at_end "foo".toList '|' 0 (by decide) (by decide)⟩⟩

theorem parse_line_spaces (n : Nat) :
    parse_line (spaces n) = some (kParseOK, [stage.empty]) := by
  cases n with
  | zero => decide
  | succ n =>
    have h0 := parse_init_gap (spaces (n + 1) ++ [])
    have hrd : rd (parse_init new_command (spaces (n + 1) ++ [])).buf
        (parse_init new_command (spaces (n + 1) ++ [])).read_pos ≠ NUL := by
      rw [rd_rest h0.rest]
      exact space_ne_NUL
    obtain ⟨st1, h1, h2⟩ := iter_init (n + 1) [] h0 (by decide)
    obtain ⟨h3, h4⟩ := as_end h2 (Or.inr rfl)
    obtain ⟨st2, h5, h6⟩ := finish_empty h4
    have hr : runs (start_section st1) (kParseOK, st2) := by
      rw [← h5]
      exact runs_finish (by rw [rd_rest h4.rest]; rfl)
    have := parse_line_of_runs (runs_step hrd (h1.trans h3) hr)
    rw [List.append_nil] at this
    rw [this, h6]
    rfl

/-- C12: the input made of `n` spaces, `n = 0` being the empty string, parses
to kParseOK (and not kGivenNull) on a fresh command, and leaves a single stage
(no `pipe` link) with `argc = 0` and neither redirect set. -/
theorem parse_only_spaces (n : Nat) :
    ∃ st, parse new_command (some (spaces n)) = some (kParseOK, st) ∧
      st.done = [] ∧ st.working_cmd.argc = 0 ∧ st.working_cmd.in_file = none ∧
      st.working_cmd.out_file = none := by
  obtain ⟨st, h1, h2, h3⟩ := parse_line_single (parse_line_spaces n)
  refine ⟨st, h1, h2, ?_, ?_, ?_⟩
  · have := congrArg (fun v => v.args.length) h3
    simpa [stage_of, stage.empty] using this
  · have := congrArg stage.in_file h3
    simpa [stage_of, stage.empty] using this
  · have := congrArg stage.out_file h3
    simpa [stage_of, stage.empty] using this

/-- C13, as the code behaves: on `a||b` and on `|foo` the code returns
kParseOK with a chain of three, resp. two, stages of which one has `argc = 0`;
the pipe branch starts a new stage without looking at `argc`. -/
theorem parse_empty_stage_in_chain :
    (parse new_command (some "a||b".toList)).map
        (fun r => (r.1, (r.2.done ++ [r.2.working_cmd]).map command_t.argc)) =
      some (kParseOK, [1, 0, 1]) ∧
    (parse new_command (some "|foo".toList)).map
        (fun r => (r.1, (r.2.done ++ [r.2.working_cmd]).map command_t.argc)) =
      some (kParseOK, [0, 1]) := by
  constructor <;> decide

/-- C14, as the code behaves: on `a > | b` and on `a >< b` the code returns
kParseOK and stores the empty string as the output file of the first stage:
after a redirect marker only the end of the input is looked for, not the start
of a token. -/
theorem parse_empty_redirect_file :
    parse_line "a > | b".toList =
      some (kParseOK, [⟨[some "a".toList], none, some []⟩, ⟨[some "b".toList], none, none⟩]) ∧
    parse_line "a >< b".toList =
      some (kParseOK, [⟨[some "a".toList], some "b".toList, some []⟩]) := by
  constructor <;> decide

theorem chain_all_of {P : command_t → Prop} {st st1 : pstate} (h : chain_all P st)
    (hd : st1.done = st.done) (hw : st1.working_cmd = st.working_cmd) : chain_all P st1 := by
  unfold chain_all at *
  rw [hd, hw]
  exact h

theorem start_section_cmds (st : pstate) :
    (start_section st).done = st.done ∧ (start_section st).working_cmd = st.working_cmd := by
  unfold start_section
  cases st.arg with
  | none =>
    dsimp only
    split_ifs <;> exact ⟨rfl, rfl⟩
  | some a => exact ⟨rfl, rfl⟩

theorem copy_section_cmds {st : pstate} {r : iter_result} (h : copy_section st = some r) :
    r.st.done = st.done ∧ r.st.working_cmd = st.working_cmd := by
  unfold copy_section at h
  split_ifs at h with h1 h2
  · cases hq : quoted_section (st.buf.length + 1) (rd st.buf st.read_pos) st.buf
        (st.read_pos + 1) st.write_pos with
    | none => rw [hq] at h; simp at h
    | some s =>
      rw [hq] at h
      cases s with
      | fail e b rp wp =>
        simp only [Option.some.injEq] at h
        subst h
        exact ⟨rfl, rfl⟩
      | ok b rp wp =>
        simp only [Option.some.injEq] at h
        subst h
        exact ⟨rfl, rfl⟩
  · cases hq : normal_section (st.buf.length + 1) st.buf st.read_pos st.write_pos with
    | none => rw [hq] at h; simp at h
    | some s =>
      rw [hq] at h
      cases s with
      | fail e b rp wp =>
        simp only [Option.some.injEq] at h
        subst h
        exact ⟨rfl, rfl⟩
      | ok b rp wp =>
        simp only [Option.some.injEq] at h
        subst h
        exact ⟨rfl, rfl⟩
  · simp only [Option.some.injEq] at h
    subst h
    exact ⟨rfl, rfl⟩

theorem flush_arg_all {P : command_t → Prop}
    (hadd : ∀ c a tt, P c → P (add_arg c a tt).2) {st : pstate} (h : chain_all P st) :
    chain_all P (flush_arg st).2 := by
  have hw : P st.working_cmd := h _ (by simp)
  have hd : ∀ c ∈ st.done, P c := fun c hc => h c (by simp [hc])
  have key : ∀ st1 : pstate, st1.done = st.done →
      st1.working_cmd = (add_arg st.working_cmd (st.arg.getD 0) st.token_type).2 →
      chain_all P st1 := by
    intro st1 h1 h2 c hc
    rw [h1, h2] at hc
    rcases List.mem_append.mp hc with h3 | h3
    · exact hd c h3
    · simp only [List.mem_singleton] at h3
      rw [h3]
      exact hadd _ _ _ hw
  unfold flush_arg
  cases ha : st.arg with
  | none => exact h
  | some a =>
    dsimp only
    split_ifs
    · exact key _ rfl (by rw [ha]; rfl)
    · exact key _ rfl (by rw [ha]; rfl)
    · exact h

theorem after_spaces_all {P : command_t → Prop} (hnew : P new_command) {st : pstate}
    {r : iter_result} (h : chain_all P st) (hr : after_spaces st = some r) :
    chain_all P r.st := by
  unfold after_spaces at hr
  by_cases h1 : rd st.buf st.read_pos = '>' ∨ rd st.buf st.read_pos = '<'
  · rw [if_pos h1] at hr
    dsimp only at hr
    cases he : eat_spaces (st.buf.length + 1) st.buf (st.read_pos + 1) with
    | none => rw [he] at hr; simp at hr
    | some p =>
      rw [he] at hr
      dsimp only at hr
      by_cases h4 : rd st.buf p = NUL
      · rw [if_pos h4] at hr
        simp only [Option.some.injEq] at hr
        subst hr
        exact chain_all_of h rfl rfl
      · rw [if_neg h4] at hr
        obtain ⟨h5, h6⟩ := copy_section_cmds hr
        exact chain_all_of h (h5.trans (start_section_cmds _).1)
          (h6.trans (start_section_cmds _).2)
  · rw [if_neg h1] at hr
    by_cases h2 : rd st.buf st.read_pos = '|'
    · rw [if_pos h2] at hr
      cases he : eat_spaces (st.buf.length + 1) st.buf (st.read_pos + 1) with
      | none => rw [he] at hr; simp at hr
      | some p =>
        rw [he] at hr
        dsimp only at hr
        by_cases h4 : rd st.buf p = NUL
        · rw [if_pos h4] at hr
          simp only [Option.some.injEq] at hr
          subst hr
          exact chain_all_of h rfl rfl
        · rw [if_neg h4] at hr
          simp only [Option.some.injEq] at hr
          subst hr
          intro c hc
          simp only [iter_result.st] at hc
          rcases List.mem_append.mp hc with h5 | h5
          · exact h c h5
          · simp only [List.mem_singleton] at h5
            rw [h5]
            exact hnew
    · rw [if_neg h2] at hr
      by_cases h3 : rd st.buf st.read_pos ≠ NUL ∧ st.arg = none ∧ st.token_type ≠ kArgument
      · rw [if_pos h3] at hr
        simp only [Option.some.injEq] at hr
        subst hr
        exact h
      · rw [if_neg h3] at hr
        obtain ⟨h5, h6⟩ := copy_section_cmds hr
        exact chain_all_of h (h5.trans (start_section_cmds _).1)
          (h6.trans (start_section_cmds _).2)

theorem parse_iter_all {P : command_t → Prop} (hnew : P new_command)
    (hadd : ∀ c a tt, P c → P (add_arg c a tt).2) {st : pstate}
    {r : iter_result} (h : chain_all P st) (hr : parse_iter st = some r) :
    chain_all P r.st := by
  have hf := flush_arg_all hadd h
  unfold parse_iter at hr
  dsimp only at hr
  split_ifs at hr with h1
  · simp only [Option.some.injEq] at hr
    subst hr
    exact hf
  · cases he : eat_spaces ((flush_arg st).2.buf.length + 1) (flush_arg st).2.buf
        (flush_arg st).2.read_pos with
    | none => rw [he] at hr; simp at hr
    | some p =>
      rw [he] at hr
      dsimp only at hr
      exact after_spaces_all hnew
        (@chain_all_of P (flush_arg st).2 { (flush_arg st).2 with read_pos := p } hf rfl rfl) hr

theorem parse_finish_all {P : command_t → Prop}
    (hadd : ∀ c a tt, P c → P (add_arg c a tt).2) {st : pstate} (h : chain_all P st) :
    chain_all P (parse_finish st).2 := by
  have hw : P st.working_cmd := h _ (by simp)
  have hd : ∀ c ∈ st.done, P c := fun c hc => h c (by simp [hc])
  unfold parse_finish
  dsimp only
  cases ha : st.arg with
  | none => exact chain_all_of h rfl rfl
  | some a =>
    dsimp only
    split_ifs
    · intro c hc
      rcases List.mem_append.mp hc with h3 | h3
      · exact hd c h3
      · simp only [List.mem_singleton] at h3
        rw [h3]
        exact hadd _ _ _ hw
    · exact chain_all_of h rfl rfl

theorem parse_loop_all {P : command_t → Prop} (hnew : P new_command)
    (hadd : ∀ c a tt, P c → P (add_arg c a tt).2) :
    ∀ (f : Nat) (st : pstate) (r : parse_error_t × pstate), chain_all P st →
      parse_loop f st = some r → chain_all P r.2 := by
  intro f
  induction f with
  | zero => intro st r _ hr; simp [parse_loop] at hr
  | succ f ih =>
    intro st r h hr
    rw [parse_loop] at hr
    split_ifs at hr with h0
    · simp only [Option.some.injEq] at hr
      subst hr
      exact parse_finish_all hadd h
    · cases hi : parse_iter st with
      | none => rw [hi] at hr; simp at hr
      | some x =>
        rw [hi] at hr
        have hx := parse_iter_all hnew hadd h hi
        cases x with
        | ret e st1 =>
          simp only [Option.some.injEq] at hr
          subst hr
          exact hx
        | next st1 => exact ih st1 r hx hr

/-- A property of commands that the fresh command has and `add_arg` keeps
holds of every stage `parse` leaves, whatever it returns. -/
theorem parse_all {P : command_t → Prop} (hnew : P new_command)
    (hadd : ∀ c a tt, P c → P (add_arg c a tt).2) {cmd : command_t} (hc : P cmd)
    {str : Option (List Char)} {r : parse_error_t × pstate} (hr : parse cmd str = some r) :
    chain_all P r.2 := by
  have h0 : ∀ s, chain_all P (parse_init cmd s) := by
    intro s c hc1
    simp only [parse_init, List.nil_append, List.mem_singleton] at hc1
    rw [hc1]
    exact hc
  cases str with
  | none =>
    simp only [parse, Option.some.injEq] at hr
    subst hr
    exact chain_all_of (h0 []) rfl rfl
  | some s => exact parse_loop_all hnew hadd _ _ _ (h0 s) hr

theorem add_args_all {P : command_t → Prop}
    (hadd : ∀ c a tt, P c → P (add_arg c a tt).2) (l : List (Nat × parse_token_t)) :
    ∀ c, P c → P (add_args c l) := by
  induction l with
  | nil => intro c hc; exact hc
  | cons x l ih =>
    intro c hc
    exact ih _ (hadd c x.1 x.2 hc)

theorem redirect_inv_new :
    (new_command.in_file ≠ none ∨ new_command.out_file ≠ none) → 1 ≤ new_command.argc := by
  intro h
  rcases h with h | h <;> exact absurd rfl h

theorem redirect_inv_add (c : command_t) (a : Nat) (tt : parse_token_t)
    (h : (c.in_file ≠ none ∨ c.out_file ≠ none) → 1 ≤ c.argc) :
    ((add_arg c a tt).2.in_file ≠ none ∨ (add_arg c a tt).2.out_file ≠ none) →
      1 ≤ (add_arg c a tt).2.argc := by
  unfold add_arg
  split_ifs with h1 h2 h3 h4 h5
  · intro _
    dsimp only
    omega
  · exact h
  · exact h
  · intro _
    dsimp only
    omega
  · exact h
  · intro _
    dsimp only
    omega

/-- C15: a redirect is only attached to a stage that has a command name. Start
from a fresh command, call `add_arg` any number of times (`pre`), call `parse`
on any input, the NULL pointer too, and call `add_arg` any number of times
(`post`) on any stage of the chain: `parse` returns, and every stage whose
`in_file` or `out_file` is set has `argc >= 1`. -/
theorem redirect_needs_command (pre post : List (Nat × parse_token_t))
    (str : Option (List Char)) :
    ∃ r, parse (add_args new_command pre) str = some r ∧
      ∀ c ∈ r.2.done ++ [r.2.working_cmd],
        ((add_args c post).in_file ≠ none ∨ (add_args c post).out_file ≠ none) →
          1 ≤ (add_args c post).argc := by
  obtain ⟨r, hr⟩ := parse_total (add_args new_command pre) str
  refine ⟨r, hr, fun c hc => ?_⟩
  have h1 := parse_all
    (P := fun c => (c.in_file ≠ none ∨ c.out_file ≠ none) → 1 ≤ c.argc)
    redirect_inv_new redirect_inv_add
    (add_args_all (P := fun c => (c.in_file ≠ none ∨ c.out_file ≠ none) → 1 ≤ c.argc)
      redirect_inv_add pre _ redirect_inv_new) hr
  exact add_args_all (P := fun c => (c.in_file ≠ none ∨ c.out_file ≠ none) → 1 ≤ c.argc)
    redirect_inv_add post c (h1 c hc)

theorem cap_inv_new : cap_inv new_command :=
  ⟨0, rfl, by show (0 : Nat) < 256; omega, Or.inl rfl⟩

theorem cap_inv_add (c : command_t) (a : Nat) (tt : parse_token_t) (h : cap_inv c) :
    cap_inv (add_arg c a tt).2 := by
  obtain ⟨k, h1, h2, h3⟩ := h
  unfold add_arg
  split_ifs with h4 h5 h6 h7 h8
  · dsimp only
    by_cases h9 : c.argc + 1 = c.argc_max
    · rw [if_pos h9]
      refine ⟨k + 1, ?_, ?_, Or.inr ?_⟩
      · dsimp only
        rw [h1, pow_succ]
        omega
      · dsimp only
        omega
      · dsimp only
        omega
    · rw [if_neg h9]
      refine ⟨k, h1, ?_, ?_⟩
      · dsimp only
        omega
      · rcases h3 with h3 | h3
        · exact Or.inl h3
        · right
          dsimp only
          omega
  · exact ⟨k, h1, h2, h3⟩
  · exact ⟨k, h1, h2, h3⟩
  · exact ⟨k, h1, h2, h3⟩
  · exact ⟨k, h1, h2, h3⟩
  · exact ⟨k, h1, h2, h3⟩

/-- The capacity invariant fixes the capacity: the number of doublings is the
least that makes room for `argc` arguments and the NULL. -/
theorem cap_inv_least {c : command_t} (h : cap_inv c) :
    ∃ k, c.argc_max = 256 * 2 ^ k ∧ c.argc < 256 * 2 ^ k ∧
      ∀ j, c.argc < 256 * 2 ^ j → k ≤ j := by
  obtain ⟨k, h1, h2, h3⟩ := h
  refine ⟨k, h1, by omega, fun j hj => ?_⟩
  rcases h3 with h3 | h3
  · omega
  · by_contra hlt
    have hjk : j + 1 ≤ k := by omega
    have hp : 2 ^ (j + 1) ≤ 2 ^ k := Nat.pow_le_pow_right (by omega) hjk
    rw [pow_succ] at hp
    omega

theorem args_inv_new : args_inv new_command [] :=
  ⟨rfl, by
    show (cell.null :: List.replicate 255 cell.junk).length = 256
    rw [List.length_cons, List.length_replicate], by show (0 : Nat) < 256; omega, rfl, rfl⟩

theorem args_inv_add {c : command_t} {l : List Nat} (a : Nat) (h : args_inv c l) :
    args_inv (add_arg c a kArgument).2 (l ++ [a]) := by
  obtain ⟨h1, hlen, hlt, h3, _⟩ := h
  have htake : (c.argv.set c.argc (cell.ptr a)).take (c.argc + 1) =
      c.argv.take c.argc ++ [cell.ptr a] := by
    rw [List.take_add_one, List.set_take, List.set_eq_of_length_le (by simp)]
    simp [List.getElem?_set_self (show c.argc < c.argv.length by omega)]
  unfold add_arg
  rw [if_pos rfl]
  dsimp only
  by_cases h2 : c.argc + 1 = c.argc_max
  · rw [if_pos h2]
    dsimp only
    have hl : (List.take (c.argc + 1) (c.argv.set c.argc (cell.ptr a)) ++
        List.replicate (c.argc_max * 2 - (c.argc + 1)) cell.junk).length = c.argc_max * 2 := by
      simp
      omega
    refine ⟨by simp [h1], by rw [List.length_set, hl], by dsimp only; omega, ?_, ?_⟩
    · rw [List.set_take, List.set_eq_of_length_le (by simp)]
      rw [List.take_append_of_le_length (by simp; omega), List.take_take]
      simp only [min_self]
      rw [htake, h3]
      simp
    · rw [List.getD_eq_getElem?_getD, List.getElem?_set_self (by rw [hl]; omega)]
      rfl
  · rw [if_neg h2]
    dsimp only
    refine ⟨by simp [h1], by rw [List.length_set, List.length_set]; exact hlen,
      by dsimp only; omega, ?_, ?_⟩
    · rw [List.set_take, List.set_eq_of_length_le (by simp), htake, h3]
      simp
    · rw [List.getD_eq_getElem?_getD,
        List.getElem?_set_self (by rw [List.length_set]; omega)]
      rfl

theorem add_args_snoc (c : command_t) (l : List (Nat × parse_token_t))
    (x : Nat × parse_token_t) :
    add_args c (l ++ [x]) = (add_arg (add_args c l) x.1 x.2).2 := by
  unfold add_args
  rw [List.foldl_append]
  rfl

theorem args_inv_fold (l : List Nat) :
    args_inv (add_args new_command (l.map (fun a => (a, kArgument)))) l := by
  induction l using List.reverseRecOn with
  | nil => exact args_inv_new
  | append_singleton l a ih =>
    rw [List.map_append, List.map_singleton, add_args_snoc]
    exact args_inv_add a ih

theorem tokens_succ (n : Nat) :
    tokens (n + 1) = spaces 0 ++ (['a'] ++
      (args_src (List.replicate n (0, ['a'])) ++ spaces 1)) := by
  induction n with
  | zero => rfl
  | succ n ih =>
    rw [tokens, ih]
    simp [List.replicate_succ, args_src, spaces]

theorem parse_line_tokens (n : Nat) :
    parse_line (tokens (n + 1)) =
      some (kParseOK, [⟨List.replicate (n + 1) (some ['a']), none, none⟩]) := by
  rw [tokens_succ, parse_line_words 0 1 ['a'] (List.replicate n (0, ['a'])) (by decide)
    (by
      intro p hp
      rw [List.eq_of_mem_replicate hp]
      decide)]
  simp [List.replicate_succ]

/-- C17: argument storage grows by doubling and loses nothing. After `add_arg`
with token type kArgument on the arguments `l` in turn, starting from a fresh
command: `argc` is the number of arguments, `argv[i]` is the i-th argument,
`argv[argc]` is NULL, and `argc_max` is 256 doubled `k` times for the least `k`
with `argc < 256 * 2 ^ k`. Parsing 347 one-letter tokens, each followed by one
space, returns kParseOK and gives `argc = 347` and `argc_max = 512`. -/
theorem add_arg_doubling (l : List Nat) :
    (add_args new_command (l.map (fun a => (a, kArgument)))).argc = l.length ∧
    (∀ i, ∀ h : i < l.length,
      (add_args new_command (l.map (fun a => (a, kArgument)))).argv.getD i cell.junk =
        cell.ptr (l.get ⟨i, h⟩)) ∧
    (add_args new_command (l.map (fun a => (a, kArgument)))).argv.getD l.length cell.junk =
      cell.null ∧
    (∃ k, (add_args new_command (l.map (fun a => (a, kArgument)))).argc_max = 256 * 2 ^ k ∧
      l.length < 256 * 2 ^ k ∧ ∀ j, l.length < 256 * 2 ^ j → k ≤ j) ∧
    ∃ st, parse new_command (some (tokens 347)) = some (kParseOK, st) ∧ st.done = [] ∧
      st.working_cmd.argc = 347 ∧ st.working_cmd.argc_max = 512 := by
  obtain ⟨h1, h2, h3, h4, h5⟩ := args_inv_fold l
  have hcap : cap_inv (add_args new_command (l.map (fun a => (a, kArgument)))) :=
    add_args_all cap_inv_add _ _ cap_inv_new
  refine ⟨h1, ?_, ?_, ?_, ?_⟩
  · intro i hi
    have h6 := congrArg (fun x => x.getD i cell.junk) h4
    simp only [List.getD_eq_getElem?_getD, List.getElem?_take, List.getElem?_map] at h6
    rw [if_pos (by omega), List.getElem?_eq_getElem hi] at h6
    rw [List.getD_eq_getElem?_getD, h6]
    rfl
  · rw [← h1]
    exact h5
  · obtain ⟨k, h6, h7, h8⟩ := cap_inv_least hcap
    rw [h1] at h7 h8
    exact ⟨k, h6, h7, h8⟩
  · obtain ⟨st, h6, h7, h8⟩ := parse_line_single (parse_line_tokens 346)
    have hargc : st.working_cmd.argc = 347 := by
      have := congrArg (fun v => v.args.length) h8
      simp only [stage_of, List.length_map, List.length_range, List.length_replicate] at this
      exact this
    refine ⟨st, h6, h7, hargc, ?_⟩
    have hall := parse_all cap_inv_new cap_inv_add cap_inv_new h6
    obtain ⟨k, h9, h10, h11⟩ := hall st.working_cmd (by simp)
    rw [hargc] at h10 h11
    rw [h9] at h10 h11 ⊢
    have hk : k = 1 := by
      rcases Nat.lt_or_ge k 1 with hk | hk
      · have : k = 0 := by omega
        subst this
        omega
      · rcases Nat.lt_or_ge 1 k with hk2 | hk2
        · have hp : 2 ^ 2 ≤ 2 ^ k := Nat.pow_le_pow_right (by omega) hk2
          rcases h11 with h11 | h11 <;> omega
        · omega
    rw [hk]
    rfl

theorem swapc_fix {c x : Char} (h1 : x ≠ DQ) (h2 : x ≠ SQ) : swapc c = x ↔ c = x := by
  unfold swapc
  split_ifs with h3 h4
  · constructor
    · intro h; exact absurd h.symm h2
    · intro h; rw [h3] at h; exact absurd h.symm h1
  · constructor
    · intro h; exact absurd h.symm h1
    · intro h; rw [h4] at h; exact absurd h.symm h2
  · rfl

theorem swapc_swapc (c : Char) : swapc (swapc c) = c := by
  unfold swapc
  split_ifs with h1 h2 h3 h4 h5 <;> simp_all

theorem swapc_inj {a b : Char} : swapc a = swapc b ↔ a = b :=
  ⟨fun h => by rw [← swapc_swapc a, h, swapc_swapc], fun h => by rw [h]⟩

theorem swapc_DQ {c : Char} : swapc c = DQ ↔ c = SQ := by
  rw [show DQ = swapc SQ by decide, swapc_inj]

theorem swapc_SQ {c : Char} : swapc c = SQ ↔ c = DQ := by
  rw [show SQ = swapc DQ by decide, swapc_inj]

theorem swapc_NUL {c : Char} : swapc c = NUL ↔ c = NUL := swapc_fix (by decide) (by decide)

theorem swapc_BSL {c : Char} : swapc c = BSL ↔ c = BSL := swapc_fix (by decide) (by decide)

theorem swapc_space {c : Char} : swapc c = ' ' ↔ c = ' ' := swapc_fix (by decide) (by decide)

theorem swapc_lt {c : Char} : swapc c = '<' ↔ c = '<' := swapc_fix (by decide) (by decide)

theorem swapc_gt {c : Char} : swapc c = '>' ↔ c = '>' := swapc_fix (by decide) (by decide)

theorem swapc_bar {c : Char} : swapc c = '|' ↔ c = '|' := swapc_fix (by decide) (by decide)

theorem swapc_quote {c : Char} : (swapc c = DQ ∨ swapc c = SQ) ↔ (c = DQ ∨ c = SQ) := by
  rw [swapc_DQ, swapc_SQ, or_comm]

theorem swapc_stops {c : Char} : stops_normal (swapc c) ↔ stops_normal c := by
  unfold stops_normal
  rw [swapc_space, swapc_DQ, swapc_SQ, swapc_lt, swapc_gt, swapc_bar]
  tauto

theorem swapc_delim {c : Char} : is_delim (swapc c) ↔ is_delim c := by
  unfold is_delim
  rw [swapc_space, swapc_lt, swapc_gt, swapc_bar]

theorem swapc_esc {c : Char} :
    (swapc c = BSL ∨ swapc c = ' ' ∨ swapc c = DQ ∨ swapc c = SQ ∨ swapc c = '|') ↔
      (c = BSL ∨ c = ' ' ∨ c = DQ ∨ c = SQ ∨ c = '|') := by
  rw [swapc_BSL, swapc_space, swapc_DQ, swapc_SQ, swapc_bar]
  tauto

theorem rd_swap (buf : List Char) (i : Nat) : rd (swap_quotes buf) i = swapc (rd buf i) := by
  unfold rd swap_quotes
  rw [show NUL = swapc NUL by decide, List.getD_map]
  rfl

theorem swap_set (buf : List Char) (i : Nat) (c : Char) :
    (swap_quotes buf).set i (swapc c) = swap_quotes (buf.set i c) := by
  unfold swap_quotes
  rw [List.map_set]

theorem swap_set_NUL (buf : List Char) (i : Nat) :
    (swap_quotes buf).set i NUL = swap_quotes (buf.set i NUL) := by
  rw [← swap_set]
  rfl

theorem swap_set_BSL (buf : List Char) (i : Nat) :
    (swap_quotes buf).set i BSL = swap_quotes (buf.set i BSL) := by
  rw [← swap_set]
  rfl

theorem swap_length (buf : List Char) : (swap_quotes buf).length = buf.length := by
  unfold swap_quotes
  rw [List.length_map]

theorem eat_spaces_swap : ∀ (f : Nat) (buf : List Char) (p : Nat),
    eat_spaces f (swap_quotes buf) p = eat_spaces f buf p := by
  intro f
  induction f with
  | zero => intro buf p; rfl
  | succ f ih =>
    intro buf p
    rw [eat_spaces, eat_spaces, rd_swap, ih]
    simp only [swapc_space]

theorem quoted_section_swap (q : Char) : ∀ (f : Nat) (buf : List Char) (rp wp : Nat),
    quoted_section f (swapc q) (swap_quotes buf) rp wp =
      (quoted_section f q buf rp wp).map section_result.swap := by
  intro f
  induction f with
  | zero => intro buf rp wp; rfl
  | succ f ih =>
    intro buf rp wp
    rw [quoted_section, quoted_section]
    simp only [rd_swap, swapc_NUL, swapc_BSL, swapc_inj, swap_set, swap_set_BSL, ih]
    split_ifs <;> rfl

theorem normal_section_swap : ∀ (f : Nat) (buf : List Char) (rp wp : Nat),
    normal_section f (swap_quotes buf) rp wp =
      (normal_section f buf rp wp).map section_result.swap := by
  intro f
  induction f with
  | zero => intro buf rp wp; rfl
  | succ f ih =>
    intro buf rp wp
    rw [normal_section, normal_section]
    simp only [swap_set_BSL, rd_swap]
    simp only [swapc_esc]
    simp only [swapc_NUL, swapc_BSL, swapc_stops, swap_set, ih, ne_eq]
    split_ifs <;> rfl

theorem flush_arg_swap (st : pstate) :
    flush_arg st.swap = ((flush_arg st).1, (flush_arg st).2.swap) := by
  obtain ⟨buf, rp, wp, arg, tt, done, w⟩ := st
  cases arg with
  | none => rfl
  | some a =>
    simp only [flush_arg, pstate.swap, rd_swap, swapc_NUL, swapc_delim, ne_eq]
    split_ifs <;> rfl

theorem start_section_swap (st : pstate) : start_section st.swap = (start_section st).swap := by
  obtain ⟨buf, rp, wp, arg, tt, done, w⟩ := st
  cases arg with
  | none =>
    simp only [start_section, pstate.swap, swap_set_NUL]
    split_ifs <;> rfl
  | some a => rfl

theorem copy_section_swap (st : pstate) :
    copy_section st.swap = (copy_section st).map iter_result.swap := by
  unfold copy_section pstate.swap
  simp only [rd_swap, swapc_quote, swapc_NUL, swap_length, quoted_section_swap,
    normal_section_swap, ne_eq]
  split_ifs
  · cases quoted_section (st.buf.length + 1) (rd st.buf st.read_pos) st.buf (st.read_pos + 1)
        st.write_pos with
    | none => rfl
    | some r => cases r <;> rfl
  · rfl
  · cases normal_section (st.buf.length + 1) st.buf st.read_pos st.write_pos with
    | none => rfl
    | some r => cases r <;> rfl

theorem after_spaces_swap (st : pstate) :
    after_spaces st.swap = (after_spaces st).map iter_result.swap := by
  have h1 := copy_section_swap (start_section st)
  rw [← start_section_swap] at h1
  unfold after_spaces
  by_cases c1 : rd st.buf st.read_pos = '>' ∨ rd st.buf st.read_pos = '<'
  · have c1' : rd st.swap.buf st.swap.read_pos = '>' ∨ rd st.swap.buf st.swap.read_pos = '<' := by
      simpa [pstate.swap, rd_swap, swapc_gt, swapc_lt] using c1
    rw [if_pos c1, if_pos c1']
    have he : eat_spaces (st.swap.buf.length + 1) st.swap.buf (st.swap.read_pos + 1) =
        eat_spaces (st.buf.length + 1) st.buf (st.read_pos + 1) := by
      simp only [pstate.swap, swap_length, eat_spaces_swap]
    rw [he]
    cases eat_spaces (st.buf.length + 1) st.buf (st.read_pos + 1) with
    | none => rfl
    | some p =>
      dsimp only
      have c4 : rd st.swap.buf p = NUL ↔ rd st.buf p = NUL := by
        simp only [pstate.swap, rd_swap, swapc_NUL]
      have c5 : rd st.swap.buf st.swap.read_pos = '>' ↔ rd st.buf st.read_pos = '>' := by
        simp only [pstate.swap, rd_swap, swapc_gt]
      by_cases h4 : rd st.buf p = NUL
      · rw [if_pos h4, if_pos (c4.mpr h4)]
        simp only [c5]
        rfl
      · rw [if_neg h4, if_neg (fun h => h4 (c4.mp h))]
        simp only [c5]
        have h2 := copy_section_swap (start_section
          { st with token_type := if rd st.buf st.read_pos = '>' then kRedirOutput
                      else kRedirInput,
                    read_pos := p })
        rw [← start_section_swap] at h2
        exact h2
  · have c1' : ¬ (rd st.swap.buf st.swap.read_pos = '>' ∨
        rd st.swap.buf st.swap.read_pos = '<') := by
      simpa [pstate.swap, rd_swap, swapc_gt, swapc_lt] using c1
    rw [if_neg c1, if_neg c1']
    have c2' : rd st.swap.buf st.swap.read_pos = '|' ↔ rd st.buf st.read_pos = '|' := by
      simp only [pstate.swap, rd_swap, swapc_bar]
    by_cases c2 : rd st.buf st.read_pos = '|'
    · rw [if_pos c2, if_pos (c2'.mpr c2)]
      have he : eat_spaces (st.swap.buf.length + 1) st.swap.buf (st.swap.read_pos + 1) =
          eat_spaces (st.buf.length + 1) st.buf (st.read_pos + 1) := by
        simp only [pstate.swap, swap_length, eat_spaces_swap]
      rw [he]
      cases eat_spaces (st.buf.length + 1) st.buf (st.read_pos + 1) with
      | none => rfl
      | some p =>
        dsimp only
        have c4 : rd st.swap.buf p = NUL ↔ rd st.buf p = NUL := by
          simp only [pstate.swap, rd_swap, swapc_NUL]
        by_cases h4 : rd st.buf p = NUL
        · rw [if_pos h4, if_pos (c4.mpr h4)]
          rfl
        · rw [if_neg h4, if_neg (fun h => h4 (c4.mp h))]
          rfl
    · rw [if_neg c2, if_neg (fun h => c2 (c2'.mp h))]
      have c3' : (rd st.swap.buf st.swap.read_pos ≠ NUL ∧ st.swap.arg = none ∧
          st.swap.token_type ≠ kArgument) ↔
          (rd st.buf st.read_pos ≠ NUL ∧ st.arg = none ∧ st.token_type ≠ kArgument) := by
        simp only [pstate.swap, rd_swap, swapc_NUL, ne_eq]
      by_cases c3 : rd st.buf st.read_pos ≠ NUL ∧ st.arg = none ∧ st.token_type ≠ kArgument
      · rw [if_pos c3, if_pos (c3'.mpr c3)]
        rfl
      · rw [if_neg c3, if_neg (fun h => c3 (c3'.mp h))]
        exact h1

theorem parse_iter_swap (st : pstate) :
    parse_iter st.swap = (parse_iter st).map iter_result.swap := by
  unfold parse_iter
  simp only [flush_arg_swap]
  split_ifs
  · rfl
  · have he : eat_spaces ((flush_arg st).2.swap.buf.length + 1) (flush_arg st).2.swap.buf
        (flush_arg st).2.swap.read_pos =
        eat_spaces ((flush_arg st).2.buf.length + 1) (flush_arg st).2.buf
          (flush_arg st).2.read_pos := by
      simp only [pstate.swap, swap_length, eat_spaces_swap]
    rw [he]
    cases eat_spaces ((flush_arg st).2.buf.length + 1) (flush_arg st).2.buf
        (flush_arg st).2.read_pos with
    | none => rfl
    | some p => exact after_spaces_swap { (flush_arg st).2 with read_pos := p }

theorem parse_finish_swap (st : pstate) :
    parse_finish st.swap = ((parse_finish st).1, (parse_finish st).2.swap) := by
  obtain ⟨buf, rp, wp, arg, tt, done, w⟩ := st
  cases arg with
  | none =>
    simp only [parse_finish, pstate.swap, swap_set_NUL]
  | some a =>
    simp only [parse_finish, pstate.swap, swap_set_NUL, rd_swap, swapc_NUL, ne_eq]
    split_ifs <;> rfl

theorem parse_loop_swap : ∀ (f : Nat) (st : pstate),
    parse_loop f st.swap = (parse_loop f st).map (fun r => (r.1, r.2.swap)) := by
  intro f
  induction f with
  | zero => intro st; rfl
  | succ f ih =>
    intro st
    rw [parse_loop, parse_loop, parse_iter_swap, parse_finish_swap]
    have c0 : rd st.swap.buf st.swap.read_pos = NUL ↔ rd st.buf st.read_pos = NUL := by
      simp only [pstate.swap, rd_swap, swapc_NUL]
    by_cases h0 : rd st.buf st.read_pos = NUL
    · rw [if_pos h0, if_pos (c0.mpr h0)]
      rfl
    · rw [if_neg h0, if_neg (fun h => h0 (c0.mp h))]
      cases parse_iter st with
      | none => rfl
      | some x =>
        cases x with
        | ret e st1 => rfl
        | next st1 => exact ih st1

theorem parse_swap (cmd : command_t) (s : List Char) :
    parse cmd (some (swap_quotes s)) = (parse cmd (some s)).map (fun r => (r.1, r.2.swap)) := by
  unfold parse
  dsimp only
  have h : parse_init cmd (swap_quotes s) = (parse_init cmd s).swap := by
    simp [parse_init, pstate.swap, swap_quotes]
    decide
  rw [h, swap_length, parse_loop_swap]

theorem takeWhile_swap (l : List Char) :
    (swap_quotes l).takeWhile (fun c => c ≠ NUL) =
      swap_quotes (l.takeWhile (fun c => c ≠ NUL)) := by
  induction l with
  | nil => rfl
  | cons c l ih =>
    unfold swap_quotes at ih ⊢
    rw [List.map_cons]
    by_cases h : c = NUL
    · have h1 : swapc c = NUL := swapc_NUL.mpr h
      rw [List.takeWhile_cons_of_neg (by simpa using h1),
        List.takeWhile_cons_of_neg (by simpa using h)]
      rfl
    · have h1 : swapc c ≠ NUL := fun h2 => h (swapc_NUL.mp h2)
      rw [List.takeWhile_cons_of_pos (by simpa using h1),
        List.takeWhile_cons_of_pos (by simpa using h), List.map_cons, ih]

theorem cstr_swap (buf : List Char) (off : Nat) :
    cstr (swap_quotes buf) off = swap_quotes (cstr buf off) := by
  unfold cstr
  rw [← takeWhile_swap]
  unfold swap_quotes
  rw [List.map_drop]

theorem stage_of_swap (buf : List Char) (c : command_t) :
    stage_of (swap_quotes buf) c = (stage_of buf c).swap := by
  unfold stage_of stage.swap
  simp only [List.map_map, Option.map_map]
  refine congr (congr (congrArg stage.mk ?_) ?_) ?_
  · apply List.map_congr_left
    intro i _
    simp only [Function.comp]
    generalize c.argv.getD i cell.junk = x
    cases x with
    | junk => rfl
    | null => rfl
    | ptr off => simp only [cell_str, cstr_swap, Option.map_some']
  · cases c.in_file with
    | none => rfl
    | some p => simp only [Option.map_some', Function.comp, cstr_swap]
  · cases c.out_file with
    | none => rfl
    | some p => simp only [Option.map_some', Function.comp, cstr_swap]

theorem chain_of_swap (st : pstate) : chain_of st.swap = (chain_of st).map stage.swap := by
  unfold chain_of
  rw [List.map_map]
  apply List.map_congr_left
  intro c _
  exact stage_of_swap st.buf c

/-- C16: double and single quotes are interchangeable. For every input `s`,
`parse` on a fresh command of `s` with the two quote characters exchanged
returns the same code as on `s`, and leaves the same chain (the same stages,
with the same `argc`, the same offsets in `argv`, `in_file` and `out_file`)
over the buffer with the quotes exchanged: every string stored in it is the
string stored for `s` with the quotes exchanged. -/
theorem parse_quote_swap (s : List Char) :
    ∃ e st, parse new_command (some s) = some (e, st) ∧
      parse new_command (some (swap_quotes s)) =
        some (e, { st with buf := swap_quotes st.buf }) ∧
      (∀ off, cstr (swap_quotes st.buf) off = swap_quotes (cstr st.buf off)) ∧
      chain_of { st with buf := swap_quotes st.buf } = (chain_of st).map stage.swap := by
  obtain ⟨r, hr⟩ := parse_total new_command (some s)
  refine ⟨r.1, r.2, hr, ?_, fun off => cstr_swap _ off, chain_of_swap r.2⟩
  rw [parse_swap, hr]
  rfl

theorem sys_trace (o : outcomes) (c : os_call) (w : world) :
    (sys o c w).2.trace = w.trace ++ [(c, (sys o c w).1)] := rfl

theorem sys_pgid (o : outcomes) (c : os_call) (w : world) :
    (sys o c w).2.pipeline_pgid = w.pipeline_pgid := rfl

theorem steps_refl (s : builtin_vars) : steps s s [] :=
  ⟨by rw [List.append_nil], Or.inl rfl, fun _ => rfl⟩

theorem steps_trans {s s1 s2 : builtin_vars} {l1 l2 : List (os_call × Int)}
    (h1 : steps s s1 l1) (h2 : steps s1 s2 l2) : steps s s2 (l1 ++ l2) := by
  obtain ⟨a1, b1, c1⟩ := h1
  obtain ⟨a2, b2, c2⟩ := h2
  refine ⟨by rw [a2, a1, List.append_assoc], ?_, fun h => ?_⟩
  · rcases b2 with b2 | b2
    · rw [b2]
      exact b1
    · exact Or.inr b2
  · rw [c2 (fun e he => h e (List.mem_append_right _ he)),
      c1 (fun e he => h e (List.mem_append_left _ he))]

theorem steps_call (o : outcomes) (c : os_call) {s s1 : builtin_vars}
    (h1 : s1.w = (sys o c s.w).2)
    (h2 : s1.ret = if (sys o c s.w).1 < 0 then BUILTIN_ERROR else s.ret) :
    steps s s1 [(c, (sys o c s.w).1)] := by
  refine ⟨by rw [h1, sys_trace], ?_, fun h => ?_⟩
  · rw [h2]
    split_ifs
    · exact Or.inr rfl
    · exact Or.inl rfl
  · have h3 : 0 ≤ (sys o c s.w).1 := h (c, (sys o c s.w).1) (List.mem_singleton.mpr rfl)
    rw [h2, if_neg (by omega)]

theorem steps_call2 (o : outcomes) (c1 c2 : os_call) {s s1 : builtin_vars}
    (h1 : s1.w = (sys o c2 (sys o c1 s.w).2).2)
    (h2 : s1.ret = if (sys o c2 (sys o c1 s.w).2).1 < 0 then BUILTIN_ERROR
      else if (sys o c1 s.w).1 < 0 then BUILTIN_ERROR else s.ret) :
    steps s s1 [(c1, (sys o c1 s.w).1), (c2, (sys o c2 (sys o c1 s.w).2).1)] := by
  refine ⟨by rw [h1, sys_trace, sys_trace, List.append_assoc]; rfl, ?_, fun h => ?_⟩
  · rw [h2]
    split_ifs
    · exact Or.inr rfl
    · exact Or.inr rfl
    · exact Or.inl rfl
  · have h3 : 0 ≤ (sys o c1 s.w).1 := h (c1, (sys o c1 s.w).1) (by simp)
    have h4 : 0 ≤ (sys o c2 (sys o c1 s.w).2).1 :=
      h (c2, (sys o c2 (sys o c1 s.w).2).1) (by simp)
    rw [h2, if_neg (by omega), if_neg (by omega)]

theorem save_stdin_steps (o : outcomes) (cmd : stage) (pipefd : Int × Int) (s : builtin_vars) :
    ∃ l, steps s (save_stdin o cmd pipefd s) l := by
  unfold save_stdin
  split_ifs
  · exact ⟨_, steps_call o (os_call.dup 0) rfl rfl⟩
  · exact ⟨_, steps_refl s⟩

theorem open_input_steps (o : outcomes) (cmd : stage) (pipefd : Int × Int) (s : builtin_vars) :
    ∃ l, steps s (open_input o cmd pipefd s) l := by
  unfold open_input
  cases cmd.in_file with
  | some path => exact ⟨_, steps_call o (os_call.open_read path) rfl rfl⟩
  | none =>
    dsimp only
    split_ifs
    · exact ⟨[], by rw [List.append_nil], Or.inl rfl, fun _ => rfl⟩
    · exact ⟨_, steps_refl s⟩

theorem redirect_stdin_steps (o : outcomes) (s : builtin_vars) :
    ∃ l, steps s (redirect_stdin o s) l := by
  unfold redirect_stdin
  split_ifs
  · exact ⟨_, steps_call o (os_call.dup2 s.in_fd 0) rfl rfl⟩
  · exact ⟨_, steps_refl s⟩

theorem save_stdout_steps (o : outcomes) (cmd : stage) (pipefd : Int × Int) (s : builtin_vars) :
    ∃ l, steps s (save_stdout o cmd pipefd s) l := by
  unfold save_stdout
  split_ifs
  · exact ⟨_, steps_call o (os_call.dup 1) rfl rfl⟩
  · exact ⟨_, steps_refl s⟩

theorem open_output_steps (o : outcomes) (cmd : stage) (pipefd : Int × Int) (s : builtin_vars) :
    ∃ l, steps s (open_output o cmd pipefd s) l := by
  unfold open_output
  cases cmd.out_file with
  | some path => exact ⟨_, steps_call o (os_call.open_write path) rfl rfl⟩
  | none =>
    dsimp only
    split_ifs
    · exact ⟨[], by rw [List.append_nil], Or.inl rfl, fun _ => rfl⟩
    · exact ⟨_, steps_refl s⟩

theorem redirect_stdout_steps (o : outcomes) (s : builtin_vars) :
    ∃ l, steps s (redirect_stdout o s) l := by
  unfold redirect_stdout
  split_ifs
  · exact ⟨_, steps_call o (os_call.dup2 s.out_fd 1) rfl rfl⟩
  · exact ⟨_, steps_refl s⟩

theorem setup_stdout_steps (o : outcomes) (cmd : stage) (pipefd : Int × Int) (s : builtin_vars) :
    ∃ l, steps s (setup_stdout o cmd pipefd s) l := by
  unfold setup_stdout
  split_ifs
  · obtain ⟨l1, h1⟩ := save_stdout_steps o cmd pipefd s
    obtain ⟨l2, h2⟩ := open_output_steps o cmd pipefd (save_stdout o cmd pipefd s)
    obtain ⟨l3, h3⟩ := redirect_stdout_steps o (open_output o cmd pipefd (save_stdout o cmd pipefd s))
    exact ⟨_, steps_trans (steps_trans h1 h2) h3⟩
  · exact ⟨_, steps_refl s⟩

theorem close_output_steps (o : outcomes) (cmd : stage) (s : builtin_vars) :
    ∃ l, steps s (close_output o cmd s) l := by
  unfold close_output
  split_ifs
  · exact ⟨_, steps_call o (os_call.close s.out_fd) rfl rfl⟩
  · exact ⟨_, steps_refl s⟩

theorem restore_stdout_steps (o : outcomes) (s : builtin_vars) :
    ∃ l, steps s (restore_stdout o s) l := by
  unfold restore_stdout
  split_ifs
  · exact ⟨_, steps_call2 o (os_call.dup2 s.stdout_dup 1) (os_call.close s.stdout_dup) rfl rfl⟩
  · exact ⟨_, steps_refl s⟩

theorem close_input_steps (o : outcomes) (cmd : stage) (s : builtin_vars) :
    ∃ l, steps s (close_input o cmd s) l := by
  unfold close_input
  split_ifs
  · exact ⟨_, steps_call o (os_call.close s.in_fd) rfl rfl⟩
  · exact ⟨_, steps_refl s⟩

theorem restore_stdin_steps (o : outcomes) (s : builtin_vars) :
    ∃ l, steps s (restore_stdin o s) l := by
  unfold restore_stdin
  split_ifs
  · exact ⟨_, steps_call2 o (os_call.dup2 s.stdin_dup 0) (os_call.close s.stdin_dup) rfl rfl⟩
  · exact ⟨_, steps_refl s⟩

theorem builtin_setup_steps (o : outcomes) (cmd : stage) (pipefd : Int × Int) (w : world) :
    ∃ l, (builtin_setup o cmd pipefd w).w.trace = w.trace ++ l ∧
      ((builtin_setup o cmd pipefd w).ret = BUILTIN_OK ∨
        (builtin_setup o cmd pipefd w).ret = BUILTIN_ERROR) ∧
      ((∀ e ∈ l, 0 ≤ e.2) → (builtin_setup o cmd pipefd w).ret = BUILTIN_OK) := by
  unfold builtin_setup
  obtain ⟨l1, h1⟩ := save_stdin_steps o cmd pipefd
    { ret := BUILTIN_OK, stdout_dup := -1, stdin_dup := -1, out_fd := -1, in_fd := -1, w := w }
  obtain ⟨l2, h2⟩ := open_input_steps o cmd pipefd (save_stdin o cmd pipefd
    { ret := BUILTIN_OK, stdout_dup := -1, stdin_dup := -1, out_fd := -1, in_fd := -1, w := w })
  obtain ⟨l3, h3⟩ := redirect_stdin_steps o (open_input o cmd pipefd (save_stdin o cmd pipefd
    { ret := BUILTIN_OK, stdout_dup := -1, stdin_dup := -1, out_fd := -1, in_fd := -1, w := w }))
  obtain ⟨l4, h4⟩ := setup_stdout_steps o cmd pipefd (redirect_stdin o (open_input o cmd pipefd
    (save_stdin o cmd pipefd
      { ret := BUILTIN_OK, stdout_dup := -1, stdin_dup := -1, out_fd := -1, in_fd := -1,
        w := w })))
  exact ⟨_, steps_trans (steps_trans (steps_trans h1 h2) h3) h4⟩

theorem builtin_restore_steps (o : outcomes) (cmd : stage) (s : builtin_vars) :
    ∃ l, steps s (builtin_restore o cmd s) l := by
  unfold builtin_restore
  obtain ⟨l1, h1⟩ := close_output_steps o cmd s
  obtain ⟨l2, h2⟩ := restore_stdout_steps o (close_output o cmd s)
  obtain ⟨l3, h3⟩ := close_input_steps o cmd (restore_stdout o (close_output o cmd s))
  obtain ⟨l4, h4⟩ := restore_stdin_steps o
    (close_input o cmd (restore_stdout o (close_output o cmd s)))
  exact ⟨_, steps_trans (steps_trans (steps_trans h1 h2) h3) h4⟩

/-- What `execute_builtin` returns for a builtin: the calls it makes are added
to the trace; the result is BUILTIN_ERROR or what the handler returns; it is
BUILTIN_EXIT only if the handler returns that, and it is what the handler
returns if every call succeeds. -/
theorem execute_builtin_ret (o : outcomes) (cmd : stage) (pipefd : Int × Int) (w : world)
    (h : 0 ≤ find_builtin cmd) :
    ∃ l, (execute_builtin o cmd pipefd w).2.trace = w.trace ++ l ∧
      ((execute_builtin o cmd pipefd w).1 = BUILTIN_ERROR ∨
        (execute_builtin o cmd pipefd w).1 = o.handler (find_builtin cmd).toNat cmd) ∧
      ((∀ e ∈ l, 0 ≤ e.2) →
        (execute_builtin o cmd pipefd w).1 = o.handler (find_builtin cmd).toNat cmd) := by
  obtain ⟨l1, a1, b1, c1⟩ := builtin_setup_steps o cmd pipefd w
  obtain ⟨l2, a2, b2, c2⟩ := builtin_restore_steps o cmd
    (run_handler o cmd (find_builtin cmd) (builtin_setup o cmd pipefd w))
  have hw : (run_handler o cmd (find_builtin cmd) (builtin_setup o cmd pipefd w)).w =
      (builtin_setup o cmd pipefd w).w := by
    unfold run_handler
    split_ifs <;> rfl
  have hr : (builtin_setup o cmd pipefd w).ret = BUILTIN_OK →
      (run_handler o cmd (find_builtin cmd) (builtin_setup o cmd pipefd w)).ret =
        o.handler (find_builtin cmd).toNat cmd := by
    intro h1
    unfold run_handler
    rw [if_pos h1]
  have he : (builtin_setup o cmd pipefd w).ret = BUILTIN_ERROR →
      (run_handler o cmd (find_builtin cmd) (builtin_setup o cmd pipefd w)).ret =
        BUILTIN_ERROR := by
    intro h1
    unfold run_handler
    rw [if_neg (by rw [h1]; decide)]
    exact h1
  unfold execute_builtin
  rw [if_neg (by omega)]
  dsimp only
  refine ⟨l1 ++ l2, by rw [a2, hw, a1, List.append_assoc], ?_, fun hall => ?_⟩
  · rcases b2 with b2 | b2
    · rw [b2]
      rcases b1 with b1 | b1
      · exact Or.inr (hr b1)
      · exact Or.inl (he b1)
    · exact Or.inl b2
  · rw [c2 (fun e he => hall e (List.mem_append_right _ he)),
      hr (c1 (fun e he => hall e (List.mem_append_left _ he)))]

theorem external_leave_end (o : outcomes) (s : external_vars) :
    (external_leave o s).1 = proc_end.exited 1 := rfl

theorem execute_external_end (o : outcomes) (cmd : stage) (w : world) :
    (execute_external o cmd w).1 = proc_end.replaced ∨
      (execute_external o cmd w).1 = proc_end.exited 1 := by
  unfold execute_external
  dsimp only
  split_ifs
  · exact Or.inr (external_leave_end _ _)
  · exact Or.inl rfl
  · exact Or.inr (external_leave_end _ _)

theorem execute_builtin_missing (o : outcomes) (cmd : stage) (pipefd : Int × Int) (w : world)
    (h : find_builtin cmd < 0) : execute_builtin o cmd pipefd w = (BUILTIN_MISSING, w) := by
  unfold execute_builtin
  rw [if_pos h]

/-- C18, as the code behaves: in a forked stage whose command name is not a
builtin: the child is replaced by the program, or it ends with `exit(1)`
inside `execute_external`, whatever fails (opening a redirect file, `dup2`,
`execvp`). The `exit(127)` that follows the call of `execute_external` is
never reached, so the exit code is never the 127 that `execute_command` looks
for. -/
theorem external_child_exit_code (o : outcomes) (cmd : stage) (pipefd : Int × Int) (pgid : Int)
    (w : world) (h : find_builtin cmd < 0) :
    ((child_branch o cmd pipefd pgid w).1 = proc_end.replaced ∨
      (child_branch o cmd pipefd pgid w).1 = proc_end.exited 1) ∧
    (child_branch o cmd pipefd pgid w).1 ≠ proc_end.exited 127 := by
  have key : (child_branch o cmd pipefd pgid w).1 = proc_end.replaced ∨
      (child_branch o cmd pipefd pgid w).1 = proc_end.exited 1 := by
    unfold child_branch
    dsimp only
    rw [execute_builtin_missing o cmd (0, 1) _ h]
    dsimp only
    rw [if_neg (by decide), if_pos rfl]
    rcases execute_external_end o cmd (child_setup o pipefd pgid w) with h1 | h1
    · left
      generalize execute_external o cmd (child_setup o pipefd pgid w) = x at h1
      obtain ⟨e, w1⟩ := x
      dsimp only at h1
      subst h1
      rfl
    · right
      generalize execute_external o cmd (child_setup o pipefd pgid w) = x at h1
      obtain ⟨e, w1⟩ := x
      dsimp only at h1
      subst h1
      rfl
  refine ⟨key, ?_⟩
  rcases key with h1 | h1 <;> rw [h1] <;> decide

theorem external_child_exit_code_witness :
    find_builtin ⟨[some "nosuchprogram".toList], none, none⟩ < 0 ∧
    (child_branch all_fail ⟨[some "nosuchprogram".toList], none, none⟩ (3, 1) 42
      world_with_pipe).1 = proc_end.exited 1 ∧
    (child_branch all_fail ⟨[some "nosuchprogram".toList], none, none⟩ (3, 1) 42
      world_with_pipe).1 ≠ proc_end.exited 127 :=
  ⟨by decide, by decide,
    (external_child_exit_code all_fail ⟨[some "nosuchprogram".toList], none, none⟩ (3, 1) 42
      world_with_pipe (by decide)).2⟩

/-- C19, amended to what the code does: in a forked stage whose command name is a
builtin, with a handler that does not return BUILTIN_MISSING, the child ends
with exit code 127 when `execute_builtin` returns BUILTIN_EXIT and with exit
code 0 otherwise: when it returns BUILTIN_OK, and also when it returns
BUILTIN_ERROR. -/
theorem builtin_child_exit_code (o : outcomes) (cmd : stage) (pipefd : Int × Int) (pgid : Int)
    (w : world) (h : 0 ≤ find_builtin cmd)
    (hh : o.handler (find_builtin cmd).toNat cmd ≠ BUILTIN_MISSING) :
    (child_branch o cmd pipefd pgid w).1 =
        proc_end.exited
          (if (execute_builtin o cmd (0, 1) (child_setup o pipefd pgid w)).1 = BUILTIN_EXIT
            then 127 else 0) ∧
    ((execute_builtin o cmd (0, 1) (child_setup o pipefd pgid w)).1 = BUILTIN_OK →
      (child_branch o cmd pipefd pgid w).1 = proc_end.exited 0) ∧
    ((execute_builtin o cmd (0, 1) (child_setup o pipefd pgid w)).1 = BUILTIN_ERROR →
      (child_branch o cmd pipefd pgid w).1 = proc_end.exited 0) ∧
    ((execute_builtin o cmd (0, 1) (child_setup o pipefd pgid w)).1 = BUILTIN_EXIT →
      (child_branch o cmd pipefd pgid w).1 = proc_end.exited 127) := by
  obtain ⟨l, _, h2, _⟩ := execute_builtin_ret o cmd (0, 1) (child_setup o pipefd pgid w) h
  have hm : (execute_builtin o cmd (0, 1) (child_setup o pipefd pgid w)).1 ≠ BUILTIN_MISSING := by
    rcases h2 with h2 | h2
    · rw [h2]
      decide
    · rw [h2]
      exact hh
  have key : (child_branch o cmd pipefd pgid w).1 =
      proc_end.exited
        (if (execute_builtin o cmd (0, 1) (child_setup o pipefd pgid w)).1 = BUILTIN_EXIT
          then 127 else 0) := by
    unfold child_branch
    dsimp only
    by_cases h3 : (execute_builtin o cmd (0, 1) (child_setup o pipefd pgid w)).1 = BUILTIN_EXIT
    · rw [if_pos h3, if_pos h3]
    · rw [if_neg h3, if_neg hm, if_neg h3]
  refine ⟨key, fun h1 => ?_, fun h1 => ?_, fun h1 => ?_⟩
  · rw [key, h1, if_neg (by decide)]
  · rw [key, h1, if_neg (by decide)]
  · rw [key, h1, if_pos rfl]

theorem builtin_child_exit_code_witness :
    0 ≤ find_builtin ⟨[some "exit".toList], none, none⟩ ∧
    handler_error.handler (find_builtin ⟨[some "exit".toList], none, none⟩).toNat
      ⟨[some "exit".toList], none, none⟩ ≠ BUILTIN_MISSING ∧
    (execute_builtin handler_error ⟨[some "exit".toList], none, none⟩ (0, 1)
      (child_setup handler_error (3, 1) 42 world_with_pipe)).1 = BUILTIN_EXIT ∧
    (child_branch handler_error ⟨[some "exit".toList], none, none⟩ (3, 1) 42
      world_with_pipe).1 = proc_end.exited 127 :=
  ⟨by decide, by decide, by decide,
    (builtin_child_exit_code handler_error ⟨[some "exit".toList], none, none⟩ (3, 1) 42
      world_with_pipe (by decide) (by decide)).2.2.2 (by decide)⟩

/-- Counterexample to C19 as stated: `cd` on a directory that does not
exist, as the right stage of a pipeline. The command is a builtin, every call
succeeds, `execute_builtin` returns BUILTIN_ERROR, and the child ends with
exit code 0, not 127. -/
theorem builtin_child_error_exits_zero :
    0 ≤ find_builtin ⟨[some "cd".toList, some "/nonexistent".toList], none, none⟩ ∧
    (execute_builtin handler_error ⟨[some "cd".toList, some "/nonexistent".toList], none, none⟩
      (0, 1) (child_setup handler_error (3, 1) 42 world_with_pipe)).1 = BUILTIN_ERROR ∧
    (child_branch handler_error ⟨[some "cd".toList, some "/nonexistent".toList], none, none⟩
      (3, 1) 42 world_with_pipe).1 = proc_end.exited 0 ∧
    (child_branch handler_error ⟨[some "cd".toList, some "/nonexistent".toList], none, none⟩
      (3, 1) 42 world_with_pipe).1 ≠ proc_end.exited 127 := by
  refine ⟨by decide, by decide, by decide, by decide⟩

theorem wait_loop_ret (o : outcomes) : ∀ (n : Nat) (ret : status_t) (w : world),
    (wait_loop o n ret w).1 = ret ∨ (wait_loop o n ret w).1 = EXTERNAL_ERROR := by
  intro n
  induction n with
  | zero => intro ret w; exact Or.inl rfl
  | succ n ih =>
    intro ret w
    rw [wait_loop]
    split_ifs
    · rcases ih EXTERNAL_ERROR _ with h | h
      · exact Or.inr h
      · exact Or.inr h
    · exact ih ret _

theorem pipeline_tail_ret (o : outcomes) (builtin_idx : Int) (cmd : stage) (s : command_vars) :
    (pipeline_tail o builtin_idx cmd s).ret = s.ret ∨
      (pipeline_tail o builtin_idx cmd s).ret = PIPE_ERROR := by
  unfold pipeline_tail
  dsimp only
  split_ifs
  · exact Or.inr rfl
  · exact Or.inl rfl
  · exact Or.inl rfl

theorem ite_of_both {α : Type} (P : α → Prop) (c : Prop) [Decidable c] (a b : α)
    (ha : P a) (hb : P b) : P (if c then a else b) := by
  split_ifs
  · exact ha
  · exact hb

theorem pipeline_loop_ret (o : outcomes) (builtin_idx : Int) :
    ∀ (cmds : List stage) (s : command_vars), s.ret = PIPE_OK ∨ s.ret = PIPE_ERROR →
      (pipeline_loop o builtin_idx cmds s).ret = PIPE_OK ∨
        (pipeline_loop o builtin_idx cmds s).ret = PIPE_ERROR := by
  intro cmds
  induction cmds with
  | nil => intro s h; exact h
  | cons cmd rest ih =>
    intro s h
    have tail : ∀ s1 : command_vars, s1.ret = s.ret →
        (pipeline_loop o builtin_idx rest (pipeline_tail o builtin_idx cmd s1)).ret = PIPE_OK ∨
          (pipeline_loop o builtin_idx rest (pipeline_tail o builtin_idx cmd s1)).ret =
            PIPE_ERROR := by
      intro s1 h1
      apply ih
      rcases pipeline_tail_ret o builtin_idx cmd s1 with h2 | h2
      · rw [h2, h1]
        exact h
      · exact Or.inr h2
    rw [pipeline_loop]
    refine ite_of_both (fun x : command_vars => x.ret = PIPE_OK ∨ x.ret = PIPE_ERROR) _ _ _
      (Or.inr rfl) ?_
    dsimp only
    refine ite_of_both (fun x : command_vars => x.ret = PIPE_OK ∨ x.ret = PIPE_ERROR) _ _ _
      ?_ (tail _ rfl)
    exact ite_of_both (fun x : command_vars => x.ret = PIPE_OK ∨ x.ret = PIPE_ERROR) _ _ _
      (Or.inr rfl) (tail _ rfl)

theorem start_stages_ret (o : outcomes) (cmd : stage) (rest : List stage) (w : world) :
    (rest ≠ [] ∧ ((start_stages o cmd rest w).ret = PIPE_OK ∨
      (start_stages o cmd rest w).ret = PIPE_ERROR)) ∨
    (rest = [] ∧ find_builtin cmd < 0 ∧ (start_stages o cmd rest w).ret = EXTERNAL_OK) ∨
    (rest = [] ∧ 0 ≤ find_builtin cmd ∧
      (start_stages o cmd rest w).ret = (execute_builtin o cmd (0, 1) w).1 ∧
      (start_stages o cmd rest w).child_count = 1) := by
  unfold start_stages
  by_cases h1 : rest ≠ []
  · left
    rw [if_pos h1]
    refine ⟨h1, ?_⟩
    have h2 := pipeline_loop_ret o (find_builtin cmd) (cmd :: rest)
      { ret := PIPE_OK, child_count := 0, fd := (0, 1), pipefd := (-1, -1), w := w }
      (Or.inl rfl)
    dsimp only
    split_ifs
    · exact Or.inr rfl
    · exact h2
    · exact h2
  · right
    rw [if_neg h1]
    have h1' : rest = [] := by simpa using h1
    by_cases h2 : find_builtin cmd < 0
    · left
      rw [if_pos h2]
      exact ⟨h1', h2, rfl⟩
    · right
      rw [if_neg h2]
      exact ⟨h1', by omega, rfl, rfl⟩

theorem execute_command_ret (o : outcomes) (cmd : stage) (rest : List stage) (w : world) :
    (execute_command o cmd rest w).1 = (start_stages o cmd rest w).ret ∨
      (execute_command o cmd rest w).1 = EXTERNAL_ERROR := by
  unfold execute_command
  dsimp only
  exact wait_loop_ret o _ _ _

theorem execute_command_builtin (o : outcomes) (cmd : stage) (w : world)
    (h : 0 ≤ find_builtin cmd) :
    (execute_command o cmd [] w).1 = (execute_builtin o cmd (0, 1) w).1 := by
  rcases start_stages_ret o cmd [] w with ⟨h1, _⟩ | ⟨_, h1, _⟩ | ⟨_, _, h1, h2⟩
  · exact absurd rfl h1
  · omega
  · unfold execute_command
    dsimp only
    rw [h2, if_pos ⟨by omega, by omega⟩, h1]
    rfl

/-- C20, amended to what the code does: the exit request reaches the caller exactly for a
sole, non-piped builtin whose handler is run. `execute_command` returns
BUILTIN_EXIT only if the chain has a single stage, the name of the stage is a
builtin and its handler returns BUILTIN_EXIT; on a chain of two or more stages
it never returns BUILTIN_EXIT; and on a single stage that is a builtin whose
handler returns BUILTIN_EXIT it returns BUILTIN_EXIT if every call that
`execute_builtin` makes succeeds: the calls that save and restore the
descriptors, and also the calls that open the redirect files. -/
theorem exit_request_reaches_caller (o : outcomes) (cmd : stage) (rest : List stage)
    (w : world) :
    ((execute_command o cmd rest w).1 = BUILTIN_EXIT →
      rest = [] ∧ 0 ≤ find_builtin cmd ∧
        o.handler (find_builtin cmd).toNat cmd = BUILTIN_EXIT) ∧
    (rest ≠ [] → (execute_command o cmd rest w).1 ≠ BUILTIN_EXIT) ∧
    (rest = [] → 0 ≤ find_builtin cmd →
      o.handler (find_builtin cmd).toNat cmd = BUILTIN_EXIT →
      (∀ e ∈ (execute_builtin o cmd (0, 1) w).2.trace.drop w.trace.length, 0 ≤ e.2) →
      (execute_command o cmd rest w).1 = BUILTIN_EXIT) := by
  have only_if : (execute_command o cmd rest w).1 = BUILTIN_EXIT →
      rest = [] ∧ 0 ≤ find_builtin cmd ∧
        o.handler (find_builtin cmd).toNat cmd = BUILTIN_EXIT := by
    intro h
    have h1 : (start_stages o cmd rest w).ret = BUILTIN_EXIT := by
      rcases execute_command_ret o cmd rest w with h2 | h2
      · rw [← h2]
        exact h
      · rw [h2] at h
        exact absurd h (by decide)
    rcases start_stages_ret o cmd rest w with ⟨_, h2 | h2⟩ | ⟨_, _, h2⟩ | ⟨h2, h3, h4, _⟩
    · rw [h2] at h1
      exact absurd h1 (by decide)
    · rw [h2] at h1
      exact absurd h1 (by decide)
    · rw [h2] at h1
      exact absurd h1 (by decide)
    · refine ⟨h2, h3, ?_⟩
      rw [h4] at h1
      obtain ⟨l, _, h5, _⟩ := execute_builtin_ret o cmd (0, 1) w h3
      rcases h5 with h5 | h5
      · rw [h5] at h1
        exact absurd h1 (by decide)
      · rw [← h5]
        exact h1
  refine ⟨only_if, fun h1 h2 => h1 (only_if h2).1, fun h1 h2 h3 h4 => ?_⟩
  subst h1
  obtain ⟨l, h5, _, h6⟩ := execute_builtin_ret o cmd (0, 1) w h2
  rw [h5, List.drop_left] at h4
  rw [execute_command_builtin o cmd w h2, h6 h4, h3]

theorem exit_request_reaches_caller_witness :
    0 ≤ find_builtin ⟨[some "exit".toList], none, some "log".toList⟩ ∧
    all_succeed.handler (find_builtin ⟨[some "exit".toList], none, some "log".toList⟩).toNat
      ⟨[some "exit".toList], none, some "log".toList⟩ = BUILTIN_EXIT ∧
    (∀ e ∈ (execute_builtin all_succeed ⟨[some "exit".toList], none, some "log".toList⟩ (0, 1)
      world_start).2.trace.drop world_start.trace.length, 0 ≤ e.2) ∧
    (execute_command all_succeed ⟨[some "exit".toList], none, some "log".toList⟩ []
      world_start).1 = BUILTIN_EXIT :=
  ⟨by decide, by decide, by decide,
    (exit_request_reaches_caller all_succeed ⟨[some "exit".toList], none, some "log".toList⟩ []
      world_start).2.2 rfl (by decide) (by decide) (by decide)⟩

/-- Counterexample to C20 as stated: `exit <nofile` where the file
cannot be opened. The chain has a single stage, its name is the builtin `exit`,
whose handler returns BUILTIN_EXIT, and every call that saves or restores a
descriptor (`dup`, `dup2`, `close`) succeeds; but the handler is not run, and
`execute_command` returns BUILTIN_ERROR. -/
theorem exit_with_unopened_input :
    find_builtin ⟨[some "exit".toList], some "nofile".toList, none⟩ = 6 ∧
    second_call_fails.handler 6 ⟨[some "exit".toList], some "nofile".toList, none⟩ =
      BUILTIN_EXIT ∧
    (∀ e ∈ (execute_command second_call_fails
        ⟨[some "exit".toList], some "nofile".toList, none⟩ [] world_start).2.trace,
      e.1.on_descriptor = true → 0 ≤ e.2) ∧
    (execute_command second_call_fails ⟨[some "exit".toList], some "nofile".toList, none⟩ []
      world_start).1 = BUILTIN_ERROR ∧
    (execute_command second_call_fails ⟨[some "exit".toList], some "nofile".toList, none⟩ []
      world_start).1 ≠ BUILTIN_EXIT := by
  refine ⟨by decide, by decide, by decide, by decide, by decide⟩

theorem calls_refl (w : world) : calls w w [] := ⟨by rw [List.append_nil], rfl⟩

theorem calls_trans {w w1 w2 : world} {l1 l2 : List (os_call × Int)} (h1 : calls w w1 l1)
    (h2 : calls w1 w2 l2) : calls w w2 (l1 ++ l2) :=
  ⟨by rw [h2.1, h1.1, List.append_assoc], by rw [h2.2, h1.2]⟩

theorem calls_sys (o : outcomes) (c : os_call) (w : world) :
    calls w (sys o c w).2 [(c, (sys o c w).1)] := ⟨rfl, rfl⟩

theorem builtin_step_refl (s : builtin_vars) : builtin_step s s :=
  ⟨[], calls_refl _, by simp⟩

theorem builtin_step_same {s s1 : builtin_vars} (h : s1.w = s.w) : builtin_step s s1 :=
  ⟨[], by rw [h]; exact calls_refl _, by simp⟩

theorem builtin_step_trans {s s1 s2 : builtin_vars} (h1 : builtin_step s s1)
    (h2 : builtin_step s1 s2) : builtin_step s s2 := by
  obtain ⟨l1, a1, b1⟩ := h1
  obtain ⟨l2, a2, b2⟩ := h2
  refine ⟨l1 ++ l2, calls_trans a1 a2, fun e he => ?_⟩
  rcases List.mem_append.mp he with h | h
  · exact b1 e h
  · exact b2 e h

theorem builtin_step_sys (o : outcomes) (c : os_call) (hc : c.in_builtin = true)
    {s s1 : builtin_vars} (h : s1.w = (sys o c s.w).2) : builtin_step s s1 :=
  ⟨[(c, (sys o c s.w).1)], by rw [h]; exact calls_sys o c s.w, by
    intro e he
    rw [List.mem_singleton.mp he]
    exact hc⟩

theorem builtin_step_sys2 (o : outcomes) (c1 c2 : os_call) (h1 : c1.in_builtin = true)
    (h2 : c2.in_builtin = true) {s s1 : builtin_vars}
    (h : s1.w = (sys o c2 (sys o c1 s.w).2).2) : builtin_step s s1 :=
  ⟨[(c1, (sys o c1 s.w).1)] ++ [(c2, (sys o c2 (sys o c1 s.w).2).1)], by
    rw [h]
    exact calls_trans (calls_sys o c1 s.w) (calls_sys o c2 _), by
    intro e he
    rcases List.mem_append.mp he with h3 | h3
    · rw [List.mem_singleton.mp h3]
      exact h1
    · rw [List.mem_singleton.mp h3]
      exact h2⟩

theorem save_stdin_step (o : outcomes) (cmd : stage) (pipefd : Int × Int) (s : builtin_vars) :
    builtin_step s (save_stdin o cmd pipefd s) := by
  unfold save_stdin
  split_ifs
  · exact builtin_step_sys o (os_call.dup 0) rfl rfl
  · exact builtin_step_refl s

theorem open_input_step (o : outcomes) (cmd : stage) (pipefd : Int × Int) (s : builtin_vars) :
    builtin_step s (open_input o cmd pipefd s) := by
  unfold open_input
  cases cmd.in_file with
  | some path => exact builtin_step_sys o (os_call.open_read path) rfl rfl
  | none =>
    dsimp only
    split_ifs
    · exact builtin_step_same rfl
    · exact builtin_step_refl s

theorem redirect_stdin_step (o : outcomes) (s : builtin_vars) :
    builtin_step s (redirect_stdin o s) := by
  unfold redirect_stdin
  split_ifs
  · exact builtin_step_sys o (os_call.dup2 s.in_fd 0) rfl rfl
  · exact builtin_step_refl s

theorem save_stdout_step (o : outcomes) (cmd : stage) (pipefd : Int × Int) (s : builtin_vars) :
    builtin_step s (save_stdout o cmd pipefd s) := by
  unfold save_stdout
  split_ifs
  · exact builtin_step_sys o (os_call.dup 1) rfl rfl
  · exact builtin_step_refl s

theorem open_output_step (o : outcomes) (cmd : stage) (pipefd : Int × Int) (s : builtin_vars) :
    builtin_step s (open_output o cmd pipefd s) := by
  unfold open_output
  cases cmd.out_file with
  | some path => exact builtin_step_sys o (os_call.open_write path) rfl rfl
  | none =>
    dsimp only
    split_ifs
    · exact builtin_step_same rfl
    · exact builtin_step_refl s

theorem redirect_stdout_step (o : outcomes) (s : builtin_vars) :
    builtin_step s (redirect_stdout o s) := by
  unfold redirect_stdout
  split_ifs
  · exact builtin_step_sys o (os_call.dup2 s.out_fd 1) rfl rfl
  · exact builtin_step_refl s

theorem setup_stdout_step (o : outcomes) (cmd : stage) (pipefd : Int × Int) (s : builtin_vars) :
    builtin_step s (setup_stdout o cmd pipefd s) := by
  unfold setup_stdout
  split_ifs
  · exact builtin_step_trans (builtin_step_trans (save_stdout_step o cmd pipefd s)
      (open_output_step o cmd pipefd _)) (redirect_stdout_step o _)
  · exact builtin_step_refl s

theorem run_handler_step (o : outcomes) (cmd : stage) (i : Int) (s : builtin_vars) :
    builtin_step s (run_handler o cmd i s) := by
  unfold run_handler
  split_ifs
  · exact builtin_step_same rfl
  · exact builtin_step_refl s

theorem close_output_step (o : outcomes) (cmd : stage) (s : builtin_vars) :
    builtin_step s (close_output o cmd s) := by
  unfold close_output
  split_ifs
  · exact builtin_step_sys o (os_call.close s.out_fd) rfl rfl
  · exact builtin_step_refl s

theorem restore_stdout_step (o : outcomes) (s : builtin_vars) :
    builtin_step s (restore_stdout o s) := by
  unfold restore_stdout
  split_ifs
  · exact builtin_step_sys2 o (os_call.dup2 s.stdout_dup 1) (os_call.close s.stdout_dup)
      rfl rfl rfl
  · exact builtin_step_refl s

theorem close_input_step (o : outcomes) (cmd : stage) (s : builtin_vars) :
    builtin_step s (close_input o cmd s) := by
  unfold close_input
  split_ifs
  · exact builtin_step_sys o (os_call.close s.in_fd) rfl rfl
  · exact builtin_step_refl s

theorem restore_stdin_step (o : outcomes) (s : builtin_vars) :
    builtin_step s (restore_stdin o s) := by
  unfold restore_stdin
  split_ifs
  · exact builtin_step_sys2 o (os_call.dup2 s.stdin_dup 0) (os_call.close s.stdin_dup)
      rfl rfl rfl
  · exact builtin_step_refl s

/-- The calls of `execute_builtin`, whatever the command: on descriptors and
files only, and `pipeline_pgid` is left as it is. -/
theorem execute_builtin_calls (o : outcomes) (cmd : stage) (pipefd : Int × Int) (w : world) :
    ∃ l, calls w (execute_builtin o cmd pipefd w).2 l ∧ ∀ e ∈ l, e.1.in_builtin = true := by
  unfold execute_builtin
  split_ifs
  · exact ⟨[], calls_refl w, by simp⟩
  · dsimp only
    unfold builtin_restore builtin_setup
    exact builtin_step_trans (builtin_step_trans (builtin_step_trans (builtin_step_trans
      (builtin_step_trans (builtin_step_trans (builtin_step_trans (builtin_step_trans
      (builtin_step_trans
        (save_stdin_step o cmd pipefd
          { ret := BUILTIN_OK, stdout_dup := -1, stdin_dup := -1, out_fd := -1, in_fd := -1,
            w := w })
        (open_input_step o cmd pipefd _)) (redirect_stdin_step o _))
      (setup_stdout_step o cmd pipefd _)) (run_handler_step o cmd _ _))
      (close_output_step o cmd _)) (restore_stdout_step o _)) (close_input_step o cmd _))
      (restore_stdin_step o _)) (builtin_step_refl _)

theorem find_builtin_of_name {cmd : stage} {name : List Char}
    (hn : cmd.args.head? = some (some name)) (hb : name ∈ builtins) : 0 ≤ find_builtin cmd := by
  unfold find_builtin
  rw [hn]
  dsimp only
  rw [if_pos hb]
  omega

theorem forks_append (a b : List (os_call × Int)) : forks (a ++ b) = forks a + forks b := by
  unfold forks
  rw [List.countP_append]

theorem waits_append (a b : List (os_call × Int)) : waits (a ++ b) = waits a + waits b := by
  unfold waits
  rw [List.countP_append]

theorem adds_refl (w : world) : adds w w 0 0 := ⟨[], by rw [List.append_nil], rfl, rfl⟩

theorem adds_trans {w w1 w2 : world} {f1 f2 n1 n2 f n : Nat} (h1 : adds w w1 f1 n1)
    (h2 : adds w1 w2 f2 n2) (hf : f = f1 + f2) (hn : n = n1 + n2) : adds w w2 f n := by
  obtain ⟨l1, a1, b1, c1⟩ := h1
  obtain ⟨l2, a2, b2, c2⟩ := h2
  exact ⟨l1 ++ l2, by rw [a2, a1, List.append_assoc], by rw [forks_append, b1, b2, hf],
    by rw [waits_append, c1, c2, hn]⟩

theorem adds_sys (o : outcomes) (c : os_call) (w : world) (hf : c ≠ os_call.fork)
    (hw : c ≠ os_call.waitpid) : adds w (sys o c w).2 0 0 :=
  ⟨[(c, (sys o c w).1)], rfl, by simp [forks, hf], by simp [waits, hw]⟩

theorem adds_fork (o : outcomes) (w : world) : adds w (sys o os_call.fork w).2 1 0 :=
  ⟨[(os_call.fork, (sys o os_call.fork w).1)], rfl, by simp [forks], by simp [waits]⟩

theorem adds_waitpid (o : outcomes) (w : world) : adds w (sys o os_call.waitpid w).2 0 1 :=
  ⟨[(os_call.waitpid, (sys o os_call.waitpid w).1)], rfl, by simp [forks], by simp [waits]⟩

theorem adds_ite {w a b : world} {f n : Nat} (c : Prop) [Decidable c] (h1 : adds w a f n)
    (h2 : adds w b f n) : adds w (if c then a else b) f n := by
  split_ifs
  · exact h1
  · exact h2

theorem adds_pgid {w w1 : world} {f n : Nat} (p : Int) (h : adds w w1 f n) :
    adds w { w1 with pipeline_pgid := p } f n := h

theorem adds_of_in_builtin {w w1 : world} {l : List (os_call × Int)} (h : calls w w1 l)
    (hl : ∀ e ∈ l, e.1.in_builtin = true) : adds w w1 0 0 := by
  refine ⟨l, h.1, ?_, ?_⟩
  · unfold forks
    rw [List.countP_eq_zero]
    intro e he
    have := hl e he
    simp only [decide_eq_true_eq]
    intro h1
    rw [h1] at this
    exact absurd this (by decide)
  · unfold waits
    rw [List.countP_eq_zero]
    intro e he
    have := hl e he
    simp only [decide_eq_true_eq]
    intro h1
    rw [h1] at this
    exact absurd this (by decide)

theorem execute_builtin_adds (o : outcomes) (cmd : stage) (pipefd : Int × Int) (w : world) :
    adds w (execute_builtin o cmd pipefd w).2 0 0 := by
  obtain ⟨l, h1, h2⟩ := execute_builtin_calls o cmd pipefd w
  exact adds_of_in_builtin h1 h2

theorem wait_loop_adds (o : outcomes) : ∀ (n : Nat) (ret : status_t) (w : world),
    adds w (wait_loop o n ret w).2 0 n := by
  intro n
  induction n with
  | zero => intro ret w; exact adds_refl w
  | succ n ih =>
    intro ret w
    rw [wait_loop]
    split_ifs
    · exact adds_trans (adds_trans (adds_waitpid o w)
        (adds_sys o (os_call.killpg _) _ (by simp) (by simp)) rfl rfl) (ih _ _) rfl
        (by omega)
    · exact adds_trans (adds_waitpid o w) (ih _ _) rfl (by omega)

/-- The calls of `execute_command` after the stages are started: no `fork`,
and one `waitpid` for each child that is counted. -/
theorem execute_command_adds (o : outcomes) (cmd : stage) (rest : List stage) (w : world) :
    adds (start_stages o cmd rest w).w (execute_command o cmd rest w).2 0
      (if (start_stages o cmd rest w).child_count > 0 ∧ find_builtin cmd ≥ 0 then
        (start_stages o cmd rest w).child_count - 1
      else (start_stages o cmd rest w).child_count) := by
  unfold execute_command
  dsimp only
  refine adds_trans (adds_trans (adds_trans (adds_trans
    (adds_ite _ (adds_sys o (os_call.killpg _) _ (by simp) (by simp)) (adds_refl _))
    (adds_ite _ (adds_sys o (os_call.tcsetpgrp _) _ (by simp) (by simp)) (adds_refl _)) rfl rfl)
    (adds_pgid 0 (wait_loop_adds o _ _ _)) rfl rfl)
    (adds_sys o os_call.getpgid _ (by simp) (by simp)) rfl rfl)
    (adds_sys o (os_call.tcsetpgrp _) _ (by simp) (by simp)) rfl (by omega)

theorem execute_command_pgid (o : outcomes) (cmd : stage) (rest : List stage) (w : world) :
    (execute_command o cmd rest w).2.pipeline_pgid = 0 := rfl

theorem no_call_of_count {l : List (os_call × Int)} (hf : forks l = 0) (hw : waits l = 0) :
    ∀ e ∈ l, e.1 ≠ os_call.fork ∧ e.1 ≠ os_call.waitpid := by
  unfold forks at hf
  unfold waits at hw
  rw [List.countP_eq_zero] at hf hw
  intro e he
  exact ⟨by simpa using hf e he, by simpa using hw e he⟩

/-- C21: a single builtin that is not piped never forks. For every chain of one
stage whose `argv[0]` is one of the names of the table `builtins`, the calls
`execute_command` makes hold no `fork` and no `waitpid`; `pipeline_pgid` is
not changed while the stage is run, and it is 0 when `execute_command`
returns. -/
theorem single_builtin_never_forks (o : outcomes) (cmd : stage) (w : world) (name : List Char)
    (hn : cmd.args.head? = some (some name)) (hb : name ∈ builtins) :
    ∃ l, (execute_command o cmd [] w).2.trace = w.trace ++ l ∧
      (∀ e ∈ l, e.1 ≠ os_call.fork ∧ e.1 ≠ os_call.waitpid) ∧
      (start_stages o cmd [] w).w.pipeline_pgid = w.pipeline_pgid ∧
      (execute_command o cmd [] w).2.pipeline_pgid = 0 := by
  have hf := find_builtin_of_name hn hb
  obtain ⟨l0, ⟨_, h2⟩, _⟩ := execute_builtin_calls o cmd (0, 1) w
  have hs : start_stages o cmd [] w =
      { ret := (execute_builtin o cmd (0, 1) w).1, child_count := 1, fd := (0, 1),
        pipefd := (-1, -1), w := (execute_builtin o cmd (0, 1) w).2 } := by
    unfold start_stages
    rw [if_neg (by simp), if_neg (by omega)]
  have h3 := execute_command_adds o cmd [] w
  rw [hs] at h3
  dsimp only at h3
  rw [if_pos ⟨by omega, hf⟩] at h3
  obtain ⟨l, h4, h5, h6⟩ := adds_trans (execute_builtin_adds o cmd (0, 1) w) h3 rfl rfl
  refine ⟨l, h4, no_call_of_count h5 h6, ?_, rfl⟩
  rw [hs]
  exact h2

theorem single_builtin_never_forks_witness :
    (stage.mk [some "pwd".toList] none none).args.head? = some (some "pwd".toList) ∧
    "pwd".toList ∈ builtins ∧
    ∃ l, (execute_command all_succeed ⟨[some "pwd".toList], none, none⟩ [] world_start).2.trace =
        world_start.trace ++ l ∧
      (∀ e ∈ l, e.1 ≠ os_call.fork ∧ e.1 ≠ os_call.waitpid) ∧
      (start_stages all_succeed ⟨[some "pwd".toList], none, none⟩ [] world_start).w.pipeline_pgid =
        world_start.pipeline_pgid ∧
      (execute_command all_succeed ⟨[some "pwd".toList], none, none⟩ [] world_start).2.pipeline_pgid
        = 0 :=
  ⟨rfl, by decide,
    single_builtin_never_forks all_succeed ⟨[some "pwd".toList], none, none⟩ world_start
      "pwd".toList rfl (by decide)⟩

theorem ite_cases {α : Type} (P : α → Prop) (c : Prop) [Decidable c] (a b : α)
    (ha : c → P a) (hb : ¬ c → P b) : P (if c then a else b) := by
  split_ifs with h
  · exact ha h
  · exact hb h

theorem pipeline_ok_append {a b : List (os_call × Int)} (h : pipeline_ok (a ++ b)) :
    pipeline_ok a ∧ pipeline_ok b :=
  ⟨fun e he => h e (List.mem_append_left _ he), fun e he => h e (List.mem_append_right _ he)⟩

theorem execute_command_child_adds (o : outcomes) (fd : Int × Int) (w : world) :
    adds w (execute_command_child o fd w).2 1 0 := by
  unfold execute_command_child
  dsimp only
  split_ifs
  · exact adds_trans (adds_trans (adds_fork o w)
      (adds_sys o (os_call.close _) _ (by simp) (by simp)) rfl rfl)
      (adds_sys o (os_call.close _) _ (by simp) (by simp)) rfl rfl
  · exact adds_fork o w

theorem run_stage_adds (o : outcomes) (builtin_idx : Int) (cmd : stage) (s : command_vars) :
    adds s.w (run_stage_of_pipeline o builtin_idx cmd s)
      (if s.child_count > 0 ∨ builtin_idx < 0 then 1 else 0) 0 := by
  unfold run_stage_of_pipeline
  by_cases h : s.child_count > 0 ∨ builtin_idx < 0
  · rw [if_pos h, if_pos h]
    dsimp only
    have h1 : adds s.w
        (if (execute_command_child o s.fd s.w).2.pipeline_pgid = 0 then
          { (execute_command_child o s.fd s.w).2 with
            pipeline_pgid := (execute_command_child o s.fd s.w).1 }
        else (execute_command_child o s.fd s.w).2) 1 0 :=
      adds_ite _ (adds_pgid _ (execute_command_child_adds o s.fd s.w))
        (execute_command_child_adds o s.fd s.w)
    exact adds_trans h1 (adds_sys o (os_call.setpgid _ _) _ (by simp) (by simp)) rfl rfl
  · rw [if_neg h, if_neg h]
    exact execute_builtin_adds o cmd s.fd s.w

theorem pipeline_tail_adds (o : outcomes) (builtin_idx : Int) (cmd : stage) (s : command_vars) :
    adds s.w (pipeline_tail o builtin_idx cmd s).w
        (if s.child_count > 0 ∨ builtin_idx < 0 then 1 else 0) 0 ∧
      (pipeline_tail o builtin_idx cmd s).child_count = s.child_count + 1 := by
  unfold pipeline_tail
  dsimp only
  by_cases h : s.fd.2 ≠ 1
  · rw [if_pos h]
    exact ⟨adds_trans (run_stage_adds o builtin_idx cmd s)
      (adds_sys o (os_call.close _) _ (by simp) (by simp)) (Nat.add_zero _).symm rfl, rfl⟩
  · rw [if_neg h]
    exact ⟨run_stage_adds o builtin_idx cmd s, rfl⟩

theorem loop_break (o : outcomes) (builtin_idx : Int) {s r : command_vars} {w1 : world}
    (n : Nat) (c : os_call) (ha : adds s.w w1 0 0) (h : r.w = (sys o c w1).2)
    (hc : c.builds_pipeline = true) (hw : c ≠ os_call.waitpid) (hneg : (sys o c w1).1 < 0) :
    loop_spec builtin_idx s r n := by
  obtain ⟨la, h1, _, h3⟩ := ha
  refine ⟨la ++ [(c, (sys o c w1).1)], by rw [h, sys_trace, h1, List.append_assoc], ?_, ?_⟩
  · rw [waits_append, h3]
    simp [waits, hw]
  · intro hok
    have := hok (c, (sys o c w1).1) (by simp) hc
    dsimp only at this
    omega

theorem loop_cont (o : outcomes) (builtin_idx : Int) (cmd : stage) (rest : List stage)
    {s : command_vars} (s1 : command_vars) (ha : adds s.w s1.w 0 0)
    (hc : s1.child_count = s.child_count)
    (ih : ∀ s2 : command_vars,
      loop_spec builtin_idx s2 (pipeline_loop o builtin_idx rest s2) rest.length) :
    loop_spec builtin_idx s
      (pipeline_loop o builtin_idx rest (pipeline_tail o builtin_idx cmd s1))
      (rest.length + 1) := by
  obtain ⟨la, a1, a2, a3⟩ := ha
  obtain ⟨⟨lt, t1, t2, t3⟩, t4⟩ := pipeline_tail_adds o builtin_idx cmd s1
  obtain ⟨l2, b1, b2, b3⟩ := ih (pipeline_tail o builtin_idx cmd s1)
  refine ⟨la ++ (lt ++ l2), by rw [b1, t1, a1, List.append_assoc, List.append_assoc], ?_, ?_⟩
  · rw [waits_append, waits_append, a3, t3, b2]
  · intro hok
    obtain ⟨_, hok2⟩ := pipeline_ok_append hok
    obtain ⟨_, hok3⟩ := pipeline_ok_append hok2
    obtain ⟨c1, c2⟩ := b3 hok3
    rw [t4, hc] at c1
    rw [if_pos (Or.inl (by rw [t4]; omega))] at c2
    refine ⟨by omega, ?_⟩
    rw [forks_append, forks_append, a2, t2, c2, hc]
    split_ifs <;> omega

theorem pipeline_loop_spec (o : outcomes) (builtin_idx : Int) :
    ∀ (cmds : List stage) (s : command_vars),
      loop_spec builtin_idx s (pipeline_loop o builtin_idx cmds s) cmds.length := by
  intro cmds
  induction cmds with
  | nil =>
    intro s
    refine ⟨[], by rw [pipeline_loop, List.append_nil], rfl, fun _ => ⟨rfl, ?_⟩⟩
    simp [forks]
  | cons cmd rest ih =>
    intro s
    rw [pipeline_loop, List.length_cons]
    refine ite_cases (fun r => loop_spec builtin_idx s r (rest.length + 1)) _ _ _
      (fun hA => ?_) (fun _ => ?_)
    · exact loop_break o builtin_idx _ (os_call.close s.fd.1) (adds_refl s.w) rfl rfl
        (by simp) hA.2.2.2
    · dsimp only
      have hw1 : adds s.w
          (if s.child_count > 0 ∧ s.fd.1 ≥ 0 ∧ s.fd.1 ≠ 0 then
            (sys o (os_call.close s.fd.1) s.w).2 else s.w) 0 0 :=
        adds_ite _ (adds_sys o (os_call.close _) _ (by simp) (by simp)) (adds_refl _)
      refine ite_cases (fun r => loop_spec builtin_idx s r (rest.length + 1)) _ _ _
        (fun _ => ?_) (fun _ => ?_)
      · refine ite_cases (fun r => loop_spec builtin_idx s r (rest.length + 1)) _ _ _
          (fun hp => ?_) (fun _ => ?_)
        · exact loop_break o builtin_idx _ os_call.pipe hw1 rfl rfl (by simp) hp
        · exact loop_cont o builtin_idx cmd rest _
            (adds_trans hw1 (adds_sys o os_call.pipe _ (by simp) (by simp)) rfl rfl) rfl ih
      · exact loop_cont o builtin_idx cmd rest _ hw1 rfl ih

/-- The calls that start the stages of the chain `cmd :: rest`: no `waitpid`,
and if no `pipe`, `close` or `fork` fails, every stage is counted and every
stage is forked, the builtin at the left end apart. -/
theorem start_stages_spec (o : outcomes) (cmd : stage) (rest : List stage) (w : world) :
    ∃ l, (start_stages o cmd rest w).w.trace = w.trace ++ l ∧ waits l = 0 ∧
      (pipeline_ok l → (start_stages o cmd rest w).child_count = rest.length + 1 ∧
        forks l = if find_builtin cmd < 0 then rest.length + 1 else rest.length) := by
  unfold start_stages
  by_cases h1 : rest ≠ []
  · rw [if_pos h1]
    obtain ⟨l, a1, a2, a3⟩ := pipeline_loop_spec o (find_builtin cmd) (cmd :: rest)
      { ret := PIPE_OK, child_count := 0, fd := (0, 1), pipefd := (-1, -1), w := w }
    dsimp only at a1 a3 ⊢
    have key : forks l = (if (0 : Nat) > 0 ∨ find_builtin cmd < 0 then (cmd :: rest).length
          else (cmd :: rest).length - 1) →
        forks l = if find_builtin cmd < 0 then rest.length + 1 else rest.length := by
      intro h
      rw [h]
      by_cases hb : find_builtin cmd < 0
      · rw [if_pos (Or.inr hb), if_pos hb]
        rfl
      · rw [if_neg (by omega), if_neg hb]
        rfl
    by_cases h2 : (pipeline_loop o (find_builtin cmd) (cmd :: rest)
      { ret := PIPE_OK, child_count := 0, fd := (0, 1), pipefd := (-1, -1), w := w }).child_count
        > 0
    · rw [if_pos h2]
      dsimp only
      refine ⟨l ++ [_], by rw [sys_trace, a1, List.append_assoc], ?_, fun hok => ?_⟩
      · rw [waits_append, a2]
        simp [waits]
      · obtain ⟨b1, b2⟩ := a3 (pipeline_ok_append hok).1
        refine ⟨by rw [b1]; simp, ?_⟩
        rw [forks_append, key b2]
        simp [forks]
    · rw [if_neg h2]
      refine ⟨l, a1, a2, fun hok => ?_⟩
      obtain ⟨b1, b2⟩ := a3 hok
      exact ⟨by rw [b1]; simp, key b2⟩
  · rw [if_neg h1]
    have h0 : rest = [] := by simpa using h1
    subst h0
    by_cases h2 : find_builtin cmd < 0
    · rw [if_pos h2, if_pos h2]
      dsimp only
      obtain ⟨l, a1, a2, a3⟩ := adds_trans
        (adds_pgid (execute_command_child o (0, 1) w).1 (execute_command_child_adds o (0, 1) w))
        (adds_sys o (os_call.setpgid (execute_command_child o (0, 1) w).1
          (execute_command_child o (0, 1) w).1) _ (by simp) (by simp)) rfl rfl
      exact ⟨l, a1, a3, fun _ => ⟨rfl, a2⟩⟩
    · rw [if_neg h2, if_neg h2]
      dsimp only
      obtain ⟨l, a1, a2, a3⟩ := execute_builtin_adds o cmd (0, 1) w
      exact ⟨l, a1, a3, fun _ => ⟨rfl, a2⟩⟩

/-- C23: the orchestrator waits once for each forked process. For a chain of
`n = rest.length + 1` stages, if every `pipe`, `close` and `fork` call that
`execute_command` makes succeeds, then it makes exactly `f` calls of `fork` and
exactly `f` calls of `waitpid`, where `f = n - 1` if the name of the first
stage is a builtin and `f = n` otherwise. -/
theorem waits_once_per_fork (o : outcomes) (cmd : stage) (rest : List stage) (w : world)
    (h : pipeline_ok ((execute_command o cmd rest w).2.trace.drop w.trace.length)) :
    forks ((execute_command o cmd rest w).2.trace.drop w.trace.length) =
        (if 0 ≤ find_builtin cmd then rest.length else rest.length + 1) ∧
      waits ((execute_command o cmd rest w).2.trace.drop w.trace.length) =
        (if 0 ≤ find_builtin cmd then rest.length else rest.length + 1) := by
  obtain ⟨l1, a1, a2, a3⟩ := start_stages_spec o cmd rest w
  obtain ⟨l2, b1, b2, b3⟩ := execute_command_adds o cmd rest w
  have ht : (execute_command o cmd rest w).2.trace.drop w.trace.length = l1 ++ l2 := by
    rw [b1, a1, List.append_assoc, List.drop_left]
  rw [ht] at h ⊢
  obtain ⟨c1, c2⟩ := a3 (pipeline_ok_append h).1
  rw [c1] at b3
  rw [forks_append, waits_append, a2, b2, b3, c2]
  by_cases hb : 0 ≤ find_builtin cmd
  · rw [if_pos hb, if_neg (by omega), if_pos ⟨by omega, hb⟩]
    exact ⟨by omega, by omega⟩
  · rw [if_neg hb, if_pos (by omega), if_neg (fun hc => hb hc.2)]
    exact ⟨by omega, by omega⟩

theorem waits_once_per_fork_witness :
    pipeline_ok ((execute_command all_succeed ⟨[some "exit".toList], none, none⟩
      [⟨[some "cat".toList], none, none⟩, ⟨[some "wc".toList], none, none⟩]
      world_start).2.trace.drop world_start.trace.length) ∧
    forks ((execute_command all_succeed ⟨[some "exit".toList], none, none⟩
      [⟨[some "cat".toList], none, none⟩, ⟨[some "wc".toList], none, none⟩]
      world_start).2.trace.drop world_start.trace.length) = 2 ∧
    waits ((execute_command all_succeed ⟨[some "exit".toList], none, none⟩
      [⟨[some "cat".toList], none, none⟩, ⟨[some "wc".toList], none, none⟩]
      world_start).2.trace.drop world_start.trace.length) = 2 :=
  ⟨by unfold pipeline_ok; decide,
    waits_once_per_fork all_succeed ⟨[some "exit".toList], none, none⟩
      [⟨[some "cat".toList], none, none⟩, ⟨[some "wc".toList], none, none⟩] world_start
      (by unfold pipeline_ok; decide)⟩

/-- C24, as the code behaves: on the line `"" foo` the code returns kParseOK
with `argc = 2`, and `argv[0]` and `argv[1]` both point at offset 0 of the
buffer, which begins `foo NUL`: two tokens are stored and they occupy the same
region, so the buffer does not begin with one region for each stored token.
When the empty quoted section ends the pointer `arg` is left at the write index
0, the test `*arg` at the delimiter reads the quote character that is still
there, and the next section, started at the same write index, overwrites it.
On the line of the claim, `foo bar  "baz qux"  quux`, the layout is the one
described: offsets 0, 4, 8 and 16 of `foo NUL bar NUL baz qux NUL quux NUL`. -/
theorem parse_tokens_overlap :
    (parse new_command (some (DQ :: DQ :: " foo".toList))).map
        (fun r => (r.1, r.2.working_cmd.argc, r.2.working_cmd.argv.take 2, r.2.buf.take 4)) =
      some (kParseOK, 2, [cell.ptr 0, cell.ptr 0], "foo".toList ++ [NUL]) ∧
    parse_line (DQ :: DQ :: " foo".toList) =
      some (kParseOK, [⟨[some "foo".toList, some "foo".toList], none, none⟩]) ∧
    (parse new_command
        (some ("foo bar  ".toList ++ DQ :: ("baz qux".toList ++ DQ :: "  quux".toList)))).map
        (fun r => (r.1, r.2.working_cmd.argc, r.2.working_cmd.argv.take 4, r.2.buf.take 21)) =
      some (kParseOK, 4, [cell.ptr 0, cell.ptr 4, cell.ptr 8, cell.ptr 16],
        "foo".toList ++ NUL :: ("bar".toList ++ NUL :: ("baz qux".toList ++
          NUL :: ("quux".toList ++ [NUL])))) := by
  refine ⟨by decide, by decide, by decide⟩

/-- C26, as the code behaves: an empty quoted section followed by a space is
stored as an empty argument. On `"" ` (two quotes and a space) the code returns
kParseOK with `argc = 1` and `argv[0]` the empty string; on `a "" b` it returns
kParseOK with the three arguments `a`, the empty string and `b`. The test
`*arg != 0` at the delimiter reads the byte at the write index before the
terminator is written there, and that byte is still the quote character. Only
at the end of the line, as in `""` alone, is the empty section dropped. -/
theorem parse_stores_empty_argument :
    parse_line (DQ :: DQ :: " ".toList) = some (kParseOK, [⟨[some []], none, none⟩]) ∧
    parse_line ('a' :: ' ' :: DQ :: DQ :: " b".toList) =
      some (kParseOK, [⟨[some "a".toList, some [], some "b".toList], none, none⟩]) ∧
    parse_line [DQ, DQ] = some (kParseOK, [⟨[], none, none⟩]) := by
  refine ⟨by decide, by decide, by decide⟩

theorem rd_drop (buf : List Char) (a k : Nat) : rd buf (a + k) = rd (buf.drop a) k := by
  simp [rd]

theorem takeWhile_nil_of_rd {Y : List Char} (h : rd Y 0 = NUL) :
    Y.takeWhile (fun c => c ≠ NUL) = [] := by
  cases Y with
  | nil => rfl
  | cons c Y =>
    have hc : c = NUL := h
    simp [hc]

/-- In a NUL-terminated string, the character after the longest prefix made of
characters that satisfy `p` is the terminator exactly if every character of
the string satisfies `p`. -/
theorem rd_after_span (p : Char → Bool) : ∀ Y : List Char,
    (rd Y (((Y.takeWhile (fun c => c ≠ NUL)).takeWhile p).length) = NUL ↔
      ∀ c ∈ Y.takeWhile (fun c => c ≠ NUL), p c = true) := by
  intro Y
  induction Y with
  | nil => simp [rd]
  | cons c Y ih =>
    by_cases hc : c = NUL
    · simp [hc, rd]
    · by_cases hp : p c = true
      · have h1 : (c :: Y).takeWhile (fun c => c ≠ NUL) = c :: Y.takeWhile (fun c => c ≠ NUL) := by
          simp [hc]
        rw [h1, List.takeWhile_cons_of_pos hp, List.length_cons]
        have h2 : rd (c :: Y) (((Y.takeWhile (fun c => c ≠ NUL)).takeWhile p).length + 1) =
            rd Y (((Y.takeWhile (fun c => c ≠ NUL)).takeWhile p).length) := by
          simp [rd]
        rw [h2, ih]
        simp [hp]
      · have h1 : (c :: Y).takeWhile (fun c => c ≠ NUL) = c :: Y.takeWhile (fun c => c ≠ NUL) := by
          simp [hc]
        rw [h1, List.takeWhile_cons_of_neg hp]
        constructor
        · intro h
          exact absurd h hc
        · intro h
          exact absurd (h c (List.mem_cons_self _ _)) hp

/-- The first call of `strtok_r` on a string finds no token exactly if the
string is made of delimiters only. -/
theorem strtok_r_null_iff (buf : List Char) (args : Nat) :
    (strtok_r none ['='] buf args).1 = none ↔ ∀ c ∈ cstr buf args, c = '=' := by
  have key := rd_after_span (fun c => decide (c ∈ ['='])) (buf.drop args)
  have hs : rd buf (args + strspn buf args ['=']) = NUL ↔ ∀ c ∈ cstr buf args, c = '=' := by
    rw [rd_drop]
    unfold strspn cstr
    rw [key]
    simp
  unfold strtok_r
  simp only [Option.getD_none]
  by_cases h0 : rd buf args = NUL
  · rw [if_pos h0]
    have : cstr buf args = [] := by
      unfold cstr
      apply takeWhile_nil_of_rd
      rw [← rd_drop, Nat.add_zero]
      exact h0
    simp [this]
  · rw [if_neg h0]
    by_cases h1 : rd buf (args + strspn buf args ['=']) = NUL
    · rw [if_pos h1]
      exact ⟨fun _ => hs.1 h1, fun _ => rfl⟩
    · rw [if_neg h1]
      constructor
      · intro h
        split_ifs at h
      · intro h
        exact absurd (hs.2 h) h1

theorem trimSpaces_some (buf : List Char) (str : Nat) : (trimSpaces buf (some str)).isSome := by
  unfold trimSpaces
  dsimp only
  split_ifs <;> rfl

/-- When `builtin_set` reaches `strtok_r`, it dereferences NULL exactly if the
rejoined argument string is made of `=` characters only. -/
theorem builtin_set_null_iff (buf : List Char) (cmd : command_t) (first last : Nat)
    (hc : cmd.argc > 1) (h1 : cmd.argv.getD 1 cell.junk = cell.ptr first)
    (h2 : cmd.argv.getD (cmd.argc - 1) cell.junk = cell.ptr last)
    (he : (strchr (rejoin buf first last) first '=').isSome) :
    builtin_set buf cmd = none ↔ ∀ c ∈ cstr (rejoin buf first last) first, c = '=' := by
  rw [← strtok_r_null_iff]
  unfold builtin_set
  rw [if_pos hc, h1, h2]
  dsimp only
  rw [if_pos he]
  cases ht : (strtok_r none ['='] (rejoin buf first last) first).1 with
  | none => simp [trimSpaces]
  | some t =>
    have a1 := trimSpaces_some (strtok_r none ['='] (rejoin buf first last) first).2.1 t
    cases hv : trimSpaces (strtok_r none ['='] (rejoin buf first last) first).2.1 (some t) with
    | none => rw [hv] at a1; exact absurd a1 (by simp)
    | some r =>
      have a2 := trimSpaces_some r.1 (strtok_r none ['='] (rejoin buf first last) first).2.2
      cases hw : trimSpaces r.1 (some (strtok_r none ['='] (rejoin buf first last) first).2.2) with
      | none => rw [hw] at a2; exact absurd a2 (by simp)
      | some r2 => simp [hw]

/-- C27, as the code behaves: on the command line `set =` the rejoined
argument string is `=`, so `strchr` finds the `=` sign, but `strtok_r` skips the
delimiters at the start of the string, reaches its end and returns NULL, which
`trimSpaces` dereferences; the same on `set ==`. On `set =value` the token is
`value`, the rest is empty, and `builtin_set` returns BUILTIN_OK after handing
the name `value` and the empty value to `setenv`; on `set a = b` it hands it
`a` and `b`. -/
theorem set_dereferences_null :
    set_line "set =".toList =
      some (kParseOK, [⟨[some "set".toList, some "=".toList], none, none⟩], none) ∧
    (strchr ("set".toList ++ NUL :: '=' :: [NUL]) 4 '=').isSome = true ∧
    (strtok_r none ['='] ("set".toList ++ NUL :: '=' :: [NUL]) 4).1 = none ∧
    set_line "set ==".toList =
      some (kParseOK, [⟨[some "set".toList, some "==".toList], none, none⟩], none) ∧
    set_line "set =value".toList =
      some (kParseOK, [⟨[some "set".toList, some "=value".toList], none, none⟩],
        some ⟨BUILTIN_OK, some ("value".toList, [])⟩) ∧
    set_line "set a = b".toList =
      some (kParseOK,
        [⟨[some "set".toList, some "a".toList, some "=".toList, some "b".toList], none, none⟩],
        some ⟨BUILTIN_OK, some ("a".toList, "b".toList)⟩) := by
  refine ⟨by decide, by decide, by decide, by decide, by decide, by decide⟩

theorem lookup_cons_eq (k f : Nat) (fds : List (Nat × Nat)) (n : Nat) :
    ((k, f) :: fds).lookup n = if n = k then some f else fds.lookup n := by
  rw [List.lookup_cons]
  by_cases h : n = k
  · simp [h]
  · have : (n == k) = false := by simpa using h
    rw [this, if_neg h]

theorem lookup_filter_ne (k : Nat) (fds : List (Nat × Nat)) (n : Nat) :
    (fds.filter (fun p => p.1 ≠ k)).lookup n = if n = k then none else fds.lookup n := by
  induction fds with
  | nil => simp
  | cons p fds ih =>
    obtain ⟨a, b⟩ := p
    by_cases ha : a = k
    · rw [List.filter_cons_of_neg (by simp [ha]), ih, lookup_cons_eq]
      by_cases hn : n = k
      · rw [if_pos hn, if_pos hn]
      · rw [if_neg hn, if_neg hn, if_neg (by omega)]
    · rw [List.filter_cons_of_pos (by simp [ha]), lookup_cons_eq, lookup_cons_eq, ih]
      by_cases hn : n = k
      · rw [if_pos hn, if_pos hn, if_neg (by omega)]
      · rw [if_neg hn, if_neg hn]

theorem mem_keys_of_lookup (fds : List (Nat × Nat)) (n : Nat)
    (h : (fds.lookup n).isSome = true) : n ∈ fds.map Prod.fst := by
  induction fds with
  | nil => simp at h
  | cons p fds ih =>
    obtain ⟨a, b⟩ := p
    rw [lookup_cons_eq] at h
    by_cases hn : n = a
    · simp [hn]
    · rw [if_neg hn] at h
      simp [ih h]

/-- The descriptor `lowest_free` returns is not open. -/
theorem lowest_free_free (fds : List (Nat × Nat)) : fds.lookup (lowest_free fds) = none := by
  unfold lowest_free
  cases h : (List.range (fds.length + 1)).find? (fun n => (fds.lookup n).isNone) with
  | some n =>
    have := List.find?_some h
    simpa using this
  | none =>
    exfalso
    rw [List.find?_eq_none] at h
    have hsub : List.range (fds.length + 1) ⊆ fds.map Prod.fst := by
      intro x hx
      apply mem_keys_of_lookup
      have := h x hx
      cases hl : fds.lookup x with
      | none => simp [hl] at this
      | some _ => rfl
    have := (List.subperm_of_subset (List.nodup_range _) hsub).length_le
    simp at this

theorem sys_fails (o : outcomes) (c : os_call) (w : world) (h : o.fails w.trace.length = true) :
    (sys o c w).1 = -1 ∧ (sys o c w).2.fds = w.fds := by
  unfold sys
  simp [h]

theorem sys_works (o : outcomes) (c : os_call) (w : world) (h : o.fails w.trace.length = false) :
    (sys o c w).1 = (os_effect o w c).1 ∧ (sys o c w).2.fds = (os_effect o w c).2.1 := by
  unfold sys
  simp [h]

theorem fd_file_neg (fds : List (Nat × Nat)) (a : Int) (h : a < 0) : fd_file fds a = none := by
  simp [fd_file, h]

theorem fd_file_nonneg (fds : List (Nat × Nat)) (a : Int) (h : 0 ≤ a) :
    fd_file fds a = fds.lookup a.toNat := by
  unfold fd_file
  rw [if_neg (by omega)]

theorem sys_closed (o : outcomes) (c : os_call) (a : Int) (w : world)
    (hc : c = os_call.dup a ∨ (∃ b, c = os_call.dup2 a b) ∨ c = os_call.close a)
    (h : fd_file w.fds a = none) : (sys o c w).1 = -1 := by
  cases hf : o.fails w.trace.length with
  | true => exact (sys_fails o c w hf).1
  | false =>
    rw [(sys_works o c w hf).1]
    rcases hc with rfl | ⟨b, rfl⟩ | rfl <;> simp [os_effect, h]

theorem sys_open_fd (o : outcomes) (c : os_call) (a : Int) (w : world)
    (hc : c = os_call.dup a ∨ (∃ b, c = os_call.dup2 a b) ∨ c = os_call.close a)
    (h : 0 ≤ (sys o c w).1) :
    o.fails w.trace.length = false ∧ 0 ≤ a ∧ ∃ f, w.fds.lookup a.toNat = some f := by
  cases hf : o.fails w.trace.length with
  | true =>
    rw [(sys_fails o c w hf).1] at h
    omega
  | false =>
    refine ⟨rfl, ?_⟩
    by_cases ha : a < 0
    · rw [sys_closed o c a w hc (fd_file_neg _ _ ha)] at h
      omega
    · refine ⟨by omega, ?_⟩
      cases hl : w.fds.lookup a.toNat with
      | none =>
        rw [sys_closed o c a w hc (by rw [fd_file_nonneg _ _ (by omega)]; exact hl)] at h
        omega
      | some f => exact ⟨f, rfl⟩

/-- A `dup` that succeeds: the descriptor was open, the result was not, and
the result now refers to the same file. -/
theorem tbl_dup (o : outcomes) (a : Nat) (w : world) (h : 0 ≤ (sys o (os_call.dup a) w).1) :
    tbl w a ≠ none ∧ tbl w (sys o (os_call.dup a) w).1.toNat = none ∧
      ∀ n, tbl (sys o (os_call.dup a) w).2 n =
        if n = (sys o (os_call.dup a) w).1.toNat then tbl w a else tbl w n := by
  obtain ⟨hf, _, f, hl⟩ := sys_open_fd o _ (a : Int) w (Or.inl rfl) h
  rw [Int.toNat_ofNat] at hl
  have hfd : fd_file w.fds (a : Int) = some f := by
    rw [fd_file_nonneg _ _ (by omega), Int.toNat_ofNat, hl]
  obtain ⟨h1, h2⟩ := sys_works o (os_call.dup a) w hf
  have e1 : (os_effect o w (os_call.dup a)).1 = lowest_free w.fds := by simp [os_effect, hfd]
  have e2 : (os_effect o w (os_call.dup a)).2.1 = (lowest_free w.fds, f) :: w.fds := by
    simp [os_effect, hfd]
  unfold tbl
  rw [h1, h2, e1, e2, Int.toNat_ofNat, hl]
  exact ⟨by simp, lowest_free_free w.fds, fun n => lookup_cons_eq _ _ _ _⟩

/-- A `dup2` that succeeds: the old descriptor was open, and the new one now
refers to the same file. -/
theorem tbl_dup2 (o : outcomes) (a : Int) (b : Nat) (w : world)
    (h : 0 ≤ (sys o (os_call.dup2 a b) w).1) :
    0 ≤ a ∧ tbl w a.toNat ≠ none ∧
      ∀ n, tbl (sys o (os_call.dup2 a b) w).2 n = if n = b then tbl w a.toNat else tbl w n := by
  obtain ⟨hf, ha, f, hl⟩ := sys_open_fd o _ a w (Or.inr (Or.inl ⟨_, rfl⟩)) h
  have hfd : fd_file w.fds a = some f := by rw [fd_file_nonneg _ _ ha, hl]
  obtain ⟨_, h2⟩ := sys_works o (os_call.dup2 a b) w hf
  have e2 : (os_effect o w (os_call.dup2 a b)).2.1 =
      (b, f) :: w.fds.filter (fun p => p.1 ≠ b) := by
    have hb : ¬ ((b : Int) < 0) := by omega
    simp [os_effect, hfd, hb]
  unfold tbl
  rw [h2, e2, hl]
  refine ⟨ha, by simp, fun n => ?_⟩
  rw [lookup_cons_eq, lookup_filter_ne]
  by_cases hn : n = b
  · rw [if_pos hn, if_pos hn]
  · rw [if_neg hn, if_neg hn, if_neg hn]

/-- A `close` that succeeds: the descriptor was open and no longer is. -/
theorem tbl_close (o : outcomes) (a : Int) (w : world)
    (h : 0 ≤ (sys o (os_call.close a) w).1) :
    0 ≤ a ∧ tbl w a.toNat ≠ none ∧
      ∀ n, tbl (sys o (os_call.close a) w).2 n = if n = a.toNat then none else tbl w n := by
  obtain ⟨hf, ha, f, hl⟩ := sys_open_fd o _ a w (Or.inr (Or.inr rfl)) h
  have hfd : fd_file w.fds a = some f := by rw [fd_file_nonneg _ _ ha, hl]
  obtain ⟨_, h2⟩ := sys_works o (os_call.close a) w hf
  have e2 : (os_effect o w (os_call.close a)).2.1 = w.fds.filter (fun p => p.1 ≠ a.toNat) := by
    simp [os_effect, hfd]
  unfold tbl
  rw [h2, e2, hl]
  exact ⟨ha, by simp, fun n => lookup_filter_ne _ _ _⟩

/-- An `open`: either it fails and the table is as before, or it returns a
descriptor that was not open and now is. -/
theorem tbl_open (o : outcomes) (c : os_call)
    (hc : (∃ p, c = os_call.open_read p) ∨ (∃ p, c = os_call.open_write p)) (w : world) :
    ((sys o c w).1 < 0 ∧ ∀ n, tbl (sys o c w).2 n = tbl w n) ∨
    (0 ≤ (sys o c w).1 ∧ tbl w (sys o c w).1.toNat = none ∧
      ∀ n, tbl (sys o c w).2 n =
        if n = (sys o c w).1.toNat then some w.files else tbl w n) := by
  cases hf : o.fails w.trace.length with
  | true =>
    left
    obtain ⟨h1, h2⟩ := sys_fails o c w hf
    refine ⟨by rw [h1]; decide, fun n => ?_⟩
    unfold tbl
    rw [h2]
  | false =>
    right
    obtain ⟨h1, h2⟩ := sys_works o c w hf
    have e1 : (os_effect o w c).1 = lowest_free w.fds := by
      rcases hc with ⟨p, rfl⟩ | ⟨p, rfl⟩ <;> rfl
    have e2 : (os_effect o w c).2.1 = (lowest_free w.fds, w.files) :: w.fds := by
      rcases hc with ⟨p, rfl⟩ | ⟨p, rfl⟩ <;> rfl
    unfold tbl
    rw [h1, h2, e1, e2, Int.toNat_ofNat]
    exact ⟨by omega, lowest_free_free w.fds, fun n => lookup_cons_eq _ _ _ _⟩

theorem run_refl {w : world} {P : Prop} (h : P) : run w w P :=
  ⟨[], by rw [List.append_nil], fun _ => h⟩

theorem run_mono {w w1 : world} {P Q : Prop} (h : run w w1 P) (f : P → Q) : run w w1 Q := by
  obtain ⟨l, h1, h2⟩ := h
  exact ⟨l, h1, fun hl => f (h2 hl)⟩

theorem run_trans {w w1 w2 : world} {P Q : Prop} (h1 : run w w1 P) (h2 : run w1 w2 Q) :
    run w w2 (P ∧ Q) := by
  obtain ⟨l1, a1, b1⟩ := h1
  obtain ⟨l2, a2, b2⟩ := h2
  refine ⟨l1 ++ l2, by rw [a2, a1, List.append_assoc], fun hl => ?_⟩
  exact ⟨b1 (fun e he => hl e (List.mem_append_left _ he)),
    b2 (fun e he => hl e (List.mem_append_right _ he))⟩

theorem run_sys (o : outcomes) (c : os_call) (w : world) :
    run w (sys o c w).2 (c.on_descriptor = true → 0 ≤ (sys o c w).1) :=
  ⟨[(c, (sys o c w).1)], rfl, fun hl => hl (c, (sys o c w).1) (by simp)⟩

theorem run_elim {w w1 : world} {P : Prop} (h : run w w1 P)
    (hok : desc_ok (w1.trace.drop w.trace.length)) : P := by
  obtain ⟨l, h1, h2⟩ := h
  rw [h1, List.drop_left] at hok
  exact h2 hok

theorem save_stdin_run (o : outcomes) (cmd : stage) (pipefd : Int × Int) (s : builtin_vars) :
    run s.w (save_stdin o cmd pipefd s).w
      ((cmd.in_file.isSome ∨ (pipefd.1 ≥ 0 ∧ pipefd.2 ≠ 0)) →
        0 ≤ (save_stdin o cmd pipefd s).stdin_dup ∧ tbl s.w 0 ≠ none ∧
          tbl s.w (save_stdin o cmd pipefd s).stdin_dup.toNat = none ∧
          ∀ n, tbl (save_stdin o cmd pipefd s).w n =
            if n = (save_stdin o cmd pipefd s).stdin_dup.toNat then tbl s.w 0 else tbl s.w n) := by
  unfold save_stdin
  by_cases h : cmd.in_file.isSome ∨ (pipefd.1 ≥ 0 ∧ pipefd.2 ≠ 0)
  · rw [if_pos h]
    dsimp only
    exact run_mono (run_sys o (os_call.dup 0) s.w)
      (fun x _ => ⟨x rfl, tbl_dup o 0 s.w (x rfl)⟩)
  · rw [if_neg h]
    exact run_refl (fun hc => absurd hc h)

theorem save_stdin_skip (o : outcomes) (cmd : stage) (pipefd : Int × Int) (s : builtin_vars)
    (h : ¬ (cmd.in_file.isSome ∨ (pipefd.1 ≥ 0 ∧ pipefd.2 ≠ 0))) : save_stdin o cmd pipefd s = s := by
  unfold save_stdin
  rw [if_neg h]

theorem save_stdin_vars (o : outcomes) (cmd : stage) (pipefd : Int × Int) (s : builtin_vars) :
    (save_stdin o cmd pipefd s).in_fd = s.in_fd ∧ (save_stdin o cmd pipefd s).out_fd = s.out_fd ∧
      (save_stdin o cmd pipefd s).stdout_dup = s.stdout_dup := by
  unfold save_stdin
  split_ifs <;> exact ⟨rfl, rfl, rfl⟩

theorem open_input_run (o : outcomes) (cmd : stage) (pipefd : Int × Int) (s : builtin_vars) :
    run s.w (open_input o cmd pipefd s).w True := by
  unfold open_input
  cases cmd.in_file with
  | none =>
    dsimp only
    split_ifs
    · exact run_refl trivial
    · exact run_refl trivial
  | some path =>
    dsimp only
    exact run_mono (run_sys o (os_call.open_read path) s.w) (fun _ => trivial)

theorem open_input_file (o : outcomes) (cmd : stage) (pipefd : Int × Int) (s : builtin_vars)
    (h : cmd.in_file.isSome = true) :
    ((open_input o cmd pipefd s).in_fd < 0 ∧
      ∀ n, tbl (open_input o cmd pipefd s).w n = tbl s.w n) ∨
    (0 ≤ (open_input o cmd pipefd s).in_fd ∧
      tbl s.w (open_input o cmd pipefd s).in_fd.toNat = none ∧
      ∀ n, tbl (open_input o cmd pipefd s).w n =
        if n = (open_input o cmd pipefd s).in_fd.toNat then some s.w.files else tbl s.w n) := by
  unfold open_input
  cases hc : cmd.in_file with
  | none =>
    rw [hc] at h
    exact absurd h (by simp)
  | some path =>
    dsimp only
    exact tbl_open o (os_call.open_read path) (Or.inl ⟨path, rfl⟩) s.w

theorem open_input_pipe (o : outcomes) (cmd : stage) (pipefd : Int × Int) (s : builtin_vars)
    (h : cmd.in_file.isSome = false) :
    (open_input o cmd pipefd s).w = s.w ∧
      (open_input o cmd pipefd s).in_fd = if pipefd.1 ≠ 0 then pipefd.1 else s.in_fd := by
  unfold open_input
  cases hc : cmd.in_file with
  | none =>
    dsimp only
    split_ifs <;> exact ⟨rfl, rfl⟩
  | some path =>
    rw [hc] at h
    exact absurd h (by simp)

theorem open_input_vars (o : outcomes) (cmd : stage) (pipefd : Int × Int) (s : builtin_vars) :
    (open_input o cmd pipefd s).stdin_dup = s.stdin_dup ∧ (open_input o cmd pipefd s).out_fd = s.out_fd ∧
      (open_input o cmd pipefd s).stdout_dup = s.stdout_dup := by
  unfold open_input
  cases cmd.in_file with
  | none =>
    dsimp only
    split_ifs <;> exact ⟨rfl, rfl, rfl⟩
  | some path => exact ⟨rfl, rfl, rfl⟩

theorem redirect_stdin_run (o : outcomes) (s : builtin_vars) :
    run s.w (redirect_stdin o s).w
      (0 ≤ s.in_fd → ∀ n, tbl (redirect_stdin o s).w n =
        if n = 0 then tbl s.w s.in_fd.toNat else tbl s.w n) := by
  unfold redirect_stdin
  by_cases h : s.in_fd ≥ 0
  · rw [if_pos h]
    dsimp only
    exact run_mono (run_sys o (os_call.dup2 s.in_fd 0) s.w)
      (fun x _ => (tbl_dup2 o s.in_fd 0 s.w (x rfl)).2.2)
  · rw [if_neg h]
    exact run_refl (fun hc => absurd hc h)

theorem redirect_stdin_skip (o : outcomes) (s : builtin_vars) (h : s.in_fd < 0) :
    redirect_stdin o s = s := by
  unfold redirect_stdin
  rw [if_neg (by omega)]

theorem redirect_stdin_vars (o : outcomes) (s : builtin_vars) :
    (redirect_stdin o s).in_fd = s.in_fd ∧ (redirect_stdin o s).stdin_dup = s.stdin_dup ∧
      (redirect_stdin o s).out_fd = s.out_fd ∧ (redirect_stdin o s).stdout_dup = s.stdout_dup := by
  unfold redirect_stdin
  split_ifs <;> exact ⟨rfl, rfl, rfl, rfl⟩

theorem close_input_run (o : outcomes) (cmd : stage) (s : builtin_vars) :
    run s.w (close_input o cmd s).w
      ((cmd.in_file.isSome ∧ 0 ≤ s.in_fd) → ∀ n, tbl (close_input o cmd s).w n =
        if n = s.in_fd.toNat then none else tbl s.w n) := by
  unfold close_input
  by_cases h : cmd.in_file.isSome ∧ s.in_fd ≥ 0
  · rw [if_pos h]
    dsimp only
    exact run_mono (run_sys o (os_call.close s.in_fd) s.w)
      (fun x _ => (tbl_close o s.in_fd s.w (x rfl)).2.2)
  · rw [if_neg h]
    exact run_refl (fun hc => absurd hc h)

theorem close_input_skip (o : outcomes) (cmd : stage) (s : builtin_vars)
    (h : ¬ (cmd.in_file.isSome ∧ 0 ≤ s.in_fd)) : close_input o cmd s = s := by
  unfold close_input
  rw [if_neg h]

theorem close_input_vars (o : outcomes) (cmd : stage) (s : builtin_vars) :
    (close_input o cmd s).in_fd = s.in_fd ∧ (close_input o cmd s).stdin_dup = s.stdin_dup ∧
      (close_input o cmd s).out_fd = s.out_fd ∧ (close_input o cmd s).stdout_dup = s.stdout_dup := by
  unfold close_input
  split_ifs <;> exact ⟨rfl, rfl, rfl, rfl⟩

theorem restore_stdin_run (o : outcomes) (s : builtin_vars) :
    run s.w (restore_stdin o s).w
      (0 ≤ s.stdin_dup → ∀ n, tbl (restore_stdin o s).w n =
        if n = s.stdin_dup.toNat then none
        else if n = 0 then tbl s.w s.stdin_dup.toNat else tbl s.w n) := by
  unfold restore_stdin
  by_cases h : s.stdin_dup ≥ 0
  · rw [if_pos h]
    dsimp only
    refine run_mono (run_trans (run_sys o (os_call.dup2 s.stdin_dup 0) s.w)
      (run_sys o (os_call.close s.stdin_dup) (sys o (os_call.dup2 s.stdin_dup 0) s.w).2))
      (fun x _ n => ?_)
    have e2 : tbl (sys o (os_call.dup2 s.stdin_dup 0) s.w).2 n =
        if n = 0 then tbl s.w s.stdin_dup.toNat else tbl s.w n :=
      (tbl_dup2 o s.stdin_dup 0 s.w (x.1 rfl)).2.2 n
    rw [(tbl_close o s.stdin_dup _ (x.2 rfl)).2.2 n, e2]
  · rw [if_neg h]
    exact run_refl (fun hc => absurd hc h)

theorem restore_stdin_skip (o : outcomes) (s : builtin_vars) (h : s.stdin_dup < 0) :
    restore_stdin o s = s := by
  unfold restore_stdin
  rw [if_neg (by omega)]

theorem restore_stdin_vars (o : outcomes) (s : builtin_vars) :
    (restore_stdin o s).out_fd = s.out_fd ∧ (restore_stdin o s).stdout_dup = s.stdout_dup := by
  unfold restore_stdin
  split_ifs <;> exact ⟨rfl, rfl⟩

theorem save_stdout_run (o : outcomes) (cmd : stage) (pipefd : Int × Int) (s : builtin_vars) :
    run s.w (save_stdout o cmd pipefd s).w
      ((cmd.out_file.isSome ∨ (pipefd.2 ≥ 0 ∧ pipefd.2 ≠ 1)) →
        0 ≤ (save_stdout o cmd pipefd s).stdout_dup ∧ tbl s.w 1 ≠ none ∧
          tbl s.w (save_stdout o cmd pipefd s).stdout_dup.toNat = none ∧
          ∀ n, tbl (save_stdout o cmd pipefd s).w n =
            if n = (save_stdout o cmd pipefd s).stdout_dup.toNat then tbl s.w 1 else tbl s.w n) := by
  unfold save_stdout
  by_cases h : cmd.out_file.isSome ∨ (pipefd.2 ≥ 0 ∧ pipefd.2 ≠ 1)
  · rw [if_pos h]
    dsimp only
    exact run_mono (run_sys o (os_call.dup 1) s.w)
      (fun x _ => ⟨x rfl, tbl_dup o 1 s.w (x rfl)⟩)
  · rw [if_neg h]
    exact run_refl (fun hc => absurd hc h)

theorem save_stdout_skip (o : outcomes) (cmd : stage) (pipefd : Int × Int) (s : builtin_vars)
    (h : ¬ (cmd.out_file.isSome ∨ (pipefd.2 ≥ 0 ∧ pipefd.2 ≠ 1))) : save_stdout o cmd pipefd s = s := by
  unfold save_stdout
  rw [if_neg h]

theorem save_stdout_vars (o : outcomes) (cmd : stage) (pipefd : Int × Int) (s : builtin_vars) :
    (save_stdout o cmd pipefd s).out_fd = s.out_fd ∧ (save_stdout o cmd pipefd s).in_fd = s.in_fd ∧
      (save_stdout o cmd pipefd s).stdin_dup = s.stdin_dup := by
  unfold save_stdout
  split_ifs <;> exact ⟨rfl, rfl, rfl⟩

theorem open_output_run (o : outcomes) (cmd : stage) (pipefd : Int × Int) (s : builtin_vars) :
    run s.w (open_output o cmd pipefd s).w True := by
  unfold open_output
  cases cmd.out_file with
  | none =>
    dsimp only
    split_ifs
    · exact run_refl trivial
    · exact run_refl trivial
  | some path =>
    dsimp only
    exact run_mono (run_sys o (os_call.open_write path) s.w) (fun _ => trivial)

theorem open_output_file (o : outcomes) (cmd : stage) (pipefd : Int × Int) (s : builtin_vars)
    (h : cmd.out_file.isSome = true) :
    ((open_output o cmd pipefd s).out_fd < 0 ∧
      ∀ n, tbl (open_output o cmd pipefd s).w n = tbl s.w n) ∨
    (0 ≤ (open_output o cmd pipefd s).out_fd ∧
      tbl s.w (open_output o cmd pipefd s).out_fd.toNat = none ∧
      ∀ n, tbl (open_output o cmd pipefd s).w n =
        if n = (open_output o cmd pipefd s).out_fd.toNat then some s.w.files else tbl s.w n) := by
  unfold open_output
  cases hc : cmd.out_file with
  | none =>
    rw [hc] at h
    exact absurd h (by simp)
  | some path =>
    dsimp only
    exact tbl_open o (os_call.open_write path) (Or.inr ⟨path, rfl⟩) s.w

theorem open_output_pipe (o : outcomes) (cmd : stage) (pipefd : Int × Int) (s : builtin_vars)
    (h : cmd.out_file.isSome = false) :
    (open_output o cmd pipefd s).w = s.w ∧
      (open_output o cmd pipefd s).out_fd = if pipefd.2 ≠ 1 then pipefd.2 else s.out_fd := by
  unfold open_output
  cases hc : cmd.out_file with
  | none =>
    dsimp only
    split_ifs <;> exact ⟨rfl, rfl⟩
  | some path =>
    rw [hc] at h
    exact absurd h (by simp)

theorem open_output_vars (o : outcomes) (cmd : stage) (pipefd : Int × Int) (s : builtin_vars) :
    (open_output o cmd pipefd s).stdout_dup = s.stdout_dup ∧ (open_output o cmd pipefd s).in_fd = s.in_fd ∧
      (open_output o cmd pipefd s).stdin_dup = s.stdin_dup := by
  unfold open_output
  cases cmd.out_file with
  | none =>
    dsimp only
    split_ifs <;> exact ⟨rfl, rfl, rfl⟩
  | some path => exact ⟨rfl, rfl, rfl⟩

theorem redirect_stdout_run (o : outcomes) (s : builtin_vars) :
    run s.w (redirect_stdout o s).w
      (0 ≤ s.out_fd → ∀ n, tbl (redirect_stdout o s).w n =
        if n = 1 then tbl s.w s.out_fd.toNat else tbl s.w n) := by
  unfold redirect_stdout
  by_cases h : s.out_fd ≥ 0
  · rw [if_pos h]
    dsimp only
    exact run_mono (run_sys o (os_call.dup2 s.out_fd 1) s.w)
      (fun x _ => (tbl_dup2 o s.out_fd 1 s.w (x rfl)).2.2)
  · rw [if_neg h]
    exact run_refl (fun hc => absurd hc h)

theorem redirect_stdout_skip (o : outcomes) (s : builtin_vars) (h : s.out_fd < 0) :
    redirect_stdout o s = s := by
  unfold redirect_stdout
  rw [if_neg (by omega)]

theorem redirect_stdout_vars (o : outcomes) (s : builtin_vars) :
    (redirect_stdout o s).out_fd = s.out_fd ∧ (redirect_stdout o s).stdout_dup = s.stdout_dup ∧
      (redirect_stdout o s).in_fd = s.in_fd ∧ (redirect_stdout o s).stdin_dup = s.stdin_dup := by
  unfold redirect_stdout
  split_ifs <;> exact ⟨rfl, rfl, rfl, rfl⟩

theorem close_output_run (o : outcomes) (cmd : stage) (s : builtin_vars) :
    run s.w (close_output o cmd s).w
      ((cmd.out_file.isSome ∧ 0 ≤ s.out_fd) → ∀ n, tbl (close_output o cmd s).w n =
        if n = s.out_fd.toNat then none else tbl s.w n) := by
  unfold close_output
  by_cases h : cmd.out_file.isSome ∧ s.out_fd ≥ 0
  · rw [if_pos h]
    dsimp only
    exact run_mono (run_sys o (os_call.close s.out_fd) s.w)
      (fun x _ => (tbl_close o s.out_fd s.w (x rfl)).2.2)
  · rw [if_neg h]
    exact run_refl (fun hc => absurd hc h)

theorem close_output_skip (o : outcomes) (cmd : stage) (s : builtin_vars)
    (h : ¬ (cmd.out_file.isSome ∧ 0 ≤ s.out_fd)) : close_output o cmd s = s := by
  unfold close_output
  rw [if_neg h]

theorem close_output_vars (o : outcomes) (cmd : stage) (s : builtin_vars) :
    (close_output o cmd s).out_fd = s.out_fd ∧ (close_output o cmd s).stdout_dup = s.stdout_dup ∧
      (close_output o cmd s).in_fd = s.in_fd ∧ (close_output o cmd s).stdin_dup = s.stdin_dup := by
  unfold close_output
  split_ifs <;> exact ⟨rfl, rfl, rfl, rfl⟩

theorem restore_stdout_run (o : outcomes) (s : builtin_vars) :
    run s.w (restore_stdout o s).w
      (0 ≤ s.stdout_dup → ∀ n, tbl (restore_stdout o s).w n =
        if n = s.stdout_dup.toNat then none
        else if n = 1 then tbl s.w s.stdout_dup.toNat else tbl s.w n) := by
  unfold restore_stdout
  by_cases h : s.stdout_dup ≥ 0
  · rw [if_pos h]
    dsimp only
    refine run_mono (run_trans (run_sys o (os_call.dup2 s.stdout_dup 1) s.w)
      (run_sys o (os_call.close s.stdout_dup) (sys o (os_call.dup2 s.stdout_dup 1) s.w).2))
      (fun x _ n => ?_)
    have e2 : tbl (sys o (os_call.dup2 s.stdout_dup 1) s.w).2 n =
        if n = 1 then tbl s.w s.stdout_dup.toNat else tbl s.w n :=
      (tbl_dup2 o s.stdout_dup 1 s.w (x.1 rfl)).2.2 n
    rw [(tbl_close o s.stdout_dup _ (x.2 rfl)).2.2 n, e2]
  · rw [if_neg h]
    exact run_refl (fun hc => absurd hc h)

theorem restore_stdout_skip (o : outcomes) (s : builtin_vars) (h : s.stdout_dup < 0) :
    restore_stdout o s = s := by
  unfold restore_stdout
  rw [if_neg (by omega)]

theorem restore_stdout_vars (o : outcomes) (s : builtin_vars) :
    (restore_stdout o s).in_fd = s.in_fd ∧ (restore_stdout o s).stdin_dup = s.stdin_dup := by
  unfold restore_stdout
  split_ifs <;> exact ⟨rfl, rfl⟩

theorem saved_of_setup (k : Nat) (w w1 w2 w3 : world) (isfile : Prop) (d j : Int) (cond : Prop)
    (hS : cond → 0 ≤ d ∧ tbl w k ≠ none ∧ tbl w d.toNat = none ∧
      ∀ n, tbl w1 n = if n = d.toNat then tbl w k else tbl w n)
    (hS' : ¬ cond → d < 0 ∧ (∀ n, tbl w1 n = tbl w n) ∧ ¬ isfile ∧ j < 0)
    (hO : isfile → (j < 0 ∧ ∀ n, tbl w2 n = tbl w1 n) ∨
      (0 ≤ j ∧ tbl w1 j.toNat = none ∧
        ∃ f : Nat, ∀ n, tbl w2 n = if n = j.toNat then some f else tbl w1 n))
    (hO' : ¬ isfile → ∀ n, tbl w2 n = tbl w1 n)
    (hR : 0 ≤ j → ∀ n, tbl w3 n = if n = k then tbl w2 j.toNat else tbl w2 n)
    (hR' : j < 0 → ∀ n, tbl w3 n = tbl w2 n) :
    saved k w w3 (isfile ∧ 0 ≤ j) d j := by
  by_cases hc : cond
  · obtain ⟨_, hk, hdn, h1⟩ := hS hc
    have hdk : d.toNat ≠ k := fun e => hk (e ▸ hdn)
    have h1d : tbl w1 d.toNat = tbl w k := by rw [h1, if_pos rfl]
    have h2 : ∀ n, ((isfile ∧ 0 ≤ j) → n ≠ j.toNat) → tbl w2 n = tbl w1 n := by
      intro n hn
      by_cases hf : isfile
      · rcases hO hf with ⟨_, e⟩ | ⟨hj, _, f, e⟩
        · exact e n
        · rw [e, if_neg (hn ⟨hf, hj⟩)]
      · exact hO' hf n
    have hjd : (isfile ∧ 0 ≤ j) → tbl w1 j.toNat = none := by
      rintro ⟨hf, hj⟩
      rcases hO hf with ⟨hj', _⟩ | ⟨_, e, _⟩
      · omega
      · exact e
    have hjd' : (isfile ∧ 0 ≤ j) → j.toNat ≠ d.toNat := by
      intro hfo e
      have := hjd hfo
      rw [e, h1d] at this
      exact hk this
    have h3 : ∀ n, n ≠ k → tbl w3 n = tbl w2 n := by
      intro n hn
      by_cases hj : 0 ≤ j
      · rw [hR hj, if_neg hn]
      · exact hR' (by omega) n
    refine ⟨fun _ => ⟨hdn, ?_, hdk⟩, fun h => by omega, fun hfo => ⟨?_, hjd' hfo, ?_⟩,
      fun n hnk hnd hnj => ?_⟩
    · rw [h3 _ hdk, h2 _ (fun hfo e => hjd' hfo e.symm), h1d]
    · have := hjd hfo
      rw [h1, if_neg (hjd' hfo)] at this
      exact this
    · intro e
      have := hjd hfo
      rw [e, h1, if_neg (Ne.symm hdk)] at this
      exact hk this
    · rw [h3 n hnk, h2 n hnj, h1, if_neg hnd]
  · obtain ⟨hd, h1, hnf, hj⟩ := hS' hc
    have hall : ∀ n, tbl w3 n = tbl w n := fun n => by rw [hR' hj, hO' hnf, h1]
    exact ⟨fun h => by omega, fun _ => ⟨hall, fun h => hnf h.1⟩, fun h => absurd h.1 hnf,
      fun n _ _ _ => hall n⟩

theorem saved_congr {k : Nat} {w0 w w1 : world} {fo : Prop} {d j : Int}
    (h : saved k w0 w fo d j) (e : ∀ n, tbl w1 n = tbl w n) : saved k w0 w1 fo d j := by
  obtain ⟨s1, s2, s3, s4⟩ := h
  refine ⟨fun hd => ?_, fun hd => ⟨fun n => ?_, (s2 hd).2⟩, s3, fun n a b c => ?_⟩
  · rw [e]
    exact s1 hd
  · rw [e]
    exact (s2 hd).1 n
  · rw [e]
    exact s4 n a b c

/-- Closing the opened file and putting the saved copy back gives the table
the set-up started from. -/
theorem restore_tbl (k : Nat) (w0 w w1 w3 : world) (fo : Prop) (d j : Int)
    (hs : saved k w0 w fo d j)
    (hc : fo → ∀ n, tbl w1 n = if n = j.toNat then none else tbl w n)
    (hc' : ¬ fo → ∀ n, tbl w1 n = tbl w n)
    (hr : 0 ≤ d → ∀ n, tbl w3 n =
      if n = d.toNat then none else if n = k then tbl w1 d.toNat else tbl w1 n)
    (hr' : d < 0 → ∀ n, tbl w3 n = tbl w1 n) : ∀ n, tbl w3 n = tbl w0 n := by
  obtain ⟨s1, s2, s3, s4⟩ := hs
  intro n
  by_cases hd : 0 ≤ d
  · obtain ⟨a1, a2, _⟩ := s1 hd
    rw [hr hd]
    by_cases hn : n = d.toNat
    · rw [if_pos hn, hn, a1]
    · rw [if_neg hn]
      have hw1d : tbl w1 d.toNat = tbl w0 k := by
        by_cases hf : fo
        · rw [hc hf, if_neg (Ne.symm (s3 hf).2.1), a2]
        · rw [hc' hf, a2]
      by_cases hk : n = k
      · rw [if_pos hk, hw1d, hk]
      · rw [if_neg hk]
        by_cases hf : fo
        · rw [hc hf]
          by_cases hj : n = j.toNat
          · rw [if_pos hj, hj, (s3 hf).1]
          · rw [if_neg hj, s4 n hk hn (fun _ => hj)]
        · rw [hc' hf, s4 n hk hn (fun h => absurd h hf)]
  · obtain ⟨b1, b2⟩ := s2 (by omega)
    rw [hr' (by omega), hc' b2, b1]

theorem run_handler_vars (o : outcomes) (cmd : stage) (idx : Int) (s : builtin_vars) :
    (run_handler o cmd idx s).w = s.w ∧ (run_handler o cmd idx s).out_fd = s.out_fd ∧
      (run_handler o cmd idx s).stdout_dup = s.stdout_dup ∧
      (run_handler o cmd idx s).in_fd = s.in_fd ∧
      (run_handler o cmd idx s).stdin_dup = s.stdin_dup := by
  unfold run_handler
  split_ifs <;> exact ⟨rfl, rfl, rfl, rfl, rfl⟩

theorem stdout_bracket_aux (o : outcomes) (cmd : stage) (pipefd : Int × Int) (idx : Int)
    (s b1 b2 b3 b4 b5 b6 : builtin_vars) (e1 : b1 = save_stdout o cmd pipefd s)
    (e2 : b2 = open_output o cmd pipefd b1) (e3 : b3 = redirect_stdout o b2)
    (e4 : b4 = run_handler o cmd idx b3) (e5 : b5 = close_output o cmd b4)
    (e6 : b6 = restore_stdout o b5) (h1 : s.stdout_dup = -1) (h2 : s.out_fd = -1) :
    run s.w b6.w (∀ n, tbl b6.w n = tbl s.w n) := by
  have r1 := save_stdout_run o cmd pipefd s
  have k1 := save_stdout_skip o cmd pipefd s
  have v1 := save_stdout_vars o cmd pipefd s
  rw [← e1] at r1 k1 v1
  have r2 := open_output_run o cmd pipefd b1
  have f2 := open_output_file o cmd pipefd b1
  have p2 := open_output_pipe o cmd pipefd b1
  have v2 := open_output_vars o cmd pipefd b1
  rw [← e2] at r2 f2 p2 v2
  have r3 := redirect_stdout_run o b2
  have k3 := redirect_stdout_skip o b2
  have v3 := redirect_stdout_vars o b2
  rw [← e3] at r3 k3 v3
  have v4 := run_handler_vars o cmd idx b3
  rw [← e4] at v4
  have r5 := close_output_run o cmd b4
  have k5 := close_output_skip o cmd b4
  have v5 := close_output_vars o cmd b4
  rw [← e5] at r5 k5 v5
  have r6 := restore_stdout_run o b5
  have k6 := restore_stdout_skip o b5
  rw [← e6] at r6 k6
  rw [v4.1] at r5
  refine run_mono (run_trans r1 (run_trans r2 (run_trans r3 (run_trans r5 r6)))) ?_
  rintro ⟨q1, -, q3, q5, q6⟩
  have hd5 : b5.stdout_dup = b1.stdout_dup := by rw [v5.2.1, v4.2.2.1, v3.2.1, v2.1]
  have hj4 : b4.out_fd = b2.out_fd := by rw [v4.2.1, v3.1]
  have hs : saved 1 s.w b3.w (cmd.out_file.isSome = true ∧ 0 ≤ b2.out_fd) b1.stdout_dup
      b2.out_fd := by
    refine saved_of_setup 1 s.w b1.w b2.w b3.w (cmd.out_file.isSome = true) b1.stdout_dup
      b2.out_fd (cmd.out_file.isSome ∨ (pipefd.2 ≥ 0 ∧ pipefd.2 ≠ 1)) q1 (fun hc => ?_)
      (fun hf => ?_) (fun hf => ?_) q3 (fun hj => ?_)
    · have hf : cmd.out_file.isSome = false := by
        cases h : cmd.out_file.isSome with
        | true => exact absurd (Or.inl h) hc
        | false => rfl
      refine ⟨by rw [k1 hc, h1]; decide, fun n => by rw [k1 hc], by simp [hf], ?_⟩
      rw [(p2 hf).2, v1.1, h2]
      split_ifs with hp
      · by_contra hneg
        exact hc (Or.inr ⟨by omega, hp⟩)
      · decide
    · rcases f2 hf with ⟨a, b⟩ | ⟨a, b, c⟩
      · exact Or.inl ⟨a, b⟩
      · exact Or.inr ⟨a, b, _, c⟩
    · have hf' : cmd.out_file.isSome = false := by simpa using hf
      intro n
      rw [(p2 hf').1]
    · intro n
      rw [k3 hj]
  refine restore_tbl 1 s.w b3.w b5.w b6.w _ b1.stdout_dup b2.out_fd hs (fun hfo n => ?_)
    (fun hfo n => ?_) (fun hd n => ?_) (fun hd n => ?_)
  · rw [hj4] at q5
    exact q5 hfo n
  · rw [k5 (by rw [hj4]; exact hfo), v4.1]
  · rw [hd5] at q6
    exact q6 hd n
  · rw [k6 (by rw [hd5]; exact hd)]

/-- The output side of `execute_builtin`, from the set-up of standard output
to its restoring, leaves the descriptor table as it found it if every `dup`,
`dup2` and `close` call succeeds. -/
theorem stdout_bracket (o : outcomes) (cmd : stage) (pipefd : Int × Int) (idx : Int)
    (s : builtin_vars) (h1 : s.stdout_dup = -1) (h2 : s.out_fd = -1) :
    run s.w (restore_stdout o (close_output o cmd (run_handler o cmd idx
        (setup_stdout o cmd pipefd s)))).w
      (∀ n, tbl (restore_stdout o (close_output o cmd (run_handler o cmd idx
        (setup_stdout o cmd pipefd s)))).w n = tbl s.w n) := by
  by_cases hret : s.ret = BUILTIN_OK
  · have e : setup_stdout o cmd pipefd s =
        redirect_stdout o (open_output o cmd pipefd (save_stdout o cmd pipefd s)) := by
      unfold setup_stdout
      rw [if_pos hret]
    rw [e]
    exact stdout_bracket_aux o cmd pipefd idx s _ _ _ _ _ _ rfl rfl rfl rfl rfl rfl h1 h2
  · have e1 : setup_stdout o cmd pipefd s = s := by
      unfold setup_stdout
      rw [if_neg hret]
    have e2 : run_handler o cmd idx s = s := by
      unfold run_handler
      rw [if_neg hret]
    have e3 : close_output o cmd s = s :=
      close_output_skip o cmd s (by rw [h2]; simp)
    have e4 : restore_stdout o s = s := restore_stdout_skip o s (by rw [h1]; decide)
    rw [e1, e2, e3, e4]
    exact run_refl (fun _ => rfl)

theorem stdout_bracket_vars (o : outcomes) (cmd : stage) (pipefd : Int × Int) (idx : Int)
    (s : builtin_vars) :
    (restore_stdout o (close_output o cmd (run_handler o cmd idx
        (setup_stdout o cmd pipefd s)))).in_fd = s.in_fd ∧
    (restore_stdout o (close_output o cmd (run_handler o cmd idx
        (setup_stdout o cmd pipefd s)))).stdin_dup = s.stdin_dup := by
  have a : (setup_stdout o cmd pipefd s).in_fd = s.in_fd ∧
      (setup_stdout o cmd pipefd s).stdin_dup = s.stdin_dup := by
    unfold setup_stdout
    split_ifs
    · rw [(redirect_stdout_vars o _).2.2.1, (redirect_stdout_vars o _).2.2.2,
        (open_output_vars o cmd pipefd _).2.1, (open_output_vars o cmd pipefd _).2.2,
        (save_stdout_vars o cmd pipefd s).2.1, (save_stdout_vars o cmd pipefd s).2.2]
      exact ⟨rfl, rfl⟩
    · exact ⟨rfl, rfl⟩
  rw [(restore_stdout_vars o _).1, (restore_stdout_vars o _).2,
    (close_output_vars o cmd _).2.2.1, (close_output_vars o cmd _).2.2.2,
    (run_handler_vars o cmd idx _).2.2.2.1, (run_handler_vars o cmd idx _).2.2.2.2]
  exact a

theorem stdin_bracket_aux (o : outcomes) (cmd : stage) (pipefd : Int × Int)
    (s a1 a2 a3 m a5 a6 : builtin_vars) (e1 : a1 = save_stdin o cmd pipefd s)
    (e2 : a2 = open_input o cmd pipefd a1) (e3 : a3 = redirect_stdin o a2)
    (rm : run a3.w m.w (∀ n, tbl m.w n = tbl a3.w n))
    (vm : m.in_fd = a3.in_fd ∧ m.stdin_dup = a3.stdin_dup)
    (e5 : a5 = close_input o cmd m) (e6 : a6 = restore_stdin o a5)
    (h1 : s.stdin_dup = -1) (h2 : s.in_fd = -1)
    (hp : cmd.in_file.isSome = true ∨ pipefd.1 ≤ 0 ∨ pipefd.2 ≠ 0) :
    run s.w a6.w (∀ n, tbl a6.w n = tbl s.w n) := by
  have r1 := save_stdin_run o cmd pipefd s
  have k1 := save_stdin_skip o cmd pipefd s
  have v1 := save_stdin_vars o cmd pipefd s
  rw [← e1] at r1 k1 v1
  have r2 := open_input_run o cmd pipefd a1
  have f2 := open_input_file o cmd pipefd a1
  have p2 := open_input_pipe o cmd pipefd a1
  have v2 := open_input_vars o cmd pipefd a1
  rw [← e2] at r2 f2 p2 v2
  have r3 := redirect_stdin_run o a2
  have k3 := redirect_stdin_skip o a2
  have v3 := redirect_stdin_vars o a2
  rw [← e3] at r3 k3 v3
  have r5 := close_input_run o cmd m
  have k5 := close_input_skip o cmd m
  have v5 := close_input_vars o cmd m
  rw [← e5] at r5 k5 v5
  have r6 := restore_stdin_run o a5
  have k6 := restore_stdin_skip o a5
  rw [← e6] at r6 k6
  refine run_mono (run_trans r1 (run_trans r2 (run_trans r3 (run_trans rm (run_trans r5 r6)))))
    ?_
  rintro ⟨q1, -, q3, qm, q5, q6⟩
  have hd5 : a5.stdin_dup = a1.stdin_dup := by rw [v5.2.1, vm.2, v3.2.1, v2.1]
  have hjm : m.in_fd = a2.in_fd := by rw [vm.1, v3.1]
  have hs : saved 0 s.w a3.w (cmd.in_file.isSome = true ∧ 0 ≤ a2.in_fd) a1.stdin_dup
      a2.in_fd := by
    refine saved_of_setup 0 s.w a1.w a2.w a3.w (cmd.in_file.isSome = true) a1.stdin_dup
      a2.in_fd (cmd.in_file.isSome ∨ (pipefd.1 ≥ 0 ∧ pipefd.2 ≠ 0)) q1 (fun hc => ?_)
      (fun hf => ?_) (fun hf => ?_) q3 (fun hj => ?_)
    · have hf : cmd.in_file.isSome = false := by
        cases h : cmd.in_file.isSome with
        | true => exact absurd (Or.inl h) hc
        | false => rfl
      refine ⟨by rw [k1 hc, h1]; decide, fun n => by rw [k1 hc], by simp [hf], ?_⟩
      rw [(p2 hf).2, v1.1, h2]
      split_ifs with hp1
      · rcases hp with hp | hp | hp
        · rw [hf] at hp
          exact absurd hp (by simp)
        · omega
        · by_contra hneg
          exact hc (Or.inr ⟨by omega, hp⟩)
      · decide
    · rcases f2 hf with ⟨a, b⟩ | ⟨a, b, c⟩
      · exact Or.inl ⟨a, b⟩
      · exact Or.inr ⟨a, b, _, c⟩
    · have hf' : cmd.in_file.isSome = false := by simpa using hf
      intro n
      rw [(p2 hf').1]
    · intro n
      rw [k3 hj]
  refine restore_tbl 0 s.w m.w a5.w a6.w _ a1.stdin_dup a2.in_fd (saved_congr hs qm)
    (fun hfo n => ?_) (fun hfo n => ?_) (fun hd n => ?_) (fun hd n => ?_)
  · rw [hjm] at q5
    exact q5 hfo n
  · rw [k5 (by rw [hjm]; exact hfo)]
  · rw [hd5] at q6
    exact q6 hd n
  · rw [k6 (by rw [hd5]; exact hd)]

/-- The whole of `execute_builtin` leaves the descriptor table as it found it
if every `dup`, `dup2` and `close` call succeeds, for a pair `pipefd` with
which standard input is saved whenever it is replaced. -/
theorem execute_builtin_run (o : outcomes) (cmd : stage) (pipefd : Int × Int) (w : world)
    (hp : cmd.in_file.isSome = true ∨ pipefd.1 ≤ 0 ∨ pipefd.2 ≠ 0) :
    run w (execute_builtin o cmd pipefd w).2
      (∀ n, tbl (execute_builtin o cmd pipefd w).2 n = tbl w n) := by
  unfold execute_builtin
  by_cases hb : find_builtin cmd < 0
  · rw [if_pos hb]
    exact run_refl (fun _ => rfl)
  · rw [if_neg hb]
    dsimp only
    unfold builtin_restore builtin_setup
    refine stdin_bracket_aux o cmd pipefd
      { ret := BUILTIN_OK, stdout_dup := -1, stdin_dup := -1, out_fd := -1, in_fd := -1, w := w }
      _ _ _ _ _ _ rfl rfl rfl
      (stdout_bracket o cmd pipefd (find_builtin cmd) _ ?_ ?_)
      (stdout_bracket_vars o cmd pipefd (find_builtin cmd) _) rfl rfl rfl rfl hp
    · rw [(redirect_stdin_vars o _).2.2.2, (open_input_vars o cmd pipefd _).2.2,
        (save_stdin_vars o cmd pipefd _).2.2]
    · rw [(redirect_stdin_vars o _).2.2.1, (open_input_vars o cmd pipefd _).2.1,
        (save_stdin_vars o cmd pipefd _).2.1]

theorem fd_file_tbl (w w1 : world) (h : ∀ n, tbl w1 n = tbl w n) (fd : Int) :
    fd_file w1.fds fd = fd_file w.fds fd := by
  unfold fd_file
  split_ifs
  · rfl
  · exact h fd.toNat

theorem single_builtin_pair (o : outcomes) (cmd : stage) (w : world)
    (h : 0 ≤ find_builtin cmd) :
    (start_stages o cmd [] w).w = (execute_builtin o cmd (0, 1) w).2 := by
  unfold start_stages
  rw [if_neg (by simp), if_neg (by omega)]

theorem in_process_stage (o : outcomes) (builtin_idx : Int) (cmd : stage) (s : command_vars)
    (h : ¬ (s.child_count > 0 ∨ builtin_idx < 0)) :
    run_stage_of_pipeline o builtin_idx cmd s = (execute_builtin o cmd s.fd s.w).2 := by
  unfold run_stage_of_pipeline
  rw [if_neg h]

/-- The pair the first stage of a pipeline is run with: the loop either breaks
on a failed `pipe` before the stage is run, or runs the stage with a pair whose
first component is `0` or `-pipefd[0]`, so not positive. Every later stage has
`child_count > 0` and is forked. -/
theorem first_stage_pair (o : outcomes) (builtin_idx : Int) (cmd : stage) (rest : List stage)
    (s : command_vars) (h0 : s.child_count = 0) :
    (∃ s1 : command_vars, s1.child_count = 0 ∧ s1.fd.1 ≤ 0 ∧
      pipeline_loop o builtin_idx (cmd :: rest) s =
        pipeline_loop o builtin_idx rest (pipeline_tail o builtin_idx cmd s1)) ∨
    ((sys o os_call.pipe s.w).1 < 0 ∧
      (pipeline_loop o builtin_idx (cmd :: rest) s).w = (sys o os_call.pipe s.w).2) := by
  rw [pipeline_loop]
  have hc : ¬ s.child_count > 0 := by omega
  have c1 : ¬ (s.child_count > 0 ∧ s.fd.1 ≥ 0 ∧ s.fd.1 ≠ 0 ∧
      (sys o (os_call.close s.fd.1) s.w).1 < 0) := fun h => hc h.1
  have c2 : ¬ (s.child_count > 0 ∧ s.fd.1 ≥ 0 ∧ s.fd.1 ≠ 0) := fun h => hc h.1
  rw [if_neg c1]
  dsimp only
  by_cases hr : rest ≠ []
  · rw [if_pos hr]
    simp only [if_neg c2, if_neg hc, if_pos h0]
    by_cases hp : (sys o os_call.pipe s.w).1 < 0
    · rw [if_pos hp]
      exact Or.inr ⟨hp, rfl⟩
    · rw [if_neg hp]
      refine Or.inl ⟨{ s with
        fd := (-(pipe_fds o s.w s.pipefd).1, (pipe_fds o s.w s.pipefd).2)
        pipefd := pipe_fds o s.w s.pipefd
        w := (sys o os_call.pipe s.w).2 }, h0, ?_, rfl⟩
      dsimp only
      have hf : o.fails s.w.trace.length = false := by
        cases hfl : o.fails s.w.trace.length with
        | true => exact absurd (by rw [(sys_fails o _ s.w hfl).1]; decide) hp
        | false => rfl
      unfold pipe_fds
      rw [hf]
      simp
  · rw [if_neg hr]
    simp only [if_neg c2, if_neg hc]
    exact Or.inl ⟨{ s with fd := (0, 1) }, h0, le_refl _, rfl⟩

/-- C22: an in-process builtin leaves standard input and output as it found
them. For every command, every handler outcome (BUILTIN_OK, BUILTIN_ERROR,
BUILTIN_EXIT), every descriptor table and every pair `pipefd` that
`execute_builtin` is passed, that is every pair with `pipefd[0] <= 0` (the
callers pass `(0, 1)` and `(-pipefd[0], pipefd[1])`): if every `dup`, `dup2`
and `close` call that `execute_builtin` makes succeeds (an `open` of a redirect
file may fail), then after it returns descriptors 0 and 1, and every other
descriptor, refer to the same open files as before the call. -/
theorem builtin_restores_descriptors (o : outcomes) (cmd : stage) (pipefd : Int × Int)
    (w : world) (hp : pipefd.1 ≤ 0)
    (hok : ∀ e ∈ (execute_builtin o cmd pipefd w).2.trace.drop w.trace.length,
      e.1.on_descriptor = true → 0 ≤ e.2) :
    fd_file (execute_builtin o cmd pipefd w).2.fds 0 = fd_file w.fds 0 ∧
    fd_file (execute_builtin o cmd pipefd w).2.fds 1 = fd_file w.fds 1 ∧
    ∀ fd : Int, fd_file (execute_builtin o cmd pipefd w).2.fds fd = fd_file w.fds fd := by
  have h := run_elim (execute_builtin_run o cmd pipefd w (Or.inr (Or.inl hp))) hok
  exact ⟨fd_file_tbl _ _ h 0, fd_file_tbl _ _ h 1, fd_file_tbl _ _ h⟩

theorem builtin_restores_descriptors_witness :
    (∀ e ∈ (execute_builtin all_succeed ⟨[some "pwd".toList], some "in".toList,
        some "out".toList⟩ (0, 1) world_start).2.trace.drop world_start.trace.length,
      e.1.on_descriptor = true → 0 ≤ e.2) ∧
    fd_file (execute_builtin all_succeed ⟨[some "pwd".toList], some "in".toList,
      some "out".toList⟩ (0, 1) world_start).2.fds 0 = fd_file world_start.fds 0 ∧
    fd_file (execute_builtin all_succeed ⟨[some "pwd".toList], some "in".toList,
      some "out".toList⟩ (0, 1) world_start).2.fds 1 = fd_file world_start.fds 1 ∧
    (∀ e ∈ (execute_builtin all_succeed ⟨[some "pwd".toList], none, none⟩ (-3, 4)
        (sys all_succeed os_call.pipe world_start).2).2.trace.drop
        (sys all_succeed os_call.pipe world_start).2.trace.length,
      e.1.on_descriptor = true → 0 ≤ e.2) ∧
    fd_file (execute_builtin all_succeed ⟨[some "pwd".toList], none, none⟩ (-3, 4)
      (sys all_succeed os_call.pipe world_start).2).2.fds 1 =
        fd_file (sys all_succeed os_call.pipe world_start).2.fds 1 :=
  ⟨by decide,
    (builtin_restores_descriptors all_succeed
      ⟨[some "pwd".toList], some "in".toList, some "out".toList⟩ (0, 1) world_start
      (by decide) (by decide)).1,
    (builtin_restores_descriptors all_succeed
      ⟨[some "pwd".toList], some "in".toList, some "out".toList⟩ (0, 1) world_start
      (by decide) (by decide)).2.1,
    by decide,
    (builtin_restores_descriptors all_succeed ⟨[some "pwd".toList], none, none⟩ (-3, 4)
      (sys all_succeed os_call.pipe world_start).2 (by decide) (by decide)).2.1⟩

/-- A pair that no caller passes: `pwd` without redirects, run by
`execute_builtin` with `pipefd = (3, 0)` in a process that has descriptors 0 to
3 open on four different files. Every call succeeds, the handler returns
BUILTIN_OK, and afterwards descriptor 0 refers to the file of descriptor 3:
standard input is replaced by `dup2(3, 0)` but was not saved, because the test
before `dup(STDIN_FILENO)` compares `pipefd[1]`, not `pipefd[0]`, with
STDIN_FILENO. With `pipefd[0] <= 0` the two tests agree. -/
theorem builtin_loses_stdin :
    (execute_builtin all_succeed ⟨[some "pwd".toList], none, none⟩ (3, 0) world_with_pipe).1 =
      BUILTIN_OK ∧
    (∀ e ∈ (execute_builtin all_succeed ⟨[some "pwd".toList], none, none⟩ (3, 0)
      world_with_pipe).2.trace, 0 ≤ e.2) ∧
    (execute_builtin all_succeed ⟨[some "pwd".toList], none, none⟩ (3, 0)
      world_with_pipe).2.trace.map Prod.fst =
      [os_call.dup2 3 0, os_call.dup 1, os_call.dup2 0 1, os_call.dup2 4 1, os_call.close 4] ∧
    fd_file world_with_pipe.fds 0 = some 0 ∧
    fd_file (execute_builtin all_succeed ⟨[some "pwd".toList], none, none⟩ (3, 0)
      world_with_pipe).2.fds 0 = some 3 ∧
    fd_file (execute_builtin all_succeed ⟨[some "pwd".toList], none, none⟩ (3, 0)
      world_with_pipe).2.fds 1 = fd_file world_with_pipe.fds 1 := by
  refine ⟨by decide, by decide, by decide, by decide, by decide, by decide⟩

theorem lt_of_rd_ne {L : Nat} {buf : List Char} {i : Nat} (h1 : buf.length = L + 1)
    (h2 : rd buf L = NUL) (h : rd buf i ≠ NUL) : i < L := by
  have := lt_length_of_rd_ne h
  have : i ≠ L := fun e => h (e ▸ h2)
  omega

theorem buf_inv_set {L : Nat} {buf : List Char} {rp wp : Nat} (c : Char) (i rp1 wp1 : Nat)
    (h : buf_inv L buf rp wp) (hi : i < L) (h1 : wp1 ≤ rp1) (h2 : rp1 ≤ L) :
    buf_inv L (buf.set i c) rp1 wp1 :=
  ⟨by rw [List.length_set]; exact h.1, by rw [rd_set_ne (by omega)]; exact h.2.1, h1, h2⟩

theorem section_inv_mono {L wp0 wp1 : Nat} {r : section_result}
    (h : section_result.inv L wp1 r) (hle : wp0 ≤ wp1) : section_result.inv L wp0 r := by
  cases r with
  | fail e b r w => exact h
  | ok b r w => exact ⟨h.1, le_trans hle h.2⟩

theorem of_some_eq {α : Type} {P : α → Prop} {x : α} (h : P x) :
    ∀ r, some x = some r → P r := by
  intro r hr
  cases hr
  exact h

theorem eat_spaces_within (L : Nat) : ∀ (f : Nat) (buf : List Char) (p wp : Nat),
    buf_inv L buf p wp →
    (∀ a ∈ eat_spaces_log f buf p wp, a.within L) ∧
      ∀ q, eat_spaces f buf p = some q → p ≤ q ∧ q ≤ L ∧ rd buf q ≠ ' ' := by
  intro f
  induction f with
  | zero =>
    intro buf p wp _
    exact ⟨fun a ha => by simp [eat_spaces_log] at ha, fun q hq => by simp [eat_spaces] at hq⟩
  | succ f ih =>
    intro buf p wp h
    obtain ⟨hl, hn, hwr, hrl⟩ := h
    unfold eat_spaces eat_spaces_log
    have a0 : access.within L ⟨false, p, p, wp⟩ := ⟨hrl, hwr, hrl⟩
    split_ifs with hc
    · have hlt : p < L := lt_of_rd_ne hl hn (by rw [hc]; exact space_ne_NUL)
      obtain ⟨i1, i2⟩ := ih buf (p + 1) wp ⟨hl, hn, by omega, by omega⟩
      refine ⟨List.forall_mem_cons.2 ⟨a0, i1⟩, fun q hq => ?_⟩
      obtain ⟨b1, b2, b3⟩ := i2 q hq
      exact ⟨by omega, b2, b3⟩
    · exact ⟨List.forall_mem_cons.2 ⟨a0, fun a ha => by simp at ha⟩,
        of_some_eq ⟨le_refl _, hrl, hc⟩⟩

theorem quoted_section_within (L : Nat) : ∀ (f : Nat) (q : Char) (buf : List Char) (rp wp : Nat),
    buf_inv L buf rp wp →
    (∀ a ∈ quoted_section_log f q buf rp wp, a.within L) ∧
      ∀ r, quoted_section f q buf rp wp = some r → section_result.inv L wp r := by
  intro f
  induction f with
  | zero =>
    intro q buf rp wp _
    exact ⟨fun a ha => by simp [quoted_section_log] at ha,
      fun r hr => by simp [quoted_section] at hr⟩
  | succ f ih =>
    intro q buf rp wp h
    have h' := h
    obtain ⟨hl, hn, hwr, hrl⟩ := h'
    unfold quoted_section quoted_section_log
    dsimp only
    have a0 : access.within L ⟨false, rp, rp, wp⟩ := ⟨hrl, hwr, hrl⟩
    have nil : ∀ a ∈ ([] : List access), a.within L := fun a ha => by simp at ha
    split_ifs with h0 hb h1 he hq
    · exact ⟨List.forall_mem_cons.2 ⟨a0, nil⟩, of_some_eq ⟨hl, hn, hwr, hrl⟩⟩
    · have hlt : rp < L := lt_of_rd_ne hl hn h0
      exact ⟨List.forall_mem_cons.2 ⟨a0, List.forall_mem_cons.2
          ⟨⟨by dsimp only; omega, by dsimp only; omega, by dsimp only; omega⟩, nil⟩⟩,
        of_some_eq ⟨hl, hn, by omega, by omega⟩⟩
    · have hlt : rp + 1 < L := lt_of_rd_ne hl hn h1
      obtain ⟨i1, i2⟩ := ih q (buf.set wp (rd buf (rp + 1))) (rp + 1 + 1) (wp + 1)
        (buf_inv_set _ wp _ _ h (by omega) (by omega) (by omega))
      exact ⟨List.forall_mem_cons.2 ⟨a0, List.forall_mem_cons.2
          ⟨⟨by dsimp only; omega, by dsimp only; omega, by dsimp only; omega⟩,
            List.forall_mem_cons.2
              ⟨⟨by dsimp only; omega, by dsimp only; omega, by dsimp only; omega⟩, i1⟩⟩⟩,
        fun r hr => section_inv_mono (i2 r hr) (by omega)⟩
    · have hlt : rp + 1 < L := lt_of_rd_ne hl hn h1
      obtain ⟨i1, i2⟩ := ih q
        ((buf.set wp BSL).set (wp + 1) (rd (buf.set wp BSL) (rp + 1))) (rp + 1 + 1)
        (wp + 1 + 1)
        (buf_inv_set _ (wp + 1) _ _
          (buf_inv_set BSL wp rp wp h (by omega) (by omega) (by omega))
          (by omega) (by omega) (by omega))
      exact ⟨List.forall_mem_cons.2 ⟨a0, List.forall_mem_cons.2
          ⟨⟨by dsimp only; omega, by dsimp only; omega, by dsimp only; omega⟩,
            List.forall_mem_cons.2
              ⟨⟨by dsimp only; omega, by dsimp only; omega, by dsimp only; omega⟩,
                List.forall_mem_cons.2
                  ⟨⟨by dsimp only; omega, by dsimp only; omega, by dsimp only; omega⟩,
                    i1⟩⟩⟩⟩,
        fun r hr => section_inv_mono (i2 r hr) (by omega)⟩
    · have hlt : rp < L := lt_of_rd_ne hl hn h0
      exact ⟨List.forall_mem_cons.2 ⟨a0, nil⟩,
        of_some_eq ⟨⟨hl, hn, by omega, by omega⟩, le_refl _⟩⟩
    · have hlt : rp < L := lt_of_rd_ne hl hn h0
      obtain ⟨i1, i2⟩ := ih q (buf.set wp (rd buf rp)) (rp + 1) (wp + 1)
        (buf_inv_set _ wp _ _ h (by omega) (by omega) (by omega))
      exact ⟨List.forall_mem_cons.2 ⟨a0, List.forall_mem_cons.2
          ⟨⟨by dsimp only; omega, by dsimp only; omega, by dsimp only; omega⟩, i1⟩⟩,
        fun r hr => section_inv_mono (i2 r hr) (by omega)⟩

theorem normal_section_within (L : Nat) : ∀ (f : Nat) (buf : List Char) (rp wp : Nat),
    buf_inv L buf rp wp →
    (∀ a ∈ normal_section_log f buf rp wp, a.within L) ∧
      ∀ r, normal_section f buf rp wp = some r → section_result.inv L wp r := by
  intro f
  induction f with
  | zero =>
    intro buf rp wp _
    exact ⟨fun a ha => by simp [normal_section_log] at ha,
      fun r hr => by simp [normal_section] at hr⟩
  | succ f ih =>
    intro buf rp wp h
    have h' := h
    obtain ⟨hl, hn, hwr, hrl⟩ := h'
    unfold normal_section normal_section_log
    dsimp only
    have a0 : access.within L ⟨false, rp, rp, wp⟩ := ⟨hrl, hwr, hrl⟩
    have nil : ∀ a ∈ ([] : List access), a.within L := fun a ha => by simp at ha
    split_ifs with h0 hb h1 he
    · have hlt : rp < L := lt_of_rd_ne hl hn h0.1
      exact ⟨List.forall_mem_cons.2 ⟨a0, List.forall_mem_cons.2
          ⟨⟨by dsimp only; omega, by dsimp only; omega, by dsimp only; omega⟩, nil⟩⟩,
        of_some_eq ⟨hl, hn, by omega, by omega⟩⟩
    · have hlt : rp + 1 < L := lt_of_rd_ne hl hn h1
      obtain ⟨i1, i2⟩ := ih (buf.set wp (rd buf (rp + 1))) (rp + 1 + 1) (wp + 1)
        (buf_inv_set _ wp _ _ h (by omega) (by omega) (by omega))
      exact ⟨List.forall_mem_cons.2 ⟨a0, List.forall_mem_cons.2
          ⟨⟨by dsimp only; omega, by dsimp only; omega, by dsimp only; omega⟩,
            List.forall_mem_cons.2
              ⟨⟨by dsimp only; omega, by dsimp only; omega, by dsimp only; omega⟩, i1⟩⟩⟩,
        fun r hr => section_inv_mono (i2 r hr) (by omega)⟩
    · have hlt : rp + 1 < L := lt_of_rd_ne hl hn h1
      obtain ⟨i1, i2⟩ := ih
        ((buf.set wp BSL).set (wp + 1) (rd (buf.set wp BSL) (rp + 1))) (rp + 1 + 1)
        (wp + 1 + 1)
        (buf_inv_set _ (wp + 1) _ _
          (buf_inv_set BSL wp rp wp h (by omega) (by omega) (by omega))
          (by omega) (by omega) (by omega))
      exact ⟨List.forall_mem_cons.2 ⟨a0, List.forall_mem_cons.2
          ⟨⟨by dsimp only; omega, by dsimp only; omega, by dsimp only; omega⟩,
            List.forall_mem_cons.2
              ⟨⟨by dsimp only; omega, by dsimp only; omega, by dsimp only; omega⟩,
                List.forall_mem_cons.2
                  ⟨⟨by dsimp only; omega, by dsimp only; omega, by dsimp only; omega⟩,
                    i1⟩⟩⟩⟩,
        fun r hr => section_inv_mono (i2 r hr) (by omega)⟩
    · have hlt : rp < L := lt_of_rd_ne hl hn h0.1
      obtain ⟨i1, i2⟩ := ih (buf.set wp (rd buf rp)) (rp + 1) (wp + 1)
        (buf_inv_set _ wp _ _ h (by omega) (by omega) (by omega))
      exact ⟨List.forall_mem_cons.2 ⟨a0, List.forall_mem_cons.2
          ⟨⟨by dsimp only; omega, by dsimp only; omega, by dsimp only; omega⟩, i1⟩⟩,
        fun r hr => section_inv_mono (i2 r hr) (by omega)⟩
    · exact ⟨List.forall_mem_cons.2 ⟨a0, nil⟩,
        of_some_eq ⟨⟨hl, hn, hwr, hrl⟩, le_refl _⟩⟩

theorem within_nil (L : Nat) : ∀ a ∈ ([] : List access), a.within L :=
  fun a ha => by simp at ha

theorem within_append {L : Nat} {l1 l2 : List access} (h1 : ∀ a ∈ l1, a.within L)
    (h2 : ∀ a ∈ l2, a.within L) : ∀ a ∈ l1 ++ l2, a.within L := by
  intro a ha
  rcases List.mem_append.1 ha with h | h
  · exact h1 a h
  · exact h2 a h

theorem flush_arg_within (L : Nat) (st : pstate) (h : pinv L st) :
    (∀ a ∈ flush_arg_log st, a.within L) ∧ pinv L (flush_arg st).2 := by
  obtain ⟨buf, rp, wp, arg, tt, done, wc⟩ := st
  obtain ⟨⟨hl, hn, hwr, hrl⟩, ha, hnone⟩ := h
  dsimp only at hl hn hwr hrl ha hnone
  cases arg with
  | none => exact ⟨within_nil L, ⟨hl, hn, hwr, hrl⟩, ha, hnone⟩
  | some a =>
    have hle : a ≤ wp := ha a rfl
    unfold flush_arg flush_arg_log
    dsimp only
    constructor
    · refine List.forall_mem_cons.2 ⟨⟨by dsimp only; omega, hwr, hrl⟩, ?_⟩
      split_ifs
      · exact List.forall_mem_cons.2 ⟨⟨hrl, hwr, hrl⟩, within_nil L⟩
      · exact within_nil L
    · split_ifs with h1 h2
      · exact ⟨⟨hl, hn, hwr, hrl⟩, ha, fun hc => by simp at hc⟩
      · exact ⟨⟨hl, hn, hwr, hrl⟩, fun _ hc => by simp at hc, fun _ => Or.inr (Or.inr h1.2)⟩
      · exact ⟨⟨hl, hn, hwr, hrl⟩, ha, hnone⟩

theorem start_section_within (L : Nat) (st : pstate)
    (hb : buf_inv L st.buf st.read_pos st.write_pos)
    (ha : ∀ a, st.arg = some a → a ≤ st.write_pos)
    (hn : st.arg = none → st.write_pos = 0 ∨ st.write_pos < st.read_pos) :
    (∀ x ∈ start_section_log st, x.within L) ∧
      buf_inv L (start_section st).buf (start_section st).read_pos
        (start_section st).write_pos ∧
      ∃ a, (start_section st).arg = some a ∧ a ≤ (start_section st).write_pos := by
  obtain ⟨buf, rp, wp, arg, tt, done, wc⟩ := st
  dsimp only at hb ha hn
  have hb' := hb
  obtain ⟨hl, hnul, hwr, hrl⟩ := hb'
  cases arg with
  | some a => exact ⟨within_nil L, hb, a, rfl, ha a rfl⟩
  | none =>
    unfold start_section start_section_log
    dsimp only
    split_ifs with h0
    · have hlt : wp < rp := by
        rcases hn rfl with h | h
        · exact absurd h h0
        · exact h
      exact ⟨List.forall_mem_cons.2 ⟨⟨by dsimp only; omega, hwr, hrl⟩, within_nil L⟩,
        buf_inv_set NUL wp rp (wp + 1) hb (by omega) (by omega) hrl, wp + 1, rfl, le_refl _⟩
    · exact ⟨within_nil L, hb, wp, rfl, le_refl _⟩

theorem copy_section_within (L : Nat) (st : pstate) (a : Nat)
    (hb : buf_inv L st.buf st.read_pos st.write_pos) (ha : st.arg = some a)
    (hle : a ≤ st.write_pos) :
    (∀ x ∈ copy_section_log st, x.within L) ∧
      ∀ st1, copy_section st = some (iter_result.next st1) → pinv L st1 := by
  obtain ⟨buf, rp, wp, arg, tt, done, wc⟩ := st
  dsimp only at hb ha hle
  subst ha
  have hb' := hb
  obtain ⟨hl, hnul, hwr, hrl⟩ := hb'
  have a0 : access.within L ⟨false, rp, rp, wp⟩ := ⟨hrl, hwr, hrl⟩
  unfold copy_section copy_section_log
  dsimp only
  split_ifs with hq h0
  · have hne : rd buf rp ≠ NUL := by
      rcases hq with h | h
      · rw [h]
        exact DQ_ne_NUL
      · rw [h]
        exact SQ_ne_NUL
    have hlt : rp < L := lt_of_rd_ne hl hnul hne
    obtain ⟨i1, i2⟩ := quoted_section_within L (buf.length + 1) (rd buf rp) buf (rp + 1) wp
      ⟨hl, hnul, by omega, by omega⟩
    refine ⟨List.forall_mem_cons.2 ⟨a0, i1⟩, fun st1 h => ?_⟩
    cases hqs : quoted_section (buf.length + 1) (rd buf rp) buf (rp + 1) wp with
    | none => rw [hqs] at h; simp at h
    | some r =>
      rw [hqs] at h
      cases r with
      | fail e b r w => simp at h
      | ok b r w =>
        simp only [Option.some.injEq, iter_result.next.injEq] at h
        subst h
        obtain ⟨j1, j2⟩ := i2 _ hqs
        exact ⟨j1, fun x hx => by cases hx; exact le_trans hle j2, fun hc => by simp at hc⟩
  · have hlt : rp < L := lt_of_rd_ne hl hnul h0
    obtain ⟨i1, i2⟩ := normal_section_within L (buf.length + 1) buf rp wp hb
    refine ⟨List.forall_mem_cons.2 ⟨a0, i1⟩, fun st1 h => ?_⟩
    cases hqs : normal_section (buf.length + 1) buf rp wp with
    | none => rw [hqs] at h; simp at h
    | some r =>
      rw [hqs] at h
      cases r with
      | fail e b r w => simp at h
      | ok b r w =>
        simp only [Option.some.injEq, iter_result.next.injEq] at h
        subst h
        obtain ⟨j1, j2⟩ := i2 _ hqs
        exact ⟨j1, fun x hx => by cases hx; exact le_trans hle j2, fun hc => by simp at hc⟩
  · refine ⟨List.forall_mem_cons.2 ⟨a0, within_nil L⟩, fun st1 h => ?_⟩
    simp only [Option.some.injEq, iter_result.next.injEq] at h
    subst h
    exact ⟨hb, fun x hx => by cases hx; exact hle, fun hc => by simp at hc⟩

theorem start_copy_within (L : Nat) (st : pstate)
    (hb : buf_inv L st.buf st.read_pos st.write_pos)
    (ha : ∀ a, st.arg = some a → a ≤ st.write_pos)
    (hn : st.arg = none → st.write_pos = 0 ∨ st.write_pos < st.read_pos) :
    (∀ x ∈ start_section_log st ++ copy_section_log (start_section st), x.within L) ∧
      ∀ st1, copy_section (start_section st) = some (iter_result.next st1) → pinv L st1 := by
  obtain ⟨s1, s2, a, s3, s4⟩ := start_section_within L st hb ha hn
  obtain ⟨c1, c2⟩ := copy_section_within L (start_section st) a s2 s3 s4
  exact ⟨within_append s1 c1, c2⟩

theorem after_spaces_within (L : Nat) (st : pstate) (h : pinv L st)
    (hsp : rd st.buf st.read_pos ≠ ' ') :
    (∀ x ∈ after_spaces_log st, x.within L) ∧
      ∀ st1, after_spaces st = some (iter_result.next st1) → pinv L st1 := by
  obtain ⟨hb, ha, hnone⟩ := h
  have hb' := hb
  obtain ⟨hl, hnul, hwr, hrl⟩ := hb'
  have a0 : access.within L ⟨false, st.read_pos, st.read_pos, st.write_pos⟩ := ⟨hrl, hwr, hrl⟩
  unfold after_spaces after_spaces_log
  by_cases hr : rd st.buf st.read_pos = '>' ∨ rd st.buf st.read_pos = '<'
  · rw [if_pos hr, if_pos hr]
    dsimp only
    generalize (if rd st.buf st.read_pos = '>' then kRedirOutput else kRedirInput) = tt
    have hne : rd st.buf st.read_pos ≠ NUL := by
      rcases hr with h | h <;> rw [h] <;> decide
    have hlt : st.read_pos < L := lt_of_rd_ne hl hnul hne
    obtain ⟨e1, e2⟩ := eat_spaces_within L (st.buf.length + 1) st.buf (st.read_pos + 1)
      st.write_pos ⟨hl, hnul, by omega, by omega⟩
    cases hp : eat_spaces (st.buf.length + 1) st.buf (st.read_pos + 1) with
    | none =>
      dsimp only
      refine ⟨List.forall_mem_cons.2 ⟨a0, within_append e1 (within_nil L)⟩, fun st1 h => ?_⟩
      simp at h
    | some p =>
      dsimp only
      obtain ⟨p1, p2, _⟩ := e2 p hp
      have ap : access.within L ⟨false, p, p, st.write_pos⟩ :=
        ⟨p2, by dsimp only; omega, p2⟩
      split_ifs with h0
      · refine ⟨List.forall_mem_cons.2 ⟨a0, within_append e1
          (List.forall_mem_cons.2 ⟨ap, within_nil L⟩)⟩, fun st1 h => ?_⟩
        simp at h
      · obtain ⟨c1, c2⟩ := start_copy_within L { st with token_type := tt, read_pos := p }
          ⟨hl, hnul, by dsimp only; omega, p2⟩ ha (fun _ => Or.inr (by dsimp only; omega))
        exact ⟨List.forall_mem_cons.2 ⟨a0, within_append e1
          (List.forall_mem_cons.2 ⟨ap, c1⟩)⟩, c2⟩
  rw [if_neg hr, if_neg hr]
  by_cases hp : rd st.buf st.read_pos = '|'
  · rw [if_pos hp, if_pos hp]
    have hne : rd st.buf st.read_pos ≠ NUL := by
      rw [hp]
      decide
    have hlt : st.read_pos < L := lt_of_rd_ne hl hnul hne
    obtain ⟨e1, e2⟩ := eat_spaces_within L (st.buf.length + 1) st.buf (st.read_pos + 1)
      st.write_pos ⟨hl, hnul, by omega, by omega⟩
    cases hq : eat_spaces (st.buf.length + 1) st.buf (st.read_pos + 1) with
    | none =>
      dsimp only
      refine ⟨List.forall_mem_cons.2 ⟨a0, within_append e1 (within_nil L)⟩, fun st1 h => ?_⟩
      simp at h
    | some p =>
      dsimp only
      obtain ⟨p1, p2, _⟩ := e2 p hq
      have ap : access.within L ⟨false, p, p, st.write_pos⟩ :=
        ⟨p2, by dsimp only; omega, p2⟩
      refine ⟨List.forall_mem_cons.2 ⟨a0, within_append e1
        (List.forall_mem_cons.2 ⟨ap, within_nil L⟩)⟩, fun st1 h => ?_⟩
      split_ifs at h with h0
      · simp at h
      · simp only [Option.some.injEq, iter_result.next.injEq] at h
        subst h
        exact ⟨⟨hl, hnul, by dsimp only; omega, p2⟩, ha,
          fun _ => Or.inr (Or.inl (by dsimp only; omega))⟩
  · rw [if_neg hp, if_neg hp]
    have hnd : ¬ is_delim (rd st.buf st.read_pos) := by
      unfold is_delim
      tauto
    by_cases he : rd st.buf st.read_pos ≠ NUL ∧ st.arg = none ∧ st.token_type ≠ kArgument
    · rw [if_pos he, if_pos he]
      refine ⟨List.forall_mem_cons.2 ⟨a0, within_nil L⟩, fun st1 h => ?_⟩
      simp at h
    · rw [if_neg he, if_neg he]
      obtain ⟨c1, c2⟩ := start_copy_within L st hb ha (fun hn => by
        rcases hnone hn with h | h | h
        · exact Or.inl h
        · exact Or.inr h
        · exact absurd h hnd)
      exact ⟨List.forall_mem_cons.2 ⟨a0, c1⟩, c2⟩

theorem parse_iter_within (L : Nat) (st : pstate) (h : pinv L st) :
    (∀ x ∈ parse_iter_log st, x.within L) ∧
      ∀ st1, parse_iter st = some (iter_result.next st1) → pinv L st1 := by
  obtain ⟨f1, f2⟩ := flush_arg_within L st h
  unfold parse_iter parse_iter_log
  dsimp only
  by_cases he : (flush_arg st).1 ≠ kParseOK
  · rw [if_pos he, if_pos he]
    refine ⟨within_append f1 (within_nil L), fun st1 h => ?_⟩
    simp at h
  · rw [if_neg he, if_neg he]
    have f2' := f2
    obtain ⟨hb, ha, hnone⟩ := f2'
    obtain ⟨e1, e2⟩ := eat_spaces_within L ((flush_arg st).2.buf.length + 1) (flush_arg st).2.buf
      (flush_arg st).2.read_pos (flush_arg st).2.write_pos hb
    cases hp : eat_spaces ((flush_arg st).2.buf.length + 1) (flush_arg st).2.buf
        (flush_arg st).2.read_pos with
    | none =>
      dsimp only
      refine ⟨within_append f1 (within_append e1 (within_nil L)), fun st1 h => ?_⟩
      simp at h
    | some p =>
      dsimp only
      obtain ⟨p1, p2, p3⟩ := e2 p hp
      obtain ⟨hl, hnul, hwr, hrl⟩ := hb
      obtain ⟨c1, c2⟩ := after_spaces_within L { (flush_arg st).2 with read_pos := p }
        ⟨⟨hl, hnul, by dsimp only; omega, p2⟩, ha, fun hn => by
          dsimp only
          rcases hnone hn with h | h | h
          · exact Or.inl h
          · exact Or.inr (Or.inl (by omega))
          · by_cases hpe : p = (flush_arg st).2.read_pos
            · rw [hpe]
              exact Or.inr (Or.inr h)
            · exact Or.inr (Or.inl (by omega))⟩ p3
      exact ⟨within_append f1 (within_append e1 c1), c2⟩

theorem parse_loop_within (L : Nat) : ∀ (f : Nat) (st : pstate), pinv L st →
    ∀ x ∈ parse_loop_log f st, x.within L := by
  intro f
  induction f with
  | zero =>
    intro st _ x hx
    simp [parse_loop_log] at hx
  | succ f ih =>
    intro st h
    have h' := h
    obtain ⟨⟨hl, hnul, hwr, hrl⟩, ha, _⟩ := h'
    have a0 : access.within L ⟨false, st.read_pos, st.read_pos, st.write_pos⟩ := ⟨hrl, hwr, hrl⟩
    unfold parse_loop_log
    refine List.forall_mem_cons.2 ⟨a0, ?_⟩
    split_ifs with h0
    · unfold parse_finish_log
      refine List.forall_mem_cons.2 ⟨⟨by dsimp only; omega, hwr, hrl⟩, ?_⟩
      cases harg : st.arg with
      | none => exact within_nil L
      | some a =>
        have := ha a harg
        exact List.forall_mem_cons.2 ⟨⟨by dsimp only; omega, hwr, hrl⟩, within_nil L⟩
    · obtain ⟨i1, i2⟩ := parse_iter_within L st h
      refine within_append i1 ?_
      cases hp : parse_iter st with
      | none => exact within_nil L
      | some r =>
        cases r with
        | ret e st1 => exact within_nil L
        | next st1 => exact ih st1 (i2 st1 hp)

theorem parse_init_pinv (cmd : command_t) (s : List Char) : pinv s.length (parse_init cmd s) := by
  refine ⟨⟨by simp [parse_init], ?_, le_refl _, Nat.zero_le _⟩, fun a ha => ?_,
    fun _ => Or.inl rfl⟩
  · simp [parse_init, rd]
  · simp [parse_init] at ha

/-- The accesses on the line `a\`, of length 2: the last one is the look-ahead
after the backslash, which reads the terminator at index 2. -/
theorem parse_log_lookahead :
    (parse_log new_command ['a', BSL]).map (fun a => (a.is_write, a.idx)) =
      [(false, 0), (false, 0), (false, 0), (false, 0), (false, 0), (true, 0), (false, 1),
        (false, 2)] := by
  decide

/-- C25: `parse` never reads or writes outside the input buffer. For every
command and every string `s` of length `L` (stored with its terminator at
index `L`), `parse` returns, and every access it makes to the buffer on the
way, each read (the look-ahead after a backslash and the space-skipping loops
included) and each write (the separator NUL at a section start and the final
NUL included), touches an index `<= L`, and is made with
`write_pos <= read_pos <= L`. -/
theorem parse_within_buffer (cmd : command_t) (s : List Char) :
    (∃ r, parse cmd (some s) = some r) ∧
    ∀ a ∈ parse_log cmd s,
      a.idx ≤ s.length ∧ a.write_pos ≤ a.read_pos ∧ a.read_pos ≤ s.length :=
  ⟨parse_total cmd (some s), parse_loop_within s.length (s.length + 2) (parse_init cmd s)
    (parse_init_pinv cmd s)⟩

theorem tok_args_parts_src (ws : List (Nat × List sect)) :
    parts_src (ws.map (fun p => (gap.arg p.1, p.2))) = tok_args_src ws := by
  induction ws with
  | nil => rfl
  | cons p ws ih =>
    simp only [List.map_cons, parts_src, tok_args_src, gap.src]
    rw [← ih]

theorem tok_redirs_parts_src (rs : List tok_redirect) :
    parts_src (rs.map (fun r => (gap.redir r.pre r.marker r.post, r.file))) =
      tok_redirs_src rs := by
  induction rs with
  | nil => rfl
  | cons r rs ih =>
    simp only [List.map_cons, parts_src, tok_redirs_src, gap.src]
    rw [← ih]
    simp [List.append_assoc]

theorem tok_stage_parts_src (s : tok_stage) :
    sects_src s.cmd ++ parts_src s.parts = s.src := by
  simp [tok_stage.parts, parts_src_append, tok_args_parts_src, tok_redirs_parts_src,
    tok_stage.src]

theorem tok_more_parts_src (ps : List (Nat × Nat × tok_stage)) :
    parts_src (tok_more_parts ps) = tok_stages_src ps := by
  induction ps with
  | nil => rfl
  | cons p ps ih =>
    simp only [tok_more_parts, parts_src, tok_stages_src, gap.src, parts_src_append]
    rw [ih, ← tok_stage_parts_src]
    simp [List.append_assoc]

theorem tok_stage_parts_ok {s : tok_stage} (h : s.ok) : ∀ q ∈ s.parts, part_ok q := by
  intro q hq
  rcases List.mem_append.mp hq with h1 | h1
  · obtain ⟨p, hp, rfl⟩ := List.mem_map.mp h1
    exact ⟨trivial, (h.2.1 p hp).1, (h.2.1 p hp).2⟩
  · obtain ⟨r, hr, rfl⟩ := List.mem_map.mp h1
    exact ⟨(h.2.2.1 r hr).1, (h.2.2.1 r hr).2.1, (h.2.2.1 r hr).2.2⟩

theorem tok_more_parts_ok {ps : List (Nat × Nat × tok_stage)} (h : ∀ p ∈ ps, p.2.2.ok) :
    ∀ q ∈ tok_more_parts ps, part_ok q := by
  induction ps with
  | nil => intro q hq; simp [tok_more_parts] at hq
  | cons p ps ih =>
    intro q hq
    have hp := h p (List.mem_cons_self _ _)
    simp only [tok_more_parts, List.mem_cons, List.mem_append] at hq
    rcases hq with rfl | h1 | h1
    · exact ⟨trivial, hp.1.1, hp.1.2⟩
    · exact tok_stage_parts_ok hp q h1
    · exact ih (fun x hx => h x (List.mem_cons_of_mem _ hx)) q h1

theorem tok_run_stage (s : tok_stage) (hs : s.ok) (vs : List stage)
    (rest : List (gap × List Char)) :
    ∃ tt1, run_parts vs ⟨[some (sects_val s.cmd)], none, none⟩ kArgument
        (parts_val s.parts ++ rest) = run_parts vs s.val tt1 rest := by
  have e : parts_val s.parts = s.text.args.map (fun p => (gap.arg p.1, p.2)) ++
      s.text.redirs.map (fun r => (gap.redir r.pre r.marker r.post, r.file)) := by
    simp [parts_val, tok_stage.parts, tok_stage.text, Function.comp_def]
  have em : s.text.redirs.map redirect.marker = s.redirs.map tok_redirect.marker := by
    simp [tok_stage.text, Function.comp_def]
  rw [e, List.append_assoc, run_parts_args]
  obtain ⟨tt1, h⟩ := run_parts_redirs s.text.redirs vs
    ⟨[some (sects_val s.cmd)] ++ (s.text.args.map Prod.snd).map some, none, none⟩ kArgument rest
    (by simp)
    (fun r hr => by
      simp only [tok_stage.text, List.mem_map] at hr
      obtain ⟨x, hx, rfl⟩ := hr
      exact (hs.2.2.1 x hx).1)
    (by rw [em]; exact hs.2.2.2) (fun _ => rfl) (fun _ => rfl)
  refine ⟨tt1, ?_⟩
  rw [h]
  simp [tok_stage.val, tok_stage.text, Function.comp_def]

theorem tok_run_more : ∀ (ps : List (Nat × Nat × tok_stage)) (vs : List stage) (v : stage)
    (tt : parse_token_t), (∀ p ∈ ps, p.2.2.ok) →
    ∃ vs1 v1 tt1, run_parts vs v tt (parts_val (tok_more_parts ps)) = Except.ok (vs1, v1, tt1) ∧
      vs1 ++ [v1] = vs ++ v :: ps.map (fun p => p.2.2.val) := by
  intro ps
  induction ps with
  | nil =>
    intro vs v tt _
    exact ⟨vs, v, tt, rfl, by simp⟩
  | cons p ps ih =>
    intro vs v tt hok
    obtain ⟨tt1, h1⟩ := tok_run_stage p.2.2 (hok p (List.mem_cons_self _ _)) (vs ++ [v])
      (parts_val (tok_more_parts ps))
    obtain ⟨vs1, v1, tt2, h2, h3⟩ := ih (vs ++ [v]) p.2.2.val tt1
      (fun x hx => hok x (List.mem_cons_of_mem _ hx))
    refine ⟨vs1, v1, tt2, ?_, by simpa using h3⟩
    rw [tok_more_parts]
    have : parts_val ((gap.pipe p.1 p.2.1, p.2.2.cmd) ::
        (p.2.2.parts ++ tok_more_parts ps)) =
        (gap.pipe p.1 p.2.1, sects_val p.2.2.cmd) :: (parts_val p.2.2.parts ++
          parts_val (tok_more_parts ps)) := by
      simp [parts_val]
    rw [this, run_parts, stage_add_arg]
    simp only [stage.empty, List.nil_append]
    rw [h1, h2]

/-- A pipeline of well-formed stages whose tokens are made of sections parses
to kParseOK, every token stored as the one string it stands for. -/
theorem parse_line_stages (lead trail : Nat) (s : tok_stage)
    (ps : List (Nat × Nat × tok_stage)) (hs : s.ok) (hps : ∀ p ∈ ps, p.2.2.ok) :
    parse_line (spaces lead ++ (s.src ++ (tok_stages_src ps ++ spaces trail))) =
      some (kParseOK, (s :: ps.map (fun p => p.2.2)).map tok_stage.val) := by
  have h := (parse_line_parts lead trail s.cmd (s.parts ++ tok_more_parts ps) hs.1.1 hs.1.2 (by
      intro q hq
      rcases List.mem_append.mp hq with h1 | h1
      · exact tok_stage_parts_ok hs q h1
      · exact tok_more_parts_ok hps q h1)).2
  obtain ⟨tt1, h1⟩ := tok_run_stage s hs [] (parts_val (tok_more_parts ps))
  obtain ⟨vs1, v1, tt2, h2, h3⟩ := tok_run_more ps [] s.val tt1 hps
  rw [stage_add_arg] at h
  simp only [stage.empty, List.nil_append] at h
  have hr : parts_result [] ⟨[some (sects_val s.cmd)], none, none⟩ kArgument
      (parts_val (s.parts ++ tok_more_parts ps)) =
      (kParseOK, (s :: ps.map (fun p => p.2.2)).map tok_stage.val) := by
    unfold parts_result
    rw [parts_val_append, h1, h2]
    simp only [h3]
    simp
  rw [hr] at h
  have hsrc : sects_src s.cmd ++ (parts_src (s.parts ++ tok_more_parts ps) ++ spaces trail) =
      s.src ++ (tok_stages_src ps ++ spaces trail) := by
    rw [parts_src_append, tok_more_parts_src, ← tok_stage_parts_src]
    simp [List.append_assoc]
  rw [hsrc] at h
  exact h (by simp)

/-- C5: the unquoted escape rule, for every backslash pair of every unquoted
section of a line. The line is any pipeline of stages with any spacing; every
token (command, argument or redirect filename, in any stage) is made of
sections, and an unquoted section (`sect.run`) is a non-empty list of items,
each a plain character or a backslash followed by any non-NUL character `c`
(`item.esc c`), in any number and at any place. `parse` returns kParseOK and
stores every token as one string, to which the two characters backslash, `c`
contribute `escape_val c`: `c` alone when `c` is a backslash, a space, a quote
or a pipe, and backslash followed by `c` otherwise (`<` and `>` included);
either way `c` is part of the token and delimits nothing. -/
theorem parse_unquoted_escape (lead trail : Nat) (s : tok_stage)
    (ps : List (Nat × Nat × tok_stage)) (hs : s.ok) (hps : ∀ p ∈ ps, p.2.2.ok) :
    parse_line (spaces lead ++ (s.src ++ (tok_stages_src ps ++ spaces trail))) =
      some (kParseOK, (s :: ps.map (fun p => p.2.2)).map tok_stage.val) ∧
    (∀ c, (item.esc c).src = [BSL, c] ∧ (item.esc c).nval = escape_val c ∧
      ((item.esc c).nok ↔ c ≠ NUL)) ∧
    (∀ c, escape_val c =
      if c = BSL ∨ c = ' ' ∨ c = DQ ∨ c = SQ ∨ c = '|' then [c] else [BSL, c]) :=
  ⟨parse_line_stages lead trail s ps hs hps, fun _ => ⟨rfl, rfl, Iff.rfl⟩, fun _ => rfl⟩

theorem parse_unquoted_escape_witness :
    (tok_stage.mk
      [sect.run ("foo".toList.map item.ch ++ item.esc ' ' :: "bar".toList.map item.ch)]
      [(0, [sect.run (item.esc DQ :: ("baz".toList.map item.ch ++ [item.esc SQ]))]),
        (0, [sect.run (item.esc BSL :: "qux".toList.map item.ch)])] []).ok ∧
    parse_line ("foo".toList ++ BSL :: ' ' :: ("bar ".toList ++ BSL :: DQ :: ("baz".toList ++
        BSL :: SQ :: ' ' :: BSL :: BSL :: "qux".toList))) =
      some (kParseOK, [⟨[some "foo bar".toList, some (DQ :: ("baz".toList ++ [SQ])),
        some (BSL :: "qux".toList)], none, none⟩]) ∧
    (tok_stage.mk [sect.run [item.ch 'a', item.esc '<', item.ch 'b']] [] []).ok ∧
    (∀ p ∈ [(1, 1, tok_stage.mk [sect.run [item.ch 'c']] []
      [⟨1, '>', 1, [sect.run [item.ch 'd', item.esc ' ', item.esc '|', item.ch 'e']]⟩])],
      p.2.2.ok) ∧
    parse_line ("a".toList ++ BSL :: "<b | c > d".toList ++ BSL :: ' ' :: BSL :: "|e".toList) =
      some (kParseOK, [⟨[some ('a' :: BSL :: "<b".toList)], none, none⟩,
        ⟨[some "c".toList], none, some "d |e".toList⟩]) :=
  ⟨by decide,
    (parse_unquoted_escape 0 0
      (tok_stage.mk
        [sect.run ("foo".toList.map item.ch ++ item.esc ' ' :: "bar".toList.map item.ch)]
        [(0, [sect.run (item.esc DQ :: ("baz".toList.map item.ch ++ [item.esc SQ]))]),
          (0, [sect.run (item.esc BSL :: "qux".toList.map item.ch)])] [])
      [] (by decide) (by decide)).1,
    by decide, by decide,
    (parse_unquoted_escape 0 0
      (tok_stage.mk [sect.run [item.ch 'a', item.esc '<', item.ch 'b']] [] [])
      [(1, 1, tok_stage.mk [sect.run [item.ch 'c']] []
        [⟨1, '>', 1, [sect.run [item.ch 'd', item.esc ' ', item.esc '|', item.ch 'e']]⟩])]
      (by decide) (by decide)).1⟩

theorem sects_of_spec : ∀ (segs : List segment), (∀ s ∈ segs, s.ok) →
    sects_ok (sects_of segs) ∧ sects_src (sects_of segs) = segs_src segs ∧
      sects_val (sects_of segs) = segs_val segs := by
  intro segs
  induction segs with
  | nil => intro _; exact ⟨trivial, rfl, rfl⟩
  | cons s segs ih =>
    intro hok
    obtain ⟨h1, h2, h3⟩ := ih (fun x hx => hok x (List.mem_cons_of_mem _ hx))
    have hs := hok s (List.mem_cons_self _ _)
    cases s with
    | bare w =>
      by_cases hw : w = []
      · subst hw
        refine ⟨by simpa [sects_of] using h1, ?_, ?_⟩
        · simpa [sects_of, segs_src, segment.src] using h2
        · simpa [sects_of, segs_val, segment.val] using h3
      · have hwm : w.map item.ch ≠ [] := by simpa using hw
        cases hss : sects_of segs with
        | nil =>
          rw [hss] at h1 h2 h3
          have e : sects_of (segment.bare w :: segs) = [sect.run (w.map item.ch)] := by
            simp [sects_of, hw, hss]
          rw [e]
          refine ⟨⟨⟨hwm, nok_ch hs⟩, by simp, trivial⟩, ?_, ?_⟩
          · simp [sects_src, sect.src, items_src_ch, segs_src, segment.src, ← h2]
          · simp [sects_val, sect.val, items_nval_ch, segs_val, segment.val, ← h3]
        | cons t ts =>
          rw [hss] at h1 h2 h3
          cases t with
          | run its =>
            have e : sects_of (segment.bare w :: segs) =
                sect.run (w.map item.ch ++ its) :: ts := by
              simp [sects_of, hw, hss]
            rw [e]
            refine ⟨⟨⟨by simp [hw], ?_⟩, h1.2.1, h1.2.2⟩, ?_, ?_⟩
            · intro i hi
              rcases List.mem_append.mp hi with h4 | h4
              · exact nok_ch hs i h4
              · exact h1.1.2 i h4
            · simp [sects_src, sect.src, items_src_append, items_src_ch, segs_src, segment.src,
                ← h2]
            · simp [sects_val, sect.val, items_nval_append, items_nval_ch, segs_val,
                segment.val, ← h3]
          | quo q its =>
            have e : sects_of (segment.bare w :: segs) =
                sect.run (w.map item.ch) :: sect.quo q its :: ts := by
              simp [sects_of, hw, hss]
            rw [e]
            refine ⟨⟨⟨hwm, nok_ch hs⟩, by simp [sect.is_run], h1⟩, ?_, ?_⟩
            · simp [sects_src, sect.src, items_src_ch, segs_src, segment.src, ← h2]
            · simp [sects_val, sect.val, items_nval_ch, segs_val, segment.val, ← h3]
    | quoted q body =>
      have e : sects_of (segment.quoted q body :: segs) =
          sect.quo q (body.map item.ch) :: sects_of segs := by
        simp [sects_of]
      rw [e]
      refine ⟨⟨⟨hs.1, qok_ch hs.2⟩, by simp [sect.is_run], h1⟩, ?_, ?_⟩
      · simp [sects_src, sect.src, items_src_ch, segs_src, segment.src, ← h2]
      · simp [sects_val, sect.val, items_qval_ch, segs_val, segment.val, ← h3]

theorem seg_tok_ok {t : List segment} (h : seg_ok t) : tok_ok (sects_of t) := by
  obtain ⟨h1, _, h3⟩ := sects_of_spec t h.1
  exact ⟨h1, by rw [h3]; exact h.2⟩

theorem seg_args_toks : ∀ (ws : List (Nat × List segment)), (∀ p ∈ ws, seg_ok p.2) →
    tok_args_src (ws.map (fun p => (p.1, sects_of p.2))) = seg_args_src ws ∧
      (ws.map (fun p => (p.1, sects_of p.2))).map (fun p => sects_val p.2) =
        ws.map (fun p => segs_val p.2) := by
  intro ws
  induction ws with
  | nil => intro _; exact ⟨rfl, rfl⟩
  | cons p ws ih =>
    intro h
    obtain ⟨i1, i2⟩ := ih (fun x hx => h x (List.mem_cons_of_mem _ hx))
    obtain ⟨_, h2, h3⟩ := sects_of_spec p.2 (h p (List.mem_cons_self _ _)).1
    constructor
    · simp only [List.map_cons, tok_args_src, seg_args_src]
      rw [i1, h2]
    · simp only [List.map_cons]
      rw [i2, h3]

theorem seg_redirs_toks : ∀ (rs : List seg_redirect), (∀ r ∈ rs, seg_ok r.file) →
    tok_redirs_src (rs.map (fun r => ⟨r.pre, r.marker, r.post, sects_of r.file⟩)) =
        seg_redirs_src rs ∧
      ∀ m, file_of m ((rs.map (fun r => (⟨r.pre, r.marker, r.post, sects_of r.file⟩ :
          tok_redirect))).map (fun r => ⟨r.pre, r.marker, r.post, sects_val r.file⟩)) =
        seg_file_of m rs := by
  intro rs
  induction rs with
  | nil => intro _; exact ⟨rfl, fun _ => rfl⟩
  | cons r rs ih =>
    intro h
    obtain ⟨i1, i2⟩ := ih (fun x hx => h x (List.mem_cons_of_mem _ hx))
    obtain ⟨_, h2, h3⟩ := sects_of_spec r.file (h r (List.mem_cons_self _ _)).1
    constructor
    · simp only [List.map_cons, tok_redirs_src, seg_redirs_src]
      rw [i1, h2]
    · intro m
      simp only [List.map_cons, file_of, seg_file_of]
      rw [i2 m, h3]

theorem seg_stage_toks {s : seg_stage} (h : s.ok) :
    s.toks.ok ∧ s.toks.src = s.src ∧ s.toks.val = s.val := by
  obtain ⟨a1, a2⟩ := seg_args_toks s.args h.2.1
  obtain ⟨r1, r2⟩ := seg_redirs_toks s.redirs (fun r hr => (h.2.2.1 r hr).2)
  obtain ⟨_, c2, c3⟩ := sects_of_spec s.cmd h.1.1
  refine ⟨⟨seg_tok_ok h.1, ?_, ?_, ?_⟩, ?_, ?_⟩
  · intro p hp
    simp only [seg_stage.toks, List.mem_map] at hp
    obtain ⟨x, hx, rfl⟩ := hp
    exact seg_tok_ok (h.2.1 x hx)
  · intro r hr
    simp only [seg_stage.toks, List.mem_map] at hr
    obtain ⟨x, hx, rfl⟩ := hr
    exact ⟨(h.2.2.1 x hx).1, seg_tok_ok (h.2.2.1 x hx).2⟩
  · have : s.toks.redirs.map tok_redirect.marker = s.redirs.map seg_redirect.marker := by
      simp [seg_stage.toks, Function.comp_def]
    rw [this]
    exact h.2.2.2
  · simp only [tok_stage.src, seg_stage.src, seg_stage.toks]
    rw [a1, r1, c2]
  · simp only [tok_stage.val, seg_stage.val, tok_stage.text, seg_stage.toks]
    rw [a2, r2, r2, c3]

theorem seg_stages_toks : ∀ (ps : List (Nat × Nat × seg_stage)), (∀ p ∈ ps, p.2.2.ok) →
    (∀ q ∈ ps.map (fun p => (p.1, p.2.1, p.2.2.toks)), q.2.2.ok) ∧
      tok_stages_src (ps.map (fun p => (p.1, p.2.1, p.2.2.toks))) = seg_stages_src ps ∧
      ((ps.map (fun p => (p.1, p.2.1, p.2.2.toks))).map (fun p => p.2.2)).map tok_stage.val =
        (ps.map (fun p => p.2.2)).map seg_stage.val := by
  intro ps
  induction ps with
  | nil => intro _; exact ⟨fun q hq => by simp at hq, rfl, rfl⟩
  | cons p ps ih =>
    intro h
    obtain ⟨i1, i2, i3⟩ := ih (fun x hx => h x (List.mem_cons_of_mem _ hx))
    obtain ⟨s1, s2, s3⟩ := seg_stage_toks (h p (List.mem_cons_self _ _))
    refine ⟨?_, ?_, ?_⟩
    · intro q hq
      simp only [List.map_cons, List.mem_cons] at hq
      rcases hq with rfl | hq
      · exact s1
      · exact i1 q hq
    · simp only [List.map_cons, tok_stages_src, seg_stages_src]
      rw [i2, s2]
    · simp only [List.map_cons]
      rw [i3, s3]

/-- C2: a token written as adjacent segments, each a run of plain characters
or a quoted section whose body has neither its quote nor a backslash, is
stored by `parse` as ONE string, the concatenation of the runs and the bodies,
when that is non-empty, wherever the token stands: as the command, as any
other argument or as the filename of a redirect (next to another redirect or
not), in any stage of a pipeline, with any spacing. For every pipeline of
well-formed stages whose tokens are such segments, `parse` returns kParseOK
and the chain holds, stage by stage, one string `segs_val` for each token. -/
theorem parse_segments (lead trail : Nat) (s : seg_stage)
    (ps : List (Nat × Nat × seg_stage)) (hs : s.ok) (hps : ∀ p ∈ ps, p.2.2.ok) :
    parse_line (spaces lead ++ (s.src ++ (seg_stages_src ps ++ spaces trail))) =
      some (kParseOK, (s :: ps.map (fun p => p.2.2)).map seg_stage.val) := by
  obtain ⟨s1, s2, s3⟩ := seg_stage_toks hs
  obtain ⟨p1, p2, p3⟩ := seg_stages_toks ps hps
  have h := parse_line_stages lead trail s.toks (ps.map (fun p => (p.1, p.2.1, p.2.2.toks)))
    s1 p1
  rw [s2, p2, List.map_cons, p3, s3] at h
  exact h

theorem parse_segments_witness :
    (seg_stage.mk [segment.bare "foo".toList]
      [(0, [segment.quoted DQ "foo ".toList, segment.bare "=".toList,
        segment.quoted DQ "  bar".toList])] []).ok ∧
    parse_line (" foo ".toList ++ DQ :: ("foo ".toList ++ DQ :: '=' :: DQ ::
        ("  bar".toList ++ [DQ, ' ']))) =
      some (kParseOK, [⟨[some "foo".toList, some "foo =  bar".toList], none, none⟩]) ∧
    (seg_stage.mk [segment.bare "foo".toList] []
      [⟨1, '>', 0, [segment.bare "bar".toList, segment.quoted DQ "baz ".toList]⟩,
        ⟨1, '<', 1, [segment.quoted DQ "bar ".toList, segment.bare "baz".toList]⟩]).ok ∧
    parse_line ("foo >bar".toList ++ DQ :: ("baz ".toList ++ DQ :: " < ".toList ++
        DQ :: ("bar ".toList ++ DQ :: "baz".toList))) =
      some (kParseOK, [⟨[some "foo".toList], some "bar baz".toList,
        some "barbaz ".toList⟩]) :=
  ⟨by decide,
    parse_segments 1 1
      (seg_stage.mk [segment.bare "foo".toList]
        [(0, [segment.quoted DQ "foo ".toList, segment.bare "=".toList,
          segment.quoted DQ "  bar".toList])] [])
      [] (by decide) (by decide),
    by decide,
    parse_segments 0 0
      (seg_stage.mk [segment.bare "foo".toList] []
        [⟨1, '>', 0, [segment.bare "bar".toList, segment.quoted DQ "baz ".toList]⟩,
          ⟨1, '<', 1, [segment.quoted DQ "bar ".toList, segment.bare "baz".toList]⟩])
      [] (by decide) (by decide)⟩

end SimpleShell
